import Mathlib

/-!
blktap: VHD stream utilities and key checking.

A shallow embedding of parts of `vhd/lib/vhd-util-stream-coalesce.c`,
`vhd/lib/vhd-util-dm-encrypt.c`, `vhd/lib/vhd-util-dm-decrypt.c`,
`vhd/lib/libvhd-stream.c` and `drivers/block-crypto.c`, with theorems about
chain ordering, run coalescing, block copying, key lookup, sector
encryption and the stream backend.

Conventions.  C arrays are lists indexed from 0, a loop is a function that
recurses on an explicit iteration budget (the number of iterations the C
loop can make at most), `int` status codes are `Int` (0 on success, a
negated errno otherwise), and unsigned 32-bit quantities are natural
numbers reduced modulo `2 ^ 32` wherever the C code computes in 32 bits.
A call that does not return is `none`.  Functions of libvhd that the sources
call but do not contain are modelled from the specification and marked so;
the C library `qsort`, the key hash routine and the cipher primitives are
parameters.  C strings are lists of characters, byte buffers are lists of
natural numbers, file positions are integers, and memory allocation is
taken to succeed.
-/

namespace Blktap

/-! ## Constants of `errno.h` and of the VHD format -/

/-- Errno of a failed or short transfer. -/
def EIO : Int := 5

/-- Errno of an invalid argument. -/
def EINVAL : Int := 22

/-- Errno of a write at or beyond the end of a device. -/
def ENOSPC : Int := 28

/-- Errno of a missing or wrong key. -/
def ENOKEY : Int := 126

/-- Footer type of a differencing image (`HD_TYPE_DIFF` of the absent
vhd.h). -/
def HD_TYPE_DIFF : Nat := 4

/-- BAT sentinel (`DD_BLK_UNUSED` of the absent vhd.h): the block was never
allocated.  All bits are set, as the `memset` of vhd-util-dm-decrypt.c line
241 presupposes. -/
def DD_BLK_UNUSED : Nat := 0xFFFFFFFF

/-- A 128-bit image identifier; `uuid_compare` is 0 exactly on equal values. -/
abbrev uuid_t := Nat

/-! ## The image handle -/

/-- The footer fields the utilities read. -/
structure vhd_footer_t where
  type : Nat
  uuid : uuid_t
  curr_size : Nat
  deriving Inhabited

/-- The header fields the utilities read. -/
structure vhd_header_t where
  block_size : Nat
  prt_uuid : uuid_t
  deriving Inhabited

/-- An opened image.  `bat` is the in-memory block allocation table
(`bat.entries` is its length).  `batmap` is `none` when the image has no
batmap (`vhd_has_batmap`), else the bit of each block.  The backing store is
seen through two maps keyed by physical sector offset: `bitmaps off i` is bit
`i` of the sector bitmap stored at sector `off` (what `vhd_read_bitmap`
followed by `vhd_bitmap_test` yields for a block whose BAT entry is `off`),
and `sectors off` is the content of the data sector at offset `off`.
`size` is the length of the backing store in sectors: a read that runs past
it fails.  `end_of_headers` is the first sector after footer copy, header,
BAT and batmap (`vhd_end_of_headers`, in sectors). -/
structure vhd_context_t where
  footer : vhd_footer_t
  header : vhd_header_t
  spb : Nat
  bm_secs : Nat
  bat : List Nat
  batmap : Option (Nat → Bool)
  bitmaps : Nat → Nat → Bool
  sectors : Nat → Nat
  size : Nat
  end_of_headers : Nat
  deriving Inhabited

/-- A raw block device or file reached through a descriptor: its length in
sectors and the content of each sector. -/
structure raw_dev where
  size : Nat
  data : Nat → Nat
  deriving Inhabited

end Blktap

namespace Blktap

namespace StreamCoalesce

/-! ## `vhd_util_stream_sort` (vhd-util-stream-coalesce.c) -/

/-- Exchange of two array slots, `vhd_util_stream_swap`. -/
def vhd_util_stream_swap (vhds : List vhd_context_t) (i j : Nat) : List vhd_context_t :=
  if i = j then vhds
  else (vhds.set i (vhds.getD j default)).set j (vhds.getD i default)

/-- Inner loop of the head search (lines 91-100): starting at `j`, the first
index whose image is differencing and names `cur` as its parent; the index
reached when the budget is used up (`num`) if there is none. -/
def sort_child_scan (vhds : List vhd_context_t) (cur : uuid_t) : Nat → Nat → Nat
  | 0, j => j
  | fuel + 1, j =>
    if (vhds.getD j default).footer.type = HD_TYPE_DIFF ∧
        (vhds.getD j default).header.prt_uuid = cur then j
    else sort_child_scan vhds cur fuel (j + 1)

/-- Outer loop of the head search (lines 85-109).  `head` is -1 until an
image that is nobody's parent has been seen; `none` is the jump to `out`
taken when a second such image is met. -/
def sort_find_head (vhds : List vhd_context_t) (num : Nat) : Nat → Nat → Int → Option Int
  | 0, _, head => some head
  | fuel + 1, i, head =>
    if sort_child_scan vhds (vhds.getD i default).footer.uuid num 0 = num then
      if head ≠ -1 then none
      else sort_find_head vhds num fuel (i + 1) (i : Int)
    else sort_find_head vhds num fuel (i + 1) head

/-- Inner loop of the linking pass (lines 129-138): starting at `j`, the
first index whose footer UUID is `parent`, or `num`. -/
def sort_parent_scan (vhds : List vhd_context_t) (parent : uuid_t) : Nat → Nat → Nat
  | 0, j => j
  | fuel + 1, j =>
    if (vhds.getD j default).footer.uuid = parent then j
    else sort_parent_scan vhds parent fuel (j + 1)

/-- Linking pass (lines 118-144): for `i` from its start value to `num - 2`,
move the parent of slot `i` into slot `i + 1`.  The flag is `false` when the
pass jumps to `out`; the array is returned as it is at that moment. -/
def sort_link (num : Nat) : Nat → Nat → List vhd_context_t → Bool × List vhd_context_t
  | 0, _, vhds => (true, vhds)
  | fuel + 1, i, vhds =>
    if (vhds.getD i default).footer.type ≠ HD_TYPE_DIFF then (false, vhds)
    else
      let j := sort_parent_scan vhds (vhds.getD i default).header.prt_uuid (num - (i + 1)) (i + 1)
      if j = num then (false, vhds)
      else sort_link num fuel (i + 1) (vhd_util_stream_swap vhds (i + 1) j)

/-- Final consistency pass (lines 146-156): every slot names the next one
as its parent. -/
def sort_verify (vhds : List vhd_context_t) : Nat → Nat → Bool
  | 0, _ => true
  | fuel + 1, i =>
    if (vhds.getD i default).header.prt_uuid ≠ (vhds.getD (i + 1) default).footer.uuid then false
    else sort_verify vhds fuel (i + 1)

/-- The function `vhd_util_stream_sort(vhds, num)` with `num` the length of
the array: the returned status and the array as the call leaves it. -/
def vhd_util_stream_sort (vhds : List vhd_context_t) : Int × List vhd_context_t :=
  let num := vhds.length
  match sort_find_head vhds num num 0 (-1) with
  | none => (-EINVAL, vhds)
  | some head =>
    if head = -1 then (-EINVAL, vhds)
    else
      let vhds1 := vhd_util_stream_swap vhds head.toNat 0
      match sort_link num (num - 1) 0 vhds1 with
      | (false, vhds2) => (-EINVAL, vhds2)
      | (true, vhds2) =>
        if sort_verify vhds2 (num - 1) 0 then (0, vhds2) else (-EINVAL, vhds2)

/-- First index at or after `j`, within `fuel` steps, at which `p` holds. -/
def firstFrom (p : Nat → Bool) : Nat → Nat → Nat
  | 0, j => j
  | fuel + 1, j => if p j then j else firstFrom p fuel (j + 1)

/-- An image is a head of the input when no differencing image of the input
names its footer UUID as parent UUID. -/
def is_head (vhds : List vhd_context_t) (v : vhd_context_t) : Bool :=
  vhds.all (fun w => !(decide (w.footer.type = HD_TYPE_DIFF) &&
    decide (w.header.prt_uuid = v.footer.uuid)))

/-- A chain listed head first: every image but the last is differencing and
names the footer UUID of the next image as its parent UUID, and the last
image (the root) is not differencing.  The empty list is not a chain. -/
def is_chain : List vhd_context_t → Bool
  | [] => false
  | [r] => decide (r.footer.type ≠ HD_TYPE_DIFF)
  | a :: b :: rest =>
    decide (a.footer.type = HD_TYPE_DIFF) && decide (a.header.prt_uuid = b.footer.uuid) &&
      is_chain (b :: rest)

/-! ### A three-image chain used as running example -/

/-- An image with the given footer type, footer UUID and parent UUID. -/
def mk_image (type uuid prt : Nat) : vhd_context_t :=
  { (default : vhd_context_t) with footer := ⟨type, uuid, 0⟩, header := ⟨0, prt⟩ }

/-- Root image X (dynamic). -/
def img_X : vhd_context_t := mk_image 3 10 0

/-- Image Y, child of X. -/
def img_Y : vhd_context_t := mk_image 4 20 10

/-- Image Z, child of Y: the head of the chain. -/
def img_Z : vhd_context_t := mk_image 4 30 20

/-- A differencing image whose parent is none of X, Y, Z. -/
def img_W : vhd_context_t := mk_image 4 40 99

end StreamCoalesce

end Blktap

namespace Blktap

/-! ## The block store primitives of libvhd used by the utilities

`libvhd.c` is not among the sources.  Reads follow the stream backend of
`libvhd-stream.c` (a read that runs past the end of the stream fails with
- EIO, lines 75-84); the write path, the read-back path and `vhd_end_of_data`
are modelled from the specification.  Offsets and lengths are in sectors
throughout (`vhd_sectors_to_bytes` and `>> VHD_SECTOR_SHIFT` cancel), and
memory allocation is taken to succeed. -/

/-- Modelled from the spec: `vhd_pread(ctx, buf, cnt sectors, off sectors)`
of the absent libvhd.c, a positional read handed to the backend.  As in
`vhd_stream_read` a read that runs past the end of the store fails with
- EIO.  The result is the status and the sectors read (`buf k` is sector
`off + k`). -/
def vhd_pread (ctx : vhd_context_t) (off cnt : Nat) : Int × (Nat → Nat) :=
  if off + cnt ≤ ctx.size then (0, fun k => ctx.sectors (off + k))
  else (- EIO, fun _ => 0)

/-- Modelled from the spec: `vhd_read_bitmap(ctx, blk, &map)` of the absent
libvhd.c, which reads the bitmap kept in the first `bm_secs` sectors of the
block's physical region; `map i` is what `vhd_bitmap_test` then returns for
bit `i`. -/
def vhd_read_bitmap (ctx : vhd_context_t) (blk : Nat) : Int × (Nat → Bool) :=
  if ctx.bat.getD blk DD_BLK_UNUSED + ctx.bm_secs ≤ ctx.size then
    (0, ctx.bitmaps (ctx.bat.getD blk DD_BLK_UNUSED))
  else (- EIO, fun _ => false)

/-- Modelled from the spec: the test
`vhd_has_batmap(ctx) && vhd_batmap_test(ctx, &ctx->batmap, blk)` of the
absent libvhd: the image has a batmap and the bit of the block is set. -/
def vhd_batmap_set (ctx : vhd_context_t) (blk : Nat) : Bool :=
  match ctx.batmap with
  | none => false
  | some m => m blk

/-- Modelled from the spec: `vhd_end_of_data` of the absent libvhd.c, in
sectors: the sector immediately after the highest-addressed allocated region,
a BAT entry `e` occupying `e + bm_secs + spb`, and at least the end of the
headers. -/
def vhd_end_of_data (ctx : vhd_context_t) : Nat :=
  ctx.bat.foldl
    (fun m e => if e ≠ DD_BLK_UNUSED then max m (e + ctx.bm_secs + ctx.spb) else m)
    ctx.end_of_headers

/-- Modelled from the spec: allocate-on-write of the absent libvhd.c.  A new
region of `bm_secs + spb` sectors is reserved at end-of-data, its bitmap is
zero-initialised and the offset is recorded in the BAT.  An offset that a BAT
entry cannot hold (the sentinel or above) makes the allocation fail. -/
def vhd_allocate_block (ctx : vhd_context_t) (blk : Nat) : Int × vhd_context_t :=
  let off := vhd_end_of_data ctx
  if DD_BLK_UNUSED ≤ off then (-EINVAL, ctx)
  else
    (0, { ctx with
          bat := ctx.bat.set blk off
          bitmaps := Function.update ctx.bitmaps off (fun _ => false)
          size := max ctx.size (off + ctx.bm_secs + ctx.spb) })

/-- Modelled from the spec: the write of one sector by `vhd_io_write` of the
absent libvhd.c.  The BAT entry of the block is looked up; a sentinel entry
triggers allocate-on-write; the sector is stored in the block's data region,
its bitmap bit is set, and the batmap bit of the block is set when the
block's bitmap has become all ones.  A sector outside the BAT is an error. -/
def vhd_write_sector (ctx : vhd_context_t) (sector val : Nat) : Int × vhd_context_t :=
  let blk := sector / ctx.spb
  let sec := sector % ctx.spb
  if ctx.bat.length ≤ blk then (-EINVAL, ctx)
  else
    let r := if ctx.bat.getD blk DD_BLK_UNUSED = DD_BLK_UNUSED then vhd_allocate_block ctx blk
             else (0, ctx)
    if r.1 ≠ 0 then r
    else
      let off := r.2.bat.getD blk DD_BLK_UNUSED
      let bm := Function.update (r.2.bitmaps off) sec true
      let full := (List.range ctx.spb).all bm
      (0, { r.2 with
            sectors := Function.update r.2.sectors (off + ctx.bm_secs + sec) val
            bitmaps := Function.update r.2.bitmaps off bm
            batmap := if full then r.2.batmap.map (fun m => Function.update m blk true)
                      else r.2.batmap })

/-- Modelled from the spec: `vhd_io_write(ctx, buf, sector, secs)` of the
absent libvhd.c, sector by sector in ascending order, `buf k` going to sector
`sector + k`; the first failing sector ends the call.  The first argument
counts the sectors still to write. -/
def vhd_io_write_from (buf : Nat → Nat) (sector : Nat) :
    Nat → Nat → vhd_context_t → Int × vhd_context_t
  | 0, _, ctx => (0, ctx)
  | n + 1, k, ctx =>
    let r := vhd_write_sector ctx (sector + k) (buf k)
    if r.1 ≠ 0 then r else vhd_io_write_from buf sector n (k + 1) r.2

/-- Modelled from the spec: `vhd_io_write(ctx, buf, sector, secs)`. -/
def vhd_io_write (ctx : vhd_context_t) (buf : Nat → Nat) (sector secs : Nat) :
    Int × vhd_context_t :=
  vhd_io_write_from buf sector secs 0 ctx

/-- Modelled from the spec: what the image itself holds for sector `sec` of
block `blk`, as the read path of the absent libvhd.c finds it: nothing when
the BAT entry is the sentinel or the bitmap bit is clear, else the data
sector at BAT offset + `bm_secs` + `sec`. -/
def vhd_read_sector (ctx : vhd_context_t) (blk sec : Nat) : Option Nat :=
  if ctx.bat.getD blk DD_BLK_UNUSED = DD_BLK_UNUSED then none
  else if ctx.bitmaps (ctx.bat.getD blk DD_BLK_UNUSED) sec then
    some (ctx.sectors (ctx.bat.getD blk DD_BLK_UNUSED + ctx.bm_secs + sec))
  else none

end Blktap

namespace Blktap

/-! ### Invariants of the output image -/

/-- What the coalesce proof keeps true of the output image: allocated block
regions are pairwise disjoint, and a set batmap bit means an allocated block
whose bitmap is all ones. -/
def store_ok (d : vhd_context_t) : Prop :=
  (∀ b b', b < d.bat.length → b' < d.bat.length → b ≠ b' →
    d.bat.getD b DD_BLK_UNUSED ≠ DD_BLK_UNUSED → d.bat.getD b' DD_BLK_UNUSED ≠ DD_BLK_UNUSED →
    d.bat.getD b DD_BLK_UNUSED + d.bm_secs + d.spb ≤ d.bat.getD b' DD_BLK_UNUSED ∨
    d.bat.getD b' DD_BLK_UNUSED + d.bm_secs + d.spb ≤ d.bat.getD b DD_BLK_UNUSED) ∧
  (∀ b, b < d.bat.length → vhd_batmap_set d b = true →
    d.bat.getD b DD_BLK_UNUSED ≠ DD_BLK_UNUSED ∧
    ∀ s, s < d.spb → d.bitmaps (d.bat.getD b DD_BLK_UNUSED) s = true)

/-- The fields a write leaves alone. -/
def same_geometry (d d' : vhd_context_t) : Prop :=
  d'.spb = d.spb ∧ d'.bm_secs = d.bm_secs ∧ d'.bat.length = d.bat.length ∧
  d'.header = d.header ∧ d'.footer = d.footer

end Blktap

namespace Blktap

/-! ## The bitmap scan shared by the three `vhd_util_stream_copy_block`

The three routines (vhd-util-stream-coalesce.c lines 260-281,
vhd-util-dm-encrypt.c lines 143-164, vhd-util-dm-decrypt.c lines 147-173)
run the same loop; they differ in the predicate `copy` and in what is done
with a run to copy. -/

/-- One run visited by the scan: first sector, length, value of `copy`. -/
structure scan_run where
  sec : Nat
  cnt : Nat
  copy : Bool
  deriving DecidableEq, Repr

/-- Outcome of a scan: the status `err`, the state the transfers left, and
the runs visited, in order. -/
structure scan_result (σ : Type) where
  err : Int
  st : σ
  runs : List scan_run

/-- Inner `while`: `cnt` grows while sector `i + cnt` is inside the block
and has the predicate value of sector `i`.  The first argument bounds the
iterations. -/
def run_length (spb : Nat) (copy : Nat → Bool) (i : Nat) : Nat → Nat → Nat
  | 0, cnt => cnt
  | fuel + 1, cnt =>
    if i + cnt < spb ∧ copy i = copy (i + cnt) then run_length spb copy i fuel (cnt + 1)
    else cnt

/-- Outer `while (i < spb)`: measure the run at `i`, hand it to `xfer` when
`copy` holds, leave the loop on a failed transfer (`goto out`), else go on at
`i + cnt`.  `xfer` yields `none` when the transfer does not return.  The
result is `none` when a transfer does not return or when the iteration
budget (first argument) is used up before `i` reaches `spb`. -/
def scan_loop {σ : Type} (spb : Nat) (copy : Nat → Bool)
    (xfer : σ → Nat → Nat → Option (Int × σ)) :
    Nat → Nat → Int → σ → List scan_run → Option (scan_result σ)
  | 0, i, err, st, runs => if i < spb then none else some ⟨err, st, runs⟩
  | fuel + 1, i, err, st, runs =>
    if i < spb then
      let cnt := run_length spb copy i spb 1
      if copy i then
        match xfer st i cnt with
        | none => none
        | some r =>
          if r.1 ≠ 0 then some ⟨r.1, r.2, runs ++ [⟨i, cnt, true⟩]⟩
          else scan_loop spb copy xfer fuel (i + cnt) r.1 r.2 (runs ++ [⟨i, cnt, true⟩])
      else scan_loop spb copy xfer fuel (i + cnt) err st (runs ++ [⟨i, cnt, false⟩])
    else some ⟨err, st, runs⟩

/-- The scan of a whole block: `i = 0`, status `err` on entry, one iteration
per sector at most. -/
def scan_block {σ : Type} (spb : Nat) (copy : Nat → Bool)
    (xfer : σ → Nat → Nat → Option (Int × σ)) (err : Int) (st : σ) :
    Option (scan_result σ) :=
  scan_loop spb copy xfer spb 0 err st []

end Blktap

namespace Blktap

/-! ### What is stated about the runs of a scan -/

/-- The runs lie end to end from sector `i` on and none is empty. -/
def runs_contiguous : Nat → List scan_run → Prop
  | _, [] => True
  | i, r :: rs => r.sec = i ∧ 1 ≤ r.cnt ∧ runs_contiguous (i + r.cnt) rs

/-- Number of sectors the runs span. -/
def runs_span (rs : List scan_run) : Nat := (rs.map (fun r => r.cnt)).sum

/-- Every sector of the run has the predicate value recorded for the run. -/
def run_homogeneous (copy : Nat → Bool) (r : scan_run) : Prop :=
  ∀ s, r.sec ≤ s → s < r.sec + r.cnt → copy s = r.copy

/-- The run cannot be extended to the right: it ends with the block or the
next sector has the other predicate value. -/
def run_maximal (spb : Nat) (copy : Nat → Bool) (r : scan_run) : Prop :=
  r.sec + r.cnt = spb ∨ (r.sec + r.cnt < spb ∧ copy (r.sec + r.cnt) ≠ r.copy)

/-- The transfers of the given runs issued one after the other, each once,
whatever their status; `none` when one of them does not return. -/
def apply_runs {σ : Type} (xfer : σ → Nat → Nat → Option (Int × σ)) :
    List scan_run → σ → Option σ
  | [], st => some st
  | r :: rs, st =>
    match xfer st r.sec r.cnt with
    | none => none
    | some p => apply_runs xfer rs p.2

/-- The transfers of the given runs, issued one after the other from state
`st`, all return status 0 and leave state `st'`. -/
def transfers_ok {σ : Type} (xfer : σ → Nat → Nat → Option (Int × σ)) :
    List scan_run → σ → σ → Prop
  | [], st, st' => st' = st
  | r :: rs, st, st' => ∃ m, xfer st r.sec r.cnt = some (0, m) ∧ transfers_ok xfer rs m st'

/-- The scan visited the whole block: the runs start at sector 0, lie end to
end and span `spb` sectors. -/
def scan_covers (spb : Nat) (rs : List scan_run) : Prop :=
  runs_contiguous 0 rs ∧ runs_span rs = spb

end Blktap

namespace Blktap

/-- The sectors handed to transfers by a scan, in order: those of the
visited runs whose predicate value is true. -/
def transferred (rs : List scan_run) : List Nat :=
  (rs.filter (fun r => r.copy)).flatMap (fun r => List.range' r.sec r.cnt)

end Blktap

namespace Blktap

namespace StreamCoalesce

/-! ## Block copy and coalescing (vhd-util-stream-coalesce.c) -/

/-- The routine `vhd_util_stream_transfer_sectors(src, dst, blk, sec, cnt)`:
`cnt` sectors are read from the source at `bat[blk] + bm_secs + sec`
(computed in 32 bits) and written to sector `blk * dst->spb + sec` of the
destination. -/
def vhd_util_stream_transfer_sectors (src dst : vhd_context_t) (blk sec cnt : Nat) :
    Int × vhd_context_t :=
  let sout := blk * dst.spb + sec
  let off := (src.bat.getD blk DD_BLK_UNUSED + src.bm_secs + sec) % 2 ^ 32
  let r := vhd_pread src off cnt
  if r.1 ≠ 0 then (r.1, dst)
  else vhd_io_write dst r.2 sout cnt

/-- Outcome of a block copy: status, destination, runs visited by the scan. -/
structure copy_result where
  err : Int
  dst : vhd_context_t
  runs : List scan_run

/-- The predicate `copy` of the coalesce scan: the sector is set in the
source bitmap and clear in the destination bitmap read on entry. -/
def copy_pred (sbm dbm : Nat → Bool) (i : Nat) : Bool :=
  sbm i && !dbm i

/-- The routine `vhd_util_stream_copy_block(src, dst, blk)`; `none` stands
for a call that does not return. -/
def vhd_util_stream_copy_block (src dst : vhd_context_t) (blk : Nat) : Option copy_result :=
  if src.header.block_size ≠ dst.header.block_size then some ⟨-EINVAL, dst, []⟩
  else if blk * dst.header.block_size > dst.footer.curr_size then some ⟨-EINVAL, dst, []⟩
  else if blk * src.header.block_size > src.footer.curr_size ∨
      src.bat.getD blk DD_BLK_UNUSED = DD_BLK_UNUSED then some ⟨0, dst, []⟩
  else if vhd_batmap_set dst blk then some ⟨0, dst, []⟩
  else
    let d := if dst.bat.getD blk DD_BLK_UNUSED = DD_BLK_UNUSED then (0, fun _ => false)
             else vhd_read_bitmap dst blk
    if d.1 ≠ 0 then some ⟨d.1, dst, []⟩
    else
      let s := vhd_read_bitmap src blk
      if s.1 ≠ 0 then some ⟨s.1, dst, []⟩
      else
        (scan_block src.spb (copy_pred s.2 d.2)
            (fun st i cnt => some (vhd_util_stream_transfer_sectors src st blk i cnt))
            s.1 dst).map (fun r => ⟨r.err, r.st, r.runs⟩)

/-- The destination bitmap `dbm` that `vhd_util_stream_copy_block` compares
with: all zero when the destination block is not allocated, else the bitmap
of the block as it is on entry. -/
def entry_bitmap (dst : vhd_context_t) (blk : Nat) : Nat → Bool :=
  if dst.bat.getD blk DD_BLK_UNUSED = DD_BLK_UNUSED then fun _ => false
  else dst.bitmaps (dst.bat.getD blk DD_BLK_UNUSED)

/-- The write made by the transfer of the run `(sec, cnt)` of block `blk`:
the `cnt` source sectors found from `bat[blk] + bm_secs + sec` on go to the
destination sectors `blk * spb + sec` and following. -/
def write_run (src : vhd_context_t) (blk : Nat) (st : vhd_context_t) (sec cnt : Nat) :
    Option (Int × vhd_context_t) :=
  some (vhd_io_write st
    (fun k => src.sectors ((src.bat.getD blk DD_BLK_UNUSED + src.bm_secs + sec) % 2 ^ 32 + k))
    (blk * st.spb + sec) cnt)

/-- The macro `p2v_entry(physical, virtual)`. -/
def p2v_entry (physical virtual : Nat) : Nat := (physical <<< 32) ||| virtual

/-- The macro `p2v_physical(entry)`. -/
def p2v_physical (entry : Nat) : Nat := (entry >>> 32) % 2 ^ 32

/-- The macro `p2v_virtual(entry)`. -/
def p2v_virtual (entry : Nat) : Nat := (entry &&& (2 ^ 32 - 1)) % 2 ^ 32

/-- The comparator `p2v_compare`. -/
def p2v_compare (p1 p2 : Nat) : Int :=
  if p2v_physical p1 = p2v_physical p2 then 0
  else if p2v_physical p1 < p2v_physical p2 then -1 else 1

/-- The progress counters `struct vhd_stream_stats`. -/
structure vhd_stream_stats where
  display : Bool
  total : Nat
  cur : Nat
  deriving Inhabited, DecidableEq

/-- State of `vhd_util_stream_coalesce_one`: status, destination, counters,
and the blocks handed to `vhd_util_stream_copy_block` so far, in order. -/
structure coalesce_state where
  err : Int
  dst : vhd_context_t
  stats : vhd_stream_stats
  blocks : List Nat

/-- The table filled by the first loop of `vhd_util_stream_coalesce_one`
(lines 318-319): entry `i` is `p2v_entry(bat[i], i)`. -/
def p2v_table (bat : List Nat) : List Nat :=
  (List.range bat.length).map (fun i => p2v_entry (bat.getD i DD_BLK_UNUSED) i)

/-- Second loop of `vhd_util_stream_coalesce_one` (lines 323-335) over the
sorted table: every entry whose physical part is not the sentinel has its
block copied; the first failing copy ends the loop. -/
def coalesce_blocks (src : vhd_context_t) :
    List Nat → coalesce_state → Option coalesce_state
  | [], st => some st
  | e :: rest, st =>
    if p2v_physical e ≠ DD_BLK_UNUSED then
      match vhd_util_stream_copy_block src st.dst (p2v_virtual e) with
      | none => none
      | some r =>
        if r.err ≠ 0 then
          some ⟨r.err, r.dst, { st.stats with cur := st.stats.cur + 1 },
            st.blocks ++ [p2v_virtual e]⟩
        else
          coalesce_blocks src rest ⟨r.err, r.dst, { st.stats with cur := st.stats.cur + 1 },
            st.blocks ++ [p2v_virtual e]⟩
    else coalesce_blocks src rest st

/-- The routine `vhd_util_stream_coalesce_one(src, dst, stats)`.  `qsort` is
the C library routine, applied with `p2v_compare`; `err0` is the value the
automatic variable `err` happens to hold on entry (it is not initialised, and
it is returned as is when the source has no allocated block). -/
def vhd_util_stream_coalesce_one (qsort : (Nat → Nat → Int) → List Nat → List Nat)
    (err0 : Int) (src dst : vhd_context_t) (stats : vhd_stream_stats) :
    Option coalesce_state :=
  coalesce_blocks src (qsort p2v_compare (p2v_table src.bat)) ⟨err0, dst, stats, []⟩

/-- The counting loop of `__vhd_util_stream_coalesce` (lines 420-426). -/
def count_allocated (vhds : List vhd_context_t) : Nat :=
  (vhds.map (fun src => src.bat.countP (fun e => decide (e ≠ DD_BLK_UNUSED)))).sum

/-- Outcome of `__vhd_util_stream_coalesce`: status, the output image, the
counters, and the footer UUIDs of the images in the order in which they were
handed to `vhd_util_stream_coalesce_one`. -/
structure coalesce_result where
  err : Int
  dst : vhd_context_t
  stats : vhd_stream_stats
  calls : List uuid_t

/-- The replay loop of `__vhd_util_stream_coalesce` (lines 433-438) from
index `i` on: `src = vhds[i]` is coalesced into the output, a failure ends
the loop. -/
def coalesce_loop (qsort : (Nat → Nat → Int) → List Nat → List Nat) (err0 : Nat → Int) :
    List vhd_context_t → Nat → coalesce_result → Option coalesce_result
  | [], _, st => some st
  | src :: rest, i, st =>
    match vhd_util_stream_coalesce_one qsort (err0 i) src st.dst st.stats with
    | none => none
    | some r =>
      if r.err ≠ 0 then some ⟨r.err, r.dst, r.stats, st.calls ++ [src.footer.uuid]⟩
      else coalesce_loop qsort err0 rest (i + 1)
        ⟨r.err, r.dst, r.stats, st.calls ++ [src.footer.uuid]⟩

/-- The routine `__vhd_util_stream_coalesce(vhds, num, output, stats)`.
`opened` is what `vhd_util_stream_open_output` returned: its status and the
output image it created and opened.  `err0 i` is the indeterminate initial
status of the `i`-th call of `vhd_util_stream_coalesce_one`.  The result is
`none` when the call does not return. -/
def __vhd_util_stream_coalesce (qsort : (Nat → Nat → Int) → List Nat → List Nat)
    (err0 : Nat → Int) (vhds : List vhd_context_t) (opened : Int × vhd_context_t)
    (stats : vhd_stream_stats) : Option coalesce_result :=
  if opened.1 ≠ 0 then some ⟨opened.1, opened.2, stats, []⟩
  else
    let stats1 := { stats with total := stats.total + count_allocated vhds }
    let stats2 := if stats1.display then { stats1 with cur := 0 } else stats1
    (coalesce_loop qsort err0 vhds 0 ⟨opened.1, opened.2, stats2, []⟩).map (fun r =>
      if r.err = 0 ∧ r.stats.display then
        { r with stats := { r.stats with cur := r.stats.total } }
      else r)

/-- What a chain of images, listed newest first, holds for sector `sec` of
block `blk`: the content found in the first image of the list that has the
sector allocated, nothing when no image has. -/
def chain_read : List vhd_context_t → Nat → Nat → Option Nat
  | [], _, _ => none
  | m :: rest, blk, sec => (vhd_read_sector m blk sec).or (chain_read rest blk sec)

end StreamCoalesce

end Blktap

namespace Blktap

/-! ## A sorting routine that can stand for `qsort`, and example images -/

/-- Insertion of `x` before the first element it does not follow. -/
def sorted_insert (cmp : Nat → Nat → Int) (x : Nat) : List Nat → List Nat
  | [] => [x]
  | y :: ys => if cmp x y ≤ 0 then x :: y :: ys else y :: sorted_insert cmp x ys

/-- Insertion sort: one routine that meets the contract of `qsort`. -/
def insertion_sort (cmp : Nat → Nat → Int) : List Nat → List Nat
  | [] => []
  | x :: xs => sorted_insert cmp x (insertion_sort cmp xs)

/-- An image of one 8-sector block stored at sector 16 (bitmap in sector 16,
data in sectors 17 to 24): footer type, UUIDs, the sectors written and the
value they hold. -/
def mk_disk (type uuid prt : Nat) (written : Nat → Bool) (val : Nat) : vhd_context_t :=
  { footer := ⟨type, uuid, 4096⟩
    header := ⟨4096, prt⟩
    spb := 8
    bm_secs := 1
    bat := [16]
    batmap := none
    bitmaps := fun off i => decide (off = 16) && written i
    sectors := fun s => if 17 ≤ s ∧ s < 25 then val else 0
    size := 25
    end_of_headers := 16 }

/-- Root R: sectors 0 to 7 hold 1. -/
def disk_R : vhd_context_t := mk_disk 3 1 0 (fun i => decide (i < 8)) 1

/-- Child C of R: sectors 4 to 7 hold 2. -/
def disk_C : vhd_context_t := mk_disk 4 2 1 (fun i => decide (4 ≤ i ∧ i < 8)) 2

/-- A fresh output for the chain [C, R]: one block, nothing allocated. -/
def disk_out : vhd_context_t :=
  { footer := ⟨4, 2, 4096⟩
    header := ⟨4096, 1⟩
    spb := 8
    bm_secs := 1
    bat := [DD_BLK_UNUSED]
    batmap := some (fun _ => false)
    bitmaps := fun _ _ => false
    sectors := fun _ => 0
    size := 16
    end_of_headers := 16 }

/-- An image of two 8-sector blocks stored against index order: block 0 at
sector 40, block 1 at sector 16, all sectors written. -/
def disk_S : vhd_context_t :=
  { footer := ⟨3, 5, 8192⟩
    header := ⟨4096, 0⟩
    spb := 8
    bm_secs := 1
    bat := [40, 16]
    batmap := none
    bitmaps := fun _ _ => true
    sectors := fun s => s
    size := 49
    end_of_headers := 16 }

/-- A raw device of 16 sectors holding zeros. -/
def dev_16 : raw_dev := ⟨16, fun _ => 0⟩

end Blktap

namespace Blktap

namespace DmEncrypt

/-! ## Image to raw device (vhd-util-dm-encrypt.c) -/

/-- The call `pwrite(fd, buf, cnt sectors, sout sectors)` followed by the
test `ret != size`: the status and the device.  A write inside the device
succeeds; one that starts inside and runs past the end is short (`errno`
stays 0, hence - EIO) after storing what fits; one that starts at or after
the end fails with ENOSPC. -/
def pwrite_sectors (fd : raw_dev) (buf : Nat → Nat) (sout cnt : Nat) : Int × raw_dev :=
  if fd.size ≤ sout then (-ENOSPC, fd)
  else
    let stored : Nat → Nat := fun s =>
      if sout ≤ s ∧ s < sout + cnt ∧ s < fd.size then buf (s - sout) else fd.data s
    (if sout + cnt ≤ fd.size then 0 else - EIO, { fd with data := stored })

/-- What a block copy works on: the output device, the flag `allocated`, and
the source reads issued so far (sector offset and sector count, in order). -/
structure copy_state where
  fd : raw_dev
  allocated : Bool
  reads : List (Nat × Nat)

/-- The routine `vhd_util_stream_transfer_sectors(src, fd, blk, sec, cnt)`,
with the assignment `allocated = 1` that follows a successful call. -/
def vhd_util_stream_transfer_sectors (src : vhd_context_t) (st : copy_state)
    (blk sec cnt : Nat) : Int × copy_state :=
  let sout := blk * src.spb + sec
  let off := (src.bat.getD blk DD_BLK_UNUSED + src.bm_secs + sec) % 2 ^ 32
  let r := vhd_pread src off cnt
  if r.1 ≠ 0 then (r.1, { st with reads := st.reads ++ [(off, cnt)] })
  else
    let w := pwrite_sectors st.fd r.2 sout cnt
    if w.1 ≠ 0 then (w.1, { st with fd := w.2, reads := st.reads ++ [(off, cnt)] })
    else (0, ⟨w.2, true, st.reads ++ [(off, cnt)]⟩)

/-- The routine `vhd_util_stream_allocate_block(src, fd, blk)`: one sector
of zeros written at the start of the block. -/
def vhd_util_stream_allocate_block (src : vhd_context_t) (fd : raw_dev) (blk : Nat) :
    Int × raw_dev :=
  pwrite_sectors fd (fun _ => 0) (blk * src.spb) 1

/-- Outcome of a block copy: status, state, runs visited by the scan. -/
structure copy_result where
  err : Int
  st : copy_state
  runs : List scan_run

/-- The routine `vhd_util_stream_copy_block(src, fd, blk)`; `none` stands for
a call that does not return.  `st.allocated` is reset on entry. -/
def vhd_util_stream_copy_block (src : vhd_context_t) (st : copy_state) (blk : Nat) :
    Option copy_result :=
  if src.bat.getD blk DD_BLK_UNUSED = DD_BLK_UNUSED then some ⟨0, st, []⟩
  else
    let b := vhd_read_bitmap src blk
    let st0 : copy_state :=
      ⟨st.fd, false, st.reads ++ [(src.bat.getD blk DD_BLK_UNUSED, src.bm_secs)]⟩
    if b.1 ≠ 0 then some ⟨b.1, st0, []⟩
    else
      match scan_block src.spb b.2
          (fun s i cnt => some (vhd_util_stream_transfer_sectors src s blk i cnt)) b.1 st0 with
      | none => none
      | some r =>
        if r.err ≠ 0 then some ⟨r.err, r.st, r.runs⟩
        else if r.st.allocated then some ⟨r.err, r.st, r.runs⟩
        else
          let a := vhd_util_stream_allocate_block src r.st.fd blk
          some ⟨a.1, { r.st with fd := a.2 }, r.runs⟩

/-- The macro `p2v_entry(physical, virtual)`. -/
def p2v_entry (physical virtual : Nat) : Nat := (physical <<< 32) ||| virtual

/-- The macro `p2v_physical(entry)`. -/
def p2v_physical (entry : Nat) : Nat := (entry >>> 32) % 2 ^ 32

/-- The macro `p2v_virtual(entry)`. -/
def p2v_virtual (entry : Nat) : Nat := (entry &&& (2 ^ 32 - 1)) % 2 ^ 32

/-- The comparator `p2v_compare`. -/
def p2v_compare (p1 p2 : Nat) : Int :=
  if p2v_physical p1 = p2v_physical p2 then 0
  else if p2v_physical p1 < p2v_physical p2 then -1 else 1

/-- The table filled by the first loop of `__vhd_util_dm_encrypt` (lines
217-221): entry `i` is `p2v_entry(bat[i], i)`. -/
def p2v_table (bat : List Nat) : List Nat :=
  (List.range bat.length).map (fun i => p2v_entry (bat.getD i DD_BLK_UNUSED) i)

/-- State of the copy loop of `__vhd_util_dm_encrypt`: status, copy state,
and the blocks handed to `vhd_util_stream_copy_block` so far, in order. -/
structure encrypt_state where
  err : Int
  st : copy_state
  blocks : List Nat

/-- Second loop of `__vhd_util_dm_encrypt` (lines 225-241) over the sorted
table: every entry whose physical part is not the sentinel has its block
copied; the first failing copy ends the loop. -/
def encrypt_blocks (src : vhd_context_t) : List Nat → encrypt_state → Option encrypt_state
  | [], s => some s
  | e :: rest, s =>
    if p2v_physical e ≠ DD_BLK_UNUSED then
      match vhd_util_stream_copy_block src s.st (p2v_virtual e) with
      | none => none
      | some r =>
        if r.err ≠ 0 then some ⟨r.err, r.st, s.blocks ++ [p2v_virtual e]⟩
        else encrypt_blocks src rest ⟨r.err, r.st, s.blocks ++ [p2v_virtual e]⟩
    else encrypt_blocks src rest s

/-- The routine `__vhd_util_dm_encrypt(src, output, progress)`.  `opened` is
what `open(output, ...)` gave: a negated errno, or 0 and the device.  When
the open fails the function jumps to `out` and calls `free(p2v)` on a
pointer that has not been assigned: the behaviour is undefined, `none`.
`qsort` is the C library routine, applied with `p2v_compare`; `err0` is the
value the automatic variable `err` happens to hold when the copy loop starts
(it is not initialised on that path). -/
def __vhd_util_dm_encrypt (qsort : (Nat → Nat → Int) → List Nat → List Nat)
    (err0 : Int) (src : vhd_context_t) (opened : Int × raw_dev) : Option encrypt_state :=
  if opened.1 ≠ 0 then none
  else
    encrypt_blocks src (qsort p2v_compare (p2v_table src.bat))
      ⟨err0, ⟨opened.2, false, []⟩, []⟩

end DmEncrypt

end Blktap

namespace Blktap

namespace DmDecrypt

/-! ## Raw device to new image (vhd-util-dm-decrypt.c) -/

/-- The routine `vhd_util_pread_data(fd, buf, cnt sectors, off sectors)`.
The loop `while (size)` asks `read` for what is still missing; at the end of
the device `read` returns 0, nothing is subtracted from `size` and the loop
does not end: `none`. -/
def vhd_util_pread_data (fd : raw_dev) (off cnt : Nat) : Option (Int × (Nat → Nat)) :=
  if off + cnt ≤ fd.size then some (0, fun k => fd.data (off + k)) else none

/-- The progress counters `struct vhd_decrypt_progress`. -/
structure vhd_decrypt_progress where
  display : Bool
  total : Nat
  cur : Nat
  deriving Inhabited

/-- The context `struct vhd_decrypt_context`. -/
structure vhd_decrypt_context where
  src_raw : raw_dev
  src_vhd : vhd_context_t
  dst_vhd : vhd_context_t
  progress : vhd_decrypt_progress
  deriving Inhabited

/-- Modelled from the spec: `vhd_write_bitmap(dst, blk, bm)` of the absent
libvhd.c, the bitmap stored at the BAT offset of the block. -/
def vhd_write_bitmap (dst : vhd_context_t) (blk : Nat) (bm : Nat → Bool) : vhd_context_t :=
  { dst with bitmaps := Function.update dst.bitmaps (dst.bat.getD blk DD_BLK_UNUSED) bm }

/-- Modelled from the spec: `vhd_write_block(dst, blk, buf)` of the absent
libvhd.c, the `spb` data sectors stored after the bitmap of the block. -/
def vhd_write_block (dst : vhd_context_t) (blk : Nat) (buf : Nat → Nat) : vhd_context_t :=
  let start := dst.bat.getD blk DD_BLK_UNUSED + dst.bm_secs
  let stored : Nat → Nat := fun s =>
    if start ≤ s ∧ s < start + dst.spb then buf (s - start) else dst.sectors s
  { dst with sectors := stored }

/-- A run to copy, inside the scan of `vhd_util_stream_copy_block`: `cnt`
sectors are read from the raw device at sector `off + i` into the block
buffer at sector `i`. -/
def read_run (fd : raw_dev) (off : Nat) (buf : Nat → Nat) (i cnt : Nat) :
    Option (Int × (Nat → Nat)) :=
  (vhd_util_pread_data fd (off + i) cnt).map (fun r =>
    (r.1, fun s => if i ≤ s ∧ s < i + cnt then r.2 (s - i) else buf s))

/-- Outcome of a block copy: status, destination, runs visited by the scan. -/
structure copy_result where
  err : Int
  dst : vhd_context_t
  runs : List scan_run

/-- The routine `vhd_util_stream_copy_block(ctx, blk)`; `none` stands for a
call that does not return. -/
def vhd_util_stream_copy_block (ctx : vhd_decrypt_context) (blk : Nat) : Option copy_result :=
  if ctx.src_vhd.bat.getD blk DD_BLK_UNUSED = DD_BLK_UNUSED then
    if ctx.dst_vhd.bat.getD blk DD_BLK_UNUSED = DD_BLK_UNUSED then some ⟨0, ctx.dst_vhd, []⟩
    else some ⟨- EIO, ctx.dst_vhd, []⟩
  else
    let off := (blk * ctx.src_vhd.header.block_size) >>> 9
    let b := vhd_read_bitmap ctx.src_vhd blk
    if b.1 ≠ 0 then some ⟨b.1, ctx.dst_vhd, []⟩
    else
      match scan_block ctx.src_vhd.spb b.2 (read_run ctx.src_raw off) b.1 (fun _ => 0) with
      | none => none
      | some r =>
        if r.err ≠ 0 then some ⟨r.err, ctx.dst_vhd, r.runs⟩
        else some ⟨0, vhd_write_block (vhd_write_bitmap ctx.dst_vhd blk b.2) blk r.st, r.runs⟩

/-- One step of the BAT packing loop of `__vhd_util_dm_decrypt` (lines
243-268) for index `i`: when the source entry is allocated, the block is
placed at the end of data of the destination, moved up so that its data
region starts on a page boundary (`spp` sectors per page), and the offset is
stored in the 32-bit BAT entry. -/
def pack_step (spp : Nat) (src dst : vhd_context_t) (i : Nat) : vhd_context_t :=
  if src.bat.getD i DD_BLK_UNUSED ≠ DD_BLK_UNUSED then
    let off := vhd_end_of_data dst
    let off1 := if (off + dst.bm_secs) % spp ≠ 0 then off + (spp - (off + dst.bm_secs) % spp)
                else off
    { dst with bat := dst.bat.set i (off1 % 2 ^ 32) }
  else dst

/-- The BAT packing loop from index `i` on; the first argument counts the
indices still to visit. -/
def pack_loop (spp : Nat) (src : vhd_context_t) : Nat → Nat → vhd_context_t → vhd_context_t
  | 0, _, dst => dst
  | n + 1, i, dst => pack_loop spp src n (i + 1) (pack_step spp src dst i)

/-- The BAT packing of `__vhd_util_dm_decrypt` (lines 241-268): the
destination BAT is filled with the sentinel, then the loop runs over the
`src->bat.entries` indices. -/
def pack_bat (spp : Nat) (src dst : vhd_context_t) : vhd_context_t :=
  pack_loop spp src src.bat.length 0
    { dst with bat := List.replicate dst.bat.length DD_BLK_UNUSED }

end DmDecrypt

end Blktap

namespace Blktap

/-! ### What is stated about the order in which blocks are processed -/

/-- The contract of the C library `qsort` for the comparator `cmp`: the
array is rearranged, and it is left ordered by `cmp`.  Nothing is promised
about the order of elements that compare equal. -/
def qsort_contract (qsort : (Nat → Nat → Int) → List Nat → List Nat)
    (cmp : Nat → Nat → Int) : Prop :=
  ∀ l, (qsort cmp l).Perm l ∧ (qsort cmp l).Pairwise (fun a b => cmp a b ≤ 0)

/-- The BAT is an array of unsigned 32-bit entries with a 32-bit entry count. -/
def bat_in_range (bat : List Nat) : Prop :=
  bat.length ≤ 2 ^ 32 ∧ ∀ e ∈ bat, e < 2 ^ 32

/-- The blocks a sorted table makes the copy loop visit, in order: the
virtual parts of the entries whose physical part is not the sentinel. -/
def processing_order (sorted : List Nat) : List Nat :=
  (sorted.filter (fun e => decide (StreamCoalesce.p2v_physical e ≠ DD_BLK_UNUSED))).map
    StreamCoalesce.p2v_virtual

/-- The allocated blocks of a BAT, by ascending index. -/
def allocated_blocks (bat : List Nat) : List Nat :=
  (List.range bat.length).filter (fun i => decide (bat.getD i DD_BLK_UNUSED ≠ DD_BLK_UNUSED))

/-- Image `m` has the block size and the capacity of the output `out`:
the same sectors per block, the same current size, the same number of BAT
entries. -/
def same_shape (m out : vhd_context_t) : Prop :=
  m.spb = out.spb ∧ m.footer.curr_size = out.footer.curr_size ∧ m.bat.length = out.bat.length

/-- The BAT of the image holds 32-bit values and every allocated block ends
within the sector range that 32-bit offsets address. -/
def blocks_in_range (m : vhd_context_t) : Prop :=
  bat_in_range m.bat ∧
  ∀ e ∈ m.bat, e ≠ DD_BLK_UNUSED → e + m.bm_secs + m.spb ≤ 2 ^ 32

end Blktap

namespace Blktap

namespace BlockCrypto

/-! ## Key verification (drivers/block-crypto.c) -/

/-- The record `struct vhd_keyhash`: the cookie says whether the image
declares a key hash; nonce and hash are byte arrays. -/
structure vhd_keyhash where
  cookie : Nat
  nonce : List Nat
  hash : List Nat
  deriving DecidableEq, Inhabited

/-- The routine `check_key(keybuf, keysize, vhdhash)`.  `calculate_keyhash`
stands for `__vhd_util_calculate_keyhash`, which is not among the sources:
given the nonce copied from the stored record, the key buffer and the key
length in bytes it yields a status and the computed hash. -/
def check_key (calculate_keyhash : List Nat → List Nat → Nat → Int × List Nat)
    (keybuf : List Nat) (keysize : Nat) (vhdhash : vhd_keyhash) : Int :=
  let err : Int :=
    if vhdhash.cookie = 0 then 1
    else
      let r := calculate_keyhash vhdhash.nonce keybuf (keysize / 8)
      if r.1 ≠ 0 then r.1
      else if r.2 ≠ vhdhash.hash then 1
      else r.1
  if err ≠ 0 then -ENOKEY else err

end BlockCrypto

end Blktap

namespace Blktap

/-- Errno of a missing file. -/
def ENOENT : Int := 2

/-- Errno of a refused access. -/
def EACCES : Int := 13

namespace BlockCrypto

/-! ## Key store and key files (drivers/block-crypto.c) -/

/-- Size in bytes of a key buffer, `MAX_AES_XTS_PLAIN_KEYSIZE / 8`. -/
def KEY_BYTES : Nat := 1024 / 8

/-- The call `memcpy(dst, src, n)` on byte lists: the first `n` bytes of
`dst` are replaced by the first `n` bytes of `src`. -/
def memcpy (dst src : List Nat) (n : Nat) : List Nat :=
  src.take n ++ dst.drop n

/-- The record `struct keystore_entry` without its list link. -/
structure keystore_entry where
  key : List Nat
  keysize : Nat
  keyhash : vhd_keyhash
  deriving DecidableEq, Inhabited

/-- The routine `keystore_read_entry(keybuf, keysize, keyhash)` on the key
store in iteration order (`list_for_each_entry` starts at the entry added
last): status, key buffer and `*keysize`.  The body of the loop ends in
`goto out`, so only the first entry is looked at, and it is checked against
the key hash stored with it; the argument `keyhash` is not read. -/
def keystore_read_entry
    (calculate_keyhash : List Nat → List Nat → Nat → Int × List Nat)
    (keystore : List keystore_entry) (keybuf : List Nat) (_keyhash : vhd_keyhash) :
    Int × List Nat × Nat :=
  match keystore with
  | [] => (- ENOENT, keybuf, 0)
  | ent :: _ =>
    if check_key calculate_keyhash ent.key ent.keysize ent.keyhash = 0 then
      (0, memcpy keybuf ent.key (ent.keysize / 8), ent.keysize)
    else
      (- EINVAL, keybuf, 0)

/-- The files a key lookup can see.  `stat` and `open_errno` give 0 or the
errno of the failed call; `read_errno` gives 0 or the errno with which
`read` returns -1; `content` holds the bytes of a file. -/
structure keyfs where
  stat : List Char → Int
  open_errno : List Char → Int
  read_errno : List Char → Int
  content : List Char → List Nat

/-- The name built by `snprintf(path, sizeof(path), "%s/%s,aes-xts-plain,%d.key",
keydir, basename, keysize)`: at most 255 characters are kept. -/
def keyfile_path (keydir basename : List Char) (keysize : Nat) : List Char :=
  (keydir ++ "/".toList ++ basename ++ ",aes-xts-plain,".toList ++
    (Nat.repr keysize).toList ++ ".key".toList).take 255

/-- The value of `dirs` after one round of the loop of `find_keyfile`: the
text after the first comma (`sep + 1`), or the null pointer (`none`) when
`strchr(dirs, ',')` finds no comma. -/
def after_comma (dirs : List Char) : Option (List Char) :=
  match dirs.dropWhile (fun x => x ≠ ',') with
  | [] => none
  | _ :: tl => some tl

/-- The loop of `find_keyfile`; `dirs` is `none` for the null pointer.  One
round takes the text before the first comma as `keydir` (`strchr`,
`strncpy`) and continues after the comma.  A directory name of 256
characters or more does not fit `keydir` with its terminator: the behaviour
of the C code is then undefined and the result is `none`.  The result is
the status and `*keyfile` (empty for the null pointer). -/
def find_keyfile_loop (stat : List Char → Int) (basename : List Char) (keysize : Nat) :
    Nat → Option (List Char) → Option (Int × List Char)
  | 0, _ => none
  | fuel + 1, dirs =>
    match dirs with
    | none => some (- ENOENT, [])
    | some [] => some (- ENOENT, [])
    | some (c :: cs) =>
      let keydir := (c :: cs).takeWhile (fun x => x ≠ ',')
      if 256 ≤ keydir.length then none
      else
        let path := keyfile_path keydir basename keysize
        let err := stat path
        if err = 0 then some (0, path)
        else if err ≠ ENOENT then some (- err, [])
        else find_keyfile_loop stat basename keysize fuel (after_comma (c :: cs))

/-- The routine `find_keyfile(keyfile, dirs, basename, keysize)`.  Every
iteration but the last removes at least a comma from `dirs`, so the length
of `dirs` plus one bounds the number of iterations. -/
def find_keyfile (stat : List Char → Int) (dirs : Option (List Char))
    (basename : List Char) (keysize : Nat) : Option (Int × List Char) :=
  find_keyfile_loop stat basename keysize ((dirs.getD []).length + 1) dirs

/-- The directory names `find_keyfile` takes from `dirs`, in the order in
which it tries them: the texts between the commas, without an empty text
after the last comma. -/
def dir_list_loop : Nat → Option (List Char) → List (List Char)
  | 0, _ => []
  | fuel + 1, dirs =>
    match dirs with
    | none => []
    | some [] => []
    | some (c :: cs) =>
      (c :: cs).takeWhile (fun x => x ≠ ',') :: dir_list_loop fuel (after_comma (c :: cs))

/-- The directory names of a comma-separated list. -/
def dir_list (dirs : List Char) : List (List Char) :=
  dir_list_loop (dirs.length + 1) (some dirs)

/-- Every directory name of the list fits the 256-byte array `keydir` with
its terminator. -/
def dirs_fit (dirs : List Char) : Prop :=
  ∀ d ∈ dir_list dirs, d.length < 256

/-- No listed directory holds a key file of either size for the base name:
`stat` reports ENOENT for each candidate name. -/
def no_keyfile (fs : keyfs) (dirs : List Char) (basename : List Char) : Prop :=
  ∀ d ∈ dir_list dirs, ∀ keysize ∈ [512, 256],
    fs.stat (keyfile_path d basename keysize) = ENOENT

/-- The routine `read_keyfile(keydir, basename, keybuf, keysize)`: status and
key buffer.  A short read leaves its bytes in the buffer and gives
-EINVAL. -/
def read_keyfile (fs : keyfs) (keydir : Option (List Char)) (basename : List Char)
    (keybuf : List Nat) (keysize : Nat) : Option (Int × List Nat) :=
  match find_keyfile fs.stat keydir basename keysize with
  | none => none
  | some (err, keyfile) =>
    if err ≠ 0 then some (err, keybuf)
    else if fs.open_errno keyfile ≠ 0 then some (- fs.open_errno keyfile, keybuf)
    else if fs.read_errno keyfile ≠ 0 then some (- fs.read_errno keyfile, keybuf)
    else
      let n := min (keysize / 8) (fs.content keyfile).length
      if n ≠ keysize / 8 then some (- EINVAL, memcpy keybuf (fs.content keyfile) n)
      else some (0, memcpy keybuf (fs.content keyfile) n)

/-- The routine `read_preferred_keyfile(keydir, basename, keybuf, keysize)`:
status, key buffer and `*keysize`.  The loop over `sizes[] = { 512, 256 }`
is written out. -/
def read_preferred_keyfile (fs : keyfs) (keydir : Option (List Char))
    (basename : List Char) (keybuf : List Nat) : Option (Int × List Nat × Nat) :=
  match read_keyfile fs keydir basename keybuf 512 with
  | none => none
  | some (err, keybuf1) =>
    if err = 0 then some (0, keybuf1, 512)
    else
      match read_keyfile fs keydir basename keybuf1 256 with
      | none => none
      | some (err2, keybuf2) =>
        if err2 = 0 then some (0, keybuf2, 256)
        else some (err2, keybuf2, 0)

/-- What the key routines read of an image handle: its file name, the footer
type, the results of `vhd_parent_raw`, `vhd_parent_locator_get` (status and
name) and `vhd_get_keyhash` (status and record), which are functions of
libvhd outside the sources, and the cipher handle `xts_tfm` (the key set on
it, `none` for the null pointer). -/
structure vhd_context_t where
  file : List Char
  footer_type : Nat
  parent_raw : Bool
  parent_locator : Int × List Char
  keyhash : Int × vhd_keyhash
  xts_tfm : Option (List Nat)
  deriving DecidableEq, Inhabited

/-- The process state the key routines depend on: the environment variable
`TAPDISK2_CRYPTO_KEYDIR`, the key files, the global `keystore`, the images
`vhd_open` finds (`none` when it fails), the hash routine, and whether
`xts_aes_setup` yields a handle. -/
structure crypto_env where
  keydir : Option (List Char)
  fs : keyfs
  keystore : List keystore_entry
  vhd_open : List Char → Option vhd_context_t
  calculate_keyhash : List Nat → List Nat → Nat → Int × List Nat
  xts_aes_setup : Bool

/-- The routine `vhd_open_parent(ctx)`: the parent handle, or `none` for the
null pointer. -/
def vhd_open_parent (env : crypto_env) (ctx : vhd_context_t) : Option vhd_context_t :=
  if ctx.footer_type ≠ HD_TYPE_DIFF then none
  else if ctx.parent_raw then none
  else if ctx.parent_locator.1 ≠ 0 then none
  else env.vhd_open ctx.parent_locator.2

/-- The text after the last `/` of a name (`strrchr`), the whole name when
it has none. -/
def strip_path (file : List Char) : List Char :=
  (file.reverse.takeWhile (fun x => x ≠ '/')).reverse

/-- The text before the first occurrence of `.vhd` (`strstr`), the whole
text when there is none. -/
def cut_extension : List Char → List Char
  | [] => []
  | c :: cs =>
    if ".vhd".toList.isPrefixOf (c :: cs) then [] else c :: cut_extension cs

/-- The routine `get_vhd_basename(vhd)`. -/
def get_vhd_basename (vhd : vhd_context_t) : List Char :=
  cut_extension (strip_path vhd.file)

/-- What `chain_find_keyed_vhd` leaves: its status, the key buffer,
`*keysize` and `*out_keyhash`. -/
structure keyed_result where
  err : Int
  key : List Nat
  keysize : Nat
  keyhash : vhd_keyhash
  deriving DecidableEq, Inhabited

/-- The record left by `memset(out_keyhash, 0, sizeof(*out_keyhash))`. -/
def keyhash_zero : vhd_keyhash := { cookie := 0, nonce := [], hash := [] }

/-- How one round of the loop of `chain_find_keyed_vhd` ends: the function
returns, or the walk goes on to the parent with the key buffer and
`*keysize` as they are. -/
inductive visit where
  | stop (r : keyed_result)
  | parent (key : List Nat) (keysize : Nat)
  deriving DecidableEq, Inhabited

/-- The statement `switch (err)` of `chain_find_keyed_vhd` for the image `p`,
on the status, key buffer and key size left by `read_preferred_keyfile`. -/
def key_switch (env : crypto_env) (p : vhd_context_t) (found : Int × List Nat × Nat) :
    visit :=
  if found.1 = 0 then
    if p.keyhash.2.cookie = 0 then
      visit.stop
        { err := - EACCES, key := found.2.1, keysize := found.2.2, keyhash := keyhash_zero }
    else if check_key env.calculate_keyhash found.2.1 found.2.2 p.keyhash.2 ≠ 0 then
      visit.stop
        { err := check_key env.calculate_keyhash found.2.1 found.2.2 p.keyhash.2,
          key := found.2.1, keysize := found.2.2, keyhash := keyhash_zero }
    else
      visit.stop
        { err := check_key env.calculate_keyhash found.2.1 found.2.2 p.keyhash.2,
          key := found.2.1, keysize := found.2.2, keyhash := p.keyhash.2 }
  else if found.1 = - ENOENT then
    if p.keyhash.2.cookie ≠ 0 then
      visit.stop
        { err := - ENOKEY, key := found.2.1, keysize := found.2.2, keyhash := keyhash_zero }
    else visit.parent found.2.1 found.2.2
  else
    visit.stop
      { err := found.1, key := found.2.1, keysize := found.2.2, keyhash := keyhash_zero }

/-- One round of the loop `while (p)` of `chain_find_keyed_vhd` for the image
`p`, up to the test `if (found) goto out`.  `none` says that the key file
lookup was undefined. -/
def chain_visit (env : crypto_env) (p : vhd_context_t) (key : List Nat) (keysize : Nat) :
    Option visit :=
  if p.keyhash.1 ≠ 0 then
    some (visit.stop
      { err := p.keyhash.1, key := key, keysize := keysize, keyhash := keyhash_zero })
  else if p.keyhash.2.cookie ≠ 0 ∧ env.keydir = none then
    some (visit.stop
      { err := - ENOKEY, key := key, keysize := keysize, keyhash := keyhash_zero })
  else
    match env.keydir with
    | none => some (visit.parent key keysize)
    | some dirs =>
      (read_preferred_keyfile env.fs (some dirs) (get_vhd_basename p) key).map
        (key_switch env p)

/-- The loop `while (p)` of `chain_find_keyed_vhd`, started at the image
`p`: after a round that does not return, the parent is opened, and the
function returns 0 when there is none.  The budget bounds the number of
images walked; `none` says that it ran out or that a key file lookup was
undefined. -/
def chain_walk (env : crypto_env) :
    Nat → vhd_context_t → List Nat → Nat → Option keyed_result
  | 0, _, _, _ => none
  | fuel + 1, p, key, keysize =>
    match chain_visit env p key keysize with
    | none => none
    | some (visit.stop r) => some r
    | some (visit.parent key1 keysize1) =>
      match vhd_open_parent env p with
      | none =>
        some { err := 0, key := key1, keysize := keysize1, keyhash := keyhash_zero }
      | some p2 => chain_walk env fuel p2 key1 keysize1

/-- The routine `chain_find_keyed_vhd(vhd, key, keysize, out_keyhash)`, with
a budget for the number of images on the walk. -/
def chain_find_keyed_vhd (env : crypto_env) (fuel : Nat) (vhd : vhd_context_t)
    (key : List Nat) (keysize : Nat) : Option keyed_result :=
  chain_walk env fuel vhd key keysize

/-- The image reached from `vhd` by `k` calls of `vhd_open_parent`, when all
of them yield a handle. -/
def ancestor (env : crypto_env) : Nat → vhd_context_t → Option vhd_context_t
  | 0, vhd => some vhd
  | k + 1, vhd =>
    match vhd_open_parent env vhd with
    | none => none
    | some p => ancestor env k p

/-- The image declares a key hash: `vhd_get_keyhash` succeeds and the cookie
of the record is set. -/
def declares_keyhash (p : vhd_context_t) : Prop :=
  p.keyhash.1 = 0 ∧ p.keyhash.2.cookie ≠ 0

/-- The image declares no key hash: `vhd_get_keyhash` succeeds and the cookie
of the record is clear. -/
def declares_no_keyhash (p : vhd_context_t) : Prop :=
  p.keyhash.1 = 0 ∧ p.keyhash.2.cookie = 0

/-- No key file with the base name of the image exists in the directories of
`TAPDISK2_CRYPTO_KEYDIR`; this holds when the variable is not set. -/
def no_key_for (env : crypto_env) (p : vhd_context_t) : Prop :=
  ∀ dirs, env.keydir = some dirs → no_keyfile env.fs dirs (get_vhd_basename p)

/-- The directory names of `TAPDISK2_CRYPTO_KEYDIR`, when it is set, fit the
array `keydir`. -/
def keydir_fits (env : crypto_env) : Prop :=
  ∀ dirs, env.keydir = some dirs → dirs_fit dirs

/-- The routine `vhd_open_crypto(vhd, name)`: the value the caller receives
and the handle.  The C function ends after `err = 0;` without a `return`
statement, so on that path the value received is not set by the source; it
is the parameter `retval`. -/
def vhd_open_crypto (env : crypto_env) (fuel : Nat) (retval : Int)
    (vhd : vhd_context_t) : Option (Int × vhd_context_t) :=
  if vhd.xts_tfm.isSome then some (0, vhd)
  else
    match chain_find_keyed_vhd env fuel vhd (List.replicate KEY_BYTES 0) 0 with
    | none => none
    | some r =>
      if r.err ≠ 0 then some (r.err, vhd)
      else if r.keyhash.cookie = 0 then some (0, vhd)
      else if ¬ env.xts_aes_setup then some (- EINVAL, vhd)
      else some (retval, { vhd with xts_tfm := some (r.key.take (r.keysize / 8)) })

/-! ## Sector encryption (drivers/block-crypto.c) -/

/-- Size of a sector in bytes. -/
def VHD_SECTOR_SIZE : Nat := 512

/-- The fields of `td_request_t` the cipher routines use: the buffer, the
first sector (`td_sector_t`, unsigned 64-bit) and the sector count (`int`). -/
structure td_request_t where
  buf : List Nat
  sec : Nat
  secs : Int
  deriving DecidableEq, Inhabited

/-- The `sec`-th sector of a buffer. -/
def sector_of (buf : List Nat) (sec : Nat) : List Nat :=
  (buf.drop (sec * VHD_SECTOR_SIZE)).take VHD_SECTOR_SIZE

/-- The buffer after `out` is written at `buf + sec * VHD_SECTOR_SIZE`. -/
def sector_put (buf : List Nat) (sec : Nat) (out : List Nat) : List Nat :=
  buf.take (sec * VHD_SECTOR_SIZE) ++ out ++ buf.drop (sec * VHD_SECTOR_SIZE + out.length)

/-- The loop `for (sec = 0; sec < t->secs; sec++)` shared by
`vhd_crypto_decrypt` and `vhd_crypto_encrypt`, from iteration `sec` on with
`n` iterations left.  `cipher` stands for `xts_aes_plain_decrypt` or
`xts_aes_plain_encrypt`, which are outside the sources: given the handle,
the sector number and the source sector it yields a status and the bytes it
writes to the destination.  The source sector is read from `src`, or from
the buffer itself when `src` is `none`.  The sector number `t->sec + sec` is
computed in 64 bits.  A status other than 0 ends the process (`exit(1)`):
`none`. -/
def crypt_loop (cipher : Option (List Nat) → Nat → List Nat → Int × List Nat)
    (tfm : Option (List Nat)) (first : Nat) (src : Option (List Nat)) :
    Nat → Nat → List Nat → Option (List Nat)
  | 0, _, buf => some buf
  | n + 1, sec, buf =>
    let r := cipher tfm ((first + sec) % 2 ^ 64) (sector_of (src.getD buf) sec)
    if r.1 ≠ 0 then none
    else crypt_loop cipher tfm first src n (sec + 1) (sector_put buf sec r.2)

/-- The routine `vhd_crypto_decrypt(vhd, t)`: the request with its buffer
decrypted in place. -/
def vhd_crypto_decrypt (decrypt : Option (List Nat) → Nat → List Nat → Int × List Nat)
    (vhd : vhd_context_t) (t : td_request_t) : Option td_request_t :=
  (crypt_loop decrypt vhd.xts_tfm t.sec none t.secs.toNat 0 t.buf).map
    (fun b => { t with buf := b })

/-- The routine `vhd_crypto_encrypt(vhd, t, orig_buf)`: the request with the
encryption of `orig_buf` in its buffer. -/
def vhd_crypto_encrypt (encrypt : Option (List Nat) → Nat → List Nat → Int × List Nat)
    (vhd : vhd_context_t) (t : td_request_t) (orig_buf : List Nat) : Option td_request_t :=
  (crypt_loop encrypt vhd.xts_tfm t.sec (some orig_buf) t.secs.toNat 0 t.buf).map
    (fun b => { t with buf := b })

end BlockCrypto

end Blktap

namespace Blktap

/-- Errno of a missing stream. -/
def EBADF : Int := 9

/-- Errno of a seek on a channel that cannot seek. -/
def ESPIPE : Int := 29

/-- The `whence` values of `stdio.h`. -/
def SEEK_SET : Int := 0

/-- Seek relative to the current position. -/
def SEEK_CUR : Int := 1

/-- Seek relative to the end. -/
def SEEK_END : Int := 2

namespace Stream

/-! ## The stream backend (vhd/lib/libvhd-stream.c)

File positions (`off64_t`) are integers; byte counts (`size_t`) are
natural numbers. -/

/-- A C library stream, as far as the backend uses it.  `data` holds the
bytes of the underlying object (for a pipe that is read, all bytes it will
deliver; for a pipe that is written, the bytes written so far) and `off` the
offset of the next transfer.  `seekable` says whether `fseeko` works on it
(a regular file) or fails with ESPIPE (a pipe).  `room` bounds the bytes
the device still transfers before it fails, `errno` is the value of `errno`
a failing call leaves, `error` is the error indicator read by `ferror`, and
`calls` records the size of every `fread` and `fwrite` request made. -/
structure FILE where
  seekable : Bool
  data : List Nat
  off : Nat
  room : Nat
  errno : Int
  error : Bool
  calls : List Nat
  deriving DecidableEq, Inhabited

/-- The call `fread(buf, count, 1, stream) == 1`: whether one item of
`count` bytes was read, the bytes, and the stream.  A request of no bytes
yields no item; a device failure sets the error indicator; at the end of the
data the rest is consumed and no item is read. -/
def fread (f : FILE) (count : Nat) : Bool × List Nat × FILE :=
  let f1 := { f with calls := f.calls ++ [count] }
  if count = 0 then (false, [], f1)
  else if f.room < count then (false, [], { f1 with error := true })
  else if f.data.length < f.off + count then
    (false, f.data.drop f.off, { f1 with off := max f.off f.data.length })
  else
    (true, (f.data.drop f.off).take count,
      { f1 with off := f.off + count, room := f.room - count })

/-- The test `fwrite(buf, count, 1, stream) == 1 && !fflush(stream)`: whether
`count` bytes of `buf` were written, and the stream.  The bytes go to offset
`off`, which for a pipe is the end of the data. -/
def fwrite (f : FILE) (buf : List Nat) (count : Nat) : Bool × FILE :=
  let f1 := { f with calls := f.calls ++ [count] }
  if count = 0 then (false, f1)
  else if f.room < count then (false, { f1 with error := true })
  else
    (true,
      { f1 with
        data := f.data.take f.off ++ List.replicate (f.off - f.data.length) 0 ++
          buf.take count ++ f.data.drop (f.off + count)
        off := f.off + count
        room := f.room - count })

/-- The call `fseeko(stream, off, whence)`: 0, or the errno with which it
returns -1, and the stream. -/
def fseeko (f : FILE) (off : Int) (whence : Int) : Int × FILE :=
  if whence ≠ SEEK_SET ∧ whence ≠ SEEK_CUR ∧ whence ≠ SEEK_END then (EINVAL, f)
  else if ¬ f.seekable then (ESPIPE, f)
  else
    let target : Int :=
      if whence = SEEK_SET then off
      else if whence = SEEK_CUR then f.off + off
      else f.data.length + off
    if target < 0 then (EINVAL, f)
    else (0, { f with off := target.toNat })

/-- The record `struct vhd_stream`: the stream (`none` for the null
pointer), the position, and of the embedded handle whether it is open for
writing: `rw` is the value of `vhd_flag_test(vstream->vhd.oflags,
VHD_OPEN_RDWR)`, a macro and a flag of libvhd.h, which is outside the
sources. -/
structure vhd_stream where
  stream : Option FILE
  pos : Int
  rw : Bool
  deriving DecidableEq, Inhabited

/-- The routine `vhd_stream_position(vstream)`. -/
def vhd_stream_position (vstream : vhd_stream) : Int :=
  match vstream.stream with
  | none => - EBADF
  | some _ => vstream.pos

/-- The status computed after a failed transfer: `ferror`, then
`errno ? -errno : -EIO`, or -EIO when the error indicator is clear. -/
def transfer_error (f : FILE) : Int :=
  if f.error then (if f.errno ≠ 0 then - f.errno else - EIO) else - EIO

/-- The routine `vhd_stream_read(vstream, buf, count)`: status, the bytes
left in `buf`, and the stream record. -/
def vhd_stream_read (vstream : vhd_stream) (count : Nat) : Int × List Nat × vhd_stream :=
  match vstream.stream with
  | none => (- EBADF, [], vstream)
  | some f =>
    let r := fread f count
    if r.1 then (0, r.2.1, { vstream with stream := some r.2.2, pos := vstream.pos + count })
    else (transfer_error r.2.2, r.2.1, { vstream with stream := some r.2.2 })

/-- The routine `vhd_stream_write(vstream, buf, count)`. -/
def vhd_stream_write (vstream : vhd_stream) (buf : List Nat) (count : Nat) :
    Int × vhd_stream :=
  match vstream.stream with
  | none => (- EBADF, vstream)
  | some f =>
    let r := fwrite f buf count
    if r.1 then (0, { vstream with stream := some r.2, pos := vstream.pos + count })
    else (transfer_error r.2, { vstream with stream := some r.2 })

/-- The loop `while (vstream->pos < pos)` of `vhd_stream_seek`, with an
iteration budget: each round transfers at most `sizeof(buf)` = 4096 bytes,
written from the zeroed `buf` when `rw` is set and read otherwise. -/
def seek_loop (rw : Bool) (pos : Int) : Nat → vhd_stream → Option (Int × vhd_stream)
  | 0, vstream => if vstream.pos < pos then none else some (0, vstream)
  | fuel + 1, vstream =>
    if vstream.pos < pos then
      let size : Nat := if 4096 > pos - vstream.pos then (pos - vstream.pos).toNat else 4096
      let r : Int × vhd_stream :=
        if rw then vhd_stream_write vstream (List.replicate 4096 0) size
        else ((vhd_stream_read vstream size).1, (vhd_stream_read vstream size).2.2)
      if r.1 ≠ 0 then some r
      else seek_loop rw pos fuel r.2
    else some (0, vstream)

/-- Lines 159 to 187 of `vhd_stream_seek`, reached with the target `pos`
when `fseeko` has failed with ESPIPE: a negative target is invalid, a target
before the position cannot be reached, and any other target is reached by
transfers.  Every round of the loop advances the position by at least one
byte, so the distance to the target bounds the number of rounds; `none`
would say that the loop did not end within it. -/
def seek_emulate (vstream : vhd_stream) (pos : Int) : Option (Int × vhd_stream) :=
  if pos < 0 then some (- EINVAL, vstream)
  else if pos < vstream.pos then some (- ESPIPE, vstream)
  else
    seek_loop vstream.rw pos (pos - vstream.pos).toNat vstream

/-- The routine `vhd_stream_seek(vstream, off, whence)`: status and stream
record.  When `fseeko` works the position becomes `off`; when it fails with
an errno other than ESPIPE that errno is returned; otherwise the seek is
emulated. -/
def vhd_stream_seek (vstream : vhd_stream) (off : Int) (whence : Int) :
    Option (Int × vhd_stream) :=
  match vstream.stream with
  | none => some (- EBADF, vstream)
  | some f =>
    let r := fseeko f off whence
    if r.1 = 0 then some (0, { vstream with stream := some r.2, pos := off })
    else if r.1 ≠ ESPIPE then some (- r.1, vstream)
    else if whence = SEEK_SET then seek_emulate vstream off
    else if whence = SEEK_CUR then seek_emulate vstream (vstream.pos + off)
    else if whence = SEEK_END then some (- ESPIPE, vstream)
    else some (- EINVAL, vstream)

/-- The routine `vhd_stream_pread(vstream, buf, size, off)`. -/
def vhd_stream_pread (vstream : vhd_stream) (size : Nat) (off : Int) :
    Option (Int × List Nat × vhd_stream) :=
  match vstream.stream with
  | none => some (- EBADF, [], vstream)
  | some _ =>
    match vhd_stream_seek vstream off SEEK_SET with
    | none => none
    | some r =>
      if r.1 ≠ 0 then some (r.1, [], r.2)
      else some (vhd_stream_read r.2 size)

/-- The routine `vhd_stream_pwrite(vstream, buf, size, off)`. -/
def vhd_stream_pwrite (vstream : vhd_stream) (buf : List Nat) (size : Nat) (off : Int) :
    Option (Int × vhd_stream) :=
  match vstream.stream with
  | none => some (- EBADF, vstream)
  | some _ =>
    match vhd_stream_seek vstream off SEEK_SET with
    | none => none
    | some r =>
      if r.1 ≠ 0 then some r
      else some (vhd_stream_write r.2 buf size)

/-- A call of one of the five operations of the backend. -/
inductive stream_op where
  | read (count : Nat)
  | write (buf : List Nat) (count : Nat)
  | seek (off : Int) (whence : Int)
  | pread (size : Nat) (off : Int)
  | pwrite (buf : List Nat) (size : Nat) (off : Int)
  deriving DecidableEq, Inhabited

/-- The status and the stream record after one operation. -/
def stream_step (vstream : vhd_stream) : stream_op → Option (Int × vhd_stream)
  | stream_op.read count =>
    some ((vhd_stream_read vstream count).1, (vhd_stream_read vstream count).2.2)
  | stream_op.write buf count => some (vhd_stream_write vstream buf count)
  | stream_op.seek off whence => vhd_stream_seek vstream off whence
  | stream_op.pread size off =>
    (vhd_stream_pread vstream size off).map (fun r => (r.1, r.2.2))
  | stream_op.pwrite buf size off => vhd_stream_pwrite vstream buf size off

/-- The stream record after a sequence of operations, whatever their
status. -/
def stream_run : vhd_stream → List stream_op → Option vhd_stream
  | vstream, [] => some vstream
  | vstream, op :: ops =>
    match stream_step vstream op with
    | none => none
    | some r => stream_run r.2 ops

/-- A pipe that is written: nothing sent yet. -/
def pipe_out (room : Nat) : FILE :=
  { seekable := false, data := [], off := 0, room := room, errno := 0, error := false,
    calls := [] }

/-- A pipe that is read and delivers `data`. -/
def pipe_in (data : List Nat) : FILE :=
  { seekable := false, data := data, off := 0, room := data.length, errno := 0,
    error := false, calls := [] }

/-- A regular file holding `data`. -/
def regular_file (data : List Nat) : FILE :=
  { seekable := true, data := data, off := 0, room := data.length + 4096, errno := 0,
    error := false, calls := [] }

end Stream

end Blktap

namespace Blktap
namespace BlockCrypto

/-! ### Example keys, key files and images -/

/-- A stand-in for the hash routine in the examples: it succeeds and yields
the key bytes followed by the nonce. -/
def toy_keyhash (nonce key : List Nat) (n : Nat) : Int × List Nat :=
  (0, key.take n ++ nonce)

/-- The key hash record of a key under `toy_keyhash` with nonce 5. -/
def toy_record (key : List Nat) : vhd_keyhash :=
  { cookie := 1, nonce := [5], hash := key ++ [5] }

/-- A 256-bit key. -/
def key_A : List Nat := List.replicate 32 1

/-- Another 256-bit key. -/
def key_B : List Nat := List.replicate 32 2

/-- A 512-bit key. -/
def key_L : List Nat := List.replicate 64 7

/-- A key store entry made of a key and its record. -/
def entry_of (key : List Nat) : keystore_entry :=
  { key := key, keysize := 8 * key.length, keyhash := toy_record key }

/-- A cleared key buffer, as `vhd_open_crypto` passes it. -/
def key_zero : List Nat := List.replicate KEY_BYTES 0

/-- No key file anywhere. -/
def fs_empty : keyfs where
  stat := fun _ => ENOENT
  open_errno := fun _ => 0
  read_errno := fun _ => 0
  content := fun _ => []

/-- The 512-bit key file of `disk` in the directory `/keys`. -/
def fs_disk : keyfs where
  stat := fun p => if p = "/keys/disk,aes-xts-plain,512.key".toList then 0 else ENOENT
  open_errno := fun _ => 0
  read_errno := fun _ => 0
  content := fun _ => key_L

/-- The directory `a` holds a 256-bit key file of `disk`, the directory `b`
a 512-bit one. -/
def fs_ab : keyfs where
  stat := fun p =>
    if p = "a/disk,aes-xts-plain,256.key".toList ∨ p = "b/disk,aes-xts-plain,512.key".toList
    then 0 else ENOENT
  open_errno := fun _ => 0
  read_errno := fun _ => 0
  content := fun p => if p = "b/disk,aes-xts-plain,512.key".toList then key_L else key_A

/-- The directories `a` and `b` hold a 256-bit key file of `disk` each. -/
def fs_small : keyfs where
  stat := fun p =>
    if p = "a/disk,aes-xts-plain,256.key".toList ∨ p = "b/disk,aes-xts-plain,256.key".toList
    then 0 else ENOENT
  open_errno := fun _ => 0
  read_errno := fun _ => 0
  content := fun p => if p = "a/disk,aes-xts-plain,256.key".toList then key_A else key_B

/-- The image `/vm/disk.vhd` without parent, with the given key hash record. -/
def image_disk (keyhash : vhd_keyhash) : vhd_context_t :=
  { file := "/vm/disk.vhd".toList, footer_type := 3, parent_raw := false,
    parent_locator := (0, []), keyhash := (0, keyhash), xts_tfm := none }

/-- A process with the given key directory variable, key files and key
store. -/
def env_of (keydir : Option (List Char)) (fs : keyfs) (keystore : List keystore_entry) :
    crypto_env :=
  { keydir := keydir, fs := fs, keystore := keystore, vhd_open := fun _ => none,
    calculate_keyhash := toy_keyhash, xts_aes_setup := true }

end BlockCrypto
end Blktap

namespace Blktap
namespace BlockCrypto

/-! ### What is assumed of the cipher, and an example cipher -/

/-- The contract of the cipher primitives: for every key set on the handle,
every 64-bit sector number and every 512-byte sector, encryption succeeds
and writes 512 bytes, and decryption of these bytes with the same key and
sector number succeeds and yields the sector. -/
def cipher_inverse
    (encrypt decrypt : Option (List Nat) → Nat → List Nat → Int × List Nat) : Prop :=
  ∀ (k : List Nat) (s : Nat) (x : List Nat), s < 2 ^ 64 → x.length = VHD_SECTOR_SIZE →
    (encrypt (some k) s x).1 = 0 ∧ (encrypt (some k) s x).2.length = VHD_SECTOR_SIZE ∧
    decrypt (some k) s (encrypt (some k) s x).2 = (0, x)

/-- A stand-in for the cipher in the examples: every byte is combined by
exclusive or with a value made from the key and the sector number.  It is
its own inverse. -/
def toy_cipher (tfm : Option (List Nat)) (s : Nat) (x : List Nat) : Int × List Nat :=
  (0, x.map (fun b => b ^^^ (((tfm.getD []).sum + s) % 256)))

/-- The request of the decryption test: one sector of zero bytes at sector
0. -/
def test_request : td_request_t :=
  { buf := List.replicate 512 0, sec := 0, secs := 1 }

/-- A request of two sectors that starts at sector 7, with a buffer of three
sectors. -/
def two_sector_request : td_request_t :=
  { buf := List.replicate 1536 9, sec := 7, secs := 2 }

/-- An image handle with the key A set on its cipher handle. -/
def image_open : vhd_context_t :=
  { image_disk keyhash_zero with xts_tfm := some key_A }

end BlockCrypto
end Blktap

namespace Blktap
namespace Stream

/-! ### What is stated about the stream backend -/

/-- The stream is a channel that cannot seek, if there is a stream at all. -/
def nonseekable (vstream : vhd_stream) : Prop :=
  ∀ f, vstream.stream = some f → f.seekable = false

/-- Whether there is a stream and whether it can seek. -/
def kind (vstream : vhd_stream) : Option Bool :=
  vstream.stream.map (fun f => f.seekable)

/-- The operation asks for a position before the current one: a seek from
the start or a positional transfer to a lower offset, or a relative seek by
a negative distance. -/
def moves_back (vstream : vhd_stream) : stream_op → Prop
  | stream_op.read _ => False
  | stream_op.write _ _ => False
  | stream_op.seek off whence =>
    (whence = SEEK_SET ∧ off < vstream.pos) ∨ (whence = SEEK_CUR ∧ off < 0)
  | stream_op.pread _ off => off < vstream.pos
  | stream_op.pwrite _ _ off => off < vstream.pos

/-- The stream after `n` more bytes went through it in requests of the sizes
`chunks`: zero bytes written at the end of the data when `rw` is set, bytes
read otherwise. -/
def advanced (rw : Bool) (f : FILE) (n : Nat) (chunks : List Nat) : FILE :=
  { f with
    data := if rw then f.data ++ List.replicate n 0 else f.data
    off := f.off + n
    room := f.room - n
    calls := f.calls ++ chunks }

/-- A written pipe that has taken the bytes 1, 2, 3, 4 in one request. -/
def pipe_at_4 : FILE :=
  { pipe_out 8192 with data := [1, 2, 3, 4], off := 4, calls := [4] }

/-- A stream record at position 4 over the pipe that has taken 4 bytes. -/
def stream_at_4 : vhd_stream :=
  { stream := some pipe_at_4, pos := 4, rw := true }

/-- A read pipe that delivers 6000 bytes of value 7. -/
def stream_in : vhd_stream :=
  { stream := some (pipe_in (List.replicate 6000 7)), pos := 0, rw := false }

/-- A stream record at position 0 over a regular file of 9 bytes that is
read. -/
def stream_on_file : vhd_stream :=
  { stream := some (regular_file [1, 2, 3, 4, 5, 6, 7, 8, 9]), pos := 0,
    rw := false }

end Stream
end Blktap

namespace Blktap

/-- Errno of a file that exists already. -/
def EEXIST : Int := 17

/-- Errno of a missing device. -/
def ENODEV : Int := 19

/-- Errno of an operation that is not permitted. -/
def EPERM : Int := 1

namespace Stream

/-! ## The batmap copy of `vhd_stream_initialize` (vhd/lib/libvhd-stream.c) -/

/-- Modelled from the spec: `vhd_bytes_padded` of libvhd.h, which is outside
the sources: a byte count padded up to a whole 512-byte sector, one sector
at least. -/
def vhd_bytes_padded (bytes : Nat) : Nat :=
  512 * max 1 ((bytes + 511) / 512)

/-- The size in bytes of the batmap that `vhd_stream_initialize` allocates
and copies (lines 498-499): `pad(in->footer.curr_size /
(in->header.block_size * 8))`, where `pad` stands for `vhd_bytes_padded`.
The product is computed in 32 bits and the quotient is an integer
division; `none` stands for the division by 0. -/
def batmap_copy_size (pad : Nat → Nat) (curr_size block_size : Nat) : Option Nat :=
  if (block_size * 8) % 2 ^ 32 = 0 then none
  else some (pad (curr_size / ((block_size * 8) % 2 ^ 32)))

/-- The number of blocks of an image, `ceil(curr_size / block_size)`. -/
def block_count (curr_size block_size : Nat) : Nat :=
  (curr_size + block_size - 1) / block_size

/-- A stream record at position 0 over a read pipe that delivers 8 bytes. -/
def stream_small : vhd_stream :=
  { stream := some (pipe_in [1, 2, 3, 4, 5, 6, 7, 8]), pos := 0, rw := false }

end Stream

namespace DmDecrypt

/-! ## The command `vhd_util_dm_decrypt` (vhd/lib/vhd-util-dm-decrypt.c) -/

/-- What the calls made by `vhd_util_dm_decrypt` meet: the errno of
`open(raw_in)` and of `fopen(vhd_out)` (0 when they succeed), the status of
`vhd_open(vhd_in)`, whether a file exists at the output path
(`access(vhd_out, F_OK)`), whether `vhd_stream_initialize` yields a handle,
the status of `__vhd_util_dm_decrypt`, and the value the automatic variable
`err` of `vhd_util_dm_decrypt_open_output` happens to hold (it is not set
on the paths that reach `vhd_stream_initialize`). -/
structure decrypt_calls where
  raw_open_errno : Int
  vhd_open_err : Int
  out_exists : Bool
  fopen_errno : Int
  init_ok : Bool
  run_err : Int
  err0 : Int
  deriving DecidableEq, Inhabited

/-- The routine `vhd_util_dm_decrypt_open_output(ctx, vhd_out)`: the status,
whether a file exists at the output path afterwards, and whether
`ctx->dst_vhd` is set. -/
def vhd_util_dm_decrypt_open_output (w : decrypt_calls) (vhd_out : List Char) :
    Int × Bool × Bool :=
  if vhd_out = "-".toList then (w.err0, w.out_exists, w.init_ok)
  else if w.out_exists then (- EEXIST, w.out_exists, false)
  else if w.fopen_errno ≠ 0 then (- w.fopen_errno, w.out_exists, false)
  else (w.err0, true, w.init_ok)

/-- The command `vhd_util_dm_decrypt` after its options are parsed, with
`-i`, `-I` and `-o` given: the status and whether a file exists at the
output path when it returns.  At `out` the path is unlinked whenever the
status is not 0 and the path is not `-`. -/
def vhd_util_dm_decrypt (w : decrypt_calls) (vhd_out : List Char) : Int × Bool :=
  let r : Int × Bool :=
    if w.raw_open_errno ≠ 0 then (- w.raw_open_errno, w.out_exists)
    else if w.vhd_open_err ≠ 0 then (w.vhd_open_err, w.out_exists)
    else
      let o := vhd_util_dm_decrypt_open_output w vhd_out
      if o.1 ≠ 0 then (o.1, o.2.1)
      else (w.run_err, o.2.1)
  if r.1 ≠ 0 ∧ vhd_out ≠ "-".toList then (r.1, false) else r

end DmDecrypt

namespace TapdiskImage

/-! ## Request checks (drivers/tapdisk-image.c) -/

/-- Read operation of `xen/io/blkif.h`. -/
def BLKIF_OP_READ : Nat := 0

/-- Write operation of `xen/io/blkif.h`. -/
def BLKIF_OP_WRITE : Nat := 1

/-- A segment of a ring request: first and last sector within a page, both
`uint8_t`. -/
structure blkif_request_segment where
  first_sect : Nat
  last_sect : Nat
  deriving DecidableEq, Inhabited

/-- The fields of `blkif_request_t` the check reads. -/
structure blkif_request_t where
  operation : Nat
  nr_segments : Nat
  sector_number : Nat
  seg : List blkif_request_segment
  deriving DecidableEq, Inhabited

/-- The fields of `td_image_t` the check reads: the size of the disk in
sectors from the driver (`none` when the image has no driver) and whether
the flag `TD_OPEN_RDONLY` is set. -/
structure td_image_t where
  driver : Option Nat
  rdonly : Bool
  deriving DecidableEq, Inhabited

/-- The loop over the segments (lines 153-160), from segment `i` on with `n`
segments left: `nsects` and `total` as the loop leaves them, or `none` for
the jump to `fail`.  `nsects` is an unsigned 64-bit variable: it takes the
`int` value `last_sect - first_sect + 1` modulo 2^64, and `nsects <= 0` holds
only for 0. -/
def check_segments (psize : Nat) (seg : List blkif_request_segment) :
    Nat → Nat → Nat → Nat → Option (Nat × Nat)
  | 0, _, nsects, total => some (nsects, total)
  | n + 1, i, _, total =>
    let nsects : Nat :=
      ((((seg.getD i default).last_sect : Int) - (seg.getD i default).first_sect + 1)
        % 2 ^ 64).toNat
    if (seg.getD i default).last_sect ≥ psize / 512 ∨ nsects = 0 then none
    else check_segments psize seg n (i + 1) nsects ((total + nsects) % 2 ^ 64)

/-- The routine `tapdisk_image_check_ring_request(image, req)`.  `psize` is
what `getpagesize()` returns and `max_segments` is `MAX_SEGMENTS_PER_REQ`,
a constant from outside the sources.  The last test compares
`req->sector_number + nsects`, in 64 bits, with the size of the disk. -/
def tapdisk_image_check_ring_request (psize max_segments : Nat) (image : td_image_t)
    (req : blkif_request_t) : Int :=
  match image.driver with
  | none => - ENODEV
  | some size =>
    if req.operation ≠ BLKIF_OP_READ ∧ req.operation ≠ BLKIF_OP_WRITE then - EINVAL
    else if req.operation = BLKIF_OP_WRITE ∧ image.rdonly then - EPERM
    else if req.nr_segments = 0 ∨ req.nr_segments > max_segments then - EINVAL
    else
      match check_segments psize req.seg req.nr_segments 0 0 0 with
      | none => - EINVAL
      | some (nsects, _) =>
        if (req.sector_number + nsects) % 2 ^ 64 > size then - EINVAL else 0

/-- The number of sectors of a segment. -/
def segment_sectors (s : blkif_request_segment) : Nat :=
  s.last_sect + 1 - s.first_sect

end TapdiskImage

namespace BlockCrypto

/-- An image without parent and without key hash, with the given file
name. -/
def image_named (file : List Char) : vhd_context_t :=
  { file := file, footer_type := 3, parent_raw := false, parent_locator := (0, []),
    keyhash := (0, keyhash_zero), xts_tfm := none }

end BlockCrypto

end Blktap

namespace Blktap
namespace Icbinn

/-! ## The remote backend (vhd/lib/icbinn.c)

The calls `icbinn_pread` and `icbinn_pwrite` belong to a client library
outside the sources: what they return (an `ssize_t`) is given by the
parameters `icbinn_pread fd count off` and `icbinn_pwrite fd buf count off`. -/

/-- The fields of the handle `vhd_context_t` that the remote backend uses:
the descriptor and the offset, an `off64_t`. -/
structure vhd_context_t where
  fd : Int
  offset : Int
  deriving DecidableEq, Inhabited

/-- The conversion of a value to `size_t`, an unsigned 64-bit type. -/
def to_size_t (x : Int) : Nat := (x % 2 ^ 64).toNat

/-- The conversion of a value to `off64_t`, a signed 64-bit type. -/
def to_off64 (x : Int) : Int := (x + 2 ^ 63) % 2 ^ 64 - 2 ^ 63

/-- The routine `vhd_icbinn_devops_position(vhd)`. -/
def vhd_icbinn_devops_position (vhd : vhd_context_t) : Int := vhd.offset

/-- The routine `vhd_icbinn_devops_read(vhd, buf, count)`: status and
handle.  `ret` is a `size_t`, and `vhd->offset += ret` is computed in 64
bits. -/
def vhd_icbinn_devops_read (icbinn_pread : Int → Nat → Int → Int) (vhd : vhd_context_t)
    (count : Nat) : Int × vhd_context_t :=
  let ret := to_size_t (icbinn_pread vhd.fd count vhd.offset)
  let vhd1 := if ret > 0 then { vhd with offset := to_off64 (vhd.offset + ret) } else vhd
  (if ret = count then 0 else - EIO, vhd1)

/-- The routine `vhd_icbinn_devops_pread(vhd, buf, size, off)`. -/
def vhd_icbinn_devops_pread (icbinn_pread : Int → Nat → Int → Int) (vhd : vhd_context_t)
    (size : Nat) (off : Int) : Int × vhd_context_t :=
  let ret := to_size_t (icbinn_pread vhd.fd size off)
  (if ret = size then 0 else - EIO, vhd)

/-- The routine `vhd_icbinn_devops_write(vhd, buf, count)`. -/
def vhd_icbinn_devops_write (icbinn_pwrite : Int → List Nat → Nat → Int → Int)
    (vhd : vhd_context_t) (buf : List Nat) (count : Nat) : Int × vhd_context_t :=
  let ret := to_size_t (icbinn_pwrite vhd.fd buf count vhd.offset)
  let vhd1 := if ret > 0 then { vhd with offset := to_off64 (vhd.offset + ret) } else vhd
  (if ret = count then 0 else - EIO, vhd1)

/-- The routine `vhd_icbinn_devops_pwrite(vhd, buf, size, off)`. -/
def vhd_icbinn_devops_pwrite (icbinn_pwrite : Int → List Nat → Nat → Int → Int)
    (vhd : vhd_context_t) (buf : List Nat) (size : Nat) (off : Int) : Int × vhd_context_t :=
  let ret := to_size_t (icbinn_pwrite vhd.fd buf size off)
  (if ret = size then 0 else - EIO, vhd)

/-- A remote handle at offset 4096. -/
def remote_handle : vhd_context_t := { fd := 3, offset := 4096 }

/-- A remote read that moves every byte asked for. -/
def pread_full : Int → Nat → Int → Int := fun _ count _ => count

/-- A remote read that moves 2 bytes whatever is asked for. -/
def pread_short : Int → Nat → Int → Int := fun _ _ _ => 2

/-- A remote read that fails: the library call returns -1. -/
def pread_failed : Int → Nat → Int → Int := fun _ _ _ => -1

/-- A remote write that moves every byte asked for. -/
def pwrite_full : Int → List Nat → Nat → Int → Int := fun _ _ count _ => count

/-- A remote write that moves 2 bytes whatever is asked for. -/
def pwrite_short : Int → List Nat → Nat → Int → Int := fun _ _ _ _ => 2

/-- A remote write that fails: the library call returns -1. -/
def pwrite_failed : Int → List Nat → Nat → Int → Int := fun _ _ _ _ => -1

end Icbinn

namespace Stream

/-- A stream record over a read pipe that delivers 3 bytes and then ends. -/
def stream_ending : vhd_stream :=
  { stream := some { pipe_in [1, 2, 3] with room := 8 }, pos := 0, rw := false }

/-- A stream record over a read pipe whose device fails with EIO at the
next transfer. -/
def stream_failing : vhd_stream :=
  { stream := some { pipe_in [1, 2, 3, 4] with room := 0, errno := EIO }, pos := 0,
    rw := false }

/-- A stream record over a read pipe whose device fails with ENOSPC at the
next transfer. -/
def stream_failing_nospc : vhd_stream :=
  { stream := some { pipe_in [1, 2, 3, 4] with room := 0, errno := ENOSPC }, pos := 0,
    rw := false }

/-- The stream record over the regular file of 9 bytes after a read of 8
bytes. -/
def stream_on_file_at_8 : vhd_stream := (vhd_stream_read stream_on_file 8).2.2

end Stream
end Blktap

namespace Blktap

/-! ### What is stated about the reads of the source -/

/-- Read `b` comes after read `a` (sector offset and sector count): it
starts at or after the end of `a`, at a strictly higher offset. -/
def read_after (a b : Nat × Nat) : Prop := a.1 + a.2 ≤ b.1 ∧ a.1 < b.1

/-- The reads go forward and end at or before sector `bound`: every read
comes after all the reads before it, none is empty, and each ends at or
before `bound`. -/
def reads_upto (reads : List (Nat × Nat)) (bound : Nat) : Prop :=
  reads.Pairwise read_after ∧ ∀ r ∈ reads, 0 < r.2 ∧ r.1 + r.2 ≤ bound

/-- The allocated BAT entries of the image are pairwise at least
`bm_secs + spb` sectors apart. -/
def blocks_apart (m : vhd_context_t) : Prop :=
  ∀ i j, i < m.bat.length → j < m.bat.length → i ≠ j →
    m.bat.getD i DD_BLK_UNUSED ≠ DD_BLK_UNUSED → m.bat.getD j DD_BLK_UNUSED ≠ DD_BLK_UNUSED →
    m.bat.getD i DD_BLK_UNUSED + m.bm_secs + m.spb ≤ m.bat.getD j DD_BLK_UNUSED ∨
    m.bat.getD j DD_BLK_UNUSED + m.bm_secs + m.spb ≤ m.bat.getD i DD_BLK_UNUSED

/-- An image of two 8-sector blocks, block 0 at sector 16 and block 1 at
sector 2^32 - 5, five sectors before the end of the range of 32-bit sector
offsets; in each block the first and the last sector are written. -/
def disk_wrap : vhd_context_t :=
  { footer := ⟨3, 6, 8192⟩
    header := ⟨4096, 0⟩
    spb := 8
    bm_secs := 1
    bat := [16, 2 ^ 32 - 5]
    batmap := none
    bitmaps := fun _ i => decide (i = 0 ∨ i = 7)
    sectors := fun s => s
    size := 2 ^ 32 + 4
    end_of_headers := 16 }

end Blktap

namespace Blktap
namespace Stream

/-- The record holds a stream that cannot seek and whose device does not
itself fail with ESPIPE. -/
def forward_only (vstream : vhd_stream) : Prop :=
  ∃ f, vstream.stream = some f ∧ f.seekable = false ∧ f.errno ≠ ESPIPE

/-- Modelled from the spec: the reads of a source that is a stream.  Each
read of `cnt` sectors at sector `off` reaches the backend, through
`vhd_pread` of the absent libvhd.c, as `vhd_stream_pread` of `cnt * 512`
bytes at byte `off * 512`; the first read that fails ends the run.  The
result is the last status and the stream record. -/
def replay_reads : vhd_stream → List (Nat × Nat) → Option (Int × vhd_stream)
  | vstream, [] => some (0, vstream)
  | vstream, r :: rest =>
    match vhd_stream_pread vstream (r.2 * 512) ((r.1 * 512 : Nat) : Int) with
    | none => none
    | some p => if p.1 ≠ 0 then some (p.1, p.2.2) else replay_reads p.2.2 rest

end Stream
end Blktap

namespace Blktap
namespace Icbinn

/-! ## `vhd_realpath` (vhd/lib/icbinn.c)

A name is the list of the characters of a C string, before the terminating
NUL. -/

/-- What `vhd_realpath` meets outside the sources: whether `vhd_icbinn_vhd()`
yields a connection (the remote backend is in use), the C library
`realpath` (`none` for a null pointer, as argument and as result),
`icbinn_stat` on a path (`none` when it fails, else whether the path is a
directory), the constant `PATH_MAX`, and whether `malloc` and `realloc` of a
given size succeed. -/
structure realpath_env where
  remote : Bool
  realpath : Option (List Char) → Option (List Char)
  icbinn_stat : List Char → Option Bool
  path_max : Nat
  alloc : Nat → Bool

/-- The step `if (dest > rpath + 1) while ((--dest)[-1] != '/');` taken for
a `..` component: at the root nothing happens; otherwise the last character
is dropped, and then every character up to the last `/` that remains.  The
buffer always starts with `/`. -/
def back_up (rpath : List Char) : List Char :=
  if 1 < rpath.length then (rpath.dropLast.reverse.dropWhile (fun c => c != '/')).reverse
  else rpath

/-- The loop `for (start = end = name; *start; start = end)` with an
iteration budget: `rest` is the part of the name from `start` on, `rpath`
the buffer up to `dest`, and `limit` is `rpath_limit - rpath`.  The result
is the buffer when the loop is left, `some none` on the jump to `error`, and
`none` when the budget is used up. -/
def realpath_loop (env : realpath_env) (resolved : Bool) :
    Nat → List Char → List Char → Nat → Option (Option (List Char))
  | 0, _, _, _ => none
  | fuel + 1, rest, rpath, limit =>
    if rest = [] then some (some rpath)
    else
      let comp := (rest.dropWhile (fun c => c == '/')).takeWhile (fun c => c != '/')
      let e := (rest.dropWhile (fun c => c == '/')).dropWhile (fun c => c != '/')
      if comp = [] then some (some rpath)
      else if comp = ['.'] then realpath_loop env resolved fuel e rpath limit
      else if comp = ['.', '.'] then realpath_loop env resolved fuel e (back_up rpath) limit
      else
        let rpath1 := if rpath.getLast? ≠ some '/' then rpath ++ ['/'] else rpath
        let grow := rpath1.length + comp.length ≥ limit
        let new_size :=
          limit + (if comp.length + 1 > env.path_max then comp.length + 1 else env.path_max)
        if grow ∧ resolved then some none
        else if grow ∧ ¬ env.alloc new_size then some none
        else
          match env.icbinn_stat (rpath1 ++ comp) with
          | none => some none
          | some dir =>
            if ¬ dir ∧ e ≠ [] then some none
            else
              realpath_loop env resolved fuel e (rpath1 ++ comp) (if grow then new_size else limit)

/-- The routine `vhd_realpath(name, resolved)`: the name returned, `some
none` for a null result, and `none` if the loop did not end within one
round per character of the name.  `name` is `none` for a null pointer and
`resolved` says whether a buffer is passed.  Without the remote backend, and
for a null or empty name, the C library routine is called. -/
def vhd_realpath (env : realpath_env) (name : Option (List Char)) (resolved : Bool) :
    Option (Option (List Char)) :=
  match name with
  | none => some (env.realpath none)
  | some n =>
    if ¬ env.remote ∨ n = [] then some (env.realpath name)
    else if ¬ resolved ∧ ¬ env.alloc env.path_max then some none
    else
      match realpath_loop env resolved (n.length + 1) n ['/'] env.path_max with
      | none => none
      | some none => some none
      | some (some rpath) =>
        if 1 < rpath.length ∧ rpath.getLast? = some '/' then some (some rpath.dropLast)
        else some (some rpath)

/-- The components of an absolute name: the parts between the `/` after the
first character. -/
def components (p : List Char) : List (List Char) := (p.drop 1).splitOn '/'

/-- A canonical absolute name: it begins with `/`, has no `.` and no `..`
component, no two `/` in a row, and it ends in `/` only if it is `/`. -/
def canonical_name (p : List Char) : Prop :=
  p.head? = some '/' ∧
  (∀ c ∈ components p, c ≠ ['.'] ∧ c ≠ ['.', '.']) ∧
  ¬ ['/', '/'] <:+: p ∧
  (p.getLast? = some '/' → p = ['/'])

/-- A component of a canonical name: not empty, without `/`, and neither `.`
nor `..`. -/
def good_component (c : List Char) : Prop :=
  c ≠ [] ∧ '/' ∉ c ∧ c ≠ ['.'] ∧ c ≠ ['.', '.']

/-- The name made of the components `comps`, each preceded by `/`. -/
def join_components (comps : List (List Char)) : List Char :=
  comps.flatMap (fun c => '/' :: c)

/-- The buffer holds the components `comps`, with or without a `/` after
the last one; the root is the buffer `/`. -/
def holds_components (rpath : List Char) (comps : List (List Char)) : Prop :=
  (∀ c ∈ comps, good_component c) ∧
  (rpath = join_components comps ++ ['/'] ∨ (comps ≠ [] ∧ rpath = join_components comps))

/-- A remote backend on which every `icbinn_stat` succeeds on a directory,
with `PATH_MAX` 4096 and allocations that succeed. -/
def remote_dirs : realpath_env :=
  { remote := true
    realpath := fun _ => none
    icbinn_stat := fun _ => some true
    path_max := 4096
    alloc := fun _ => true }

end Icbinn
end Blktap

namespace Blktap

/-- An image of one 8-sector block stored at sector 2^32 - 5, five sectors
before the end of the range of 32-bit sector offsets (bitmap in sector
2^32 - 5, data in sectors 2^32 - 4 to 2^32 + 3): the sectors 6 and 7 of the
block are written, and every sector of the file holds its own offset. -/
def disk_edge : vhd_context_t :=
  { footer := ⟨3, 7, 4096⟩
    header := ⟨4096, 0⟩
    spb := 8
    bm_secs := 1
    bat := [2 ^ 32 - 5]
    batmap := none
    bitmaps := fun _ i => decide (i = 6 ∨ i = 7)
    sectors := fun s => s
    size := 2 ^ 32 + 4
    end_of_headers := 16 }

/-- The BAT of an image of 1046531 blocks, all allocated, block `i` stored
at sector `8192 + 4097 * i`. -/
@[irreducible] def full_bat : List Nat :=
  (List.range 1046531).map (fun i => 8192 + 4097 * i)

/-- An image of 1046531 blocks of 2 MiB (4096 sectors of data after one
bitmap sector), all allocated, block `i` stored at sector `8192 + 4097 * i`;
the headers end at sector 8192 and the last block starts at sector
4287641602, below 2^32. -/
def disk_full : vhd_context_t :=
  { footer := ⟨3, 9, 1046531 * 2097152⟩
    header := ⟨2097152, 0⟩
    spb := 4096
    bm_secs := 1
    bat := full_bat
    batmap := none
    bitmaps := fun _ _ => true
    sectors := fun s => s
    size := 8192 + 4097 * 1046531
    end_of_headers := 8192 }

namespace DmDecrypt

/-- The destination `S` after the first `m` blocks of a source whose blocks
are all allocated have been packed into the emptied destination `dst0`, with
8 sectors per page: block `k < m` is at `a0 + k * stride`, the entries from
`m` on are unused, and the end of data is within a page before
`a0 + m * stride`, where the next block goes. -/
def packed_upto (S dst0 : vhd_context_t) (a0 stride m : Nat) : Prop :=
  S.bm_secs = dst0.bm_secs ∧ S.spb = dst0.spb ∧ S.end_of_headers = dst0.end_of_headers ∧
  S.bat.length = dst0.bat.length ∧
  (∀ k, k < m → S.bat.getD k DD_BLK_UNUSED = a0 + k * stride) ∧
  (∀ k, m ≤ k → S.bat.getD k DD_BLK_UNUSED = DD_BLK_UNUSED) ∧
  vhd_end_of_data S ≤ a0 + m * stride ∧ a0 + m * stride < vhd_end_of_data S + 8

end DmDecrypt

end Blktap

namespace Blktap

/-- Errno of a path component that is not a directory. -/
def ENOTDIR : Int := 20

namespace BlockCrypto

/-! ### A chain of two images and key directories that fail -/

/-- The listed key directory is not a directory: `stat` fails with ENOTDIR
for every candidate name. -/
def fs_notdir : keyfs where
  stat := fun _ => ENOTDIR
  open_errno := fun _ => 0
  read_errno := fun _ => 0
  content := fun _ => []

/-- The 512-bit key file of `leaf` in the directory `/keys`, and no other
key file. -/
def fs_leaf : keyfs where
  stat := fun p => if p = "/keys/leaf,aes-xts-plain,512.key".toList then 0 else ENOENT
  open_errno := fun _ => 0
  read_errno := fun _ => 0
  content := fun _ => key_L

/-- The differencing image `/vm/leaf.vhd`, which declares no key hash and
names `/vm/disk.vhd` as its parent. -/
def image_leaf : vhd_context_t :=
  { file := "/vm/leaf.vhd".toList, footer_type := 4, parent_raw := false,
    parent_locator := (0, "/vm/disk.vhd".toList), keyhash := (0, keyhash_zero),
    xts_tfm := none }

/-- A process with the given key directory variable and key files, an empty
key store, and in which `vhd_open` finds the image `/vm/disk.vhd` with the
given key hash record. -/
def env_chain (keydir : Option (List Char)) (fs : keyfs) (keyhash : vhd_keyhash) :
    crypto_env :=
  { keydir := keydir, fs := fs, keystore := [],
    vhd_open := fun n => if n = "/vm/disk.vhd".toList then some (image_disk keyhash) else none,
    calculate_keyhash := toy_keyhash, xts_aes_setup := true }

end BlockCrypto
end Blktap

namespace Blktap
namespace StreamCoalesce

/-! ### Lemmas on the scans of `vhd_util_stream_sort` -/

theorem firstFrom_bounds (p : Nat → Bool) (fuel j : Nat) :
    j ≤ firstFrom p fuel j ∧ firstFrom p fuel j ≤ j + fuel := by
  induction fuel generalizing j with
  | zero => simp [firstFrom]
  | succ n ih =>
    simp only [firstFrom]
    split
    · omega
    · have := ih (j + 1); omega

theorem firstFrom_hit (p : Nat → Bool) (fuel j : Nat)
    (h : firstFrom p fuel j < j + fuel) : p (firstFrom p fuel j) = true := by
  induction fuel generalizing j with
  | zero => simp [firstFrom] at h
  | succ n ih =>
    simp only [firstFrom] at h ⊢
    split
    · assumption
    · rename_i hp
      simp only [hp, if_false] at h
      exact ih (j + 1) (by simp only [Bool.false_eq_true, if_false] at h; omega)

theorem firstFrom_before (p : Nat → Bool) (fuel j k : Nat)
    (hj : j ≤ k) (hk : k < firstFrom p fuel j) : p k = false := by
  induction fuel generalizing j with
  | zero => simp [firstFrom] at hk; omega
  | succ n ih =>
    simp only [firstFrom] at hk
    split at hk
    · omega
    · rename_i hp
      rcases Nat.eq_or_lt_of_le hj with e | l
      · subst e; simpa using hp
      · exact ih (j + 1) l hk

theorem sort_child_scan_eq (vhds : List vhd_context_t) (cur : uuid_t) (fuel j : Nat) :
    sort_child_scan vhds cur fuel j =
      firstFrom (fun k => decide ((vhds.getD k default).footer.type = HD_TYPE_DIFF ∧
        (vhds.getD k default).header.prt_uuid = cur)) fuel j := by
  induction fuel generalizing j with
  | zero => rfl
  | succ n ih => simp only [sort_child_scan, firstFrom, ih, decide_eq_true_eq]

theorem sort_parent_scan_eq (vhds : List vhd_context_t) (parent : uuid_t) (fuel j : Nat) :
    sort_parent_scan vhds parent fuel j =
      firstFrom (fun k => decide ((vhds.getD k default).footer.uuid = parent)) fuel j := by
  induction fuel generalizing j with
  | zero => rfl
  | succ n ih => simp only [sort_parent_scan, firstFrom, ih, decide_eq_true_eq]

theorem firstFrom_eq_end_iff (p : Nat → Bool) (n : Nat) :
    firstFrom p n 0 = n ↔ ∀ k, k < n → p k = false := by
  constructor
  · intro h k hk
    exact firstFrom_before p n 0 k (Nat.zero_le _) (by omega)
  · intro h
    have hb := firstFrom_bounds p n 0
    by_contra hne
    have hlt : firstFrom p n 0 < 0 + n := by omega
    have := firstFrom_hit p n 0 hlt
    rw [h _ (by omega)] at this
    exact Bool.noConfusion this

theorem child_scan_end_iff (vhds : List vhd_context_t) (v : vhd_context_t) :
    sort_child_scan vhds v.footer.uuid vhds.length 0 = vhds.length ↔ is_head vhds v = true := by
  rw [sort_child_scan_eq, firstFrom_eq_end_iff]
  simp only [is_head, List.all_eq_true, Bool.not_eq_true', Bool.and_eq_false_imp,
    decide_eq_true_eq, decide_eq_false_iff_not]
  constructor
  · intro h w hw
    obtain ⟨k, hk, rfl⟩ := List.getElem_of_mem hw
    have := h k hk
    rw [List.getD_eq_getElem _ _ hk] at this
    simpa using this
  · intro h k hk
    rw [List.getD_eq_getElem _ _ hk]
    simpa using h _ (List.getElem_mem hk)

theorem find_head_seen (vhds : List vhd_context_t) (fuel i : Nat) (head : Int)
    (hh : head ≠ -1) (hi : i + fuel = vhds.length) :
    sort_find_head vhds vhds.length fuel i head =
      if (vhds.drop i).countP (is_head vhds) = 0 then some head else none := by
  induction fuel generalizing i with
  | zero =>
    have : vhds.drop i = [] := List.drop_eq_nil_of_le (by omega)
    simp [sort_find_head, this]
  | succ n ih =>
    have hlt : i < vhds.length := by omega
    have hd : vhds.drop i = vhds[i] :: vhds.drop (i + 1) := List.drop_eq_getElem_cons hlt
    simp only [sort_find_head, child_scan_end_iff, List.getD_eq_getElem _ _ hlt, hd,
      List.countP_cons]
    by_cases hv : is_head vhds vhds[i] = true
    · simp [hv, hh]
    · simp only [hv, if_false]
      rw [ih (i + 1) (by omega)]
      simp

theorem find_head_fresh (vhds : List vhd_context_t) (fuel i : Nat)
    (hi : i + fuel = vhds.length) :
    sort_find_head vhds vhds.length fuel i (-1) =
      if (vhds.drop i).countP (is_head vhds) = 0 then some (-1)
      else if (vhds.drop i).countP (is_head vhds) = 1 then
        some ((i + (vhds.drop i).findIdx (is_head vhds) : Nat) : Int)
      else none := by
  induction fuel generalizing i with
  | zero =>
    have : vhds.drop i = [] := List.drop_eq_nil_of_le (by omega)
    simp [sort_find_head, this]
  | succ n ih =>
    have hlt : i < vhds.length := by omega
    have hd : vhds.drop i = vhds[i] :: vhds.drop (i + 1) := List.drop_eq_getElem_cons hlt
    simp only [sort_find_head, child_scan_end_iff, List.getD_eq_getElem _ _ hlt, hd,
      List.countP_cons, List.findIdx_cons]
    by_cases hv : is_head vhds vhds[i] = true
    · simp only [hv, if_true, ne_eq, not_true_eq_false, if_false]
      rw [find_head_seen vhds n (i + 1) i (by omega) (by omega)]
      by_cases hc : List.countP (is_head vhds) (List.drop (i + 1) vhds) = 0
      · simp [hc]
      · simp [hc]
    · simp only [hv, if_false]
      rw [ih (i + 1) (by omega)]
      simp only [Bool.false_eq_true, if_false, Nat.add_zero, cond_false]
      by_cases hc : List.countP (is_head vhds) (List.drop (i + 1) vhds) = 0
      · simp [hc]
      · simp only [hc, if_false]
        by_cases hc1 : List.countP (is_head vhds) (List.drop (i + 1) vhds) = 1
        · simp only [hc1, if_true]
          congr 2
          omega
        · simp [hc1]

theorem swap_length (l : List vhd_context_t) (i j : Nat) :
    (vhd_util_stream_swap l i j).length = l.length := by
  unfold vhd_util_stream_swap
  split <;> simp

theorem swap_getD_other (l : List vhd_context_t) (i j k : Nat) (hi : k ≠ i) (hj : k ≠ j) :
    (vhd_util_stream_swap l i j).getD k default = l.getD k default := by
  unfold vhd_util_stream_swap
  split
  · rfl
  · simp only [List.getD_eq_getElem?_getD]
    rw [List.getElem?_set_ne (Ne.symm hj), List.getElem?_set_ne (Ne.symm hi)]

theorem swap_getD_left (l : List vhd_context_t) (i j : Nat) (hi : i < l.length) :
    (vhd_util_stream_swap l i j).getD i default = l.getD j default := by
  unfold vhd_util_stream_swap
  split
  · rename_i h; rw [h]
  · rename_i h
    simp only [List.getD_eq_getElem?_getD]
    rw [List.getElem?_set_ne (Ne.symm h), List.getElem?_set_self hi]
    simp

theorem swap_getD_right (l : List vhd_context_t) (i j : Nat) (hj : j < l.length) :
    (vhd_util_stream_swap l i j).getD j default = l.getD i default := by
  unfold vhd_util_stream_swap
  split
  · rename_i h; rw [h]
  · rename_i h
    simp only [List.getD_eq_getElem?_getD]
    rw [List.getElem?_set_self (by simpa using hj)]
    simp

theorem set_perm_cons_eraseIdx' {α : Type} (l : List α) (n : Nat) (a : α) (h : n < l.length) :
    (l.set n a).Perm (a :: l.eraseIdx n) := by
  induction l generalizing n with
  | nil => simp at h
  | cons x t ih =>
    cases n with
    | zero => simp
    | succ m =>
      simp only [List.set_cons_succ, List.eraseIdx_cons_succ]
      exact ((ih m (by simpa using h)).cons x).trans (List.Perm.swap a x _)

theorem perm_getElem_cons_eraseIdx {α : Type} (l : List α) (n : Nat) (h : n < l.length) :
    l.Perm (l[n] :: l.eraseIdx n) := by
  induction l generalizing n with
  | nil => simp at h
  | cons x t ih =>
    cases n with
    | zero => simp
    | succ m =>
      simp only [List.getElem_cons_succ, List.eraseIdx_cons_succ]
      exact ((ih m (by simpa using h)).cons x).trans (List.Perm.swap _ x _)

theorem set_set_perm' {α : Type} (l : List α) (i j : Nat) (hi : i < l.length)
    (hj : j < l.length) (hne : i ≠ j) :
    ((l.set i l[j]).set j l[i]).Perm l := by
  induction l generalizing i j with
  | nil => simp at hi
  | cons x t ih =>
    cases i with
    | zero =>
      cases j with
      | zero => exact absurd rfl hne
      | succ j' =>
        simp only [List.set_cons_zero, List.getElem_cons_succ, List.set_cons_succ,
          List.getElem_cons_zero]
        have hj' : j' < t.length := by simpa using hj
        have h1 := set_perm_cons_eraseIdx' t j' x hj'
        have h2 := perm_getElem_cons_eraseIdx t j' hj'
        exact ((h1.cons _).trans (List.Perm.swap _ _ _)).trans (h2.symm.cons x)
    | succ i' =>
      cases j with
      | zero =>
        simp only [List.set_cons_zero, List.getElem_cons_succ, List.set_cons_succ,
          List.getElem_cons_zero]
        have hi' : i' < t.length := by simpa using hi
        have h1 := set_perm_cons_eraseIdx' t i' x hi'
        have h2 := perm_getElem_cons_eraseIdx t i' hi'
        exact ((h1.cons _).trans (List.Perm.swap _ _ _)).trans (h2.symm.cons x)
      | succ j' =>
        simp only [List.set_cons_succ, List.getElem_cons_succ]
        exact (ih i' j' (by simpa using hi) (by simpa using hj) (by omega)).cons x

theorem swap_perm (l : List vhd_context_t) (i j : Nat) (hi : i < l.length)
    (hj : j < l.length) : (vhd_util_stream_swap l i j).Perm l := by
  unfold vhd_util_stream_swap
  split
  · exact List.Perm.refl _
  · rename_i h
    rw [List.getD_eq_getElem _ _ hi, List.getD_eq_getElem _ _ hj]
    exact set_set_perm' l i j hi hj h

theorem sort_link_ok (num fuel i : Nat) (vhds out : List vhd_context_t)
    (h : sort_link num fuel i vhds = (true, out)) :
    out.length = vhds.length ∧
    (∀ k, k ≤ i → out.getD k default = vhds.getD k default) ∧
    (∀ k, i ≤ k → k < i + fuel → (out.getD k default).footer.type = HD_TYPE_DIFF) := by
  induction fuel generalizing i vhds with
  | zero =>
    simp only [sort_link, Prod.mk.injEq, true_and] at h
    subst h
    exact ⟨rfl, fun _ _ => rfl, fun k h1 h2 => by omega⟩
  | succ n ih =>
    simp only [sort_link] at h
    split at h
    · simp at h
    · rename_i hty
      simp only [ne_eq, not_not] at hty
      split at h
      · simp at h
      · obtain ⟨hl, hpre, hd⟩ := ih (i + 1) _ h
        have hb := firstFrom_bounds (fun k => decide ((vhds.getD k default).footer.uuid =
          (vhds.getD i default).header.prt_uuid)) (num - (i + 1)) (i + 1)
        rw [← sort_parent_scan_eq] at hb
        have hpre' : ∀ k, k ≤ i → out.getD k default = vhds.getD k default := by
          intro k hk
          rw [hpre k (by omega)]
          exact swap_getD_other _ _ _ _ (by omega) (by omega)
        refine ⟨by rw [hl, swap_length], hpre', ?_⟩
        intro k h1 h2
        rcases Nat.eq_or_lt_of_le h1 with e | l
        · subst e; rw [hpre' i (Nat.le_refl _)]; exact hty
        · exact hd k l (by omega)

theorem sort_verify_ok (vhds : List vhd_context_t) (fuel i : Nat)
    (h : sort_verify vhds fuel i = true) :
    ∀ k, i ≤ k → k < i + fuel →
      (vhds.getD k default).header.prt_uuid = (vhds.getD (k + 1) default).footer.uuid := by
  induction fuel generalizing i with
  | zero => intro k h1 h2; omega
  | succ n ih =>
    simp only [sort_verify] at h
    split at h
    · simp at h
    · rename_i heq
      simp only [ne_eq, not_not] at heq
      intro k h1 h2
      rcases Nat.eq_or_lt_of_le h1 with e | l
      · subst e; exact heq
      · exact ih (i + 1) h k l (by omega)

theorem sort_ok_inv (vhds : List vhd_context_t)
    (h : (vhd_util_stream_sort vhds).1 = 0) :
    ∃ head out, sort_find_head vhds vhds.length vhds.length 0 (-1) = some head ∧ head ≠ -1 ∧
      sort_link vhds.length (vhds.length - 1) 0 (vhd_util_stream_swap vhds head.toNat 0)
        = (true, out) ∧
      sort_verify out (vhds.length - 1) 0 = true ∧ (vhd_util_stream_sort vhds).2 = out := by
  unfold vhd_util_stream_sort at h ⊢
  simp only at h ⊢
  cases hfh : sort_find_head vhds vhds.length vhds.length 0 (-1) with
  | none => rw [hfh] at h; simp [EINVAL] at h
  | some head =>
    rw [hfh] at h
    simp only at h ⊢
    by_cases hne : head = -1
    · simp [hne, EINVAL] at h
    · simp only [hne, if_false] at h ⊢
      cases hl : sort_link vhds.length (vhds.length - 1) 0
          (vhd_util_stream_swap vhds head.toNat 0) with
      | mk ok out =>
        rw [hl] at h
        cases ok with
        | false => simp [EINVAL] at h
        | true =>
          simp only at h ⊢
          by_cases hv : sort_verify out (vhds.length - 1) 0 = true
          · exact ⟨head, out, rfl, hne, hl, hv, by simp [hl, hv]⟩
          · simp [hv, EINVAL] at h

/-- On success the array left by the sort has the input's length, images of
differencing type in every slot but the last, and each slot's parent UUID
equal to the next slot's footer UUID. -/
theorem sort_ok_spec (vhds : List vhd_context_t)
    (h : (vhd_util_stream_sort vhds).1 = 0) :
    (vhd_util_stream_sort vhds).2.length = vhds.length ∧
    ∀ i, i + 1 < vhds.length →
      ((vhd_util_stream_sort vhds).2.getD i default).footer.type = HD_TYPE_DIFF ∧
      ((vhd_util_stream_sort vhds).2.getD i default).header.prt_uuid =
        ((vhd_util_stream_sort vhds).2.getD (i + 1) default).footer.uuid := by
  obtain ⟨head, out, -, -, hl, hv, he⟩ := sort_ok_inv vhds h
  rw [he]
  obtain ⟨hlen, -, hd⟩ := sort_link_ok _ _ _ _ _ hl
  rw [swap_length] at hlen
  refine ⟨hlen, fun i hi => ⟨hd i (Nat.zero_le _) (by omega), ?_⟩⟩
  exact sort_verify_ok _ _ _ hv i (Nat.zero_le _) (by omega)

theorem is_chain_spec (c : List vhd_context_t) (h : is_chain c = true) :
    0 < c.length ∧
    (∀ i, i + 1 < c.length → (c.getD i default).footer.type = HD_TYPE_DIFF ∧
      (c.getD i default).header.prt_uuid = (c.getD (i + 1) default).footer.uuid) ∧
    (c.getD (c.length - 1) default).footer.type ≠ HD_TYPE_DIFF := by
  induction c with
  | nil => simp [is_chain] at h
  | cons a t ih =>
    cases t with
    | nil =>
      simp only [is_chain, decide_eq_true_eq] at h
      refine ⟨by simp, fun i hi => by simp at hi, by simpa using h⟩
    | cons b rest =>
      simp only [is_chain, Bool.and_eq_true, decide_eq_true_eq] at h
      obtain ⟨⟨h1, h2⟩, h3⟩ := h
      obtain ⟨-, hi2, hi3⟩ := ih h3
      refine ⟨by simp, ?_, ?_⟩
      · intro i hi
        cases i with
        | zero => simpa using ⟨h1, h2⟩
        | succ k =>
          have := hi2 k (by simpa using hi)
          simpa using this
      · simpa using hi3

theorem uuid_inj (c : List vhd_context_t)
    (hnd : (c.map (fun v => v.footer.uuid)).Nodup) (a b : vhd_context_t)
    (ha : a ∈ c) (hb : b ∈ c) (h : a.footer.uuid = b.footer.uuid) : a = b :=
  List.inj_on_of_nodup_map hnd ha hb h

theorem uuid_idx_inj (c : List vhd_context_t)
    (hnd : (c.map (fun v => v.footer.uuid)).Nodup) (i j : Nat) (hi : i < c.length)
    (hj : j < c.length)
    (h : (c.getD i default).footer.uuid = (c.getD j default).footer.uuid) : i = j := by
  rw [List.getD_eq_getElem _ _ hi, List.getD_eq_getElem _ _ hj] at h
  have hi' : i < (c.map (fun v => v.footer.uuid)).length := by simpa using hi
  have hj' : j < (c.map (fun v => v.footer.uuid)).length := by simpa using hj
  have := (@List.Nodup.getElem_inj_iff _ _ hnd i hi' j hj').1 (by simpa using h)
  exact this

theorem is_head_perm (a b : List vhd_context_t) (hp : a.Perm b) : is_head a = is_head b := by
  funext v
  simp only [is_head]
  rw [Bool.eq_iff_iff]
  simp only [List.all_eq_true]
  exact ⟨fun h w hw => h w (hp.mem_iff.2 hw), fun h w hw => h w (hp.mem_iff.1 hw)⟩

theorem is_head_chain (c : List vhd_context_t) (hc : is_chain c = true)
    (hnd : (c.map (fun v => v.footer.uuid)).Nodup) (k : Nat) (hk : k < c.length) :
    is_head c (c.getD k default) = true ↔ k = 0 := by
  obtain ⟨hpos, hlink, hroot⟩ := is_chain_spec c hc
  simp only [is_head, List.all_eq_true, Bool.not_eq_true', Bool.and_eq_false_imp,
    decide_eq_true_eq, decide_eq_false_iff_not]
  constructor
  · intro h
    by_contra hk0
    have hl := hlink (k - 1) (by omega)
    have hk1 : k - 1 + 1 = k := by omega
    rw [hk1] at hl
    have hm : c.getD (k - 1) default ∈ c := by
      rw [List.getD_eq_getElem _ _ (by omega : k - 1 < c.length)]
      exact List.getElem_mem _
    exact h _ hm hl.1 hl.2
  · rintro rfl w hw hty heq
    obtain ⟨m, hm, rfl⟩ := List.getElem_of_mem hw
    rw [← List.getD_eq_getElem _ default hm] at hty heq
    by_cases hlast : m + 1 < c.length
    · have hl := hlink m hlast
      rw [hl.2] at heq
      have := uuid_idx_inj c hnd _ _ hlast hk heq
      omega
    · have : m = c.length - 1 := by omega
      rw [this] at hty
      exact hroot hty

theorem chain_head_count (c : List vhd_context_t) (hc : is_chain c = true)
    (hnd : (c.map (fun v => v.footer.uuid)).Nodup) :
    c.countP (is_head c) = 1 := by
  have hspec := is_head_chain c hc hnd
  cases hcs : c with
  | nil => rw [hcs] at hc; simp [is_chain] at hc
  | cons a t =>
    rw [← hcs]
    have h0 : is_head c a = true := by
      have := (hspec 0 (by rw [hcs]; simp)).2 rfl
      simpa [hcs] using this
    have ht : t.countP (is_head c) = 0 := by
      rw [List.countP_eq_zero]
      intro w hw
      obtain ⟨m, hm, rfl⟩ := List.getElem_of_mem hw
      have hlt : m + 1 < c.length := by rw [hcs]; simpa using hm
      have := hspec (m + 1) hlt
      have hg : c.getD (m + 1) default = t[m] := by
        rw [List.getD_eq_getElem _ _ hlt]; simp [hcs]
      rw [hg] at this
      intro hh
      have := this.1 hh
      omega
    conv => lhs; arg 2; rw [hcs]
    rw [List.countP_cons, ht, h0]
    rfl

theorem find_head_chain (c input : List vhd_context_t) (hc : is_chain c = true)
    (hnd : (c.map (fun v => v.footer.uuid)).Nodup) (hp : input.Perm c) :
    ∃ p, p < input.length ∧ input.getD p default = c.getD 0 default ∧
      sort_find_head input input.length input.length 0 (-1) = some (p : Int) := by
  have hcount : input.countP (is_head input) = 1 := by
    rw [is_head_perm input c hp, hp.countP_eq, chain_head_count c hc hnd]
  have hex : ∃ x ∈ input, is_head input x = true := by
    have : 0 < input.countP (is_head input) := by omega
    exact List.countP_pos_iff.1 this
  have hlt : input.findIdx (is_head input) < input.length := List.findIdx_lt_length_of_exists hex
  have hsat : is_head input (input[input.findIdx (is_head input)]) = true :=
    List.findIdx_getElem (w := hlt)
  refine ⟨input.findIdx (is_head input), hlt, ?_, ?_⟩
  · rw [List.getD_eq_getElem _ _ hlt]
    have hm : input[input.findIdx (is_head input)] ∈ c := hp.mem_iff.1 (List.getElem_mem _)
    generalize input[input.findIdx (is_head input)] = v at hsat hm
    obtain ⟨k, hk, hke⟩ := List.getElem_of_mem hm
    rw [is_head_perm input c hp, ← hke, ← List.getD_eq_getElem _ default hk] at hsat
    have hk0 := (is_head_chain c hc hnd k hk).1 hsat
    rw [← hke, ← List.getD_eq_getElem _ default hk, hk0]
  · rw [find_head_fresh input input.length 0 (by omega)]
    simp [hcount]

theorem sort_link_chain (c : List vhd_context_t) (hc : is_chain c = true)
    (hnd : (c.map (fun v => v.footer.uuid)).Nodup) (fuel i : Nat)
    (vhds : List vhd_context_t) (hp : vhds.Perm c)
    (hpre : ∀ k, k ≤ i → vhds.getD k default = c.getD k default)
    (hi : i + fuel + 1 = c.length) :
    sort_link c.length fuel i vhds = (true, c) := by
  obtain ⟨hpos, hlink, hroot⟩ := is_chain_spec c hc
  have hlen : vhds.length = c.length := hp.length_eq
  induction fuel generalizing i vhds with
  | zero =>
    simp only [sort_link, Prod.mk.injEq, true_and]
    apply List.ext_getElem hlen
    intro k h1 h2
    have := hpre k (by omega)
    rwa [List.getD_eq_getElem _ _ h1, List.getD_eq_getElem _ _ h2] at this
  | succ n ih =>
    have hty : (vhds.getD i default).footer.type = HD_TYPE_DIFF := by
      rw [hpre i (Nat.le_refl _)]; exact (hlink i (by omega)).1
    have hpar : (vhds.getD i default).header.prt_uuid = (c.getD (i + 1) default).footer.uuid := by
      rw [hpre i (Nat.le_refl _)]; exact (hlink i (by omega)).2
    simp only [sort_link, hty, ne_eq, not_true_eq_false, if_false, hpar]
    rw [sort_parent_scan_eq]
    set p : Nat → Bool := fun k => decide ((vhds.getD k default).footer.uuid =
      (c.getD (i + 1) default).footer.uuid) with hpdef
    have hb := firstFrom_bounds p (c.length - (i + 1)) (i + 1)
    -- the parent sits at some slot q after i
    have hmem : c.getD (i + 1) default ∈ vhds := by
      rw [List.getD_eq_getElem _ _ (by omega : i + 1 < c.length)]
      exact hp.mem_iff.2 (List.getElem_mem _)
    obtain ⟨q, hq, hqe⟩ := List.getElem_of_mem hmem
    have hqe' : vhds.getD q default = c.getD (i + 1) default := by
      rw [List.getD_eq_getElem _ _ hq]; exact hqe
    have hqi : i < q := by
      by_contra hle
      have h1 := hpre q (by omega)
      rw [hqe'] at h1
      have := uuid_idx_inj c hnd (i + 1) q (by omega) (by omega) (by rw [h1])
      omega
    have hpq : p q = true := by
      simp only [hpdef, decide_eq_true_eq]; rw [hqe']
    have hjlt : firstFrom p (c.length - (i + 1)) (i + 1) < c.length := by
      by_contra hge
      have := firstFrom_before p (c.length - (i + 1)) (i + 1) q (by omega) (by omega)
      rw [hpq] at this
      exact Bool.noConfusion this
    have hhit := firstFrom_hit p (c.length - (i + 1)) (i + 1) (by omega)
    set j := firstFrom p (c.length - (i + 1)) (i + 1) with hjdef
    have hje : vhds.getD j default = c.getD (i + 1) default := by
      have hu : (vhds.getD j default).footer.uuid = (c.getD (i + 1) default).footer.uuid := by
        simpa only [hpdef, decide_eq_true_eq] using hhit
      apply uuid_inj c hnd _ _ _ _ hu
      · rw [List.getD_eq_getElem _ _ (by omega : j < vhds.length)]
        exact hp.mem_iff.1 (List.getElem_mem _)
      · rw [List.getD_eq_getElem _ _ (by omega : i + 1 < c.length)]
        exact List.getElem_mem _
    have hne : j ≠ c.length := by omega
    simp only [hne, if_false]
    apply ih (i + 1) (vhd_util_stream_swap vhds (i + 1) j)
    · exact (swap_perm vhds (i + 1) j (by omega) (by omega)).trans hp
    · intro k hk
      rcases Nat.eq_or_lt_of_le hk with e | l
      · subst e
        rw [swap_getD_left vhds (i + 1) j (by omega), hje]
      · rw [swap_getD_other vhds (i + 1) j k (by omega) (by omega)]
        exact hpre k (by omega)
    · omega
    · rw [swap_length]; exact hlen

theorem sort_verify_of_linked (vhds : List vhd_context_t) (fuel i : Nat)
    (h : ∀ k, i ≤ k → k < i + fuel →
      (vhds.getD k default).header.prt_uuid = (vhds.getD (k + 1) default).footer.uuid) :
    sort_verify vhds fuel i = true := by
  induction fuel generalizing i with
  | zero => rfl
  | succ n ih =>
    simp only [sort_verify, ne_eq, h i (Nat.le_refl _) (by omega), not_true_eq_false, if_false]
    exact ih (i + 1) (fun k h1 h2 => h k (by omega) (by omega))

theorem sort_chain_eq (c input : List vhd_context_t) (hc : is_chain c = true)
    (hnd : (c.map (fun v => v.footer.uuid)).Nodup) (hp : input.Perm c) :
    vhd_util_stream_sort input = (0, c) := by
  obtain ⟨hpos, hlink, hroot⟩ := is_chain_spec c hc
  obtain ⟨p, hplt, hpe, hfh⟩ := find_head_chain c input hc hnd hp
  have hlen : input.length = c.length := hp.length_eq
  unfold vhd_util_stream_sort
  simp only [hfh]
  have hne : ¬ ((p : Int) = -1) := by omega
  simp only [hne, if_false, Int.toNat_ofNat]
  have hl : sort_link input.length (input.length - 1) 0 (vhd_util_stream_swap input p 0)
      = (true, c) := by
    rw [hlen]
    apply sort_link_chain c hc hnd
    · exact (swap_perm input p 0 hplt (by omega)).trans hp
    · intro k hk
      have : k = 0 := by omega
      subst this
      rw [swap_getD_right input p 0 (by omega), hpe]
    · omega
  rw [hl]
  simp only
  rw [sort_verify_of_linked c (input.length - 1) 0
    (fun k _ h2 => (hlink k (by omega)).2)]
  simp


end StreamCoalesce
end Blktap

namespace Blktap
namespace StreamCoalesce

/-! ### Chain ordering: the claims on `vhd_util_stream_sort` -/

/-- C2: for every chain `c` (head first, root last, every image but the root
differencing and naming the next image as parent, the root not differencing)
with pairwise distinct footer UUIDs, and every permutation `input` of it,
`vhd_util_stream_sort` returns 0 and leaves the array equal to `c`. -/
theorem sort_orders_chain (c input : List vhd_context_t) (hc : is_chain c = true)
    (hnd : (c.map (fun v => v.footer.uuid)).Nodup) (hp : input.Perm c) :
    vhd_util_stream_sort input = (0, c) :=
  sort_chain_eq c input hc hnd hp

/-- C2 witness: X (root), Y (parent X), Z (parent Y) supplied as [Y, X, Z]
come out as [Z, Y, X]. -/
theorem sort_orders_chain_witness :
    is_chain [img_Z, img_Y, img_X] = true ∧
    ([img_Z, img_Y, img_X].map (fun v => v.footer.uuid)).Nodup ∧
    [img_Y, img_X, img_Z].Perm [img_Z, img_Y, img_X] ∧
    vhd_util_stream_sort [img_Y, img_X, img_Z] = (0, [img_Z, img_Y, img_X]) :=
  have hp : [img_Y, img_X, img_Z].Perm [img_Z, img_Y, img_X] :=
    ((List.Perm.swap img_Z img_X []).cons img_Y).trans (List.Perm.swap img_Z img_Y [img_X])
  ⟨by decide, by decide, hp, sort_orders_chain _ _ (by decide) (by decide) hp⟩

/-- C3: when the number of heads of the input (images whose footer UUID is
the parent UUID of no differencing image of the input) is not exactly one,
`vhd_util_stream_sort` returns -EINVAL.  This covers the empty input, an
input without head (a UUID cycle) and an input with several heads. -/
theorem sort_rejects_unless_one_head (vhds : List vhd_context_t)
    (h : vhds.countP (is_head vhds) ≠ 1) :
    (vhd_util_stream_sort vhds).1 = -EINVAL := by
  unfold vhd_util_stream_sort
  simp only
  rw [find_head_fresh vhds vhds.length 0 (by omega)]
  simp only [List.drop_zero, h, if_false]
  by_cases hc : List.countP (is_head vhds) vhds = 0
  · simp [hc]
  · simp [hc]


/-- C3 witness: the chain X, Y, Z with a fourth image whose parent is not in
the set has two heads and is rejected. -/
theorem sort_rejects_unless_one_head_witness :
    [img_X, img_Y, img_Z, img_W].countP (is_head [img_X, img_Y, img_Z, img_W]) ≠ 1 ∧
    (vhd_util_stream_sort [img_X, img_Y, img_Z, img_W]).1 = -EINVAL :=
  ⟨by decide, sort_rejects_unless_one_head _ (by decide)⟩

/-- C4: whenever `vhd_util_stream_sort` returns 0 on an input of `num`
images, for every `i < num - 1` the image left at position `i` is of
differencing type and its parent UUID is the footer UUID of the image left
at position `i + 1`. -/
theorem sort_ok_adjacent_linked (vhds : List vhd_context_t)
    (h : (vhd_util_stream_sort vhds).1 = 0) (i : Nat) (hi : i + 1 < vhds.length) :
    ∃ a b, (vhd_util_stream_sort vhds).2[i]? = some a ∧
      (vhd_util_stream_sort vhds).2[i + 1]? = some b ∧
      a.footer.type = HD_TYPE_DIFF ∧ a.header.prt_uuid = b.footer.uuid := by
  obtain ⟨hlen, hs⟩ := sort_ok_spec vhds h
  have h1 : i < (vhd_util_stream_sort vhds).2.length := by omega
  have h2 : i + 1 < (vhd_util_stream_sort vhds).2.length := by omega
  have := hs i hi
  rw [List.getD_eq_getElem _ _ h1, List.getD_eq_getElem _ _ h2] at this
  exact ⟨_, _, List.getElem?_eq_getElem h1, List.getElem?_eq_getElem h2, this⟩


/-- C4 witness: the pair at positions 0 and 1 after sorting [Y, X, Z]. -/
theorem sort_ok_adjacent_linked_witness :
    (vhd_util_stream_sort [img_Y, img_X, img_Z]).1 = 0 ∧ 0 + 1 < [img_Y, img_X, img_Z].length ∧
    ∃ a b, (vhd_util_stream_sort [img_Y, img_X, img_Z]).2[0]? = some a ∧
      (vhd_util_stream_sort [img_Y, img_X, img_Z]).2[0 + 1]? = some b ∧
      a.footer.type = HD_TYPE_DIFF ∧ a.header.prt_uuid = b.footer.uuid :=
  ⟨by decide, by decide, sort_ok_adjacent_linked _ (by decide) 0 (by decide)⟩

end StreamCoalesce
end Blktap

namespace Blktap

/-! ### End of data -/

/-- The fold computing the end of data, from a running maximum `m`. -/
theorem eod_fold_spec (bm spb : Nat) (l : List Nat) (m : Nat) :
    m ≤ l.foldl (fun m e => if e ≠ DD_BLK_UNUSED then max m (e + bm + spb) else m) m ∧
    (∀ e ∈ l, e ≠ DD_BLK_UNUSED →
      e + bm + spb ≤ l.foldl (fun m e => if e ≠ DD_BLK_UNUSED then max m (e + bm + spb) else m) m) ∧
    (l.foldl (fun m e => if e ≠ DD_BLK_UNUSED then max m (e + bm + spb) else m) m = m ∨
      ∃ e ∈ l, e ≠ DD_BLK_UNUSED ∧
        l.foldl (fun m e => if e ≠ DD_BLK_UNUSED then max m (e + bm + spb) else m) m
          = e + bm + spb) := by
  induction l generalizing m with
  | nil => simp
  | cons x xs ih =>
    simp only [List.foldl_cons]
    obtain ⟨h1, h2, h3⟩ := ih (if x ≠ DD_BLK_UNUSED then max m (x + bm + spb) else m)
    have hm : m ≤ (if x ≠ DD_BLK_UNUSED then max m (x + bm + spb) else m) := by
      split
      · exact Nat.le_max_left _ _
      · exact Nat.le_refl _
    refine ⟨Nat.le_trans hm h1, ?_, ?_⟩
    · intro e he hne
      rcases List.mem_cons.1 he with rfl | hmem
      · refine Nat.le_trans ?_ h1
        rw [if_pos hne]
        exact Nat.le_max_right _ _
      · exact h2 e hmem hne
    · rcases h3 with h | ⟨e, he, hne, heq⟩
      · by_cases hx : x ≠ DD_BLK_UNUSED
        · rw [if_pos hx] at h
          rcases Nat.le_total m (x + bm + spb) with hle | hle
          · right
            exact ⟨x, List.mem_cons_self _ _, hx, by rw [if_pos hx, h, Nat.max_eq_right hle]⟩
          · left
            rw [if_pos hx, h, Nat.max_eq_left hle]
        · left
          rw [if_neg hx] at h ⊢
          exact h
      · right
        exact ⟨e, List.mem_cons_of_mem _ he, hne, heq⟩

theorem eod_ge_headers (ctx : vhd_context_t) : ctx.end_of_headers ≤ vhd_end_of_data ctx :=
  (eod_fold_spec ctx.bm_secs ctx.spb ctx.bat ctx.end_of_headers).1

theorem eod_ge_block (ctx : vhd_context_t) (b : Nat) (hb : b < ctx.bat.length)
    (hu : ctx.bat.getD b DD_BLK_UNUSED ≠ DD_BLK_UNUSED) :
    ctx.bat.getD b DD_BLK_UNUSED + ctx.bm_secs + ctx.spb ≤ vhd_end_of_data ctx := by
  refine (eod_fold_spec ctx.bm_secs ctx.spb ctx.bat ctx.end_of_headers).2.1 _ ?_ hu
  rw [List.getD_eq_getElem _ _ hb]
  exact List.getElem_mem _

/-- A bound on all allocated regions and on the headers bounds the end of data. -/
theorem eod_le_of_bound (ctx : vhd_context_t) (m : Nat) (hh : ctx.end_of_headers ≤ m)
    (hb : ∀ e ∈ ctx.bat, e ≠ DD_BLK_UNUSED → e + ctx.bm_secs + ctx.spb ≤ m) :
    vhd_end_of_data ctx ≤ m := by
  rcases (eod_fold_spec ctx.bm_secs ctx.spb ctx.bat ctx.end_of_headers).2.2 with h | ⟨e, he, hne, h⟩
  · unfold vhd_end_of_data; rw [h]; exact hh
  · unfold vhd_end_of_data; rw [h]; exact hb e he hne

/-- Filling an unallocated slot never lowers the end of data. -/
theorem eod_set_mono (ctx : vhd_context_t) (i v : Nat)
    (hi : ctx.bat.getD i DD_BLK_UNUSED = DD_BLK_UNUSED) :
    vhd_end_of_data ctx ≤ vhd_end_of_data { ctx with bat := ctx.bat.set i v } := by
  apply eod_le_of_bound
  · exact eod_ge_headers { ctx with bat := ctx.bat.set i v }
  · intro e he hne
    obtain ⟨k, hk, rfl⟩ := List.getElem_of_mem he
    have hki : k ≠ i := by
      rintro rfl
      rw [List.getD_eq_getElem _ _ hk] at hi
      exact hne hi
    have hk' : k < (ctx.bat.set i v).length := by simpa using hk
    have := eod_ge_block { ctx with bat := ctx.bat.set i v } k hk' (by
      show (ctx.bat.set i v).getD k DD_BLK_UNUSED ≠ DD_BLK_UNUSED
      rw [List.getD_eq_getElem _ _ hk', List.getElem_set_ne (Ne.symm hki)]
      exact hne)
    have h2 : (ctx.bat.set i v).getD k DD_BLK_UNUSED = ctx.bat[k] := by
      rw [List.getD_eq_getElem _ _ hk', List.getElem_set_ne (Ne.symm hki)]
    simp only [h2] at this
    exact this

theorem same_geometry_refl (d : vhd_context_t) : same_geometry d d :=
  ⟨rfl, rfl, rfl, rfl, rfl⟩

theorem same_geometry_trans (a b c : vhd_context_t) (h1 : same_geometry a b)
    (h2 : same_geometry b c) : same_geometry a c := by
  obtain ⟨a1, a2, a3, a4, a5⟩ := h1
  obtain ⟨b1, b2, b3, b4, b5⟩ := h2
  exact ⟨by rw [b1, a1], by rw [b2, a2], by rw [b3, a3], by rw [b4, a4], by rw [b5, a5]⟩

theorem getD_set_self (l : List Nat) (i v d : Nat) (hi : i < l.length) :
    (l.set i v).getD i d = v := by
  simp only [List.getD_eq_getElem?_getD]
  rw [List.getElem?_set_self hi]
  rfl

theorem getD_set_ne (l : List Nat) (i k v d : Nat) (h : i ≠ k) :
    (l.set i v).getD k d = l.getD k d := by
  simp only [List.getD_eq_getElem?_getD]
  rw [List.getElem?_set_ne h]

theorem range_all_iff (n : Nat) (f : Nat → Bool) :
    (List.range n).all f = true ↔ ∀ s, s < n → f s = true := by
  simp [List.all_eq_true]

/-- The last step of a sector write: data sector, bitmap bit, batmap bit. -/
theorem store_step_spec (d1 : vhd_context_t) (blk sec val : Nat) (hok : store_ok d1)
    (hblk : blk < d1.bat.length) (hsec : sec < d1.spb)
    (hu : d1.bat.getD blk DD_BLK_UNUSED ≠ DD_BLK_UNUSED) (d' : vhd_context_t)
    (hd' : d' = { d1 with
      sectors := Function.update d1.sectors (d1.bat.getD blk DD_BLK_UNUSED + d1.bm_secs + sec) val
      bitmaps := Function.update d1.bitmaps (d1.bat.getD blk DD_BLK_UNUSED)
        (Function.update (d1.bitmaps (d1.bat.getD blk DD_BLK_UNUSED)) sec true)
      batmap := if (List.range d1.spb).all
          (Function.update (d1.bitmaps (d1.bat.getD blk DD_BLK_UNUSED)) sec true) then
          d1.batmap.map (fun m => Function.update m blk true)
        else d1.batmap }) :
    same_geometry d1 d' ∧ store_ok d' ∧ d'.bat = d1.bat ∧
    (∀ b s, b < d1.bat.length → s < d1.spb →
      vhd_read_sector d' b s = if b = blk ∧ s = sec then some val else vhd_read_sector d1 b s) := by
  obtain ⟨hdis, hbm⟩ := hok
  have hbat : d'.bat = d1.bat := by rw [hd']
  have hspb : d'.spb = d1.spb := by rw [hd']
  have hbms : d'.bm_secs = d1.bm_secs := by rw [hd']
  -- bitmaps and data of the other allocated blocks are untouched
  have hother : ∀ b, b < d1.bat.length → b ≠ blk →
      d1.bat.getD b DD_BLK_UNUSED ≠ DD_BLK_UNUSED →
      d'.bitmaps (d1.bat.getD b DD_BLK_UNUSED) = d1.bitmaps (d1.bat.getD b DD_BLK_UNUSED) ∧
      ∀ s, s < d1.spb → d'.sectors (d1.bat.getD b DD_BLK_UNUSED + d1.bm_secs + s)
        = d1.sectors (d1.bat.getD b DD_BLK_UNUSED + d1.bm_secs + s) := by
    intro b hb hne hbu
    have := hdis b blk hb hblk hne hbu hu
    constructor
    · rw [hd']
      show Function.update d1.bitmaps _ _ _ = _
      rw [Function.update_noteq]
      omega
    · intro s hs
      rw [hd']
      show Function.update d1.sectors _ _ _ = _
      rw [Function.update_noteq]
      omega
  have hself : d'.bitmaps (d1.bat.getD blk DD_BLK_UNUSED)
      = Function.update (d1.bitmaps (d1.bat.getD blk DD_BLK_UNUSED)) sec true := by
    rw [hd']
    show Function.update d1.bitmaps _ _ _ = _
    rw [Function.update_same]
  refine ⟨⟨hspb, hbms, by rw [hbat], by rw [hd'], by rw [hd']⟩, ⟨?_, ?_⟩, hbat, ?_⟩
  · intro b b' hb hb' hne h1 h2
    rw [hbat, hbms, hspb] at *
    exact hdis b b' hb hb' hne h1 h2
  · intro b hb hset
    rw [hbat] at hb ⊢
    rw [hspb]
    by_cases hbb : b = blk
    · subst hbb
      refine ⟨hu, ?_⟩
      intro s hs
      rw [hself]
      by_cases hfull : (List.range d1.spb).all
          (Function.update (d1.bitmaps (d1.bat.getD b DD_BLK_UNUSED)) sec true) = true
      · exact (range_all_iff _ _).1 hfull s hs
      · have hold : vhd_batmap_set d1 b = true := by
          rw [hd'] at hset
          simp only [vhd_batmap_set, hfull] at hset ⊢
          exact hset
        have := (hbm b hb hold).2 s hs
        by_cases hss : s = sec
        · rw [hss, Function.update_same]
        · rw [Function.update_noteq hss]; exact this
    · have hold : vhd_batmap_set d1 b = true := by
        have hset' : (match (if (List.range d1.spb).all
            (Function.update (d1.bitmaps (d1.bat.getD blk DD_BLK_UNUSED)) sec true) = true then
            d1.batmap.map (fun m => Function.update m blk true) else d1.batmap) with
          | none => false
          | some m => m b) = true := by
          rw [hd'] at hset; exact hset
        by_cases hfull : (List.range d1.spb).all
            (Function.update (d1.bitmaps (d1.bat.getD blk DD_BLK_UNUSED)) sec true) = true
        · rw [if_pos hfull] at hset'
          unfold vhd_batmap_set
          cases hm : d1.batmap with
          | none => rw [hm] at hset'; simp at hset'
          | some m =>
            rw [hm] at hset'
            simp only [Option.map_some'] at hset'
            rw [Function.update_noteq hbb] at hset'
            exact hset'
        · rw [if_neg hfull] at hset'
          exact hset'
      obtain ⟨h1, h2⟩ := hbm b hb hold
      refine ⟨h1, fun s hs => ?_⟩
      rw [(hother b hb hbb h1).1]
      exact h2 s hs
  · intro b s hb hs
    unfold vhd_read_sector
    rw [hbat, hbms]
    by_cases hbb : b = blk
    · subst hbb
      rw [if_neg hu, if_neg hu, hself]
      by_cases hss : s = sec
      · subst hss
        rw [Function.update_same]
        simp only [if_true, and_self]
        rw [hd']
        show some (Function.update d1.sectors _ _ _) = _
        rw [Function.update_same]
      · rw [Function.update_noteq hss]
        have : ¬ (b = b ∧ s = sec) := fun h => hss h.2
        rw [if_neg this]
        have hsec' : d'.sectors (d1.bat.getD b DD_BLK_UNUSED + d1.bm_secs + s)
            = d1.sectors (d1.bat.getD b DD_BLK_UNUSED + d1.bm_secs + s) := by
          rw [hd']
          show Function.update d1.sectors _ _ _ = _
          rw [Function.update_noteq]
          omega
        rw [hsec']
    · have : ¬ (b = blk ∧ s = sec) := fun h => hbb h.1
      rw [if_neg this]
      by_cases hbu : d1.bat.getD b DD_BLK_UNUSED = DD_BLK_UNUSED
      · rw [if_pos hbu, if_pos hbu]
      · rw [if_neg hbu, if_neg hbu, (hother b hb hbb hbu).1, (hother b hb hbb hbu).2 s hs]

theorem allocate_block_spec (d : vhd_context_t) (blk : Nat) (hok : store_ok d)
    (hblk : blk < d.bat.length) (hspb : 0 < d.spb)
    (hu : d.bat.getD blk DD_BLK_UNUSED = DD_BLK_UNUSED) (d1 : vhd_context_t)
    (h : vhd_allocate_block d blk = (0, d1)) :
    same_geometry d d1 ∧ store_ok d1 ∧ d1.bat.getD blk DD_BLK_UNUSED ≠ DD_BLK_UNUSED ∧
    (∀ b s, b < d.bat.length → s < d.spb → vhd_read_sector d1 b s = vhd_read_sector d b s) := by
  obtain ⟨hdis, hbm⟩ := hok
  unfold vhd_allocate_block at h
  dsimp only at h
  by_cases hbig : DD_BLK_UNUSED ≤ vhd_end_of_data d
  · rw [if_pos hbig] at h
    have := (Prod.mk.inj h).1
    simp [EINVAL] at this
  rw [if_neg hbig] at h
  have hd1 := (Prod.mk.inj h).2
  have hbat : d1.bat = d.bat.set blk (vhd_end_of_data d) := by rw [← hd1]
  have hspb1 : d1.spb = d.spb := by rw [← hd1]
  have hbms1 : d1.bm_secs = d.bm_secs := by rw [← hd1]
  have hbmaps : d1.bitmaps = Function.update d.bitmaps (vhd_end_of_data d) (fun _ => false) := by
    rw [← hd1]
  have hsecs : d1.sectors = d.sectors := by rw [← hd1]
  have hbatmap : d1.batmap = d.batmap := by rw [← hd1]
  have hself : d1.bat.getD blk DD_BLK_UNUSED = vhd_end_of_data d := by
    rw [hbat]; exact getD_set_self _ _ _ _ hblk
  have hoth : ∀ b, b ≠ blk → d1.bat.getD b DD_BLK_UNUSED = d.bat.getD b DD_BLK_UNUSED := by
    intro b hb
    rw [hbat]; exact getD_set_ne _ _ _ _ _ (Ne.symm hb)
  have hend : ∀ b, b < d.bat.length → d.bat.getD b DD_BLK_UNUSED ≠ DD_BLK_UNUSED →
      d.bat.getD b DD_BLK_UNUSED + d.bm_secs + d.spb ≤ vhd_end_of_data d :=
    fun b hb hbu => eod_ge_block d b hb hbu
  have hlen : d1.bat.length = d.bat.length := by rw [hbat]; simp
  refine ⟨⟨hspb1, hbms1, hlen, by rw [← hd1], by rw [← hd1]⟩, ⟨?_, ?_⟩, by rw [hself]; omega, ?_⟩
  · intro b b' hb hb' hne h1 h2
    rw [hlen] at hb hb'
    rw [hbms1, hspb1]
    by_cases e1 : b = blk
    · subst e1
      have e2 : b' ≠ b := fun e => hne e.symm
      rw [hoth b' e2] at h2 ⊢
      rw [hself]
      right
      exact hend b' hb' h2
    · rw [hoth b e1] at h1 ⊢
      by_cases e2 : b' = blk
      · subst e2
        rw [hself]
        left
        exact hend b hb h1
      · rw [hoth b' e2] at h2 ⊢
        exact hdis b b' hb hb' hne h1 h2
  · intro b hb hset
    rw [hlen] at hb
    have hset' : vhd_batmap_set d b = true := by
      unfold vhd_batmap_set at hset ⊢
      rw [hbatmap] at hset
      exact hset
    obtain ⟨h1, h2⟩ := hbm b hb hset'
    have hne : b ≠ blk := by
      rintro rfl
      exact h1 hu
    rw [hoth b hne, hspb1]
    refine ⟨h1, fun s hs => ?_⟩
    rw [hbmaps, Function.update_noteq]
    · exact h2 s hs
    · have := hend b hb h1
      omega
  · intro b s hb hs
    unfold vhd_read_sector
    by_cases e1 : b = blk
    · subst e1
      rw [hself, if_neg (by omega), hbmaps, Function.update_same, if_pos hu]
      simp
    · rw [hoth b e1]
      by_cases hbu : d.bat.getD b DD_BLK_UNUSED = DD_BLK_UNUSED
      · rw [if_pos hbu, if_pos hbu]
      · rw [if_neg hbu, if_neg hbu, hbmaps, hsecs, hbms1, Function.update_noteq]
        have := hend b hb hbu
        omega

/-- A sector write that succeeds: the sector written reads back, everything
else reads as before, and the invariants are kept. -/
theorem write_sector_spec (d : vhd_context_t) (blk sec val : Nat) (hok : store_ok d)
    (hblk : blk < d.bat.length) (hsec : sec < d.spb) (d' : vhd_context_t)
    (h : vhd_write_sector d (blk * d.spb + sec) val = (0, d')) :
    same_geometry d d' ∧ store_ok d' ∧
    (∀ b s, b < d.bat.length → s < d.spb →
      vhd_read_sector d' b s = if b = blk ∧ s = sec then some val else vhd_read_sector d b s) := by
  have hspb : 0 < d.spb := by omega
  have hdiv : (blk * d.spb + sec) / d.spb = blk := by
    rw [Nat.mul_comm, Nat.mul_add_div hspb, Nat.div_eq_of_lt hsec, Nat.add_zero]
  have hmod : (blk * d.spb + sec) % d.spb = sec := by
    rw [Nat.mul_comm, Nat.mul_add_mod, Nat.mod_eq_of_lt hsec]
  unfold vhd_write_sector at h
  rw [hdiv, hmod] at h
  dsimp only at h
  rw [if_neg (by omega)] at h
  by_cases hu : d.bat.getD blk DD_BLK_UNUSED = DD_BLK_UNUSED
  · rw [if_pos hu] at h
    by_cases hr : (vhd_allocate_block d blk).1 ≠ 0
    · rw [if_pos hr] at h
      rw [h] at hr
      exact absurd rfl hr
    · rw [if_neg hr] at h
      have hr0 : (vhd_allocate_block d blk).1 = 0 := by simpa using hr
      obtain ⟨g1, ok1, hu1, hrd1⟩ := allocate_block_spec d blk hok hblk hspb hu
        (vhd_allocate_block d blk).2 (by rw [← hr0])
      obtain ⟨gs, gb, gl, gh, gf⟩ := g1
      have e := (Prod.mk.inj h).2.symm
      rw [← gs, ← gb] at e
      obtain ⟨g2, ok2, -, hrd2⟩ := store_step_spec (vhd_allocate_block d blk).2 blk sec val ok1
        (by rw [gl]; exact hblk) (by rw [gs]; exact hsec) hu1 d' e
      refine ⟨same_geometry_trans _ _ _ ⟨gs, gb, gl, gh, gf⟩ g2, ok2, ?_⟩
      intro b s hb hs
      rw [hrd2 b s (by rw [gl]; exact hb) (by rw [gs]; exact hs), hrd1 b s hb hs]
  · rw [if_neg hu] at h
    rw [if_neg (by simp)] at h
    obtain ⟨g2, ok2, -, hrd2⟩ := store_step_spec d blk sec val hok hblk hsec hu d'
      (Prod.mk.inj h).2.symm
    exact ⟨g2, ok2, hrd2⟩

theorem io_write_from_spec (buf : Nat → Nat) (blk sec sector : Nat) (n k : Nat)
    (d d' : vhd_context_t) (hok : store_ok d) (hblk : blk < d.bat.length)
    (hsector : sector = blk * d.spb + sec) (hfit : sec + k + n ≤ d.spb)
    (h : vhd_io_write_from buf sector n k d = (0, d')) :
    same_geometry d d' ∧ store_ok d' ∧
    (∀ b s, b < d.bat.length → s < d.spb →
      vhd_read_sector d' b s =
        if b = blk ∧ sec + k ≤ s ∧ s < sec + k + n then some (buf (s - sec))
        else vhd_read_sector d b s) := by
  induction n generalizing k d with
  | zero =>
    simp only [vhd_io_write_from, Prod.mk.injEq, true_and] at h
    subst h
    refine ⟨same_geometry_refl _, hok, fun b s _ _ => ?_⟩
    rw [if_neg (by omega)]
  | succ n ih =>
    simp only [vhd_io_write_from] at h
    by_cases hr : (vhd_write_sector d (sector + k) (buf k)).1 ≠ 0
    · rw [if_pos hr] at h
      rw [h] at hr
      exact absurd rfl hr
    · rw [if_neg hr] at h
      have hr0 : (vhd_write_sector d (sector + k) (buf k)).1 = 0 := by simpa using hr
      have hw : vhd_write_sector d (blk * d.spb + (sec + k)) (buf k)
          = (0, (vhd_write_sector d (sector + k) (buf k)).2) := by
        rw [hsector, Nat.add_assoc] at hr0 ⊢
        rw [← hr0]
      obtain ⟨g1, ok1, rd1⟩ := write_sector_spec d blk (sec + k) (buf k) hok hblk (by omega) _ hw
      obtain ⟨gs, gb, gl, gh, gf⟩ := g1
      obtain ⟨g2, ok2, rd2⟩ := ih (k + 1) (vhd_write_sector d (sector + k) (buf k)).2 ok1
        (by rw [gl]; exact hblk) (by rw [gs]; exact hsector) (by rw [gs]; omega) h
      refine ⟨same_geometry_trans _ _ _ ⟨gs, gb, gl, gh, gf⟩ g2, ok2, ?_⟩
      intro b s hb hs
      rw [rd2 b s (by rw [gl]; exact hb) (by rw [gs]; exact hs), rd1 b s hb hs]
      by_cases hbb : b = blk
      · by_cases h1 : s = sec + k
        · subst h1
          rw [if_neg (by omega), if_pos ⟨hbb, rfl⟩, if_pos ⟨hbb, by omega, by omega⟩]
          congr 2
          omega
        · by_cases h2 : sec + (k + 1) ≤ s ∧ s < sec + (k + 1) + n
          · rw [if_pos ⟨hbb, h2⟩, if_pos ⟨hbb, by omega, by omega⟩]
          · rw [if_neg (fun h => h2 h.2), if_neg (fun h => h1 h.2),
              if_neg (fun h => by omega)]
      · rw [if_neg (fun h => hbb h.1), if_neg (fun h => hbb h.1), if_neg (fun h => hbb h.1)]

/-- A successful `vhd_io_write` of a run inside one block: the sectors of
the run read back, everything else reads as before. -/
theorem io_write_spec (buf : Nat → Nat) (blk sec cnt : Nat) (d d' : vhd_context_t)
    (hok : store_ok d) (hblk : blk < d.bat.length) (hfit : sec + cnt ≤ d.spb)
    (h : vhd_io_write d buf (blk * d.spb + sec) cnt = (0, d')) :
    same_geometry d d' ∧ store_ok d' ∧
    (∀ b s, b < d.bat.length → s < d.spb →
      vhd_read_sector d' b s =
        if b = blk ∧ sec ≤ s ∧ s < sec + cnt then some (buf (s - sec))
        else vhd_read_sector d b s) := by
  have := io_write_from_spec buf blk sec _ cnt 0 d d' hok hblk rfl (by omega) h
  simpa using this

end Blktap

namespace Blktap

/-! ### The bitmap scan -/

theorem run_length_spec (spb : Nat) (copy : Nat → Bool) (i fuel cnt : Nat)
    (hf : spb ≤ i + cnt + fuel) (hc : i + cnt ≤ spb)
    (hh : ∀ s, i ≤ s → s < i + cnt → copy s = copy i) :
    cnt ≤ run_length spb copy i fuel cnt ∧ i + run_length spb copy i fuel cnt ≤ spb ∧
    (∀ s, i ≤ s → s < i + run_length spb copy i fuel cnt → copy s = copy i) ∧
    (i + run_length spb copy i fuel cnt = spb ∨
      (i + run_length spb copy i fuel cnt < spb ∧
        copy (i + run_length spb copy i fuel cnt) ≠ copy i)) := by
  induction fuel generalizing cnt with
  | zero =>
    simp only [run_length]
    exact ⟨Nat.le_refl _, hc, hh, Or.inl (by omega)⟩
  | succ n ih =>
    simp only [run_length]
    split
    · rename_i h
      have := ih (cnt + 1) (by omega) (by omega) (by
        intro s h1 h2
        by_cases hs : s < i + cnt
        · exact hh s h1 hs
        · have : s = i + cnt := by omega
          rw [this]; exact h.2.symm)
      exact ⟨by omega, this.2⟩
    · rename_i h
      refine ⟨Nat.le_refl _, hc, hh, ?_⟩
      by_cases hlt : i + cnt < spb
      · right
        refine ⟨hlt, fun he => h ⟨hlt, he.symm⟩⟩
      · left; omega

theorem runs_contiguous_append (i : Nat) (a b : List scan_run)
    (ha : runs_contiguous i a) (hb : runs_contiguous (i + runs_span a) b) :
    runs_contiguous i (a ++ b) := by
  induction a generalizing i with
  | nil => simpa [runs_span] using hb
  | cons r rs ih =>
    obtain ⟨h1, h2, h3⟩ := ha
    refine ⟨h1, h2, ih _ h3 ?_⟩
    have : i + runs_span (r :: rs) = i + r.cnt + runs_span rs := by
      simp [runs_span]; omega
    rwa [this] at hb

/-- What the loop does from sector `i` on, given enough iterations and
transfers that return. -/
theorem scan_loop_spec {σ : Type} (spb : Nat) (copy : Nat → Bool)
    (xfer : σ → Nat → Nat → Option (Int × σ))
    (hret : ∀ st i cnt, ∃ r, xfer st i cnt = some r)
    (fuel i : Nat) (err : Int) (st : σ) (acc : List scan_run)
    (hi : i ≤ spb) (hf : spb ≤ i + fuel) :
    ∃ res new, scan_loop spb copy xfer fuel i err st acc = some res ∧
      res.runs = acc ++ new ∧ runs_contiguous i new ∧
      (∀ r ∈ new, run_homogeneous copy r ∧ run_maximal spb copy r) ∧
      new.Chain' (fun a b => a.copy ≠ b.copy) ∧
      (∀ r, new.head? = some r → r.copy = copy i) ∧
      apply_runs xfer (new.filter (fun r => r.copy)) st = some res.st ∧
      (i + runs_span new = spb ∨
        (res.err ≠ 0 ∧ ∃ r, new.getLast? = some r ∧ r.copy = true)) ∧
      (new.filter (fun r => r.copy) = [] → res.err = err) ∧
      (res.err = 0 → transfers_ok xfer (new.filter (fun r => r.copy)) st res.st) := by
  induction fuel generalizing i err st acc with
  | zero =>
    have : ¬ i < spb := by omega
    refine ⟨⟨err, st, acc⟩, [], by simp [scan_loop, this], by simp, trivial, by simp,
      List.chain'_nil, by simp, rfl, Or.inl (by simp [runs_span]; omega), fun _ => rfl,
      fun _ => rfl⟩
  | succ n ih =>
    by_cases hlt : i < spb
    · obtain ⟨hc1, hc2, hc3, hc4⟩ := run_length_spec spb copy i spb 1 (by omega) (by omega)
        (by intro s h1 h2; have : s = i := by omega
            rw [this])
      set cnt := run_length spb copy i spb 1 with hcnt
      have hstep : ∀ (e : Int) (s' : σ) (b : Bool), b = copy i →
          (∃ res new, scan_loop spb copy xfer n (i + cnt) e s' (acc ++ [⟨i, cnt, b⟩]) = some res ∧
            res.runs = (acc ++ [⟨i, cnt, b⟩]) ++ new ∧ runs_contiguous (i + cnt) new ∧
            (∀ r ∈ new, run_homogeneous copy r ∧ run_maximal spb copy r) ∧
            new.Chain' (fun a b => a.copy ≠ b.copy) ∧
            (∀ r, new.head? = some r → r.copy = copy (i + cnt)) ∧
            apply_runs xfer (new.filter (fun r => r.copy)) s' = some res.st ∧
            (i + cnt + runs_span new = spb ∨
              (res.err ≠ 0 ∧ ∃ r, new.getLast? = some r ∧ r.copy = true)) ∧
            (new.filter (fun r => r.copy) = [] → res.err = e) ∧
            (res.err = 0 → transfers_ok xfer (new.filter (fun r => r.copy)) s' res.st)) :=
        fun e s' b _ => ih (i + cnt) e s' (acc ++ [⟨i, cnt, b⟩]) hc2 (by omega)
      have hrun : ∀ b : Bool, b = copy i →
          run_homogeneous copy ⟨i, cnt, b⟩ ∧ run_maximal spb copy ⟨i, cnt, b⟩ := by
        intro b hb
        refine ⟨fun s h1 h2 => by rw [hb]; exact hc3 s h1 h2, ?_⟩
        rcases hc4 with h | h
        · exact Or.inl h
        · exact Or.inr ⟨h.1, by rw [hb]; exact h.2⟩
      have hchain : ∀ (b : Bool) (new : List scan_run), b = copy i → new ≠ [] →
          runs_contiguous (i + cnt) new →
          (∀ r, new.head? = some r → r.copy = copy (i + cnt)) →
          (∀ r ∈ new, run_homogeneous copy r ∧ run_maximal spb copy r) →
          new.Chain' (fun a b => a.copy ≠ b.copy) →
          (⟨i, cnt, b⟩ :: new).Chain' (fun a b => a.copy ≠ b.copy) := by
        intro b new hb hne hcont hhead hall hch
        cases new with
        | nil => exact absurd rfl hne
        | cons r rs =>
          refine List.Chain'.cons ?_ hch
          have hr := hhead r rfl
          rcases hc4 with h | h
          · -- the run ends the block: there is no room for a further run
            exfalso
            obtain ⟨hs, hcn, -⟩ := hcont
            have hm := (hall r (List.mem_cons_self _ _)).2
            rcases hm with hm | hm <;> simp only [hs] at hm <;> omega
          · simp only [hb, hr]
            exact fun he => h.2 he.symm
      by_cases hcp : copy i = true
      · obtain ⟨r, hr⟩ := hret st i cnt
        by_cases hre : r.1 ≠ 0
        · refine ⟨⟨r.1, r.2, acc ++ [⟨i, cnt, true⟩]⟩, [⟨i, cnt, true⟩], ?_, rfl,
            ⟨rfl, hc1, trivial⟩, ?_, List.chain'_singleton _, ?_, ?_, ?_, ?_, ?_⟩
          · simp only [scan_loop, hlt, if_true, hcp, ← hcnt, hr]
            rw [if_pos hre]
          · intro x hx
            simp only [List.mem_singleton] at hx
            subst hx
            exact hrun true hcp.symm
          · intro x hx
            simp only [List.head?_cons, Option.some.injEq] at hx
            subst hx
            exact hcp.symm
          · simp [apply_runs, hr]
          · right
            exact ⟨hre, ⟨i, cnt, true⟩, rfl, rfl⟩
          · intro h; simp at h
          · intro h; exact absurd h hre
        · obtain ⟨res, new, h1, h2, h3, h4, h5, h6, h7, h8, h9, h10⟩ :=
            hstep r.1 r.2 true hcp.symm
          refine ⟨res, ⟨i, cnt, true⟩ :: new, ?_, by simp [h2], ⟨rfl, hc1, h3⟩, ?_, ?_, ?_, ?_,
            ?_, ?_, ?_⟩
          · simp only [scan_loop, hlt, if_true, hcp, ← hcnt, hr]
            rw [if_neg hre]
            exact h1
          · intro x hx
            rcases List.mem_cons.1 hx with e | m
            · subst e; exact hrun true hcp.symm
            · exact h4 x m
          · cases hn : new with
            | nil => exact List.chain'_singleton _
            | cons y ys =>
              rw [← hn]
              exact hchain true new hcp.symm (by simp [hn]) h3 h6 h4 h5
          · intro x hx
            simp only [List.head?_cons, Option.some.injEq] at hx
            subst hx
            exact hcp.symm
          · simp only [List.filter_cons, if_true, apply_runs, hr]
            exact h7
          · rcases h8 with h | ⟨hne, y, hy, hyc⟩
            · left
              simp only [runs_span, List.map_cons, List.sum_cons] at h ⊢
              omega
            · right
              refine ⟨hne, y, ?_, hyc⟩
              cases hn : new with
              | nil => rw [hn] at hy; simp at hy
              | cons z zs => rw [hn] at hy; simpa using hy
          · intro h; simp at h
          · intro h
            simp only [List.filter_cons, if_true, transfers_ok]
            refine ⟨r.2, ?_, h10 h⟩
            rw [hr]
            have : r.1 = 0 := by simpa using hre
            rw [← this]
      · have hcf : copy i = false := by simpa using hcp
        obtain ⟨res, new, h1, h2, h3, h4, h5, h6, h7, h8, h9, h10⟩ :=
          hstep err st false hcf.symm
        refine ⟨res, ⟨i, cnt, false⟩ :: new, ?_, by simp [h2], ⟨rfl, hc1, h3⟩, ?_, ?_, ?_, ?_,
          ?_, ?_, ?_⟩
        · simp only [scan_loop, hlt, if_true, hcf, ← hcnt, Bool.false_eq_true, if_false]
          exact h1
        · intro x hx
          rcases List.mem_cons.1 hx with e | m
          · subst e; exact hrun false hcf.symm
          · exact h4 x m
        · cases hn : new with
          | nil => exact List.chain'_singleton _
          | cons y ys =>
            rw [← hn]
            exact hchain false new hcf.symm (by simp [hn]) h3 h6 h4 h5
        · intro x hx
          simp only [List.head?_cons, Option.some.injEq] at hx
          subst hx
          exact hcf.symm
        · simpa [List.filter_cons] using h7
        · rcases h8 with h | ⟨hne, y, hy, hyc⟩
          · left
            simp only [runs_span, List.map_cons, List.sum_cons] at h ⊢
            omega
          · right
            refine ⟨hne, y, ?_, hyc⟩
            cases hn : new with
            | nil => rw [hn] at hy; simp at hy
            | cons z zs => rw [hn] at hy; simpa using hy
        · intro h
          exact h9 (by simpa [List.filter_cons] using h)
        · intro h
          simpa [List.filter_cons] using h10 h
    · have : i = spb := by omega
      refine ⟨⟨err, st, acc⟩, [], by simp [scan_loop, hlt], by simp, trivial, by simp,
        List.chain'_nil, by simp, rfl, Or.inl (by simp [runs_span]; omega), fun _ => rfl,
        fun _ => rfl⟩

theorem runs_contiguous_mem (i : Nat) (rs : List scan_run) (h : runs_contiguous i rs)
    (s : Nat) (h1 : i ≤ s) (h2 : s < i + runs_span rs) :
    ∃ r ∈ rs, r.sec ≤ s ∧ s < r.sec + r.cnt := by
  induction rs generalizing i with
  | nil => simp [runs_span] at h2; omega
  | cons r rest ih =>
    obtain ⟨hs, hc, hr⟩ := h
    by_cases hin : s < i + r.cnt
    · exact ⟨r, List.mem_cons_self _ _, by omega, by omega⟩
    · have hsp : i + runs_span (r :: rest) = i + r.cnt + runs_span rest := by
        simp [runs_span]; omega
      obtain ⟨x, hx, hx1, hx2⟩ := ih (i + r.cnt) hr (by omega) (by omega)
      exact ⟨x, List.mem_cons_of_mem _ hx, hx1, hx2⟩

theorem runs_contiguous_cnt (i : Nat) (rs : List scan_run) (h : runs_contiguous i rs) :
    ∀ r ∈ rs, 1 ≤ r.cnt := by
  induction rs generalizing i with
  | nil => intro r hr; simp at hr
  | cons x rest ih =>
    obtain ⟨-, hc, hr⟩ := h
    intro r hm
    rcases List.mem_cons.1 hm with e | m
    · rw [e]; exact hc
    · exact ih _ hr r m

theorem transferred_sorted (i : Nat) (rs : List scan_run) (h : runs_contiguous i rs) :
    (transferred rs).Pairwise (· < ·) ∧ ∀ s ∈ transferred rs, i ≤ s := by
  induction rs generalizing i with
  | nil => simp [transferred]
  | cons r rest ih =>
    obtain ⟨hs, hc, hr⟩ := h
    obtain ⟨ih1, ih2⟩ := ih (i + r.cnt) hr
    by_cases hcp : r.copy = true
    · have ht : transferred (r :: rest) = List.range' r.sec r.cnt ++ transferred rest := by
        simp [transferred, List.filter_cons, hcp]
      rw [ht]
      refine ⟨?_, ?_⟩
      · rw [List.pairwise_append]
        refine ⟨List.pairwise_lt_range' _ _, ih1, ?_⟩
        intro a ha b hb
        have := ih2 b hb
        simp only [List.mem_range'_1] at ha
        omega
      · intro s hs'
        rcases List.mem_append.1 hs' with m | m
        · simp only [List.mem_range'_1] at m; omega
        · have := ih2 s m; omega
    · have ht : transferred (r :: rest) = transferred rest := by
        simp [transferred, List.filter_cons, hcp]
      rw [ht]
      exact ⟨ih1, fun s m => by have := ih2 s m; omega⟩

theorem mem_transferred (rs : List scan_run) (s : Nat) :
    s ∈ transferred rs ↔ ∃ r ∈ rs, r.copy = true ∧ r.sec ≤ s ∧ s < r.sec + r.cnt := by
  simp only [transferred, List.mem_flatMap, List.mem_filter, List.mem_range'_1]
  constructor
  · rintro ⟨r, ⟨h1, h2⟩, h3, h4⟩; exact ⟨r, h1, h2, h3, h4⟩
  · rintro ⟨r, h1, h2, h3, h4⟩; exact ⟨r, ⟨h1, h2⟩, h3, h4⟩

/-- Sectors transferred by a scan that ended with status 0 after starting
with status 0: exactly those below `spb` at which the predicate holds, each
once. -/
theorem scan_block_transferred {σ : Type} (spb : Nat) (copy : Nat → Bool)
    (xfer : σ → Nat → Nat → Option (Int × σ)) (st : σ) (res : scan_result σ)
    (hret : ∀ st i cnt, ∃ r, xfer st i cnt = some r)
    (h : scan_block spb copy xfer 0 st = some res) (he : res.err = 0) :
    (transferred res.runs).Nodup ∧
    (∀ s, s ∈ transferred res.runs ↔ s < spb ∧ copy s = true) ∧
    transfers_ok xfer (res.runs.filter (fun r => r.copy)) st res.st ∧
    (∀ r ∈ res.runs, 1 ≤ r.cnt ∧ r.sec + r.cnt ≤ spb) := by
  obtain ⟨res', new, h1, h2, h3', h3'', -, -, -, h6, -, h5'⟩ :=
    scan_loop_spec spb copy xfer hret spb 0 0 st [] (Nat.zero_le _) (by omega)
  have h1' : scan_block spb copy xfer 0 st = some res' := h1
  rw [h] at h1'
  cases Option.some.inj h1'
  simp only [List.nil_append] at h2
  have h2 : runs_contiguous 0 res.runs := by rw [h2]; exact h3'
  have h3 : ∀ r ∈ res.runs, run_homogeneous copy r ∧ run_maximal spb copy r := by
    rw [‹res.runs = new›]; exact h3''
  have h5 : transfers_ok xfer (res.runs.filter (fun r => r.copy)) st res.st := by
    rw [‹res.runs = new›]; exact h5' he
  have hcov : scan_covers spb res.runs := by
    rcases h6 with h | h
    · exact ⟨h2, by rw [‹res.runs = new›]; omega⟩
    · exact absurd he h.1
  refine ⟨?_, ?_, h5, ?_⟩
  rotate_left 2
  · intro r hr
    refine ⟨runs_contiguous_cnt 0 _ h2 r hr, ?_⟩
    rcases (h3 r hr).2 with hm | hm <;> omega
  · exact ((transferred_sorted 0 _ h2).1.imp (fun h => Nat.ne_of_lt h))
  · intro s
    rw [mem_transferred]
    constructor
    · rintro ⟨r, hr, hc, hs1, hs2⟩
      have hh := (h3 r hr).1 s hs1 hs2
      have hm := (h3 r hr).2
      refine ⟨?_, by rw [hh, hc]⟩
      rcases hm with hm | hm <;> omega
    · rintro ⟨hs, hc⟩
      obtain ⟨r, hr, hs1, hs2⟩ := runs_contiguous_mem 0 _ hcov.1 s (Nat.zero_le _)
        (by rw [hcov.2]; omega)
      exact ⟨r, hr, by rw [← (h3 r hr).1 s hs1 hs2, hc], hs1, hs2⟩

end Blktap

namespace Blktap

end Blktap

namespace Blktap

theorem transfers_ok_mono {σ : Type} (xfer xfer' : σ → Nat → Nat → Option (Int × σ))
    (hx : ∀ st i cnt m, xfer st i cnt = some (0, m) → xfer' st i cnt = some (0, m))
    (T : List scan_run) (st st' : σ) (h : transfers_ok xfer T st st') :
    transfers_ok xfer' T st st' := by
  induction T generalizing st with
  | nil => exact h
  | cons r rs ih =>
    obtain ⟨m, h1, h2⟩ := h
    exact ⟨m, hx _ _ _ _ h1, ih m h2⟩

namespace StreamCoalesce

theorem transfer_is_write_run (src st : vhd_context_t) (blk i cnt : Nat) (m : vhd_context_t)
    (h : some (vhd_util_stream_transfer_sectors src st blk i cnt) = some (0, m)) :
    write_run src blk st i cnt = some (0, m) := by
  simp only [vhd_util_stream_transfer_sectors, vhd_pread] at h
  simp only [write_run]
  split at h
  · simpa using h
  · simp [ EIO] at h

/-! ### Every call of the coalesce routines returns -/

theorem copy_block_returns (src dst : vhd_context_t) (blk : Nat) :
    ∃ r, vhd_util_stream_copy_block src dst blk = some r := by
  unfold vhd_util_stream_copy_block
  by_cases c1 : src.header.block_size ≠ dst.header.block_size
  · rw [if_pos c1]; exact ⟨_, rfl⟩
  rw [if_neg c1]
  by_cases c2 : blk * dst.header.block_size > dst.footer.curr_size
  · rw [if_pos c2]; exact ⟨_, rfl⟩
  rw [if_neg c2]
  by_cases c3 : blk * src.header.block_size > src.footer.curr_size ∨
      src.bat.getD blk DD_BLK_UNUSED = DD_BLK_UNUSED
  · rw [if_pos c3]; exact ⟨_, rfl⟩
  rw [if_neg c3]
  by_cases c4 : vhd_batmap_set dst blk = true
  · rw [if_pos c4]; exact ⟨_, rfl⟩
  rw [if_neg c4]
  dsimp only
  generalize (if dst.bat.getD blk DD_BLK_UNUSED = DD_BLK_UNUSED then
      ((0 : Int), fun _ : Nat => false) else vhd_read_bitmap dst blk) = d
  by_cases c5 : d.1 ≠ 0
  · rw [if_pos c5]; exact ⟨_, rfl⟩
  rw [if_neg c5]
  by_cases c6 : (vhd_read_bitmap src blk).1 ≠ 0
  · rw [if_pos c6]; exact ⟨_, rfl⟩
  rw [if_neg c6]
  obtain ⟨res, -, h, -⟩ := scan_loop_spec src.spb
    (copy_pred (vhd_read_bitmap src blk).2 d.2)
    (fun st i cnt => some (vhd_util_stream_transfer_sectors src st blk i cnt))
    (fun _ _ _ => ⟨_, rfl⟩) src.spb 0 (vhd_read_bitmap src blk).1 dst []
    (Nat.zero_le _) (by omega)
  exact ⟨_, by rw [scan_block, h]; rfl⟩

theorem coalesce_blocks_returns (src : vhd_context_t) (l : List Nat) (st : coalesce_state) :
    ∃ r, coalesce_blocks src l st = some r := by
  induction l generalizing st with
  | nil => exact ⟨_, rfl⟩
  | cons e rest ih =>
    simp only [coalesce_blocks]
    split
    · obtain ⟨r, hr⟩ := copy_block_returns src st.dst (p2v_virtual e)
      rw [hr]
      dsimp only
      split
      · exact ⟨_, rfl⟩
      · exact ih _
    · exact ih _

theorem coalesce_loop_calls (qsort : (Nat → Nat → Int) → List Nat → List Nat)
    (err0 : Nat → Int) (vhds : List vhd_context_t) (i : Nat) (st : coalesce_result) :
    ∃ res, coalesce_loop qsort err0 vhds i st = some res ∧
      (∃ k, res.calls = st.calls ++ (vhds.map (fun v => v.footer.uuid)).take k) ∧
      (vhds ≠ [] → res.calls ≠ st.calls) ∧
      ((res.err = 0 ∨ vhds = []) → res.calls = st.calls ++ vhds.map (fun v => v.footer.uuid)) := by
  induction vhds generalizing i st with
  | nil =>
    exact ⟨st, rfl, ⟨0, by simp⟩, fun h => absurd rfl h, fun _ => by simp⟩
  | cons src rest ih =>
    obtain ⟨r, hr⟩ := coalesce_blocks_returns src (qsort p2v_compare (p2v_table src.bat))
      ⟨err0 i, st.dst, st.stats, []⟩
    simp only [coalesce_loop, vhd_util_stream_coalesce_one, hr]
    split
    · rename_i hne
      refine ⟨_, rfl, ⟨1, by simp⟩, fun _ => by simp, ?_⟩
      rintro (h | h)
      · exact absurd h hne
      · simp at h
    · obtain ⟨res, h1, ⟨k, h2⟩, -, h4⟩ := ih (i + 1)
        ⟨r.err, r.dst, r.stats, st.calls ++ [src.footer.uuid]⟩
      refine ⟨res, h1, ⟨k + 1, by simp [h2]⟩, fun _ => ?_, ?_⟩
      · rw [h2]; simp
      · rintro (h | h)
        · by_cases hr : rest = []
          · simpa using h4 (Or.inr hr)
          · simpa using h4 (Or.inl h)
        · simp at h

theorem copy_block_transfers_core (src dst : vhd_context_t) (blk : Nat) (r : copy_result)
    (hsrc : blk * src.header.block_size ≤ src.footer.curr_size)
    (h : vhd_util_stream_copy_block src dst blk = some r) (he : r.err = 0) :
    (transferred r.runs).Nodup ∧
    (∀ i, i ∈ transferred r.runs ↔
      (src.bat.getD blk DD_BLK_UNUSED ≠ DD_BLK_UNUSED ∧ vhd_batmap_set dst blk = false ∧
        i < src.spb ∧ src.bitmaps (src.bat.getD blk DD_BLK_UNUSED) i = true ∧
        entry_bitmap dst blk i = false)) ∧
    transfers_ok (write_run src blk) (r.runs.filter (fun t => t.copy)) dst r.dst ∧
    (∀ t ∈ r.runs, 1 ≤ t.cnt ∧ t.sec + t.cnt ≤ src.spb) := by
  have hempty : ∀ P : Nat → Prop, some (⟨0, dst, []⟩ : copy_result) = some r →
      (∀ i, ¬ P i) →
      (transferred r.runs).Nodup ∧ (∀ i, i ∈ transferred r.runs ↔ P i) ∧
      transfers_ok (write_run src blk) (r.runs.filter (fun t => t.copy)) dst r.dst ∧
      (∀ t ∈ r.runs, 1 ≤ t.cnt ∧ t.sec + t.cnt ≤ src.spb) := by
    intro P hr hP
    cases Option.some.inj hr
    exact ⟨by simp [transferred], fun i => by simpa [transferred] using hP i, rfl,
      fun t ht => by simp at ht⟩
  unfold vhd_util_stream_copy_block at h
  by_cases c1 : src.header.block_size ≠ dst.header.block_size
  · rw [if_pos c1] at h; cases Option.some.inj h; simp [EINVAL] at he
  rw [if_neg c1] at h
  by_cases c2 : blk * dst.header.block_size > dst.footer.curr_size
  · rw [if_pos c2] at h; cases Option.some.inj h; simp [EINVAL] at he
  rw [if_neg c2] at h
  by_cases c3 : blk * src.header.block_size > src.footer.curr_size ∨
      src.bat.getD blk DD_BLK_UNUSED = DD_BLK_UNUSED
  · rw [if_pos c3] at h
    have hu' : src.bat.getD blk DD_BLK_UNUSED = DD_BLK_UNUSED := by
      rcases c3 with hu | hu
      · omega
      · exact hu
    exact hempty _ h (fun i hi => hi.1 hu')
  rw [if_neg c3] at h
  have hal : src.bat.getD blk DD_BLK_UNUSED ≠ DD_BLK_UNUSED := fun e => c3 (Or.inr e)
  by_cases c4 : vhd_batmap_set dst blk = true
  · rw [if_pos c4] at h
    exact hempty _ h (fun i hi => by rw [c4] at hi; exact Bool.noConfusion hi.2.1)
  rw [if_neg c4] at h
  have hb' : vhd_batmap_set dst blk = false := by simpa using c4
  dsimp only at h
  generalize hdd : (if dst.bat.getD blk DD_BLK_UNUSED = DD_BLK_UNUSED then
      ((0 : Int), fun _ : Nat => false) else vhd_read_bitmap dst blk) = d at h
  by_cases c5 : d.1 ≠ 0
  · rw [if_pos c5] at h; cases Option.some.inj h; exact absurd he c5
  rw [if_neg c5] at h
  by_cases c6 : (vhd_read_bitmap src blk).1 ≠ 0
  · rw [if_pos c6] at h; cases Option.some.inj h; exact absurd he c6
  rw [if_neg c6] at h
  have hs0 : (vhd_read_bitmap src blk).1 = 0 := by simpa using c6
  have hsb : (vhd_read_bitmap src blk).2 = src.bitmaps (src.bat.getD blk DD_BLK_UNUSED) := by
    unfold vhd_read_bitmap at hs0 ⊢
    by_cases hsz : src.bat.getD blk DD_BLK_UNUSED + src.bm_secs ≤ src.size
    · rw [if_pos hsz]
    · rw [if_neg hsz] at hs0; simp [ EIO] at hs0
  have hdb : d.2 = entry_bitmap dst blk := by
    have hd0 : d.1 = 0 := by simpa using c5
    rw [← hdd] at hd0 ⊢
    unfold entry_bitmap
    split
    · rfl
    · rename_i hne
      rw [if_neg hne] at hd0
      unfold vhd_read_bitmap at hd0 ⊢
      by_cases hsz : dst.bat.getD blk DD_BLK_UNUSED + dst.bm_secs ≤ dst.size
      · rw [if_pos hsz]
      · rw [if_neg hsz] at hd0; simp [ EIO] at hd0
  rw [hs0, hsb, hdb] at h
  cases hsc : scan_block src.spb (copy_pred (src.bitmaps (src.bat.getD blk DD_BLK_UNUSED))
      (entry_bitmap dst blk))
      (fun st i cnt => some (vhd_util_stream_transfer_sectors src st blk i cnt)) 0 dst with
  | none => rw [hsc] at h; simp at h
  | some res =>
    rw [hsc] at h
    simp only [Option.map_some'] at h
    cases Option.some.inj h
    obtain ⟨h1, h2, h3, h4⟩ := scan_block_transferred _ _ _ _ _ (fun _ _ _ => ⟨_, rfl⟩) hsc he
    refine ⟨h1, ?_, transfers_ok_mono _ _
      (fun st i cnt m hx => transfer_is_write_run src st blk i cnt m hx) _ _ _ h3, h4⟩
    intro i
    rw [h2 i]
    simp only [copy_pred, Bool.and_eq_true, Bool.not_eq_true']
    constructor
    · rintro ⟨a, b, c⟩; exact ⟨hal, hb', a, b, c⟩
    · rintro ⟨-, -, a, b, c⟩; exact ⟨a, b, c⟩

end StreamCoalesce
end Blktap

namespace Blktap
namespace StreamCoalesce

/-- C5: let `vhd_util_stream_copy_block(src, dst, blk)` return 0 for a block
inside the source (a call that returns 0 has found equal block sizes and the
block inside the destination).  The sectors it hands to transfers are, each
once, exactly the `i < spb` whose bit is set in the source bitmap and clear
in the destination bitmap as on entry (all zero for an unallocated
destination block), and there are none when the source block is
unallocated or the destination batmap has the bit of `blk` set.  The
destination is left as by the writes of the transferred runs, the sector
`i` of the block going to destination sector `blk * spb + i`. -/
theorem copy_block_transfers (src dst : vhd_context_t) (blk : Nat) (r : copy_result)
    (hsrc : blk * src.header.block_size ≤ src.footer.curr_size)
    (h : vhd_util_stream_copy_block src dst blk = some r) (he : r.err = 0) :
    (transferred r.runs).Nodup ∧
    (∀ i, i ∈ transferred r.runs ↔
      (src.bat.getD blk DD_BLK_UNUSED ≠ DD_BLK_UNUSED ∧ vhd_batmap_set dst blk = false ∧
        i < src.spb ∧ src.bitmaps (src.bat.getD blk DD_BLK_UNUSED) i = true ∧
        entry_bitmap dst blk i = false)) ∧
    transfers_ok (write_run src blk) (r.runs.filter (fun t => t.copy)) dst r.dst :=
  ⟨(copy_block_transfers_core src dst blk r hsrc h he).1,
    (copy_block_transfers_core src dst blk r hsrc h he).2.1,
    (copy_block_transfers_core src dst blk r hsrc h he).2.2.1⟩

/-- C5 witness: the copy of block 0 of image C into the fresh output. -/
theorem copy_block_transfers_witness :
    ∃ r, vhd_util_stream_copy_block disk_C disk_out 0 = some r ∧ r.err = 0 ∧
      (transferred r.runs).Nodup ∧
      (∀ i, i ∈ transferred r.runs ↔
        (disk_C.bat.getD 0 DD_BLK_UNUSED ≠ DD_BLK_UNUSED ∧ vhd_batmap_set disk_out 0 = false ∧
          i < disk_C.spb ∧ disk_C.bitmaps (disk_C.bat.getD 0 DD_BLK_UNUSED) i = true ∧
          entry_bitmap disk_out 0 i = false)) ∧
      transfers_ok (write_run disk_C 0) (r.runs.filter (fun t => t.copy)) disk_out r.dst :=
  ⟨_, rfl, by decide, copy_block_transfers disk_C disk_out 0 _ (by decide) rfl (by decide)⟩

/-- C7 (amended): on an array ordered by `vhd_util_stream_sort` (head first,
root last), `__vhd_util_stream_coalesce` returns, and it hands the images to
`vhd_util_stream_coalesce_one` in array order, newest to oldest: the images
handed over are an initial part of the chain, the head (newest) image is the
first one handed over once the output is open, and on success all images
have been handed over, the root (oldest) last. -/
theorem coalesce_replays_newest_first (qsort : (Nat → Nat → Int) → List Nat → List Nat)
    (err0 : Nat → Int) (c input : List vhd_context_t) (opened : Int × vhd_context_t)
    (stats : vhd_stream_stats) (hc : is_chain c = true)
    (hnd : (c.map (fun v => v.footer.uuid)).Nodup) (hp : input.Perm c) :
    ∃ res, __vhd_util_stream_coalesce qsort err0 (vhd_util_stream_sort input).2 opened stats
        = some res ∧
      (∃ k, res.calls = (c.map (fun v => v.footer.uuid)).take k) ∧
      (opened.1 = 0 → res.calls.head? = c.head?.map (fun v => v.footer.uuid)) ∧
      (res.err = 0 → res.calls = c.map (fun v => v.footer.uuid) ∧
        res.calls.getLast? = c.getLast?.map (fun v => v.footer.uuid)) := by
  rw [sort_chain_eq c input hc hnd hp]
  have hne : c ≠ [] := by
    intro h; rw [h] at hc; simp [is_chain] at hc
  unfold __vhd_util_stream_coalesce
  by_cases ho : opened.1 ≠ 0
  · rw [if_pos ho]
    exact ⟨_, rfl, ⟨0, by simp⟩, fun h => absurd h ho, fun h => absurd h ho⟩
  · rw [if_neg ho]
    dsimp only
    obtain ⟨res, h1, ⟨k, h2⟩, h3, h4⟩ := coalesce_loop_calls qsort err0 c 0
      ⟨opened.1, opened.2,
        if stats.display then
          { ({ stats with total := stats.total + count_allocated c } : vhd_stream_stats)
            with cur := 0 }
        else { stats with total := stats.total + count_allocated c }, []⟩
    simp only [List.nil_append] at h2 h3 h4
    have h3' := h3 hne
    rw [h1]
    simp only [Option.map_some']
    have hcalls : ∀ x : coalesce_result,
        x = (if res.err = 0 ∧ res.stats.display = true then
          { res with stats := { res.stats with cur := res.stats.total } } else res) →
        x.calls = res.calls ∧ x.err = res.err := by
      intro x hx
      by_cases hd : res.err = 0 ∧ res.stats.display = true
      · rw [if_pos hd] at hx; rw [hx]; exact ⟨rfl, rfl⟩
      · rw [if_neg hd] at hx; rw [hx]; exact ⟨rfl, rfl⟩
    refine ⟨_, rfl, ?_, ?_, ?_⟩
    · exact ⟨k, by rw [(hcalls _ rfl).1, h2]⟩
    · intro _
      rw [(hcalls _ rfl).1]
      have hk : k ≠ 0 := by
        intro hk0; rw [hk0] at h2; exact h3' (by simpa using h2)
      rw [h2]
      cases c with
      | nil => exact absurd rfl hne
      | cons a t =>
        cases k with
        | zero => exact absurd rfl hk
        | succ k' => simp
    · intro he
      rw [(hcalls _ rfl).2] at he
      rw [(hcalls _ rfl).1, h4 (Or.inl he)]
      exact ⟨rfl, by simp [List.getLast?_map]⟩

/-- C7 witness: the chain [C, R] supplied as [R, C]. -/
theorem coalesce_replays_newest_first_witness :
    ∃ res, __vhd_util_stream_coalesce insertion_sort (fun _ => 0)
        (vhd_util_stream_sort [disk_R, disk_C]).2 (0, disk_out) default = some res ∧
      (∃ k, res.calls = ([disk_C, disk_R].map (fun v => v.footer.uuid)).take k) ∧
      (((0 : Int), disk_out).1 = 0 →
        res.calls.head? = [disk_C, disk_R].head?.map (fun v => v.footer.uuid)) ∧
      (res.err = 0 → res.calls = [disk_C, disk_R].map (fun v => v.footer.uuid) ∧
        res.calls.getLast? = [disk_C, disk_R].getLast?.map (fun v => v.footer.uuid)) :=
  coalesce_replays_newest_first insertion_sort (fun _ => 0) [disk_C, disk_R] [disk_R, disk_C]
    (0, disk_out) default (by decide) (by decide) (List.Perm.swap disk_C disk_R [])

/-- C7 counterexample: for the chain [C, R] supplied as [R, C] and sorted,
the first image handed to `vhd_util_stream_coalesce_one` is the head C and
the last is the root R, not the other way round. -/
theorem coalesce_first_call_is_head :
    ∃ res, __vhd_util_stream_coalesce insertion_sort (fun _ => 0)
        (vhd_util_stream_sort [disk_R, disk_C]).2 (0, disk_out) default = some res ∧
      res.err = 0 ∧ res.calls = [disk_C.footer.uuid, disk_R.footer.uuid] ∧
      ¬ (res.calls.head? = some disk_R.footer.uuid ∧
          res.calls.getLast? = some disk_C.footer.uuid) :=
  ⟨_, rfl, by decide, by decide, by decide⟩

end StreamCoalesce
end Blktap

namespace Blktap

theorem p2v_shift_or (p v : Nat) (hv : v < 2 ^ 32) : ((p <<< 32) ||| v) >>> 32 = p := by
  apply Nat.eq_of_testBit_eq
  intro i
  rw [Nat.testBit_shiftRight, Nat.testBit_or, Nat.testBit_shiftLeft]
  have h1 : v.testBit (32 + i) = false := by
    apply Nat.testBit_lt_two_pow
    calc v < 2 ^ 32 := hv
      _ ≤ 2 ^ (32 + i) := Nat.pow_le_pow_right (by decide) (by omega)
  simp [h1]

theorem p2v_and_mask (p v : Nat) (hv : v < 2 ^ 32) : ((p <<< 32) ||| v) &&& (2 ^ 32 - 1) = v := by
  rw [Nat.and_pow_two_sub_one_eq_mod, Nat.shiftLeft_eq, Nat.mul_comm]
  apply Nat.eq_of_testBit_eq
  intro i
  rw [Nat.testBit_mod_two_pow, Nat.testBit_or, Nat.testBit_mul_pow_two]
  by_cases hi : i < 32
  · simp [hi]
  · simp only [hi, decide_False, Bool.false_and]
    symm
    apply Nat.testBit_lt_two_pow
    calc v < 2 ^ 32 := hv
      _ ≤ 2 ^ i := Nat.pow_le_pow_right (by decide) (by omega)

theorem p2v_physical_entry (p v : Nat) (hp : p < 2 ^ 32) (hv : v < 2 ^ 32) :
    StreamCoalesce.p2v_physical (StreamCoalesce.p2v_entry p v) = p := by
  unfold StreamCoalesce.p2v_physical StreamCoalesce.p2v_entry
  rw [p2v_shift_or p v hv, Nat.mod_eq_of_lt hp]

theorem p2v_virtual_entry (p v : Nat) (hv : v < 2 ^ 32) :
    StreamCoalesce.p2v_virtual (StreamCoalesce.p2v_entry p v) = v := by
  unfold StreamCoalesce.p2v_virtual StreamCoalesce.p2v_entry
  rw [p2v_and_mask p v hv, Nat.mod_eq_of_lt hv]

theorem p2v_compare_le (a b : Nat) :
    StreamCoalesce.p2v_compare a b ≤ 0 ↔
      StreamCoalesce.p2v_physical a ≤ StreamCoalesce.p2v_physical b := by
  unfold StreamCoalesce.p2v_compare
  split
  · rename_i h; simp [h]
  · rename_i h
    split
    · rename_i h2; simp; omega
    · rename_i h2; simp; omega

theorem dm_encrypt_macros :
    DmEncrypt.p2v_compare = StreamCoalesce.p2v_compare ∧
    DmEncrypt.p2v_table = StreamCoalesce.p2v_table ∧
    DmEncrypt.p2v_physical = StreamCoalesce.p2v_physical ∧
    DmEncrypt.p2v_virtual = StreamCoalesce.p2v_virtual :=
  ⟨rfl, rfl, rfl, rfl⟩

theorem mem_p2v_table (bat : List Nat) (hr : bat_in_range bat) (e : Nat)
    (he : e ∈ StreamCoalesce.p2v_table bat) :
    StreamCoalesce.p2v_virtual e < bat.length ∧
    StreamCoalesce.p2v_physical e = bat.getD (StreamCoalesce.p2v_virtual e) DD_BLK_UNUSED := by
  simp only [StreamCoalesce.p2v_table, List.mem_map, List.mem_range] at he
  obtain ⟨i, hi, rfl⟩ := he
  have hi32 : i < 2 ^ 32 := by have := hr.1; omega
  have hb : bat.getD i DD_BLK_UNUSED < 2 ^ 32 := by
    rw [List.getD_eq_getElem _ _ hi]
    exact hr.2 _ (List.getElem_mem _)
  rw [p2v_virtual_entry _ _ hi32, p2v_physical_entry _ _ hb hi32]
  exact ⟨hi, rfl⟩

theorem processing_order_table (bat : List Nat) (hr : bat_in_range bat) :
    processing_order (StreamCoalesce.p2v_table bat) = allocated_blocks bat := by
  unfold processing_order allocated_blocks StreamCoalesce.p2v_table
  rw [List.filter_map, List.map_map]
  have hf : ∀ i ∈ List.range bat.length,
      ((fun e => decide (StreamCoalesce.p2v_physical e ≠ DD_BLK_UNUSED)) ∘
        (fun i => StreamCoalesce.p2v_entry (bat.getD i DD_BLK_UNUSED) i)) i =
      decide (bat.getD i DD_BLK_UNUSED ≠ DD_BLK_UNUSED) := by
    intro i hi
    have hi' : i < bat.length := List.mem_range.1 hi
    have hi32 : i < 2 ^ 32 := by have := hr.1; omega
    have hb : bat.getD i DD_BLK_UNUSED < 2 ^ 32 := by
      rw [List.getD_eq_getElem _ _ hi']
      exact hr.2 _ (List.getElem_mem _)
    simp only [Function.comp, p2v_physical_entry _ _ hb hi32]
  rw [List.filter_congr hf]
  conv => rhs; rw [← List.map_id (List.filter _ _)]
  apply List.map_congr_left
  intro i hi
  have hi' : i < bat.length := List.mem_range.1 (List.mem_filter.1 hi).1
  have hi32 : i < 2 ^ 32 := by have := hr.1; omega
  simp only [Function.comp, id, p2v_virtual_entry _ _ hi32]

/-- The order given by any sort that meets the contract: a rearrangement of
the allocated blocks, by ascending BAT entry. -/
theorem processing_order_sorted (qsort : (Nat → Nat → Int) → List Nat → List Nat)
    (hq : qsort_contract qsort StreamCoalesce.p2v_compare) (bat : List Nat)
    (hr : bat_in_range bat) :
    (processing_order (qsort StreamCoalesce.p2v_compare (StreamCoalesce.p2v_table bat))).Perm
      (allocated_blocks bat) ∧
    (processing_order (qsort StreamCoalesce.p2v_compare (StreamCoalesce.p2v_table bat))).Pairwise
      (fun b1 b2 => bat.getD b1 DD_BLK_UNUSED ≤ bat.getD b2 DD_BLK_UNUSED) := by
  obtain ⟨hperm, hsorted⟩ := hq (StreamCoalesce.p2v_table bat)
  constructor
  · rw [← processing_order_table bat hr]
    exact (hperm.filter _).map _
  · unfold processing_order
    rw [List.pairwise_map]
    apply List.Pairwise.filter
    apply hsorted.imp_of_mem
    intro a b ha hb hab
    have ha' := mem_p2v_table bat hr a (hperm.mem_iff.1 ha)
    have hb' := mem_p2v_table bat hr b (hperm.mem_iff.1 hb)
    rw [← ha'.2, ← hb'.2]
    exact (p2v_compare_le a b).1 hab

theorem sorted_insert_perm (cmp : Nat → Nat → Int) (x : Nat) (l : List Nat) :
    (sorted_insert cmp x l).Perm (x :: l) := by
  induction l with
  | nil => exact List.Perm.refl _
  | cons y ys ih =>
    simp only [sorted_insert]
    split
    · exact List.Perm.refl _
    · exact (ih.cons y).trans (List.Perm.swap x y ys)

theorem insertion_sort_perm (cmp : Nat → Nat → Int) (l : List Nat) :
    (insertion_sort cmp l).Perm l := by
  induction l with
  | nil => exact List.Perm.refl _
  | cons x xs ih =>
    simp only [insertion_sort]
    exact (sorted_insert_perm cmp x _).trans (ih.cons x)

theorem sorted_insert_pairwise (cmp : Nat → Nat → Int) (key : Nat → Nat)
    (hk : ∀ a b, cmp a b ≤ 0 ↔ key a ≤ key b) (x : Nat) (l : List Nat)
    (hl : l.Pairwise (fun a b => cmp a b ≤ 0)) :
    (sorted_insert cmp x l).Pairwise (fun a b => cmp a b ≤ 0) := by
  induction l with
  | nil => simp [sorted_insert]
  | cons y ys ih =>
    simp only [sorted_insert]
    rw [List.pairwise_cons] at hl
    split
    · rename_i hxy
      rw [List.pairwise_cons]
      refine ⟨?_, List.pairwise_cons.2 hl⟩
      intro b hb
      rcases List.mem_cons.1 hb with e | m
      · rw [e]; exact hxy
      · have := hl.1 b m
        rw [hk] at this hxy ⊢
        omega
    · rename_i hxy
      rw [List.pairwise_cons]
      refine ⟨?_, ih hl.2⟩
      intro b hb
      rcases List.mem_cons.1 ((sorted_insert_perm cmp x ys).mem_iff.1 hb) with e | m
      · rw [e]
        rw [hk] at hxy ⊢
        omega
      · exact hl.1 b m

theorem insertion_sort_pairwise (cmp : Nat → Nat → Int) (key : Nat → Nat)
    (hk : ∀ a b, cmp a b ≤ 0 ↔ key a ≤ key b) (l : List Nat) :
    (insertion_sort cmp l).Pairwise (fun a b => cmp a b ≤ 0) := by
  induction l with
  | nil => simp [insertion_sort]
  | cons x xs ih =>
    simp only [insertion_sort]
    exact sorted_insert_pairwise cmp key hk x _ ih

/-- Insertion sort meets the contract of `qsort` for `p2v_compare`. -/
theorem insertion_sort_contract :
    qsort_contract insertion_sort StreamCoalesce.p2v_compare :=
  fun l => ⟨insertion_sort_perm _ l,
    insertion_sort_pairwise _ StreamCoalesce.p2v_physical p2v_compare_le l⟩

namespace DmEncrypt

theorem encrypt_copy_block_returns (src : vhd_context_t) (st : copy_state) (blk : Nat) :
    ∃ r, vhd_util_stream_copy_block src st blk = some r := by
  unfold vhd_util_stream_copy_block
  by_cases c1 : src.bat.getD blk DD_BLK_UNUSED = DD_BLK_UNUSED
  · rw [if_pos c1]; exact ⟨_, rfl⟩
  rw [if_neg c1]
  dsimp only
  by_cases c2 : (vhd_read_bitmap src blk).1 ≠ 0
  · rw [if_pos c2]; exact ⟨_, rfl⟩
  rw [if_neg c2]
  obtain ⟨res, -, h, -⟩ := scan_loop_spec src.spb (vhd_read_bitmap src blk).2
    (fun s i cnt => some (vhd_util_stream_transfer_sectors src s blk i cnt))
    (fun _ _ _ => ⟨_, rfl⟩) src.spb 0 (vhd_read_bitmap src blk).1
    ⟨st.fd, false, st.reads ++ [(src.bat.getD blk DD_BLK_UNUSED, src.bm_secs)]⟩ []
    (Nat.zero_le _) (by omega)
  rw [scan_block, h]
  dsimp only
  split
  · exact ⟨_, rfl⟩
  split
  · exact ⟨_, rfl⟩
  · exact ⟨_, rfl⟩

theorem encrypt_blocks_order (src : vhd_context_t) (l : List Nat) (s : encrypt_state) :
    ∃ res, encrypt_blocks src l s = some res ∧
      (∃ k, res.blocks = s.blocks ++ (processing_order l).take k) ∧
      (res.err = 0 → res.blocks = s.blocks ++ processing_order l) := by
  induction l generalizing s with
  | nil => exact ⟨s, rfl, ⟨0, by simp⟩, fun _ => by simp [processing_order]⟩
  | cons e rest ih =>
    simp only [encrypt_blocks]
    by_cases hp : p2v_physical e ≠ DD_BLK_UNUSED
    · have hp' : StreamCoalesce.p2v_physical e ≠ DD_BLK_UNUSED := hp
      have ho : processing_order (e :: rest) = p2v_virtual e :: processing_order rest := by
        simp only [processing_order, List.filter_cons, hp', ne_eq, not_false_eq_true,
          decide_True, if_true, List.map_cons]
        rfl
      rw [if_pos hp]
      obtain ⟨r, hr⟩ := encrypt_copy_block_returns src s.st (p2v_virtual e)
      rw [hr]
      dsimp only
      by_cases he : r.err ≠ 0
      · rw [if_pos he]
        exact ⟨_, rfl, ⟨1, by simp [ho]⟩, fun h => absurd h he⟩
      · rw [if_neg he]
        obtain ⟨res, h1, ⟨k, h2⟩, h3⟩ := ih ⟨r.err, r.st, s.blocks ++ [p2v_virtual e]⟩
        exact ⟨res, h1, ⟨k + 1, by simp [h2, ho]⟩, fun h => by simp [h3 h, ho]⟩
    · rw [if_neg hp]
      have hp' : ¬ StreamCoalesce.p2v_physical e ≠ DD_BLK_UNUSED := hp
      have ho : processing_order (e :: rest) = processing_order rest := by
        simp only [processing_order, List.filter_cons, hp', decide_False]
        rfl
      rw [ho]
      exact ih s

end DmEncrypt

namespace StreamCoalesce

theorem coalesce_blocks_order (src : vhd_context_t) (l : List Nat) (s : coalesce_state) :
    ∃ res, coalesce_blocks src l s = some res ∧
      (∃ k, res.blocks = s.blocks ++ (processing_order l).take k) ∧
      (res.err = 0 → res.blocks = s.blocks ++ processing_order l) := by
  induction l generalizing s with
  | nil => exact ⟨s, rfl, ⟨0, by simp⟩, fun _ => by simp [processing_order]⟩
  | cons e rest ih =>
    simp only [coalesce_blocks]
    by_cases hp : p2v_physical e ≠ DD_BLK_UNUSED
    · have ho : processing_order (e :: rest) = p2v_virtual e :: processing_order rest := by
        simp only [processing_order, List.filter_cons, hp, ne_eq, not_false_eq_true,
          decide_True, if_true, List.map_cons]
      rw [if_pos hp]
      obtain ⟨r, hr⟩ := copy_block_returns src s.dst (p2v_virtual e)
      rw [hr]
      dsimp only
      by_cases he : r.err ≠ 0
      · rw [if_pos he]
        exact ⟨_, rfl, ⟨1, by simp [ho]⟩, fun h => absurd h he⟩
      · rw [if_neg he]
        obtain ⟨res, h1, ⟨k, h2⟩, h3⟩ := ih
          ⟨r.err, r.dst, { s.stats with cur := s.stats.cur + 1 }, s.blocks ++ [p2v_virtual e]⟩
        exact ⟨res, h1, ⟨k + 1, by simp [h2, ho]⟩, fun h => by simp [h3 h, ho]⟩
    · rw [if_neg hp]
      have ho : processing_order (e :: rest) = processing_order rest := by
        simp only [processing_order, List.filter_cons, hp, decide_False]
        rfl
      rw [ho]
      exact ih s

end StreamCoalesce

end Blktap

namespace Blktap

/-- C9 (amended): with any `qsort` that meets its contract, on a source
whose BAT holds 32-bit values, `__vhd_util_dm_encrypt`, once it has opened
its output, and `vhd_util_stream_coalesce_one` return and hand the source
blocks to `vhd_util_stream_copy_block` in ascending order of physical
offset: the order is a rearrangement of the allocated blocks (unallocated
entries are skipped) along which the BAT entries never decrease, the blocks
handed over are an initial part of it, and all of it on success.
`p2v_compare` orders two entries by their physical offsets alone and reports
entries with equal physical offsets as equal. -/
theorem blocks_processed_by_physical_offset
    (qsort : (Nat → Nat → Int) → List Nat → List Nat)
    (hq : qsort_contract qsort StreamCoalesce.p2v_compare)
    (src : vhd_context_t) (hr : bat_in_range src.bat) (err0 : Int) (opened : Int × raw_dev)
    (ho : opened.1 = 0) (dst : vhd_context_t) (stats : StreamCoalesce.vhd_stream_stats) :
    (processing_order (qsort StreamCoalesce.p2v_compare (StreamCoalesce.p2v_table src.bat))).Perm
      (allocated_blocks src.bat) ∧
    (processing_order (qsort StreamCoalesce.p2v_compare (StreamCoalesce.p2v_table src.bat))).Pairwise
      (fun b1 b2 => src.bat.getD b1 DD_BLK_UNUSED ≤ src.bat.getD b2 DD_BLK_UNUSED) ∧
    (∃ res, DmEncrypt.__vhd_util_dm_encrypt qsort err0 src opened = some res ∧
      (∃ k, res.blocks = (processing_order
        (qsort StreamCoalesce.p2v_compare (StreamCoalesce.p2v_table src.bat))).take k) ∧
      (res.err = 0 → res.blocks = processing_order
        (qsort StreamCoalesce.p2v_compare (StreamCoalesce.p2v_table src.bat)))) ∧
    (∃ res, StreamCoalesce.vhd_util_stream_coalesce_one qsort err0 src dst stats = some res ∧
      (∃ k, res.blocks = (processing_order
        (qsort StreamCoalesce.p2v_compare (StreamCoalesce.p2v_table src.bat))).take k) ∧
      (res.err = 0 → res.blocks = processing_order
        (qsort StreamCoalesce.p2v_compare (StreamCoalesce.p2v_table src.bat)))) ∧
    (∀ a b, (DmEncrypt.p2v_compare a b < 0 ↔ DmEncrypt.p2v_physical a < DmEncrypt.p2v_physical b) ∧
      (DmEncrypt.p2v_compare a b = 0 ↔ DmEncrypt.p2v_physical a = DmEncrypt.p2v_physical b)) ∧
    (∀ a b, (StreamCoalesce.p2v_compare a b < 0 ↔
        StreamCoalesce.p2v_physical a < StreamCoalesce.p2v_physical b) ∧
      (StreamCoalesce.p2v_compare a b = 0 ↔
        StreamCoalesce.p2v_physical a = StreamCoalesce.p2v_physical b)) := by
  have hcmp : ∀ a b, (StreamCoalesce.p2v_compare a b < 0 ↔
        StreamCoalesce.p2v_physical a < StreamCoalesce.p2v_physical b) ∧
      (StreamCoalesce.p2v_compare a b = 0 ↔
        StreamCoalesce.p2v_physical a = StreamCoalesce.p2v_physical b) := by
    intro a b
    unfold StreamCoalesce.p2v_compare
    by_cases h1 : StreamCoalesce.p2v_physical a = StreamCoalesce.p2v_physical b
    · simp [h1]
    · by_cases h2 : StreamCoalesce.p2v_physical a < StreamCoalesce.p2v_physical b
      · simp [h1, h2]
      · simp [h1, h2]
  obtain ⟨hp, hs⟩ := processing_order_sorted qsort hq src.bat hr
  refine ⟨hp, hs, ?_, ?_, hcmp, hcmp⟩
  · unfold DmEncrypt.__vhd_util_dm_encrypt
    rw [if_neg (not_not.mpr ho)]
    obtain ⟨res, h1, ⟨k, h2⟩, h3⟩ := DmEncrypt.encrypt_blocks_order src
      (qsort DmEncrypt.p2v_compare (DmEncrypt.p2v_table src.bat))
      ⟨err0, ⟨opened.2, false, []⟩, []⟩
    exact ⟨res, h1, ⟨k, by simpa using h2⟩, fun h => by simpa using h3 h⟩
  · unfold StreamCoalesce.vhd_util_stream_coalesce_one
    obtain ⟨res, h1, ⟨k, h2⟩, h3⟩ := StreamCoalesce.coalesce_blocks_order src
      (qsort StreamCoalesce.p2v_compare (StreamCoalesce.p2v_table src.bat))
      ⟨err0, dst, stats, []⟩
    exact ⟨res, h1, ⟨k, by simpa using h2⟩, fun h => by simpa using h3 h⟩

/-- C9 witness: the image whose block 1 lies before its block 0 on disk,
copied to a device of 16 sectors that opens. -/
theorem blocks_processed_by_physical_offset_witness :
    (processing_order (insertion_sort StreamCoalesce.p2v_compare
      (StreamCoalesce.p2v_table disk_S.bat))).Perm (allocated_blocks disk_S.bat) ∧
    (processing_order (insertion_sort StreamCoalesce.p2v_compare
      (StreamCoalesce.p2v_table disk_S.bat))).Pairwise
      (fun b1 b2 => disk_S.bat.getD b1 DD_BLK_UNUSED ≤ disk_S.bat.getD b2 DD_BLK_UNUSED) ∧
    (∃ res, DmEncrypt.__vhd_util_dm_encrypt insertion_sort 0 disk_S (0, dev_16) = some res ∧
      (∃ k, res.blocks = (processing_order
        (insertion_sort StreamCoalesce.p2v_compare (StreamCoalesce.p2v_table disk_S.bat))).take k) ∧
      (res.err = 0 → res.blocks = processing_order
        (insertion_sort StreamCoalesce.p2v_compare (StreamCoalesce.p2v_table disk_S.bat)))) ∧
    (∃ res, StreamCoalesce.vhd_util_stream_coalesce_one insertion_sort 0 disk_S disk_out default
        = some res ∧
      (∃ k, res.blocks = (processing_order
        (insertion_sort StreamCoalesce.p2v_compare (StreamCoalesce.p2v_table disk_S.bat))).take k) ∧
      (res.err = 0 → res.blocks = processing_order
        (insertion_sort StreamCoalesce.p2v_compare (StreamCoalesce.p2v_table disk_S.bat)))) ∧
    (∀ a b, (DmEncrypt.p2v_compare a b < 0 ↔ DmEncrypt.p2v_physical a < DmEncrypt.p2v_physical b) ∧
      (DmEncrypt.p2v_compare a b = 0 ↔ DmEncrypt.p2v_physical a = DmEncrypt.p2v_physical b)) ∧
    (∀ a b, (StreamCoalesce.p2v_compare a b < 0 ↔
        StreamCoalesce.p2v_physical a < StreamCoalesce.p2v_physical b) ∧
      (StreamCoalesce.p2v_compare a b = 0 ↔
        StreamCoalesce.p2v_physical a = StreamCoalesce.p2v_physical b)) :=
  blocks_processed_by_physical_offset insertion_sort insertion_sort_contract disk_S
    ⟨by decide, by decide⟩ 0 (0, dev_16) rfl disk_out default

/-- C9 counterexample: two entries with the same physical part (here two
unallocated entries, of blocks 1 and 0) compare equal in both files although
their logical indices differ: the logical index takes no part in the order. -/
theorem p2v_compare_ignores_logical_index :
    DmEncrypt.p2v_physical (DmEncrypt.p2v_entry DD_BLK_UNUSED 1) =
      DmEncrypt.p2v_physical (DmEncrypt.p2v_entry DD_BLK_UNUSED 0) ∧
    DmEncrypt.p2v_virtual (DmEncrypt.p2v_entry DD_BLK_UNUSED 0) <
      DmEncrypt.p2v_virtual (DmEncrypt.p2v_entry DD_BLK_UNUSED 1) ∧
    DmEncrypt.p2v_compare (DmEncrypt.p2v_entry DD_BLK_UNUSED 1)
      (DmEncrypt.p2v_entry DD_BLK_UNUSED 0) = 0 ∧
    StreamCoalesce.p2v_compare (StreamCoalesce.p2v_entry DD_BLK_UNUSED 1)
      (StreamCoalesce.p2v_entry DD_BLK_UNUSED 0) = 0 := by
  decide

end Blktap

namespace Blktap
namespace StreamCoalesce

/-! ### What the output holds after a copy -/

/-- The writes of a list of runs of one block, all successful: the sectors
of the runs read back with the content the source holds for them, everything
else reads as before. -/
theorem transfers_read (src : vhd_context_t) (blk : Nat) (T : List scan_run)
    (d d' : vhd_context_t) (hok : store_ok d) (hblk : blk < d.bat.length)
    (hspb : src.spb = d.spb)
    (hrange : T ≠ [] → src.bat.getD blk DD_BLK_UNUSED + src.bm_secs + src.spb ≤ 2 ^ 32)
    (hT : ∀ t ∈ T, 1 ≤ t.cnt ∧ t.sec + t.cnt ≤ src.spb)
    (h : transfers_ok (write_run src blk) T d d') :
    same_geometry d d' ∧ store_ok d' ∧
    (∀ b s, b < d.bat.length → s < d.spb →
      vhd_read_sector d' b s =
        if b = blk ∧ s ∈ T.flatMap (fun t => List.range' t.sec t.cnt) then
          some (src.sectors (src.bat.getD blk DD_BLK_UNUSED + src.bm_secs + s))
        else vhd_read_sector d b s) := by
  induction T generalizing d with
  | nil =>
    simp only [transfers_ok] at h
    subst h
    exact ⟨same_geometry_refl _, hok, fun b s _ _ => by simp⟩
  | cons t rest ih =>
    obtain ⟨m, hw, hrest⟩ := h
    have hr := hrange (by simp)
    obtain ⟨ht1, ht2⟩ := hT t (List.mem_cons_self _ _)
    simp only [write_run, Option.some.injEq] at hw
    obtain ⟨g1, ok1, rd1⟩ := io_write_spec _ blk t.sec t.cnt d m hok hblk (by omega) hw
    obtain ⟨gs, gb, gl, gh, gf⟩ := g1
    obtain ⟨g2, ok2, rd2⟩ := ih m ok1 (by rw [gl]; exact hblk) (by rw [gs]; exact hspb)
      (fun _ => hr) (fun x hx => hT x (List.mem_cons_of_mem _ hx)) hrest
    refine ⟨same_geometry_trans _ _ _ ⟨gs, gb, gl, gh, gf⟩ g2, ok2, ?_⟩
    intro b s hb hs
    rw [rd2 b s (by rw [gl]; exact hb) (by rw [gs]; exact hs), rd1 b s hb hs]
    simp only [List.flatMap_cons, List.mem_append, List.mem_range'_1]
    by_cases hbb : b = blk
    · by_cases h2 : s ∈ rest.flatMap (fun t => List.range' t.sec t.cnt)
      · rw [if_pos ⟨hbb, h2⟩, if_pos ⟨hbb, Or.inr h2⟩]
      · rw [if_neg (fun h => h2 h.2)]
        by_cases h1 : t.sec ≤ s ∧ s < t.sec + t.cnt
        · rw [if_pos ⟨hbb, h1⟩, if_pos ⟨hbb, Or.inl h1⟩]
          congr 2
          rw [Nat.mod_eq_of_lt (by omega)]
          omega
        · rw [if_neg (fun h => h1 h.2), if_neg (fun h => by
            rcases h.2 with h | h
            · exact h1 h
            · exact h2 h)]
    · rw [if_neg (fun h => hbb h.1), if_neg (fun h => hbb h.1), if_neg (fun h => hbb h.1)]

theorem copy_block_checks (src dst : vhd_context_t) (blk : Nat) (r : copy_result)
    (h : vhd_util_stream_copy_block src dst blk = some r) (he : r.err = 0) :
    src.header.block_size = dst.header.block_size ∧
    blk * dst.header.block_size ≤ dst.footer.curr_size := by
  unfold vhd_util_stream_copy_block at h
  by_cases c1 : src.header.block_size ≠ dst.header.block_size
  · rw [if_pos c1] at h; cases Option.some.inj h; simp [EINVAL] at he
  rw [if_neg c1] at h
  by_cases c2 : blk * dst.header.block_size > dst.footer.curr_size
  · rw [if_pos c2] at h; cases Option.some.inj h; simp [EINVAL] at he
  exact ⟨by simpa using c1, by omega⟩

/-- A block copy that returns 0: the block of the destination holds what it
held, and where it held nothing what the source holds; the other blocks are
as before. -/
theorem copy_block_reads (src dst : vhd_context_t) (blk : Nat) (r : copy_result)
    (hok : store_ok dst) (hblk : blk < dst.bat.length) (hspb : src.spb = dst.spb)
    (hcap : src.footer.curr_size = dst.footer.curr_size)
    (hrange : src.bat.getD blk DD_BLK_UNUSED ≠ DD_BLK_UNUSED →
      src.bat.getD blk DD_BLK_UNUSED + src.bm_secs + src.spb ≤ 2 ^ 32)
    (h : vhd_util_stream_copy_block src dst blk = some r) (he : r.err = 0) :
    same_geometry dst r.dst ∧ store_ok r.dst ∧
    (∀ b s, b < dst.bat.length → s < dst.spb →
      vhd_read_sector r.dst b s =
        if b = blk then (vhd_read_sector dst blk s).or (vhd_read_sector src blk s)
        else vhd_read_sector dst b s) := by
  obtain ⟨hbs, hin⟩ := copy_block_checks src dst blk r h he
  obtain ⟨-, hmem, htr, hruns⟩ := copy_block_transfers_core src dst blk r
    (by rw [hbs, hcap]; exact hin) h he
  have hT : ∀ t ∈ r.runs.filter (fun t => t.copy), 1 ≤ t.cnt ∧ t.sec + t.cnt ≤ src.spb :=
    fun t ht => hruns t (List.mem_filter.1 ht).1
  have halloc : r.runs.filter (fun t => t.copy) ≠ [] →
      src.bat.getD blk DD_BLK_UNUSED ≠ DD_BLK_UNUSED := by
    intro hne
    obtain ⟨t, ht⟩ := List.exists_mem_of_ne_nil _ hne
    have : t.sec ∈ transferred r.runs := by
      rw [mem_transferred]
      have hh := List.mem_filter.1 ht
      exact ⟨t, hh.1, hh.2, Nat.le_refl _, by have := (hT t ht).1; omega⟩
    exact ((hmem _).1 this).1
  obtain ⟨g, ok, rd⟩ := transfers_read src blk _ dst r.dst hok hblk hspb
    (fun hne => hrange (halloc hne)) hT htr
  refine ⟨g, ok, ?_⟩
  intro b s hb hs
  rw [rd b s hb hs]
  by_cases hbb : b = blk
  · subst hbb
    rw [if_pos rfl]
    have hmem' : s ∈ (r.runs.filter (fun t => t.copy)).flatMap
        (fun t => List.range' t.sec t.cnt) ↔ s ∈ transferred r.runs := Iff.rfl
    by_cases hin : s ∈ transferred r.runs
    · rw [if_pos ⟨rfl, hmem'.2 hin⟩]
      obtain ⟨ha, -, -, hsb, hdb⟩ := (hmem s).1 hin
      have hdn : vhd_read_sector dst b s = none := by
        unfold vhd_read_sector
        unfold entry_bitmap at hdb
        by_cases hdu : dst.bat.getD b DD_BLK_UNUSED = DD_BLK_UNUSED
        · rw [if_pos hdu]
        · rw [if_neg hdu] at hdb ⊢
          rw [hdb]
          simp
      rw [hdn]
      unfold vhd_read_sector
      rw [if_neg ha, hsb]
      simp
    · rw [if_neg (fun h => hin (hmem'.1 h.2))]
      by_cases hd : vhd_read_sector dst b s = none
      · -- the destination holds nothing: neither does the source
        rw [hd]
        have hsn : vhd_read_sector src b s = none := by
          by_contra hsome
          apply hin
          rw [hmem]
          have hsu : src.bat.getD b DD_BLK_UNUSED ≠ DD_BLK_UNUSED := by
            intro hu; apply hsome; unfold vhd_read_sector; rw [if_pos hu]
          have hsb : src.bitmaps (src.bat.getD b DD_BLK_UNUSED) s = true := by
            by_contra hbit
            apply hsome; unfold vhd_read_sector
            rw [if_neg hsu, if_neg hbit]
          refine ⟨hsu, ?_, by rw [hspb]; exact hs, hsb, ?_⟩
          · by_contra hset
            have hset' : vhd_batmap_set dst b = true := by simpa using hset
            obtain ⟨h1, h2⟩ := hok.2 b hb hset'
            have := h2 s hs
            unfold vhd_read_sector at hd
            rw [if_neg h1, this] at hd
            simp at hd
          · unfold entry_bitmap
            by_cases hdu : dst.bat.getD b DD_BLK_UNUSED = DD_BLK_UNUSED
            · rw [if_pos hdu]
            · rw [if_neg hdu]
              unfold vhd_read_sector at hd
              rw [if_neg hdu] at hd
              by_contra hbit
              have : dst.bitmaps (dst.bat.getD b DD_BLK_UNUSED) s = true := by simpa using hbit
              rw [this] at hd
              simp at hd
        rw [hsn]
        rfl
      · obtain ⟨x, hx⟩ := Option.ne_none_iff_exists'.1 hd
        rw [hx]
        rfl
  · rw [if_neg (fun h => hbb h.1), if_neg hbb]

theorem or_or_self (a c : Option Nat) : (a.or c).or c = a.or c := by
  cases a <;> cases c <;> rfl

theorem or_assoc' (a b c : Option Nat) : (a.or b).or c = a.or (b.or c) := by
  cases a <;> cases b <;> cases c <;> rfl

theorem coalesce_blocks_reads (src : vhd_context_t) (l : List Nat) (st res : coalesce_state)
    (hok : store_ok st.dst) (hsh : same_shape src st.dst)
    (hl : ∀ e ∈ l, p2v_virtual e < src.bat.length)
    (hrange : ∀ b, b < src.bat.length → src.bat.getD b DD_BLK_UNUSED ≠ DD_BLK_UNUSED →
      src.bat.getD b DD_BLK_UNUSED + src.bm_secs + src.spb ≤ 2 ^ 32)
    (h : coalesce_blocks src l st = some res) (he : res.err = 0) :
    same_geometry st.dst res.dst ∧ store_ok res.dst ∧
    (∀ b s, b < st.dst.bat.length → s < st.dst.spb →
      vhd_read_sector res.dst b s =
        if b ∈ processing_order l then (vhd_read_sector st.dst b s).or (vhd_read_sector src b s)
        else vhd_read_sector st.dst b s) := by
  induction l generalizing st with
  | nil =>
    simp only [coalesce_blocks, Option.some.injEq] at h
    subst h
    exact ⟨same_geometry_refl _, hok, fun b s _ _ => by simp [processing_order]⟩
  | cons e rest ih =>
    obtain ⟨hs1, hs2, hs3⟩ := hsh
    simp only [coalesce_blocks] at h
    by_cases hp : p2v_physical e ≠ DD_BLK_UNUSED
    · have ho : processing_order (e :: rest) = p2v_virtual e :: processing_order rest := by
        simp only [processing_order, List.filter_cons, hp, ne_eq, not_false_eq_true,
          decide_True, if_true, List.map_cons]
      rw [if_pos hp] at h
      cases hc : vhd_util_stream_copy_block src st.dst (p2v_virtual e) with
      | none => rw [hc] at h; simp at h
      | some r =>
        rw [hc] at h
        dsimp only at h
        by_cases hre : r.err ≠ 0
        · rw [if_pos hre] at h
          cases Option.some.inj h
          exact absurd he hre
        · rw [if_neg hre] at h
          have hre0 : r.err = 0 := by simpa using hre
          have hv := hl e (List.mem_cons_self _ _)
          obtain ⟨g1, ok1, rd1⟩ := copy_block_reads src st.dst (p2v_virtual e) r hok
            (by rw [← hs3]; exact hv) hs1 hs2 (hrange _ hv) hc hre0
          obtain ⟨gs, gb, gl, gh, gf⟩ := g1
          obtain ⟨g2, ok2, rd2⟩ := ih
            ⟨r.err, r.dst, { st.stats with cur := st.stats.cur + 1 },
              st.blocks ++ [p2v_virtual e]⟩
            ok1 ⟨by rw [hs1]; exact gs.symm, by rw [hs2, gf], by rw [hs3]; exact gl.symm⟩
            (fun x hx => hl x (List.mem_cons_of_mem _ hx)) h
          refine ⟨same_geometry_trans _ _ _ ⟨gs, gb, gl, gh, gf⟩ g2, ok2, ?_⟩
          intro b s hb hs
          have := rd2 b s (by show b < r.dst.bat.length; rw [gl]; exact hb)
            (by show s < r.dst.spb; rw [gs]; exact hs)
          rw [this, ho]
          simp only [List.mem_cons]
          rw [rd1 b s hb hs]
          by_cases hbe : b = p2v_virtual e
          · subst hbe
            rw [if_pos rfl, if_pos (Or.inl rfl)]
            split
            · exact or_or_self _ _
            · rfl
          · rw [if_neg hbe]
            by_cases hbr : b ∈ processing_order rest
            · rw [if_pos hbr, if_pos (Or.inr hbr)]
            · rw [if_neg hbr, if_neg (fun h => by rcases h with h | h; exact hbe h; exact hbr h)]
    · rw [if_neg hp] at h
      have ho : processing_order (e :: rest) = processing_order rest := by
        simp only [processing_order, List.filter_cons, hp, decide_False]
        rfl
      rw [ho]
      exact ih st hok ⟨hs1, hs2, hs3⟩ (fun x hx => hl x (List.mem_cons_of_mem _ hx)) h

theorem read_unallocated (m : vhd_context_t) (b s : Nat)
    (h : m.bat.getD b DD_BLK_UNUSED = DD_BLK_UNUSED) : vhd_read_sector m b s = none := by
  unfold vhd_read_sector
  rw [if_pos h]

theorem blocks_in_range_getD (m : vhd_context_t) (hr : blocks_in_range m) (b : Nat)
    (hb : b < m.bat.length) (hu : m.bat.getD b DD_BLK_UNUSED ≠ DD_BLK_UNUSED) :
    m.bat.getD b DD_BLK_UNUSED + m.bm_secs + m.spb ≤ 2 ^ 32 := by
  rw [List.getD_eq_getElem _ _ hb] at hu ⊢
  exact hr.2 _ (List.getElem_mem _) hu

/-- One image coalesced into the output with status 0: every sector of the
output holds what it held, and where it held nothing what the image holds. -/
theorem coalesce_one_reads (qsort : (Nat → Nat → Int) → List Nat → List Nat)
    (hq : qsort_contract qsort p2v_compare) (err0 : Int) (src dst : vhd_context_t)
    (stats : vhd_stream_stats) (res : coalesce_state)
    (hok : store_ok dst) (hsh : same_shape src dst) (hr : blocks_in_range src)
    (h : vhd_util_stream_coalesce_one qsort err0 src dst stats = some res)
    (he : res.err = 0) :
    same_geometry dst res.dst ∧ store_ok res.dst ∧
    (∀ b s, b < dst.bat.length → s < dst.spb →
      vhd_read_sector res.dst b s = (vhd_read_sector dst b s).or (vhd_read_sector src b s)) := by
  unfold vhd_util_stream_coalesce_one at h
  obtain ⟨hperm, -⟩ := processing_order_sorted qsort hq src.bat hr.1
  obtain ⟨g, ok, rd⟩ := coalesce_blocks_reads src _ ⟨err0, dst, stats, []⟩ res hok hsh
    (fun e hm => (mem_p2v_table src.bat hr.1 e (((hq _).1).mem_iff.1 hm)).1)
    (fun b hb hu => blocks_in_range_getD src hr b hb hu) h he
  refine ⟨g, ok, fun b s hb hs => ?_⟩
  rw [rd b s hb hs]
  split
  · rfl
  · rename_i hnot
    have hu : src.bat.getD b DD_BLK_UNUSED = DD_BLK_UNUSED := by
      by_contra hne
      apply hnot
      rw [hperm.mem_iff]
      simp only [allocated_blocks, List.mem_filter, List.mem_range, decide_eq_true_eq]
      exact ⟨by rw [hsh.2.2]; exact hb, hne⟩
    rw [read_unallocated src b s hu]
    cases vhd_read_sector dst b s <;> rfl

theorem coalesce_loop_reads (qsort : (Nat → Nat → Int) → List Nat → List Nat)
    (hq : qsort_contract qsort p2v_compare) (err0 : Nat → Int) (vhds : List vhd_context_t)
    (i : Nat) (st res : coalesce_result) (hok : store_ok st.dst)
    (hsh : ∀ m ∈ vhds, same_shape m st.dst ∧ blocks_in_range m)
    (h : coalesce_loop qsort err0 vhds i st = some res) (he : res.err = 0) :
    same_geometry st.dst res.dst ∧ store_ok res.dst ∧
    (∀ b s, b < st.dst.bat.length → s < st.dst.spb →
      vhd_read_sector res.dst b s = (vhd_read_sector st.dst b s).or (chain_read vhds b s)) := by
  induction vhds generalizing i st with
  | nil =>
    simp only [coalesce_loop, Option.some.injEq] at h
    subst h
    refine ⟨same_geometry_refl _, hok, fun b s _ _ => ?_⟩
    simp only [chain_read]
    cases vhd_read_sector st.dst b s <;> rfl
  | cons src rest ih =>
    simp only [coalesce_loop] at h
    cases hc : vhd_util_stream_coalesce_one qsort (err0 i) src st.dst st.stats with
    | none => rw [hc] at h; simp at h
    | some r =>
      rw [hc] at h
      dsimp only at h
      by_cases hre : r.err ≠ 0
      · rw [if_pos hre] at h
        cases Option.some.inj h
        exact absurd he hre
      · rw [if_neg hre] at h
        have hre0 : r.err = 0 := by simpa using hre
        obtain ⟨hs0, hr0⟩ := hsh src (List.mem_cons_self _ _)
        obtain ⟨g1, ok1, rd1⟩ := coalesce_one_reads qsort hq (err0 i) src st.dst st.stats r
          hok hs0 hr0 hc hre0
        obtain ⟨gs, gb, gl, gh, gf⟩ := g1
        obtain ⟨g2, ok2, rd2⟩ := ih (i + 1)
          ⟨r.err, r.dst, r.stats, st.calls ++ [src.footer.uuid]⟩ ok1
          (fun m hm => by
            obtain ⟨⟨a1, a2, a3⟩, a4⟩ := hsh m (List.mem_cons_of_mem _ hm)
            exact ⟨⟨by rw [a1]; exact gs.symm, by rw [a2, gf], by rw [a3]; exact gl.symm⟩, a4⟩)
          h
        refine ⟨same_geometry_trans _ _ _ ⟨gs, gb, gl, gh, gf⟩ g2, ok2, ?_⟩
        intro b s hb hs
        have := rd2 b s (by show b < r.dst.bat.length; rw [gl]; exact hb)
          (by show s < r.dst.spb; rw [gs]; exact hs)
        rw [this]
        show (vhd_read_sector r.dst b s).or _ = _
        rw [rd1 b s hb hs]
        simp only [chain_read]
        exact or_assoc' _ _ _

theorem chain_read_isSome (chain : List vhd_context_t) (b s : Nat) :
    (chain_read chain b s).isSome ↔ ∃ m ∈ chain, (vhd_read_sector m b s).isSome := by
  induction chain with
  | nil => simp [chain_read]
  | cons m rest ih =>
    simp only [chain_read, List.mem_cons, exists_eq_or_imp]
    rw [← ih]
    cases vhd_read_sector m b s <;> simp [Option.or]

end StreamCoalesce
end Blktap

namespace Blktap
namespace StreamCoalesce

/-- C1 (amended): coalesce correctness.  Let the array `chain` be passed to
`__vhd_util_stream_coalesce` (in sorted order the first image is the head,
the newest, and the last is the root), every image having the block size and
capacity of the output and every allocated block of it ending within the
range of 32-bit sector offsets (`bat[blk] + bm_secs + spb <= 2^32`), let the
output start with every BAT entry unused and no batmap bit set, and let
`qsort` meet its contract.  If the call returns 0 then for every sector of
the virtual disk the output has the sector allocated exactly when some image
of the chain has, and it then holds the content of the first image in array
order, the newest, that has the sector allocated. -/
theorem coalesce_correct (qsort : (Nat → Nat → Int) → List Nat → List Nat)
    (hq : qsort_contract qsort p2v_compare) (err0 : Nat → Int)
    (chain : List vhd_context_t) (opened : Int × vhd_context_t) (stats : vhd_stream_stats)
    (res : coalesce_result)
    (hshape : ∀ m ∈ chain, same_shape m opened.2 ∧ blocks_in_range m)
    (hfresh : ∀ e ∈ opened.2.bat, e = DD_BLK_UNUSED)
    (hbatmap : ∀ b, b < opened.2.bat.length → vhd_batmap_set opened.2 b = false)
    (h : __vhd_util_stream_coalesce qsort err0 chain opened stats = some res)
    (he : res.err = 0) (blk sec : Nat) (hblk : blk < opened.2.bat.length)
    (hsec : sec < opened.2.spb) :
    ((vhd_read_sector res.dst blk sec).isSome ↔
      ∃ m ∈ chain, (vhd_read_sector m blk sec).isSome) ∧
    vhd_read_sector res.dst blk sec = chain_read chain blk sec := by
  have hunused : ∀ b, b < opened.2.bat.length →
      opened.2.bat.getD b DD_BLK_UNUSED = DD_BLK_UNUSED := by
    intro b hb
    rw [List.getD_eq_getElem _ _ hb]
    exact hfresh _ (List.getElem_mem _)
  have hok : store_ok opened.2 := by
    refine ⟨fun b b' hb _ _ h1 _ => absurd (hunused b hb) h1, fun b hb hset => ?_⟩
    rw [hbatmap b hb] at hset
    exact Bool.noConfusion hset
  unfold __vhd_util_stream_coalesce at h
  by_cases ho : opened.1 ≠ 0
  · rw [if_pos ho] at h
    cases Option.some.inj h
    exact absurd he ho
  rw [if_neg ho] at h
  dsimp only at h
  cases hl : coalesce_loop qsort err0 chain 0
      ⟨opened.1, opened.2,
        if stats.display then
          { ({ stats with total := stats.total + count_allocated chain } : vhd_stream_stats)
            with cur := 0 }
        else { stats with total := stats.total + count_allocated chain }, []⟩ with
  | none => rw [hl] at h; simp at h
  | some r =>
    rw [hl] at h
    simp only [Option.map_some', Option.some.injEq] at h
    have hrd : res.dst = r.dst ∧ res.err = r.err := by
      by_cases hd : r.err = 0 ∧ r.stats.display = true
      · rw [if_pos hd] at h; rw [← h]; exact ⟨rfl, rfl⟩
      · rw [if_neg hd] at h; rw [← h]; exact ⟨rfl, rfl⟩
    obtain ⟨-, -, rd⟩ := coalesce_loop_reads qsort hq err0 chain 0 _ r hok hshape hl
      (by rw [← hrd.2]; exact he)
    have hfinal : vhd_read_sector res.dst blk sec = chain_read chain blk sec := by
      rw [hrd.1, rd blk sec hblk hsec]
      show (vhd_read_sector opened.2 blk sec).or _ = _
      rw [read_unallocated opened.2 blk sec (hunused blk hblk)]
      rfl
    exact ⟨by rw [hfinal]; exact chain_read_isSome chain blk sec, hfinal⟩

/-- C1 witness: root R with sectors 0 to 7 holding 1 and child C with
sectors 4 to 7 holding 2, coalesced as [C, R]: sector 5 of the output
holds 2. -/
theorem coalesce_correct_witness :
    ∃ res, __vhd_util_stream_coalesce insertion_sort (fun _ => 0) [disk_C, disk_R]
        (0, disk_out) default = some res ∧ res.err = 0 ∧
      (List.range 8).map (vhd_read_sector res.dst 0) =
        [some 1, some 1, some 1, some 1, some 2, some 2, some 2, some 2] ∧
      ((vhd_read_sector res.dst 0 5).isSome ↔
        ∃ m ∈ [disk_C, disk_R], (vhd_read_sector m 0 5).isSome) ∧
      vhd_read_sector res.dst 0 5 = chain_read [disk_C, disk_R] 0 5 :=
  ⟨_, rfl, by decide, by decide,
    coalesce_correct insertion_sort insertion_sort_contract (fun _ => 0) [disk_C, disk_R]
      (0, disk_out) default _
      (by
        intro m hm
        simp only [List.mem_cons, List.mem_singleton, List.not_mem_nil, or_false] at hm
        rcases hm with rfl | rfl
        · exact ⟨⟨rfl, rfl, rfl⟩, ⟨by decide, by decide⟩, by decide⟩
        · exact ⟨⟨rfl, rfl, rfl⟩, ⟨by decide, by decide⟩, by decide⟩)
      (by decide) (fun _ _ => rfl) rfl (by decide) 0 5 (by decide) (by decide)⟩

/-- C1 counterexample: the chain is one image, of the block size and
capacity of the fresh output, whose block is stored at sector 2^32 - 5 with
the sectors 6 and 7 written; sector 6 of the block is data sector
2^32 + 2 of the file.  The call returns 0, and the output holds for sector 6
the content of sector 2 of the file: the offset `bat[blk] + bm_secs + sec`
is computed in 32 bits. -/
theorem coalesce_reads_wrapped_offset :
    same_shape disk_edge disk_out ∧ (∀ e ∈ disk_out.bat, e = DD_BLK_UNUSED) ∧
    ∃ res, __vhd_util_stream_coalesce insertion_sort (fun _ => 0) [disk_edge]
        (0, disk_out) default = some res ∧ res.err = 0 ∧
      vhd_read_sector disk_edge 0 6 = some (2 ^ 32 + 2) ∧
      chain_read [disk_edge] 0 6 = some (2 ^ 32 + 2) ∧
      vhd_read_sector res.dst 0 6 = some 2 :=
  ⟨⟨rfl, rfl, rfl⟩, by decide, _, rfl, by decide, by decide, by decide, by decide⟩

end StreamCoalesce
end Blktap

namespace Blktap
namespace DmDecrypt

theorem pack_step_fields (spp : Nat) (src dst : vhd_context_t) (i : Nat) :
    (pack_step spp src dst i).bm_secs = dst.bm_secs ∧ (pack_step spp src dst i).spb = dst.spb ∧
    (pack_step spp src dst i).end_of_headers = dst.end_of_headers ∧
    (pack_step spp src dst i).bat.length = dst.bat.length := by
  unfold pack_step
  split
  · simp
  · simp

/-- What the packing loop leaves, from index `i` on, when the end of data
of its result is a page below the sentinel. -/
theorem pack_loop_spec (spp : Nat) (src : vhd_context_t) (hspp : 0 < spp) (n i : Nat)
    (dst : vhd_context_t) (hlen : dst.bat.length = src.bat.length)
    (hin : i + n = src.bat.length)
    (hU : ∀ k, i ≤ k → k < src.bat.length → dst.bat.getD k DD_BLK_UNUSED = DD_BLK_UNUSED)
    (hfit : vhd_end_of_data (pack_loop spp src n i dst) + spp ≤ DD_BLK_UNUSED) :
    (pack_loop spp src n i dst).bm_secs = dst.bm_secs ∧
    (pack_loop spp src n i dst).spb = dst.spb ∧
    (pack_loop spp src n i dst).end_of_headers = dst.end_of_headers ∧
    (pack_loop spp src n i dst).bat.length = dst.bat.length ∧
    (∀ k, k < i → (pack_loop spp src n i dst).bat.getD k DD_BLK_UNUSED
      = dst.bat.getD k DD_BLK_UNUSED) ∧
    (∀ k, i ≤ k → k < src.bat.length → src.bat.getD k DD_BLK_UNUSED = DD_BLK_UNUSED →
      (pack_loop spp src n i dst).bat.getD k DD_BLK_UNUSED = DD_BLK_UNUSED) ∧
    (∀ k, i ≤ k → k < src.bat.length → src.bat.getD k DD_BLK_UNUSED ≠ DD_BLK_UNUSED →
      (pack_loop spp src n i dst).bat.getD k DD_BLK_UNUSED ≠ DD_BLK_UNUSED ∧
      vhd_end_of_data dst ≤ (pack_loop spp src n i dst).bat.getD k DD_BLK_UNUSED ∧
      (pack_loop spp src n i dst).bat.getD k DD_BLK_UNUSED + dst.bm_secs + dst.spb
        ≤ vhd_end_of_data (pack_loop spp src n i dst)) ∧
    (∀ k l, i ≤ k → k < l → l < src.bat.length →
      src.bat.getD k DD_BLK_UNUSED ≠ DD_BLK_UNUSED →
      src.bat.getD l DD_BLK_UNUSED ≠ DD_BLK_UNUSED →
      (pack_loop spp src n i dst).bat.getD k DD_BLK_UNUSED + dst.bm_secs + dst.spb
        ≤ (pack_loop spp src n i dst).bat.getD l DD_BLK_UNUSED) ∧
    vhd_end_of_data dst ≤ vhd_end_of_data (pack_loop spp src n i dst) := by
  induction n generalizing i dst with
  | zero =>
    have h0 : pack_loop spp src 0 i dst = dst := rfl
    rw [h0]
    exact ⟨rfl, rfl, rfl, rfl, fun _ _ => rfl, fun k h1 h2 => by omega,
      fun k h1 h2 => by omega, fun k l h1 h2 h3 => by omega, Nat.le_refl _⟩
  | succ n ih =>
    have hs1 : pack_loop spp src (n + 1) i dst
        = pack_loop spp src n (i + 1) (pack_step spp src dst i) := rfl
    rw [hs1] at hfit ⊢
    have hi : i < src.bat.length := by omega
    have hiU : dst.bat.getD i DD_BLK_UNUSED = DD_BLK_UNUSED := hU i (Nat.le_refl _) hi
    obtain ⟨f1, f2, f3, f4⟩ := pack_step_fields spp src dst i
    have hU1 : ∀ k, i + 1 ≤ k → k < src.bat.length →
        (pack_step spp src dst i).bat.getD k DD_BLK_UNUSED = DD_BLK_UNUSED := by
      intro k h1 h2
      unfold pack_step
      split
      · show (dst.bat.set i _).getD k DD_BLK_UNUSED = DD_BLK_UNUSED
        simp only [List.getD_eq_getElem?_getD]
        rw [List.getElem?_set_ne (by omega)]
        simpa using hU k (by omega) h2
      · exact hU k (by omega) h2
    obtain ⟨g1, g2, g3, g4, g5, g6, g7, g8, g9⟩ :=
      ih (i + 1) (pack_step spp src dst i) (by rw [f4, hlen]) (by omega) hU1 hfit
    rw [f1, f2] at g7 g8
    by_cases ha : src.bat.getD i DD_BLK_UNUSED ≠ DD_BLK_UNUSED
    · -- the block is placed at the end of data, page aligned
      have hmono : vhd_end_of_data dst ≤ vhd_end_of_data (pack_step spp src dst i) := by
        unfold pack_step
        rw [if_pos ha]
        exact eod_set_mono dst i _ hiU
      obtain ⟨off1, hoff1, hlo, hhi⟩ : ∃ off1, (pack_step spp src dst i).bat
          = dst.bat.set i (off1 % 2 ^ 32) ∧ vhd_end_of_data dst ≤ off1 ∧
          off1 < vhd_end_of_data dst + spp := by
        unfold pack_step
        rw [if_pos ha]
        refine ⟨_, rfl, ?_, ?_⟩
        · dsimp only; split <;> omega
        · dsimp only
          have := Nat.mod_lt (vhd_end_of_data dst + dst.bm_secs) hspp
          split <;> omega
      have hsmall : off1 < DD_BLK_UNUSED := by omega
      have hmod : off1 % 2 ^ 32 = off1 := Nat.mod_eq_of_lt (by
        have : DD_BLK_UNUSED < 2 ^ 32 := by decide
        omega)
      have hsi : (pack_step spp src dst i).bat.getD i DD_BLK_UNUSED = off1 := by
        rw [hoff1, hmod]
        simp only [List.getD_eq_getElem?_getD]
        rw [List.getElem?_set_self (by omega)]
        rfl
      have hend : off1 + dst.bm_secs + dst.spb ≤ vhd_end_of_data (pack_step spp src dst i) := by
        have := eod_ge_block (pack_step spp src dst i) i (by rw [f4]; omega)
          (by rw [hsi]; omega)
        rwa [hsi, f1, f2] at this
      have hout : (pack_loop spp src n (i + 1) (pack_step spp src dst i)).bat.getD i
          DD_BLK_UNUSED = off1 := by rw [g5 i (by omega), hsi]
      have hpre : ∀ k, k < i → (pack_step spp src dst i).bat.getD k DD_BLK_UNUSED
          = dst.bat.getD k DD_BLK_UNUSED := by
        intro k hk
        rw [hoff1]
        simp only [List.getD_eq_getElem?_getD]
        rw [List.getElem?_set_ne (by omega)]
      refine ⟨by rw [g1, f1], by rw [g2, f2], by rw [g3, f3], by rw [g4, f4], ?_, ?_, ?_, ?_,
        Nat.le_trans hmono g9⟩
      · intro k hk
        rw [g5 k (by omega), hpre k hk]
      · intro k h1 h2 h3
        rcases Nat.eq_or_lt_of_le h1 with e | l
        · subst e; exact absurd h3 ha
        · exact g6 k l h2 h3
      · intro k h1 h2 h3
        rcases Nat.eq_or_lt_of_le h1 with e | l
        · subst e
          rw [hout]
          exact ⟨by omega, hlo, Nat.le_trans hend g9⟩
        · obtain ⟨a, b, c⟩ := g7 k l h2 h3
          exact ⟨a, Nat.le_trans hmono b, c⟩
      · intro k l h1 h2 h3 h4 h5
        rcases Nat.eq_or_lt_of_le h1 with e | lt
        · subst e
          rw [hout]
          have := (g7 l (by omega) h3 h5).2.1
          omega
        · exact g8 k l lt h2 h3 h4 h5
    · have hs : pack_step spp src dst i = dst := by
        unfold pack_step; rw [if_neg ha]
      rw [hs] at g1 g2 g3 g4 g5 g6 g7 g8 g9 ⊢
      have ha' : src.bat.getD i DD_BLK_UNUSED = DD_BLK_UNUSED := by simpa using ha
      refine ⟨g1, g2, g3, g4, fun k hk => g5 k (by omega), ?_, ?_, ?_, g9⟩
      · intro k h1 h2 h3
        rcases Nat.eq_or_lt_of_le h1 with e | l
        · subst e; rw [g5 i (by omega)]; exact hiU
        · exact g6 k l h2 h3
      · intro k h1 h2 h3
        rcases Nat.eq_or_lt_of_le h1 with e | l
        · subst e; exact absurd ha' h3
        · exact g7 k l h2 h3
      · intro k l h1 h2 h3 h4 h5
        rcases Nat.eq_or_lt_of_le h1 with e | lt
        · subst e; exact absurd ha' h4
        · exact g8 k l lt h2 h3 h4 h5

end DmDecrypt
end Blktap

namespace Blktap
namespace BlockCrypto

/-- C10: `check_key` returns 0 exactly when the cookie of the stored record
is set, the hash of the first `keysize / 8` key bytes with the stored nonce
is computed without error and the computed hash equals the stored hash; in
every other case it returns -ENOKEY, so its result is 0 or -ENOKEY. -/
theorem check_key_spec (calculate_keyhash : List Nat → List Nat → Nat → Int × List Nat)
    (keybuf : List Nat) (keysize : Nat) (vhdhash : vhd_keyhash) :
    (check_key calculate_keyhash keybuf keysize vhdhash = 0 ↔
      (vhdhash.cookie ≠ 0 ∧
        (calculate_keyhash vhdhash.nonce keybuf (keysize / 8)).1 = 0 ∧
        (calculate_keyhash vhdhash.nonce keybuf (keysize / 8)).2 = vhdhash.hash)) ∧
    (check_key calculate_keyhash keybuf keysize vhdhash ≠ 0 →
      check_key calculate_keyhash keybuf keysize vhdhash = -ENOKEY) := by
  unfold check_key
  by_cases hc : vhdhash.cookie = 0
  · simp [hc, ENOKEY]
  · by_cases he : (calculate_keyhash vhdhash.nonce keybuf (keysize / 8)).1 = 0
    · by_cases hh : (calculate_keyhash vhdhash.nonce keybuf (keysize / 8)).2 = vhdhash.hash
      · simp [hc, he, hh]
      · simp [hc, he, hh, ENOKEY]
    · simp [hc, he, ENOKEY]

end BlockCrypto
end Blktap

namespace Blktap
namespace DmDecrypt

/-- C8 (amended): let the destination BAT have as many entries as the
source BAT and let the end of data of the packed destination stay at least
one page below the sentinel 0xFFFFFFFF, so that every offset fits a 32-bit
BAT entry.  After the BAT packing loop of `__vhd_util_dm_decrypt`, for all
indices `i < j` whose source entries are allocated, the destination entries
are allocated, lie at or after the end of the headers and satisfy
`bat[i] + bm_secs + spb <= bat[j]`: the offsets increase in BAT-entry order
and the block regions do not overlap. -/
theorem pack_bat_increasing (spp : Nat) (src dst : vhd_context_t) (hspp : 0 < spp)
    (hlen : dst.bat.length = src.bat.length)
    (hfit : vhd_end_of_data (pack_bat spp src dst) + spp ≤ DD_BLK_UNUSED)
    (i j : Nat) (hij : i < j) (hj : j < src.bat.length)
    (hi' : src.bat.getD i DD_BLK_UNUSED ≠ DD_BLK_UNUSED)
    (hj' : src.bat.getD j DD_BLK_UNUSED ≠ DD_BLK_UNUSED) :
    (pack_bat spp src dst).bat.getD i DD_BLK_UNUSED ≠ DD_BLK_UNUSED ∧
    (pack_bat spp src dst).bat.getD j DD_BLK_UNUSED ≠ DD_BLK_UNUSED ∧
    dst.end_of_headers ≤ (pack_bat spp src dst).bat.getD i DD_BLK_UNUSED ∧
    (pack_bat spp src dst).bat.getD i DD_BLK_UNUSED + dst.bm_secs + dst.spb
      ≤ (pack_bat spp src dst).bat.getD j DD_BLK_UNUSED := by
  unfold pack_bat at hfit ⊢
  obtain ⟨-, -, -, -, -, -, h7, h8, -⟩ := pack_loop_spec spp src hspp src.bat.length 0
    { dst with bat := List.replicate dst.bat.length DD_BLK_UNUSED }
    (by simp [hlen]) (by omega)
    (fun k _ hk => by
      show (List.replicate dst.bat.length DD_BLK_UNUSED).getD k DD_BLK_UNUSED = DD_BLK_UNUSED
      simp only [List.getD_eq_getElem?_getD]
      rw [List.getElem?_replicate]
      split <;> rfl)
    hfit
  obtain ⟨a1, a2, -⟩ := h7 i (Nat.zero_le _) (by omega) hi'
  obtain ⟨b1, -, -⟩ := h7 j (Nat.zero_le _) hj hj'
  refine ⟨a1, b1, Nat.le_trans ?_ a2, h8 i j (Nat.zero_le _) hij hj hi' hj'⟩
  exact eod_ge_headers { dst with bat := List.replicate dst.bat.length DD_BLK_UNUSED }

/-- C8 witness: the two-block image packed with 8 sectors per page; its
blocks go to sectors 23 and 39. -/
theorem pack_bat_increasing_witness :
    (pack_bat 8 disk_S disk_S).bat = [23, 39] ∧
    (pack_bat 8 disk_S disk_S).bat.getD 0 DD_BLK_UNUSED ≠ DD_BLK_UNUSED ∧
    (pack_bat 8 disk_S disk_S).bat.getD 1 DD_BLK_UNUSED ≠ DD_BLK_UNUSED ∧
    disk_S.end_of_headers ≤ (pack_bat 8 disk_S disk_S).bat.getD 0 DD_BLK_UNUSED ∧
    (pack_bat 8 disk_S disk_S).bat.getD 0 DD_BLK_UNUSED + disk_S.bm_secs + disk_S.spb
      ≤ (pack_bat 8 disk_S disk_S).bat.getD 1 DD_BLK_UNUSED :=
  ⟨by decide, pack_bat_increasing 8 disk_S disk_S (by decide) rfl (by decide) 0 1 (by decide)
    (by decide) (by decide) (by decide)⟩

end DmDecrypt
end Blktap

namespace Blktap
namespace DmDecrypt

/-! ### The packed offsets in closed form -/

/-- The packing loop over one more index is the loop followed by the step
for the last index. -/
theorem pack_loop_snoc (spp : Nat) (src : vhd_context_t) :
    ∀ (n i : Nat) (dst : vhd_context_t),
      pack_loop spp src (n + 1) i dst = pack_step spp src (pack_loop spp src n i dst) (i + n) := by
  intro n
  induction n with
  | zero =>
    intro i dst
    rfl
  | succ n ih =>
    intro i dst
    have h1 : pack_loop spp src (n + 1 + 1) i dst
        = pack_loop spp src (n + 1) (i + 1) (pack_step spp src dst i) := rfl
    have h2 : pack_loop spp src (n + 1) i dst
        = pack_loop spp src n (i + 1) (pack_step spp src dst i) := rfl
    rw [h1, ih (i + 1) (pack_step spp src dst i), h2,
      show i + 1 + n = i + (n + 1) by omega]

/-- The step for block `m` of a destination packed up to `m` stores the
offset `a0 + m * stride`, reduced to 32 bits, in entry `m`. -/
theorem pack_step_value (src S dst0 : vhd_context_t) (a0 stride m : Nat)
    (hp : packed_upto S dst0 a0 stride m)
    (hs : src.bat.getD m DD_BLK_UNUSED ≠ DD_BLK_UNUSED)
    (hal : (a0 + dst0.bm_secs) % 8 = 0) (hst : stride % 8 = 0) :
    pack_step 8 src S m = { S with bat := S.bat.set m ((a0 + m * stride) % 2 ^ 32) } := by
  obtain ⟨h1, -, -, -, -, -, h7, h8⟩ := hp
  have hm : (m * stride) % 8 = 0 := by
    rw [Nat.mul_mod, hst]
    simp
  unfold pack_step
  rw [if_pos hs]
  dsimp only
  rw [h1]
  have hoff : (if (vhd_end_of_data S + dst0.bm_secs) % 8 ≠ 0
      then vhd_end_of_data S + (8 - (vhd_end_of_data S + dst0.bm_secs) % 8)
      else vhd_end_of_data S) = a0 + m * stride := by
    by_cases c : (vhd_end_of_data S + dst0.bm_secs) % 8 ≠ 0
    · rw [if_pos c]
      omega
    · rw [if_neg c]
      omega
  rw [hoff]

/-- Getting an entry of a BAT after one entry was set. -/
theorem getD_set (l : List Nat) (m v k : Nat) (hm : m < l.length) :
    (l.set m v).getD k DD_BLK_UNUSED = if k = m then v else l.getD k DD_BLK_UNUSED := by
  simp only [List.getD_eq_getElem?_getD]
  by_cases c : k = m
  · subst c
    rw [if_pos rfl, List.getElem?_set_self hm]
    rfl
  · rw [if_neg c, List.getElem?_set_ne (fun h => c h.symm)]

/-- Packing block `m`, whose offset fits a BAT entry, extends a destination
packed up to `m` to one packed up to `m + 1`. -/
theorem packed_upto_step (src S dst0 : vhd_context_t) (a0 stride m : Nat)
    (hp : packed_upto S dst0 a0 stride m)
    (hs : src.bat.getD m DD_BLK_UNUSED ≠ DD_BLK_UNUSED)
    (hal : (a0 + dst0.bm_secs) % 8 = 0) (hst : stride % 8 = 0)
    (hlo : dst0.bm_secs + dst0.spb ≤ stride) (hhi : stride < dst0.bm_secs + dst0.spb + 8)
    (hh : dst0.end_of_headers ≤ a0)
    (hm : m < dst0.bat.length) (hfit : a0 + m * stride < DD_BLK_UNUSED) :
    packed_upto (pack_step 8 src S m) dst0 a0 stride (m + 1) := by
  rw [pack_step_value src S dst0 a0 stride m hp hs hal hst]
  obtain ⟨h1, h2, h3, h4, h5, h6, h7, h8⟩ := hp
  have hmod : (a0 + m * stride) % 2 ^ 32 = a0 + m * stride :=
    Nat.mod_eq_of_lt (by
      have : DD_BLK_UNUSED < 2 ^ 32 := by decide
      omega)
  rw [hmod]
  have hmS : m < S.bat.length := by rw [h4]; exact hm
  have hget : ∀ k, ({ S with bat := S.bat.set m (a0 + m * stride) } : vhd_context_t).bat.getD k
      DD_BLK_UNUSED = if k = m then a0 + m * stride else S.bat.getD k DD_BLK_UNUSED :=
    fun k => getD_set S.bat m (a0 + m * stride) k hmS
  have hsucc : (m + 1) * stride = m * stride + stride := Nat.succ_mul m stride
  have hge : a0 + m * stride + dst0.bm_secs + dst0.spb ≤
      vhd_end_of_data ({ S with bat := S.bat.set m (a0 + m * stride) } : vhd_context_t) := by
    have := eod_ge_block ({ S with bat := S.bat.set m (a0 + m * stride) } : vhd_context_t) m
      (by show m < (S.bat.set m (a0 + m * stride)).length; rw [List.length_set]; exact hmS)
      (by rw [hget m, if_pos rfl]; omega)
    rw [hget m, if_pos rfl] at this
    show a0 + m * stride + dst0.bm_secs + dst0.spb ≤ _
    rw [← h1, ← h2]
    exact this
  have hle : vhd_end_of_data ({ S with bat := S.bat.set m (a0 + m * stride) } : vhd_context_t)
      ≤ a0 + m * stride + dst0.bm_secs + dst0.spb := by
    apply eod_le_of_bound
    · show S.end_of_headers ≤ _
      rw [h3]
      omega
    · intro e he hne
      show e + S.bm_secs + S.spb ≤ _
      rw [h1, h2]
      obtain ⟨k, hk, rfl⟩ := List.getElem_of_mem he
      have hk' := hget k
      rw [List.getD_eq_getElem _ _ hk] at hk'
      rw [hk'] at hne ⊢
      by_cases c : k = m
      · rw [if_pos c]
      · rw [if_neg c] at hne ⊢
        by_cases c2 : k < m
        · rw [h5 k c2]
          have := Nat.mul_le_mul_right stride (Nat.le_of_lt c2)
          omega
        · exact absurd (h6 k (by omega)) hne
  refine ⟨h1, h2, h3, by show (S.bat.set m _).length = _; rw [List.length_set]; exact h4,
    ?_, ?_, ?_, ?_⟩
  · intro k hk
    rw [hget k]
    by_cases c : k = m
    · rw [if_pos c, c]
    · rw [if_neg c]
      exact h5 k (by omega)
  · intro k hk
    rw [hget k, if_neg (by omega)]
    exact h6 k (by omega)
  · omega
  · omega

/-- An emptied destination is packed up to 0. -/
theorem packed_upto_zero (dst0 : vhd_context_t) (a0 stride : Nat)
    (hU : ∀ k, dst0.bat.getD k DD_BLK_UNUSED = DD_BLK_UNUSED)
    (hh : dst0.end_of_headers ≤ a0) (hh8 : a0 < dst0.end_of_headers + 8) :
    packed_upto dst0 dst0 a0 stride 0 := by
  have he : vhd_end_of_data dst0 = dst0.end_of_headers := by
    apply Nat.le_antisymm
    · apply eod_le_of_bound dst0 _ (Nat.le_refl _)
      intro e he hne
      obtain ⟨k, hk, rfl⟩ := List.getElem_of_mem he
      have := hU k
      rw [List.getD_eq_getElem _ _ hk] at this
      exact absurd this hne
    · exact eod_ge_headers dst0
  refine ⟨rfl, rfl, rfl, rfl, fun k hk => absurd hk (Nat.not_lt_zero k), fun k _ => hU k, ?_, ?_⟩
  · rw [he]
    omega
  · rw [he]
    omega

/-- The first `m` blocks of a source whose blocks are all allocated go to
the offsets `a0 + k * stride`, as long as these fit a BAT entry. -/
theorem packed_upto_loop (src dst0 : vhd_context_t) (a0 stride : Nat)
    (hU : ∀ k, dst0.bat.getD k DD_BLK_UNUSED = DD_BLK_UNUSED)
    (hal : (a0 + dst0.bm_secs) % 8 = 0) (hst : stride % 8 = 0)
    (hlo : dst0.bm_secs + dst0.spb ≤ stride) (hhi : stride < dst0.bm_secs + dst0.spb + 8)
    (hh : dst0.end_of_headers ≤ a0) (hh8 : a0 < dst0.end_of_headers + 8) :
    ∀ m, m ≤ dst0.bat.length → (∀ k, k < m → src.bat.getD k DD_BLK_UNUSED ≠ DD_BLK_UNUSED) →
      (∀ k, k < m → a0 + k * stride < DD_BLK_UNUSED) →
      packed_upto (pack_loop 8 src m 0 dst0) dst0 a0 stride m := by
  intro m
  induction m with
  | zero =>
    intro _ _ _
    exact packed_upto_zero dst0 a0 stride hU hh hh8
  | succ n ih =>
    intro hn hs hfit
    rw [pack_loop_snoc 8 src n 0 dst0, Nat.zero_add]
    exact packed_upto_step src _ dst0 a0 stride n
      (ih (by omega) (fun k hk => hs k (by omega)) (fun k hk => hfit k (by omega)))
      (hs n (by omega)) hal hst hlo hhi hh (by omega) (hfit n (by omega))

end DmDecrypt
end Blktap

namespace Blktap
namespace DmDecrypt

/-- The image of 1046531 blocks has that many BAT entries. -/
theorem disk_full_length : disk_full.bat.length = 1046530 + 1 := by
  show full_bat.length = 1046530 + 1
  unfold full_bat
  rw [List.length_map, List.length_range]

/-- Entry `k` of the BAT of the image of 1046531 blocks. -/
theorem disk_full_entry (k : Nat) (hk : k < 1046531) :
    disk_full.bat.getD k DD_BLK_UNUSED = 8192 + 4097 * k := by
  show full_bat.getD k DD_BLK_UNUSED = _
  unfold full_bat
  rw [List.getD_eq_getElem _ _ (by rw [List.length_map, List.length_range]; exact hk),
    List.getElem_map, List.getElem_range]

/-- Every entry of an emptied BAT is the sentinel. -/
theorem replicate_unused (n k : Nat) :
    (List.replicate n DD_BLK_UNUSED).getD k DD_BLK_UNUSED = DD_BLK_UNUSED := by
  simp only [List.getD_eq_getElem?_getD]
  rw [List.getElem?_replicate]
  split <;> rfl

/-- The packed BAT of the image of 1046531 blocks: the blocks before the
last go to `8199 + 4104 * k`, and the last entry holds the offset
`8199 + 4104 * 1046530`, which is 2^32 + 23, reduced to 32 bits. -/
theorem pack_bat_disk_full :
    (∀ k, k < 1046530 →
      (pack_bat 8 disk_full disk_full).bat.getD k DD_BLK_UNUSED = 8199 + k * 4104) ∧
    (pack_bat 8 disk_full disk_full).bat.getD 1046530 DD_BLK_UNUSED
      = (8199 + 1046530 * 4104) % 2 ^ 32 := by
  have hp := packed_upto_loop disk_full
    { disk_full with bat := List.replicate disk_full.bat.length DD_BLK_UNUSED } 8199 4104
    (fun k => replicate_unused _ k) (by decide) (by decide) (by decide) (by decide) (by decide)
    (by decide) 1046530
    (by
      show 1046530 ≤ (List.replicate disk_full.bat.length DD_BLK_UNUSED).length
      rw [List.length_replicate, disk_full_length]
      omega)
    (fun k hk => by
      rw [disk_full_entry k (by omega)]
      have : DD_BLK_UNUSED = 4294967295 := rfl
      omega)
    (fun k hk => by
      have : DD_BLK_UNUSED = 4294967295 := rfl
      omega)
  have hs : disk_full.bat.getD 1046530 DD_BLK_UNUSED ≠ DD_BLK_UNUSED := by
    rw [disk_full_entry 1046530 (by omega)]
    decide
  have hv : (pack_step 8 disk_full (pack_loop 8 disk_full 1046530 0
      { disk_full with bat := List.replicate disk_full.bat.length DD_BLK_UNUSED }) 1046530).bat
      = (pack_loop 8 disk_full 1046530 0
        { disk_full with bat := List.replicate disk_full.bat.length DD_BLK_UNUSED }).bat.set
          1046530 ((8199 + 1046530 * 4104) % 2 ^ 32) := by
    rw [pack_step_value disk_full _ _ 8199 4104 1046530 hp hs (by decide) (by decide)]
  have hlen : (pack_loop 8 disk_full 1046530 0
      { disk_full with bat := List.replicate disk_full.bat.length DD_BLK_UNUSED }).bat.length
      = 1046530 + 1 := by
    rw [hp.2.2.2.1]
    show (List.replicate disk_full.bat.length DD_BLK_UNUSED).length = _
    rw [List.length_replicate, disk_full_length]
  have hb : pack_bat 8 disk_full disk_full = pack_step 8 disk_full
      (pack_loop 8 disk_full 1046530 0
        { disk_full with bat := List.replicate disk_full.bat.length DD_BLK_UNUSED })
      1046530 := by
    unfold pack_bat
    rw [show pack_loop 8 disk_full disk_full.bat.length 0
        { disk_full with bat := List.replicate disk_full.bat.length DD_BLK_UNUSED }
      = pack_loop 8 disk_full (1046530 + 1) 0
        { disk_full with bat := List.replicate disk_full.bat.length DD_BLK_UNUSED } from
      congrArg (fun n => pack_loop 8 disk_full n 0
        { disk_full with bat := List.replicate disk_full.bat.length DD_BLK_UNUSED })
        disk_full_length,
      pack_loop_snoc, Nat.zero_add]
  rw [hb, hv]
  constructor
  · intro k hk
    rw [getD_set _ _ _ _ (by rw [hlen]; omega), if_neg (by omega)]
    exact hp.2.2.2.2.1 k hk
  · rw [getD_set _ _ _ _ (by rw [hlen]; omega), if_pos rfl]

end DmDecrypt
end Blktap

namespace Blktap
namespace DmDecrypt

/-- C8 counterexample: a source of 1046531 allocated blocks of 2 MiB whose
headers end at sector 8192, packed with pages of 8 sectors.  Block 0 is
placed at sector 8199 and every further block 4104 sectors after the one
before; the last block, of index 1046530, gets the offset
`8199 + 4104 * 1046530 = 2^32 + 23`, which the 32-bit BAT entry stores as
23: `bat[0] + bm_secs + spb <= bat[1046530]` fails. -/
theorem pack_bat_wraps :
    disk_full.bat.getD 0 DD_BLK_UNUSED ≠ DD_BLK_UNUSED ∧
    disk_full.bat.getD 1046530 DD_BLK_UNUSED ≠ DD_BLK_UNUSED ∧
    (pack_bat 8 disk_full disk_full).bat.getD 0 DD_BLK_UNUSED = 8199 ∧
    (pack_bat 8 disk_full disk_full).bat.getD 1046530 DD_BLK_UNUSED = 23 ∧
    ¬ ((pack_bat 8 disk_full disk_full).bat.getD 0 DD_BLK_UNUSED + disk_full.bm_secs
        + disk_full.spb ≤ (pack_bat 8 disk_full disk_full).bat.getD 1046530 DD_BLK_UNUSED) := by
  obtain ⟨h1, h2⟩ := pack_bat_disk_full
  have h0 := h1 0 (by decide)
  refine ⟨?_, ?_, h0, h2, ?_⟩
  · rw [disk_full_entry 0 (by decide)]
    decide
  · rw [disk_full_entry 1046530 (by decide)]
    decide
  · rw [h0, h2]
    decide

end DmDecrypt
end Blktap

namespace Blktap
namespace BlockCrypto

/-! ### The walk of `chain_find_keyed_vhd` -/

/-- The `switch` returns 0 only for a key that passes `check_key` against the
key hash the image declares. -/
theorem key_switch_stop_ok (env : crypto_env) (p : vhd_context_t)
    (found : Int × List Nat × Nat) (r : keyed_result)
    (h : key_switch env p found = visit.stop r) (h0 : r.err = 0) :
    r.keyhash = p.keyhash.2 ∧ p.keyhash.2.cookie ≠ 0 ∧
      check_key env.calculate_keyhash r.key r.keysize r.keyhash = 0 := by
  unfold key_switch at h
  by_cases c1 : found.1 = 0
  · rw [if_pos c1] at h
    by_cases c2 : p.keyhash.2.cookie = 0
    · rw [if_pos c2] at h
      injection h with h
      subst h
      simp [ EACCES] at h0
    · rw [if_neg c2] at h
      by_cases c3 : check_key env.calculate_keyhash found.2.1 found.2.2 p.keyhash.2 ≠ 0
      · rw [if_pos c3] at h
        injection h with h
        subst h
        exact absurd h0 c3
      · rw [if_neg c3] at h
        injection h with h
        subst h
        exact ⟨rfl, c2, not_not.mp c3⟩
  · rw [if_neg c1] at h
    by_cases c2 : found.1 = - ENOENT
    · rw [if_pos c2] at h
      by_cases c3 : p.keyhash.2.cookie ≠ 0
      · rw [if_pos c3] at h
        injection h with h
        subst h
        simp [ENOKEY] at h0
      · rw [if_neg c3] at h
        cases h
    · rw [if_neg c2] at h
      injection h with h
      subst h
      exact absurd h0 c1

/-- The `switch` lets the walk go on only past an image that declares no key
hash. -/
theorem key_switch_parent (env : crypto_env) (p : vhd_context_t)
    (found : Int × List Nat × Nat) (key1 : List Nat) (ks1 : Nat)
    (h : key_switch env p found = visit.parent key1 ks1) :
    p.keyhash.2.cookie = 0 := by
  unfold key_switch at h
  by_cases c1 : found.1 = 0
  · rw [if_pos c1] at h
    by_cases c2 : p.keyhash.2.cookie = 0
    · exact c2
    · rw [if_neg c2] at h
      by_cases c3 : check_key env.calculate_keyhash found.2.1 found.2.2 p.keyhash.2 ≠ 0
      · rw [if_pos c3] at h
        cases h
      · rw [if_neg c3] at h
        cases h
  · rw [if_neg c1] at h
    by_cases c2 : found.1 = - ENOENT
    · rw [if_pos c2] at h
      by_cases c3 : p.keyhash.2.cookie ≠ 0
      · rw [if_pos c3] at h
        cases h
      · exact not_not.mp c3
    · rw [if_neg c2] at h
      cases h

/-- A round that returns 0 has found a key file for an image that declares
a key hash, and the key passes `check_key` against that hash. -/
theorem chain_visit_stop_ok (env : crypto_env) (p : vhd_context_t) (key : List Nat)
    (ks : Nat) (r : keyed_result)
    (h : chain_visit env p key ks = some (visit.stop r)) (h0 : r.err = 0) :
    p.keyhash.1 = 0 ∧ r.keyhash = p.keyhash.2 ∧ p.keyhash.2.cookie ≠ 0 ∧
      check_key env.calculate_keyhash r.key r.keysize r.keyhash = 0 := by
  unfold chain_visit at h
  by_cases c1 : p.keyhash.1 ≠ 0
  · rw [if_pos c1] at h
    injection h with h
    injection h with h
    subst h
    exact absurd h0 c1
  · rw [if_neg c1] at h
    by_cases c2 : p.keyhash.2.cookie ≠ 0 ∧ env.keydir = none
    · rw [if_pos c2] at h
      injection h with h
      injection h with h
      subst h
      simp [ENOKEY] at h0
    · rw [if_neg c2] at h
      cases hk : env.keydir with
      | none =>
        rw [hk] at h
        cases h
      | some dirs =>
        rw [hk] at h
        dsimp only at h
        cases hr : read_preferred_keyfile env.fs (some dirs) (get_vhd_basename p) key with
        | none =>
          rw [hr] at h
          cases h
        | some found =>
          rw [hr] at h
          simp only [Option.map_some', Option.some.injEq] at h
          exact ⟨not_not.mp c1, key_switch_stop_ok env p found r h h0⟩

/-- A round after which the walk goes on was made for an image that
declares no key hash. -/
theorem chain_visit_parent (env : crypto_env) (p : vhd_context_t) (key : List Nat)
    (ks : Nat) (key1 : List Nat) (ks1 : Nat)
    (h : chain_visit env p key ks = some (visit.parent key1 ks1)) :
    p.keyhash.1 = 0 ∧ p.keyhash.2.cookie = 0 := by
  unfold chain_visit at h
  by_cases c1 : p.keyhash.1 ≠ 0
  · rw [if_pos c1] at h
    cases h
  · rw [if_neg c1] at h
    by_cases c2 : p.keyhash.2.cookie ≠ 0 ∧ env.keydir = none
    · rw [if_pos c2] at h
      cases h
    · rw [if_neg c2] at h
      refine ⟨not_not.mp c1, ?_⟩
      cases hk : env.keydir with
      | none =>
        by_contra hc
        exact c2 ⟨hc, hk⟩
      | some dirs =>
        rw [hk] at h
        dsimp only at h
        cases hr : read_preferred_keyfile env.fs (some dirs) (get_vhd_basename p) key with
        | none =>
          rw [hr] at h
          cases h
        | some found =>
          rw [hr] at h
          simp only [Option.map_some', Option.some.injEq] at h
          exact key_switch_parent env p found key1 ks1 h

/-- A walk that returns 0, from any image it is started at: either no image
on the walk declares a key hash and the record returned is clear, or the
record returned is the key hash of an image on the walk and the key returned
passes `check_key` against it. -/
theorem chain_walk_ok (env : crypto_env) :
    ∀ (fuel : Nat) (p : vhd_context_t) (key : List Nat) (ks : Nat) (r : keyed_result),
      chain_walk env fuel p key ks = some r → r.err = 0 →
      (r.keyhash.cookie = 0 ∧
        ∀ k q, ancestor env k p = some q → q.keyhash.1 = 0 ∧ q.keyhash.2.cookie = 0) ∨
      (r.keyhash.cookie ≠ 0 ∧
        (∃ k q, ancestor env k p = some q ∧ q.keyhash = (0, r.keyhash)) ∧
        check_key env.calculate_keyhash r.key r.keysize r.keyhash = 0) := by
  intro fuel
  induction fuel with
  | zero =>
    intro p key ks r h _
    cases h
  | succ n ih =>
    intro p key ks r h h0
    rw [chain_walk] at h
    cases hv : chain_visit env p key ks with
    | none =>
      rw [hv] at h
      cases h
    | some v =>
      rw [hv] at h
      cases v with
      | stop r1 =>
        dsimp only at h
        injection h with h
        subst h
        obtain ⟨a1, a2, a3, a4⟩ := chain_visit_stop_ok env p key ks r1 hv h0
        right
        refine ⟨by rw [a2]; exact a3, ⟨0, p, rfl, ?_⟩, a4⟩
        rw [a2, ← a1]
      | parent key1 ks1 =>
        dsimp only at h
        obtain ⟨b1, b2⟩ := chain_visit_parent env p key ks key1 ks1 hv
        cases hp : vhd_open_parent env p with
        | none =>
          rw [hp] at h
          dsimp only at h
          injection h with h
          subst h
          left
          refine ⟨rfl, ?_⟩
          intro k q hq
          cases k with
          | zero =>
            simp only [ancestor, Option.some.injEq] at hq
            subst hq
            exact ⟨b1, b2⟩
          | succ k =>
            rw [ancestor, hp] at hq
            cases hq
        | some p2 =>
          rw [hp] at h
          dsimp only at h
          rcases ih p2 key1 ks1 r h h0 with ⟨c1, c2⟩ | ⟨c1, ⟨k, q, c2, c3⟩, c4⟩
          · left
            refine ⟨c1, ?_⟩
            intro k q hq
            cases k with
            | zero =>
              simp only [ancestor, Option.some.injEq] at hq
              subst hq
              exact ⟨b1, b2⟩
            | succ k =>
              rw [ancestor, hp] at hq
              exact c2 k q hq
          · right
            refine ⟨c1, ⟨k + 1, q, ?_, c3⟩, c4⟩
            rw [ancestor, hp]
            exact c2

end BlockCrypto
end Blktap

namespace Blktap
namespace BlockCrypto

/-! ### Key file discovery -/

/-- One round of `find_keyfile` shortens `dirs`. -/
theorem after_comma_length (c : Char) (cs : List Char) :
    ((after_comma (c :: cs)).getD []).length ≤ cs.length := by
  unfold after_comma
  have hle := (List.dropWhile_sublist (l := c :: cs) (fun x => decide (x ≠ ','))).length_le
  cases hd : List.dropWhile (fun x => decide (x ≠ ',')) (c :: cs) with
  | nil => simp
  | cons y tl =>
    rw [hd] at hle
    simp only [List.length_cons] at hle
    simp only [Option.getD_some]
    omega

/-- When `stat` reports ENOENT for the name tried in every listed directory,
`find_keyfile` returns -ENOENT and no name. -/
theorem find_loop_missing (stat : List Char → Int) (base : List Char) (size : Nat) :
    ∀ (fuel : Nat) (dirs : Option (List Char)), (dirs.getD []).length < fuel →
      (∀ d ∈ dir_list_loop fuel dirs,
        d.length < 256 ∧ stat (keyfile_path d base size) = ENOENT) →
      find_keyfile_loop stat base size fuel dirs = some (- ENOENT, []) := by
  intro fuel
  induction fuel with
  | zero =>
    intro dirs h _
    omega
  | succ n ih =>
    intro dirs h hd
    cases dirs with
    | none => rfl
    | some l =>
      cases l with
      | nil => rfl
      | cons c cs =>
        have hmem := hd (List.takeWhile (fun x => decide (x ≠ ',')) (c :: cs))
          (by simp only [dir_list_loop, List.mem_cons, true_or])
        have hrec := ih (after_comma (c :: cs))
          (by
            have := after_comma_length c cs
            simp only [Option.getD_some, List.length_cons] at h
            omega)
          (fun d hdm => hd d (by
            simp only [dir_list_loop, List.mem_cons]
            exact Or.inr hdm))
        rw [find_keyfile_loop]
        dsimp only
        rw [if_neg (by omega), hmem.2, if_neg (by decide), if_neg (by simp), hrec]

/-- The routine `find_keyfile` returns the name in the first listed directory
for which `stat` succeeds, when `stat` reports ENOENT for the directories
before it. -/
theorem find_loop_first (stat : List Char → Int) (base : List Char) (size : Nat) :
    ∀ (fuel : Nat) (dirs : Option (List Char)) (pre : List (List Char)) (d : List Char)
      (post : List (List Char)),
      dir_list_loop fuel dirs = pre ++ d :: post →
      (∀ e ∈ pre, e.length < 256 ∧ stat (keyfile_path e base size) = ENOENT) →
      d.length < 256 → stat (keyfile_path d base size) = 0 →
      find_keyfile_loop stat base size fuel dirs = some (0, keyfile_path d base size) := by
  intro fuel
  induction fuel with
  | zero =>
    intro dirs pre d post h
    simp [dir_list_loop] at h
  | succ n ih =>
    intro dirs pre d post h hpre hd hs
    cases dirs with
    | none => simp [dir_list_loop] at h
    | some l =>
      cases l with
      | nil => simp [dir_list_loop] at h
      | cons c cs =>
        rw [dir_list_loop] at h
        rw [find_keyfile_loop]
        dsimp only
        cases pre with
        | nil =>
          simp only [List.nil_append, List.cons.injEq] at h
          rw [h.1, if_neg (by omega), hs, if_pos rfl]
        | cons e pre2 =>
          simp only [List.cons_append, List.cons.injEq] at h
          have he := hpre e (List.mem_cons_self _ _)
          rw [h.1, if_neg (by omega), he.2, if_neg (by decide), if_neg (by simp)]
          exact ih (after_comma (c :: cs)) pre2 d post h.2
            (fun x hx => hpre x (List.mem_cons_of_mem _ hx)) hd hs

/-- With no key file of a size in any listed directory, `read_keyfile`
returns -ENOENT and leaves the key buffer. -/
theorem read_keyfile_missing (fs : keyfs) (dirs base : List Char) (keybuf : List Nat)
    (size : Nat) (hfit : dirs_fit dirs)
    (hno : ∀ d ∈ dir_list dirs, fs.stat (keyfile_path d base size) = ENOENT) :
    read_keyfile fs (some dirs) base keybuf size = some (- ENOENT, keybuf) := by
  have hf : find_keyfile fs.stat (some dirs) base size = some (- ENOENT, []) :=
    find_loop_missing fs.stat base size (dirs.length + 1) (some dirs)
      (by simp) (fun d hd => ⟨hfit d hd, hno d hd⟩)
  unfold read_keyfile
  rw [hf]
  dsimp only
  rw [if_pos (by decide)]

/-- When the first listed directory that holds a key file of a size holds
one that can be read in full, `read_keyfile` copies it to the key buffer
and returns 0. -/
theorem read_keyfile_first (fs : keyfs) (dirs base : List Char) (keybuf : List Nat)
    (size : Nat) (pre : List (List Char)) (d : List Char) (post : List (List Char))
    (hl : dir_list dirs = pre ++ d :: post)
    (hpre : ∀ e ∈ pre, e.length < 256 ∧ fs.stat (keyfile_path e base size) = ENOENT)
    (hd : d.length < 256) (hs : fs.stat (keyfile_path d base size) = 0)
    (ho : fs.open_errno (keyfile_path d base size) = 0)
    (hr : fs.read_errno (keyfile_path d base size) = 0)
    (hc : size / 8 ≤ (fs.content (keyfile_path d base size)).length) :
    read_keyfile fs (some dirs) base keybuf size =
      some (0, memcpy keybuf (fs.content (keyfile_path d base size)) (size / 8)) := by
  have hf : find_keyfile fs.stat (some dirs) base size =
      some (0, keyfile_path d base size) :=
    find_loop_first fs.stat base size (dirs.length + 1) (some dirs) pre d post hl hpre hd hs
  unfold read_keyfile
  rw [hf]
  dsimp only
  rw [if_neg (by simp), if_neg (by simp [ho]), if_neg (by simp [hr]),
    Nat.min_eq_left hc, if_neg (by simp)]

/-- With no key file of either size in any listed directory,
`read_preferred_keyfile` returns -ENOENT, the key buffer as it was and key
size 0. -/
theorem read_preferred_missing (fs : keyfs) (dirs base : List Char) (keybuf : List Nat)
    (hfit : dirs_fit dirs) (hno : no_keyfile fs dirs base) :
    read_preferred_keyfile fs (some dirs) base keybuf = some (- ENOENT, keybuf, 0) := by
  unfold read_preferred_keyfile
  rw [read_keyfile_missing fs dirs base keybuf 512 hfit
    (fun d hd => hno d hd 512 (by simp))]
  dsimp only
  rw [if_neg (by decide),
    read_keyfile_missing fs dirs base keybuf 256 hfit (fun d hd => hno d hd 256 (by simp))]
  dsimp only
  rw [if_neg (by decide)]

end BlockCrypto
end Blktap

namespace Blktap
namespace BlockCrypto

/-- The loop of `find_keyfile` ends within its budget when the directory
names it takes from `dirs` fit the array `keydir`. -/
theorem find_loop_total (stat : List Char → Int) (base : List Char) (size : Nat) :
    ∀ (fuel : Nat) (dirs : Option (List Char)), (dirs.getD []).length < fuel →
      (∀ d ∈ dir_list_loop fuel dirs, d.length < 256) →
      ∃ r, find_keyfile_loop stat base size fuel dirs = some r := by
  intro fuel
  induction fuel with
  | zero =>
    intro dirs h _
    omega
  | succ n ih =>
    intro dirs h hd
    cases dirs with
    | none => exact ⟨_, rfl⟩
    | some l =>
      cases l with
      | nil => exact ⟨_, rfl⟩
      | cons c cs =>
        have hmem := hd (List.takeWhile (fun x => decide (x ≠ ',')) (c :: cs))
          (by simp only [dir_list_loop, List.mem_cons, true_or])
        rw [find_keyfile_loop]
        dsimp only
        rw [if_neg (by omega)]
        by_cases c1 : stat (keyfile_path
            (List.takeWhile (fun x => decide (x ≠ ',')) (c :: cs)) base size) = 0
        · rw [if_pos c1]
          exact ⟨_, rfl⟩
        · rw [if_neg c1]
          by_cases c2 : stat (keyfile_path
              (List.takeWhile (fun x => decide (x ≠ ',')) (c :: cs)) base size) ≠ ENOENT
          · rw [if_pos c2]
            exact ⟨_, rfl⟩
          · rw [if_neg c2]
            exact ih (after_comma (c :: cs))
              (by
                have := after_comma_length c cs
                simp only [Option.getD_some, List.length_cons] at h
                omega)
              (fun d hdm => hd d (by
                simp only [dir_list_loop, List.mem_cons]
                exact Or.inr hdm))

/-- The routine `find_keyfile` returns when the directory names of `dirs` fit
the array `keydir`. -/
theorem find_keyfile_total (stat : List Char → Int) (dirs base : List Char) (size : Nat)
    (hfit : dirs_fit dirs) : ∃ r, find_keyfile stat (some dirs) base size = some r :=
  find_loop_total stat base size (dirs.length + 1) (some dirs) (by simp) hfit

end BlockCrypto
end Blktap

namespace Blktap
namespace BlockCrypto

/-! ### Images without a key file -/

/-- A round for an image that declares a key hash and has no key file
returns -ENOKEY with a clear record. -/
theorem chain_visit_keyed (env : crypto_env) (p : vhd_context_t) (key : List Nat) (ks : Nat)
    (hp : declares_keyhash p) (hfit : keydir_fits env) (hno : no_key_for env p) :
    ∃ ks1, chain_visit env p key ks = some (visit.stop
      { err := - ENOKEY, key := key, keysize := ks1, keyhash := keyhash_zero }) := by
  unfold chain_visit
  rw [if_neg (by simp [hp.1])]
  cases hk : env.keydir with
  | none =>
    rw [if_pos ⟨hp.2, rfl⟩]
    exact ⟨ks, rfl⟩
  | some dirs =>
    rw [if_neg (by simp)]
    dsimp only
    rw [read_preferred_missing env.fs dirs (get_vhd_basename p) key (hfit dirs hk)
      (hno dirs hk)]
    refine ⟨0, ?_⟩
    simp only [Option.map_some', key_switch]
    rw [if_neg (by decide), if_pos trivial, if_pos hp.2]

/-- A round for an image that declares no key hash and has no key file lets
the walk go on with the key buffer as it was. -/
theorem chain_visit_clear (env : crypto_env) (p : vhd_context_t) (key : List Nat) (ks : Nat)
    (hp : declares_no_keyhash p) (hfit : keydir_fits env) (hno : no_key_for env p) :
    ∃ ks1, chain_visit env p key ks = some (visit.parent key ks1) := by
  unfold chain_visit
  rw [if_neg (by simp [hp.1]), if_neg (by simp [hp.2])]
  cases hk : env.keydir with
  | none => exact ⟨ks, rfl⟩
  | some dirs =>
    dsimp only
    rw [read_preferred_missing env.fs dirs (get_vhd_basename p) key (hfit dirs hk)
      (hno dirs hk)]
    refine ⟨0, ?_⟩
    simp only [Option.map_some', key_switch]
    rw [if_neg (by decide), if_pos trivial, if_neg (by simp [hp.2])]

/-- When the walk reaches an image that declares a key hash and has no key
file, past images that declare none and have no key file, the function
returns -ENOKEY with a clear record. -/
theorem chain_walk_enokey (env : crypto_env) (hfit : keydir_fits env) :
    ∀ (k fuel : Nat) (p : vhd_context_t) (key : List Nat) (ks : Nat) (q : vhd_context_t),
      k < fuel → ancestor env k p = some q →
      (∀ j a, j < k → ancestor env j p = some a → declares_no_keyhash a) →
      (∀ j a, j ≤ k → ancestor env j p = some a → no_key_for env a) →
      declares_keyhash q →
      ∃ r, chain_walk env fuel p key ks = some r ∧ r.err = - ENOKEY ∧
        r.keyhash = keyhash_zero := by
  intro k
  induction k with
  | zero =>
    intro fuel p key ks q hf hq _ hno hd
    simp only [ancestor, Option.some.injEq] at hq
    subst hq
    obtain ⟨n, rfl⟩ : ∃ n, fuel = n + 1 := ⟨fuel - 1, by omega⟩
    obtain ⟨ks1, hv⟩ := chain_visit_keyed env p key ks hd hfit (hno 0 p (Nat.le_refl _) rfl)
    rw [chain_walk, hv]
    exact ⟨_, rfl, rfl, rfl⟩
  | succ k ih =>
    intro fuel p key ks q hf hq hclear hno hd
    obtain ⟨n, rfl⟩ : ∃ n, fuel = n + 1 := ⟨fuel - 1, by omega⟩
    obtain ⟨ks1, hv⟩ := chain_visit_clear env p key ks (hclear 0 p (Nat.succ_pos _) rfl)
      hfit (hno 0 p (Nat.zero_le _) rfl)
    rw [chain_walk, hv]
    dsimp only
    rw [ancestor] at hq
    cases hp : vhd_open_parent env p with
    | none =>
      rw [hp] at hq
      cases hq
    | some p2 =>
      rw [hp] at hq
      dsimp only at hq ⊢
      refine ih n p2 key ks1 q (by omega) hq ?_ ?_ hd
      · intro j a hj ha
        refine hclear (j + 1) a (by omega) ?_
        rw [ancestor, hp]
        exact ha
      · intro j a hj ha
        refine hno (j + 1) a (by omega) ?_
        rw [ancestor, hp]
        exact ha

end BlockCrypto
end Blktap

namespace Blktap
namespace BlockCrypto

/-- The walk does not read the key store: with any other key store it gives
the same result. -/
theorem chain_walk_keystore (env : crypto_env) (keystore : List keystore_entry) :
    ∀ (fuel : Nat) (p : vhd_context_t) (key : List Nat) (ks : Nat),
      chain_walk { env with keystore := keystore } fuel p key ks =
        chain_walk env fuel p key ks := by
  intro fuel
  induction fuel with
  | zero =>
    intro p key ks
    rfl
  | succ n ih =>
    intro p key ks
    rw [chain_walk, chain_walk]
    have hv : chain_visit { env with keystore := keystore } p key ks =
        chain_visit env p key ks := rfl
    have hp : vhd_open_parent { env with keystore := keystore } p =
        vhd_open_parent env p := rfl
    rw [hv, hp]
    cases chain_visit env p key ks with
    | none => rfl
    | some v =>
      cases v with
      | stop r => rfl
      | parent key1 ks1 =>
        dsimp only
        cases vhd_open_parent env p with
        | none => rfl
        | some p2 => exact ih p2 key1 ks1

/-- On the path of `vhd_open_crypto` where the key is found and the cipher
handle is set up, the value the caller receives is the one left in the
return register, not a value set by the function. -/
theorem vhd_open_crypto_configured (env : crypto_env) (fuel : Nat) (retval : Int)
    (vhd : vhd_context_t) (r : keyed_result) (hx : vhd.xts_tfm = none)
    (hr : chain_find_keyed_vhd env fuel vhd (List.replicate KEY_BYTES 0) 0 = some r)
    (h0 : r.err = 0) (hc : r.keyhash.cookie ≠ 0) (hs : env.xts_aes_setup = true) :
    vhd_open_crypto env fuel retval vhd =
      some (retval, { vhd with xts_tfm := some (r.key.take (r.keysize / 8)) }) := by
  unfold vhd_open_crypto
  rw [hx, hr]
  simp [h0, hc, hs]

end BlockCrypto
end Blktap

namespace Blktap
namespace BlockCrypto

/-! ### Claims on key lookup -/

/-- C11 (amended): whenever `chain_find_keyed_vhd` returns 0, either the
record returned has its cookie clear and every image on the walk from the
leaf towards the root declares no key hash, or the record returned has its
cookie set, is the key hash of an image on the walk, and the key and key
size returned pass `check_key` against it.  And when the walk reaches an
image that declares a key hash (the images before it declare none), then
with no key directory configured, or with listed directory names shorter
than 256 characters and `stat` reporting every candidate key file name of
the image and of the images before it as missing (ENOENT), the call returns
-ENOKEY. -/
theorem chain_find_keyed_vhd_spec (env : crypto_env) (fuel : Nat) (vhd : vhd_context_t)
    (key : List Nat) (ks : Nat) :
    (∀ r, chain_find_keyed_vhd env fuel vhd key ks = some r → r.err = 0 →
      (r.keyhash.cookie = 0 ∧
        ∀ k q, ancestor env k vhd = some q → declares_no_keyhash q) ∨
      (r.keyhash.cookie ≠ 0 ∧
        (∃ k q, ancestor env k vhd = some q ∧ q.keyhash = (0, r.keyhash)) ∧
        check_key env.calculate_keyhash r.key r.keysize r.keyhash = 0)) ∧
    (∀ k q, k < fuel → ancestor env k vhd = some q → declares_keyhash q →
      (∀ j a, j < k → ancestor env j vhd = some a → declares_no_keyhash a) →
      keydir_fits env →
      (∀ j a, j ≤ k → ancestor env j vhd = some a → no_key_for env a) →
      ∃ r, chain_find_keyed_vhd env fuel vhd key ks = some r ∧ r.err = - ENOKEY) := by
  constructor
  · intro r h h0
    exact chain_walk_ok env fuel vhd key ks r h h0
  · intro k q hk hq hd hclear hfit hno
    obtain ⟨r, h1, h2, -⟩ := chain_walk_enokey env hfit k fuel vhd key ks q hk hq hclear hno hd
    exact ⟨r, h1, h2⟩

/-- C11 witness: the walk from `/vm/leaf.vhd`, which declares no key hash,
to its parent `/vm/disk.vhd`.  With the key hash of the 512-bit key on the
parent and its key file in `/keys` the call returns 0, the key and the
record of the parent; with no key hash on the parent either it returns 0
with a clear cookie, every image visited declaring none; with the key hash
on the parent and no key directory configured, or an empty key directory,
it returns -ENOKEY. -/
theorem chain_find_keyed_vhd_spec_witness :
    chain_find_keyed_vhd (env_chain (some "/keys".toList) fs_disk (toy_record key_L)) 2
        image_leaf key_zero 0 =
      some { err := 0, key := key_L ++ List.replicate 64 0, keysize := 512,
             keyhash := toy_record key_L } ∧
    ((toy_record key_L).cookie ≠ 0 ∧
      (∃ k q, ancestor (env_chain (some "/keys".toList) fs_disk (toy_record key_L)) k
          image_leaf = some q ∧ q.keyhash = (0, toy_record key_L)) ∧
      check_key toy_keyhash (key_L ++ List.replicate 64 0) 512 (toy_record key_L) = 0) ∧
    (chain_find_keyed_vhd (env_chain (some "/keys".toList) fs_empty keyhash_zero) 2
        image_leaf key_zero 0 =
      some { err := 0, key := key_zero, keysize := 0, keyhash := keyhash_zero } ∧
      ∀ k q, ancestor (env_chain (some "/keys".toList) fs_empty keyhash_zero) k image_leaf
        = some q → declares_no_keyhash q) ∧
    (∃ r, chain_find_keyed_vhd (env_chain none fs_disk (toy_record key_L)) 2
        image_leaf key_zero 0 = some r ∧ r.err = - ENOKEY) ∧
    (∃ r, chain_find_keyed_vhd (env_chain (some "/keys".toList) fs_empty (toy_record key_L)) 2
        image_leaf key_zero 0 = some r ∧ r.err = - ENOKEY) := by
  refine ⟨by decide, ?_, ⟨by decide, ?_⟩, ?_, ?_⟩
  · have h := (chain_find_keyed_vhd_spec
      (env_chain (some "/keys".toList) fs_disk (toy_record key_L)) 2 image_leaf key_zero 0).1
      { err := 0, key := key_L ++ List.replicate 64 0, keysize := 512,
        keyhash := toy_record key_L } (by decide) rfl
    rcases h with ⟨h1, -⟩ | h
    · exact absurd h1 (by decide)
    · exact h
  · have h := (chain_find_keyed_vhd_spec
      (env_chain (some "/keys".toList) fs_empty keyhash_zero) 2 image_leaf key_zero 0).1
      { err := 0, key := key_zero, keysize := 0, keyhash := keyhash_zero } (by decide) rfl
    rcases h with ⟨-, h2⟩ | ⟨h1, -⟩
    · exact h2
    · exact absurd rfl h1
  · exact (chain_find_keyed_vhd_spec (env_chain none fs_disk (toy_record key_L)) 2
      image_leaf key_zero 0).2 1 (image_disk (toy_record key_L))
      (by decide) (by decide) ⟨rfl, by decide⟩
      (fun j a hj ha => by
        have hj0 : j = 0 := by omega
        subst hj0
        cases ha
        exact ⟨rfl, rfl⟩)
      (fun dirs hd => by cases hd) (fun j a _ _ dirs hd => by cases hd)
  · refine (chain_find_keyed_vhd_spec
      (env_chain (some "/keys".toList) fs_empty (toy_record key_L)) 2
      image_leaf key_zero 0).2 1 (image_disk (toy_record key_L))
      (by decide) (by decide) ⟨rfl, by decide⟩
      (fun j a hj ha => by
        have hj0 : j = 0 := by omega
        subst hj0
        cases ha
        exact ⟨rfl, rfl⟩) ?_ ?_
    · intro dirs hd
      cases hd
      show ∀ d ∈ dir_list "/keys".toList, d.length < 256
      decide
    · intro j a _ _ dirs hd
      cases hd
      intro d _ keysize _
      rfl

/-- C11 counterexample: the image `/vm/disk.vhd` declares a key hash and the
listed key directory `/keys` is not a directory, so that no key file exists
for the image and `stat` fails with ENOTDIR: the call returns -ENOTDIR, not
-ENOKEY.  And on the walk from `/vm/leaf.vhd`, which declares no key hash
but has a key file, to its parent `/vm/disk.vhd`, which declares a key hash
and has no key file, the call returns -EACCES at the leaf. -/
theorem chain_find_other_errno :
    declares_keyhash (image_disk (toy_record key_L)) ∧
    (∀ d ∈ dir_list "/keys".toList, ∀ keysize ∈ [512, 256],
      fs_notdir.stat (keyfile_path d (get_vhd_basename (image_disk (toy_record key_L)))
        keysize) ≠ 0) ∧
    chain_find_keyed_vhd (env_of (some "/keys".toList) fs_notdir []) 1
        (image_disk (toy_record key_L)) key_zero 0 =
      some { err := - ENOTDIR, key := key_zero, keysize := 0, keyhash := keyhash_zero } ∧
    - ENOTDIR ≠ - ENOKEY ∧
    (∀ keysize ∈ [512, 256],
      fs_leaf.stat (keyfile_path "/keys".toList
        (get_vhd_basename (image_disk (toy_record key_L))) keysize) = ENOENT) ∧
    chain_find_keyed_vhd (env_chain (some "/keys".toList) fs_leaf (toy_record key_L)) 2
        image_leaf key_zero 0 =
      some { err := - EACCES, key := key_L ++ List.replicate 64 0, keysize := 512,
             keyhash := keyhash_zero } ∧
    - EACCES ≠ - ENOKEY := by
  refine ⟨⟨rfl, by decide⟩, ?_, by decide, by decide, by decide, by decide, by decide⟩
  intro d _ keysize _
  show ENOTDIR ≠ 0
  decide

/-- Evaluation of `keystore_read_entry` on a key store of two entries, which
no routine of block-crypto.c builds (`keystore_add_entry` has no caller):
with the entries of key A and key B in the store, in this order, and the
key hash of key B asked for, key B is the only cached key that passes
`check_key` against that hash, yet the routine returns 0 with key A: it
looks at the first entry only and checks it against the hash stored with
it. -/
theorem keystore_read_entry_first_only :
    check_key toy_keyhash (entry_of key_A).key (entry_of key_A).keysize
      (toy_record key_B) ≠ 0 ∧
    check_key toy_keyhash (entry_of key_B).key (entry_of key_B).keysize
      (toy_record key_B) = 0 ∧
    keystore_read_entry toy_keyhash [entry_of key_A, entry_of key_B] key_zero
      (toy_record key_B) = (0, key_A ++ List.replicate 96 0, 256) ∧
    keystore_read_entry toy_keyhash
      [{ entry_of key_A with keyhash := toy_record key_B }, entry_of key_B] key_zero
      (toy_record key_B) = (- EINVAL, key_zero, 0) := by
  decide

/-- The result of `chain_find_keyed_vhd` does not depend on the key store:
when the walk reaches an image that declares a key hash and `stat` reports
every candidate key file name as missing, the call returns -ENOKEY whatever
the key store holds. -/
theorem chain_find_fails_without_keyfile (env : crypto_env) (fuel : Nat)
    (vhd : vhd_context_t) (key : List Nat) (ks : Nat) (k : Nat) (q : vhd_context_t)
    (hk : k < fuel) (hq : ancestor env k vhd = some q) (hd : declares_keyhash q)
    (hclear : ∀ j a, j < k → ancestor env j vhd = some a → declares_no_keyhash a)
    (hfit : keydir_fits env)
    (hno : ∀ j a, j ≤ k → ancestor env j vhd = some a → no_key_for env a)
    (keystore : List keystore_entry) :
    ∃ r, chain_find_keyed_vhd { env with keystore := keystore } fuel vhd key ks = some r ∧
      r.err = - ENOKEY := by
  obtain ⟨r, h1, h2, -⟩ := chain_walk_enokey env hfit k fuel vhd key ks q hk hq hclear hno hd
  refine ⟨r, ?_, h2⟩
  unfold chain_find_keyed_vhd
  rw [chain_walk_keystore env keystore fuel vhd key ks]
  exact h1

/-- An instance: the image `/vm/disk.vhd` with a key hash, the key directory
`/keys` without key files, and a key store holding the key of the image. -/
theorem chain_find_fails_without_keyfile_witness :
    ∃ r, chain_find_keyed_vhd
        { env_of (some "/keys".toList) fs_empty [] with keystore := [entry_of key_L] } 1
        (image_disk (toy_record key_L)) key_zero 0 = some r ∧ r.err = - ENOKEY :=
  chain_find_fails_without_keyfile (env_of (some "/keys".toList) fs_empty []) 1
    (image_disk (toy_record key_L)) key_zero 0 0 (image_disk (toy_record key_L))
    (by decide) rfl ⟨rfl, by decide⟩ (fun j a hj _ => absurd hj (by omega))
    (fun dirs hd => by
      cases hd
      show ∀ d ∈ dir_list "/keys".toList, d.length < 256
      decide)
    (fun j a _ _ dirs hd => by
      cases hd
      intro d _ keysize _
      rfl)
    [entry_of key_L]

/-- Evaluation with a key store that holds a key passing `check_key`
against the key hash of the image, while the key directory holds no key file
of the image: `chain_find_keyed_vhd` returns -ENOKEY. -/
theorem keystore_not_consulted :
    check_key toy_keyhash (entry_of key_L).key (entry_of key_L).keysize
      (image_disk (toy_record key_L)).keyhash.2 = 0 ∧
    no_keyfile fs_empty "/keys".toList (get_vhd_basename (image_disk (toy_record key_L))) ∧
    chain_find_keyed_vhd (env_of (some "/keys".toList) fs_empty [entry_of key_L]) 1
        (image_disk (toy_record key_L)) key_zero 0 =
      some { err := - ENOKEY, key := key_zero, keysize := 0, keyhash := keyhash_zero } := by
  refine ⟨by decide, ?_, by decide⟩
  intro d _ keysize _
  rfl

/-- C14 (amended): `read_preferred_keyfile` tries the 512-bit name in every
listed directory before the 256-bit name in any.  Let the listed directory
names be shorter than 256 characters, let `stat` report a candidate name
either as present or as missing (ENOENT), and let `d` be a listed directory.
If `d` holds a 512-bit key file that can be opened and read in full and no
directory listed before `d` holds a 512-bit key file, that file is used.  If
no listed directory holds a 512-bit key file, `d` holds a 256-bit key file
that can be opened and read in full and no directory listed before `d` holds
a 256-bit key file, that file is used.  Among key files of one size a later
directory is never preferred to an earlier one. -/
theorem read_preferred_keyfile_order (fs : keyfs) (dirs base : List Char)
    (keybuf : List Nat) (pre : List (List Char)) (d : List Char) (post : List (List Char))
    (hl : dir_list dirs = pre ++ d :: post) (hd : d.length < 256) :
    ((∀ e ∈ pre, e.length < 256 ∧ fs.stat (keyfile_path e base 512) = ENOENT) →
      fs.stat (keyfile_path d base 512) = 0 →
      fs.open_errno (keyfile_path d base 512) = 0 →
      fs.read_errno (keyfile_path d base 512) = 0 →
      64 ≤ (fs.content (keyfile_path d base 512)).length →
      read_preferred_keyfile fs (some dirs) base keybuf =
        some (0, memcpy keybuf (fs.content (keyfile_path d base 512)) 64, 512)) ∧
    (dirs_fit dirs →
      (∀ e ∈ dir_list dirs, fs.stat (keyfile_path e base 512) = ENOENT) →
      (∀ e ∈ pre, fs.stat (keyfile_path e base 256) = ENOENT) →
      fs.stat (keyfile_path d base 256) = 0 →
      fs.open_errno (keyfile_path d base 256) = 0 →
      fs.read_errno (keyfile_path d base 256) = 0 →
      32 ≤ (fs.content (keyfile_path d base 256)).length →
      read_preferred_keyfile fs (some dirs) base keybuf =
        some (0, memcpy keybuf (fs.content (keyfile_path d base 256)) 32, 256)) := by
  constructor
  · intro hpre hs ho hr hc
    unfold read_preferred_keyfile
    rw [read_keyfile_first fs dirs base keybuf 512 pre d post hl hpre hd hs ho hr hc]
    rfl
  · intro hfit h512 hpre hs ho hr hc
    unfold read_preferred_keyfile
    rw [read_keyfile_missing fs dirs base keybuf 512 hfit h512]
    dsimp only
    rw [if_neg (by decide),
      read_keyfile_first fs dirs base keybuf 256 pre d post hl
        (fun e he => ⟨hfit e (by rw [hl]; exact List.mem_append_left _ he), hpre e he⟩)
        hd hs ho hr hc]
    rfl

/-- C14 witness: with a 256-bit key file in `a` and a 512-bit key file in
`b`, the list `a,b` yields the 512-bit key of `b`; with 256-bit key files
in both, it yields the key of `a`. -/
theorem read_preferred_keyfile_order_witness :
    read_preferred_keyfile fs_ab (some "a,b".toList) "disk".toList key_zero =
      some (0, memcpy key_zero key_L 64, 512) ∧
    read_preferred_keyfile fs_small (some "a,b".toList) "disk".toList key_zero =
      some (0, memcpy key_zero key_A 32, 256) :=
  ⟨(read_preferred_keyfile_order fs_ab "a,b".toList "disk".toList key_zero
      ["a".toList] "b".toList [] (by decide) (by decide)).1
      (by decide) (by decide) rfl rfl (by decide),
   (read_preferred_keyfile_order fs_small "a,b".toList "disk".toList key_zero
      [] "a".toList ["b".toList] (by decide) (by decide)).2
      (by unfold dirs_fit; decide) (by decide) (by decide) (by decide) rfl rfl (by decide)⟩

/-- C14 counterexample: the directory `a`, listed first, holds a key file of
`disk`, yet `read_preferred_keyfile` uses the key file of the directory `b`,
listed after it. -/
theorem later_directory_preferred :
    dir_list "a,b".toList = ["a".toList, "b".toList] ∧
    fs_ab.stat (keyfile_path "a".toList "disk".toList 256) = 0 ∧
    fs_ab.content (keyfile_path "a".toList "disk".toList 256) = key_A ∧
    fs_ab.content (keyfile_path "b".toList "disk".toList 512) = key_L ∧
    read_preferred_keyfile fs_ab (some "a,b".toList) "disk".toList key_zero =
      some (0, key_L ++ List.replicate 64 0, 512) := by
  decide

/-- C17 (evaluation of the code): for the image `/vm/disk.vhd` with its key
file in `/keys` the cipher handle is set up with the key, and the caller
receives whatever the return register holds, here -EINVAL, not 0. -/
theorem vhd_open_crypto_no_return_value :
    vhd_open_crypto (env_of (some "/keys".toList) fs_disk []) 1 (- EINVAL)
        (image_disk (toy_record key_L)) =
      some (- EINVAL, { image_disk (toy_record key_L) with xts_tfm := some key_L }) ∧
    - EINVAL ≠ 0 := by
  decide

end BlockCrypto
end Blktap

namespace Blktap
namespace BlockCrypto

/-! ### Sectors of a buffer -/

/-- Writing a sector leaves the length of a buffer that holds the sector. -/
theorem sector_put_length (buf : List Nat) (sec : Nat) (out : List Nat)
    (ho : out.length = VHD_SECTOR_SIZE) (hb : (sec + 1) * VHD_SECTOR_SIZE ≤ buf.length) :
    (sector_put buf sec out).length = buf.length := by
  simp only [sector_put, List.length_append, List.length_take, List.length_drop]
  have : (sec + 1) * VHD_SECTOR_SIZE = sec * VHD_SECTOR_SIZE + VHD_SECTOR_SIZE := by ring
  omega

/-- Writing a sector leaves the bytes before it. -/
theorem sector_put_take (buf : List Nat) (sec : Nat) (out : List Nat)
    (hb : sec * VHD_SECTOR_SIZE ≤ buf.length) :
    (sector_put buf sec out).take (sec * VHD_SECTOR_SIZE) = buf.take (sec * VHD_SECTOR_SIZE) := by
  unfold sector_put
  rw [List.append_assoc]
  exact List.take_left' (by simp [List.length_take]; omega)

/-- Writing a sector leaves the bytes after it. -/
theorem sector_put_drop (buf : List Nat) (sec : Nat) (out : List Nat)
    (ho : out.length = VHD_SECTOR_SIZE) (hb : sec * VHD_SECTOR_SIZE ≤ buf.length) :
    (sector_put buf sec out).drop ((sec + 1) * VHD_SECTOR_SIZE) =
      buf.drop ((sec + 1) * VHD_SECTOR_SIZE) := by
  unfold sector_put
  have he : (sec + 1) * VHD_SECTOR_SIZE = sec * VHD_SECTOR_SIZE + out.length := by
    rw [ho]; ring
  rw [he]
  exact List.drop_left' (by simp [List.length_take]; omega)

/-- The sector written is read back. -/
theorem sector_of_put (buf : List Nat) (sec : Nat) (out : List Nat)
    (ho : out.length = VHD_SECTOR_SIZE) (hb : sec * VHD_SECTOR_SIZE ≤ buf.length) :
    sector_of (sector_put buf sec out) sec = out := by
  unfold sector_of sector_put
  rw [List.append_assoc, List.drop_left' (by simp [List.length_take]; omega), ← ho]
  exact List.take_left _ _

/-- A sector depends only on the bytes from its start on. -/
theorem sector_of_congr_drop (a b : List Nat) (k i : Nat)
    (h : a.drop (k * VHD_SECTOR_SIZE) = b.drop (k * VHD_SECTOR_SIZE)) (hk : k ≤ i) :
    sector_of a i = sector_of b i := by
  unfold sector_of
  have he : i * VHD_SECTOR_SIZE = k * VHD_SECTOR_SIZE + (i - k) * VHD_SECTOR_SIZE := by
    rw [← Nat.add_mul]
    congr 1
    omega
  rw [he, ← List.drop_drop, ← List.drop_drop, h]

/-- A sector depends only on the bytes up to its end. -/
theorem sector_of_congr_take (a b : List Nat) (k i : Nat)
    (h : a.take (k * VHD_SECTOR_SIZE) = b.take (k * VHD_SECTOR_SIZE)) (hk : i < k) :
    sector_of a i = sector_of b i := by
  have key : ∀ l : List Nat, sector_of l i = sector_of (l.take (k * VHD_SECTOR_SIZE)) i := by
    intro l
    unfold sector_of
    rw [List.drop_take, List.take_take]
    congr 1
    have h1 : (i + 1) * VHD_SECTOR_SIZE ≤ k * VHD_SECTOR_SIZE :=
      Nat.mul_le_mul_right _ hk
    have h2 : (i + 1) * VHD_SECTOR_SIZE = i * VHD_SECTOR_SIZE + VHD_SECTOR_SIZE := by ring
    omega
  rw [key a, key b, h]

/-- Two buffers of `n` sectors with the same sectors are equal. -/
theorem sectors_ext : ∀ (n : Nat) (a b : List Nat),
    a.length = n * VHD_SECTOR_SIZE → b.length = n * VHD_SECTOR_SIZE →
    (∀ i, i < n → sector_of a i = sector_of b i) → a = b := by
  intro n
  induction n with
  | zero =>
    intro a b ha hb _
    simp only [Nat.zero_mul, List.length_eq_zero] at ha hb
    rw [ha, hb]
  | succ n ih =>
    intro a b ha hb h
    have h0 := h 0 (Nat.succ_pos _)
    simp only [sector_of, Nat.zero_mul, List.drop_zero] at h0
    have hs : (n + 1) * VHD_SECTOR_SIZE = n * VHD_SECTOR_SIZE + VHD_SECTOR_SIZE := by ring
    have hrest : a.drop VHD_SECTOR_SIZE = b.drop VHD_SECTOR_SIZE := by
      apply ih
      · rw [List.length_drop]; omega
      · rw [List.length_drop]; omega
      · intro i hi
        have := h (i + 1) (by omega)
        unfold sector_of at this ⊢
        rw [List.drop_drop, List.drop_drop]
        have he : (i + 1) * VHD_SECTOR_SIZE = VHD_SECTOR_SIZE + i * VHD_SECTOR_SIZE := by ring
        rw [← he]
        exact this
    rw [← List.take_append_drop VHD_SECTOR_SIZE a, ← List.take_append_drop VHD_SECTOR_SIZE b,
      h0, hrest]

end BlockCrypto
end Blktap

namespace Blktap
namespace BlockCrypto

/-! ### The sector loop of `vhd_crypto_decrypt` and `vhd_crypto_encrypt` -/

/-- A sector inside a buffer has 512 bytes. -/
theorem sector_of_length (buf : List Nat) (i : Nat)
    (h : (i + 1) * VHD_SECTOR_SIZE ≤ buf.length) :
    (sector_of buf i).length = VHD_SECTOR_SIZE := by
  unfold sector_of
  rw [List.length_take, List.length_drop]
  have : (i + 1) * VHD_SECTOR_SIZE = i * VHD_SECTOR_SIZE + VHD_SECTOR_SIZE := by ring
  omega

/-- Writing sector `sec` leaves the source sectors after it, also when the
source is the buffer itself. -/
theorem source_sector_after_put (src : Option (List Nat)) (buf : List Nat) (sec : Nat)
    (out : List Nat) (ho : out.length = VHD_SECTOR_SIZE)
    (hb : sec * VHD_SECTOR_SIZE ≤ buf.length) (i : Nat) (hi : sec + 1 ≤ i) :
    sector_of (src.getD (sector_put buf sec out)) i = sector_of (src.getD buf) i := by
  cases src with
  | some o => rfl
  | none =>
    exact sector_of_congr_drop _ _ (sec + 1) i (sector_put_drop buf sec out ho hb) hi

/-- What the sector loop leaves when it ends: the length of the buffer and
the bytes outside the sectors `sec` to `sec + n - 1` are as before, and each
of these sectors holds what the cipher wrote for the source sector of the
same index with the sector number `first + i` taken in 64 bits. -/
theorem crypt_loop_sectors (cipher : Option (List Nat) → Nat → List Nat → Int × List Nat)
    (tfm : Option (List Nat)) (first : Nat) (src : Option (List Nat)) :
    ∀ (n sec : Nat) (buf buf' : List Nat),
      crypt_loop cipher tfm first src n sec buf = some buf' →
      (sec + n) * VHD_SECTOR_SIZE ≤ buf.length →
      (∀ i, sec ≤ i → i < sec + n →
        (cipher tfm ((first + i) % 2 ^ 64) (sector_of (src.getD buf) i)).2.length
          = VHD_SECTOR_SIZE) →
      buf'.length = buf.length ∧
      buf'.take (sec * VHD_SECTOR_SIZE) = buf.take (sec * VHD_SECTOR_SIZE) ∧
      buf'.drop ((sec + n) * VHD_SECTOR_SIZE) = buf.drop ((sec + n) * VHD_SECTOR_SIZE) ∧
      ∀ i, sec ≤ i → i < sec + n →
        sector_of buf' i =
          (cipher tfm ((first + i) % 2 ^ 64) (sector_of (src.getD buf) i)).2 := by
  intro n
  induction n with
  | zero =>
    intro sec buf buf' h _ _
    simp only [crypt_loop, Option.some.injEq] at h
    subst h
    exact ⟨rfl, rfl, rfl, fun i h1 h2 => absurd h2 (by omega)⟩
  | succ n ih =>
    intro sec buf buf' h hb hlen
    rw [crypt_loop] at h
    by_cases c : (cipher tfm ((first + sec) % 2 ^ 64) (sector_of (src.getD buf) sec)).1 ≠ 0
    · rw [if_pos c] at h
      cases h
    · rw [if_neg c] at h
      have hout := hlen sec (Nat.le_refl _) (by omega)
      have hs : (sec + (n + 1)) * VHD_SECTOR_SIZE =
          (sec + 1) * VHD_SECTOR_SIZE + n * VHD_SECTOR_SIZE := by ring
      have hs1 : (sec + 1) * VHD_SECTOR_SIZE = sec * VHD_SECTOR_SIZE + VHD_SECTOR_SIZE := by
        ring
      have hb0 : sec * VHD_SECTOR_SIZE ≤ buf.length := by omega
      have hb1 : (sec + 1) * VHD_SECTOR_SIZE ≤ buf.length := by omega
      have hl1 := sector_put_length buf sec _ hout hb1
      have hn : sec + 1 + n = sec + (n + 1) := by omega
      obtain ⟨e1, e2, e3, e4⟩ := ih (sec + 1) _ buf' h
        (by rw [hl1, hn]; exact hb)
        (fun i h1 h2 => by
          rw [source_sector_after_put src buf sec _ hout hb0 i h1]
          exact hlen i (by omega) (by omega))
      refine ⟨e1.trans hl1, ?_, ?_, ?_⟩
      · have h1 : List.take (sec * VHD_SECTOR_SIZE) buf' =
            List.take (sec * VHD_SECTOR_SIZE) (List.take ((sec + 1) * VHD_SECTOR_SIZE) buf') := by
          rw [List.take_take, Nat.min_eq_left (by omega)]
        rw [h1, e2, List.take_take, Nat.min_eq_left (by omega)]
        exact sector_put_take buf sec _ hb0
      · rw [hn] at e3
        rw [e3, hs, ← List.drop_drop, ← List.drop_drop, sector_put_drop buf sec _ hout hb0]
      · intro i h1 h2
        by_cases hi : i = sec
        · subst hi
          rw [sector_of_congr_take buf' _ (i + 1) i e2 (Nat.lt_succ_self _)]
          exact sector_of_put buf i _ hout hb0
        · rw [e4 i (by omega) (by omega),
            source_sector_after_put src buf sec _ hout hb0 i (by omega)]

/-- The sector loop ends when the cipher reports success for every sector
it is given. -/
theorem crypt_loop_returns (cipher : Option (List Nat) → Nat → List Nat → Int × List Nat)
    (tfm : Option (List Nat)) (first : Nat) (src : Option (List Nat)) :
    ∀ (n sec : Nat) (buf : List Nat),
      (sec + n) * VHD_SECTOR_SIZE ≤ buf.length →
      (∀ i, sec ≤ i → i < sec + n →
        (cipher tfm ((first + i) % 2 ^ 64) (sector_of (src.getD buf) i)).1 = 0 ∧
        (cipher tfm ((first + i) % 2 ^ 64) (sector_of (src.getD buf) i)).2.length
          = VHD_SECTOR_SIZE) →
      ∃ buf', crypt_loop cipher tfm first src n sec buf = some buf' := by
  intro n
  induction n with
  | zero =>
    intro sec buf _ _
    exact ⟨buf, rfl⟩
  | succ n ih =>
    intro sec buf hb hc
    have h0 := hc sec (Nat.le_refl _) (by omega)
    have hs1 : (sec + 1) * VHD_SECTOR_SIZE = sec * VHD_SECTOR_SIZE + VHD_SECTOR_SIZE := by
      ring
    have hs : (sec + (n + 1)) * VHD_SECTOR_SIZE =
        (sec + 1) * VHD_SECTOR_SIZE + n * VHD_SECTOR_SIZE := by ring
    have hb0 : sec * VHD_SECTOR_SIZE ≤ buf.length := by omega
    have hb1 : (sec + 1) * VHD_SECTOR_SIZE ≤ buf.length := by omega
    have hl1 := sector_put_length buf sec _ h0.2 hb1
    have hn : sec + 1 + n = sec + (n + 1) := by omega
    rw [crypt_loop]
    rw [if_neg (not_not.mpr h0.1)]
    refine ih (sec + 1) _ (by rw [hl1, hn]; exact hb) ?_
    intro i h1 h2
    rw [source_sector_after_put src buf sec _ h0.2 hb0 i h1]
    exact hc i (by omega) (by omega)

end BlockCrypto
end Blktap

namespace Blktap
namespace BlockCrypto

/-! ### Claims on sector encryption -/

/-- The example cipher satisfies the cipher contract. -/
theorem toy_cipher_inverse : cipher_inverse toy_cipher toy_cipher := by
  intro k s x _ hx
  refine ⟨rfl, ?_, ?_⟩
  · simp [toy_cipher, hx]
  · simp only [toy_cipher, List.map_map, Prod.mk.injEq, true_and]
    have hf : ((fun b => b ^^^ ((Option.getD (some k) []).sum + s) % 256) ∘
        fun b => b ^^^ ((Option.getD (some k) []).sum + s) % 256) = id := by
      funext b
      simp only [Function.comp_apply, id_eq]
      exact Nat.xor_cancel_right _ _
    rw [hf, List.map_id]

/-- The example cipher writes as many bytes as it is given. -/
theorem toy_cipher_length (tfm : Option (List Nat)) (s : Nat) (x : List Nat) :
    (toy_cipher tfm s x).2.length = x.length := by
  simp [toy_cipher]

/-- C15: let the cipher primitives satisfy the contract that decryption
undoes encryption for every key, sector number and 512-byte sector, and let
a key be set on the handle.  For every request and every plaintext buffer
of `t->secs` sectors, `vhd_crypto_encrypt` from that buffer into `t->buf`
returns, `vhd_crypto_decrypt` on the resulting request returns, and it
leaves in the first `t->secs` sectors of `t->buf` the plaintext, the bytes
after them as they were; when `t->buf` holds just `t->secs` sectors it
equals the plaintext. -/
theorem encrypt_decrypt_round_trip
    (encrypt decrypt : Option (List Nat) → Nat → List Nat → Int × List Nat)
    (hc : cipher_inverse encrypt decrypt) (vhd : vhd_context_t) (k : List Nat)
    (hk : vhd.xts_tfm = some k) (t : td_request_t) (orig : List Nat)
    (ho : orig.length = t.secs.toNat * VHD_SECTOR_SIZE)
    (hb : t.secs.toNat * VHD_SECTOR_SIZE ≤ t.buf.length) :
    ∃ t1 t2, vhd_crypto_encrypt encrypt vhd t orig = some t1 ∧
      vhd_crypto_decrypt decrypt vhd t1 = some t2 ∧
      t2.sec = t.sec ∧ t2.secs = t.secs ∧
      t2.buf = orig ++ t.buf.drop (t.secs.toNat * VHD_SECTOR_SIZE) ∧
      (t.buf.length = t.secs.toNat * VHD_SECTOR_SIZE → t2.buf = orig) := by
  have hm : ∀ i, (t.sec + i) % 2 ^ 64 < 2 ^ 64 := fun i => Nat.mod_lt _ (by norm_num)
  have hol : ∀ i, i < t.secs.toNat → (sector_of orig i).length = VHD_SECTOR_SIZE := by
    intro i hi
    apply sector_of_length
    rw [ho]
    exact Nat.mul_le_mul_right _ hi
  -- encryption
  have henc : ∀ i, 0 ≤ i → i < 0 + t.secs.toNat →
      (encrypt (some k) ((t.sec + i) % 2 ^ 64) (sector_of ((some orig).getD t.buf) i)).1 = 0 ∧
      (encrypt (some k) ((t.sec + i) % 2 ^ 64)
        (sector_of ((some orig).getD t.buf) i)).2.length = VHD_SECTOR_SIZE := by
    intro i _ hi
    have := hc k ((t.sec + i) % 2 ^ 64) (sector_of orig i) (hm i) (hol i (by omega))
    exact ⟨this.1, this.2.1⟩
  obtain ⟨b1, hb1⟩ := crypt_loop_returns encrypt (some k) t.sec (some orig) t.secs.toNat 0
    t.buf (by simpa using hb) henc
  obtain ⟨e1, -, e3, e4⟩ := crypt_loop_sectors encrypt (some k) t.sec (some orig)
    t.secs.toNat 0 t.buf b1 hb1 (by simpa using hb) (fun i h1 h2 => (henc i h1 h2).2)
  -- decryption of what encryption left
  have hdec : ∀ i, 0 ≤ i → i < 0 + t.secs.toNat →
      decrypt (some k) ((t.sec + i) % 2 ^ 64) (sector_of ((none : Option (List Nat)).getD b1) i)
        = (0, sector_of orig i) := by
    intro i h1 h2
    have := hc k ((t.sec + i) % 2 ^ 64) (sector_of orig i) (hm i) (hol i (by omega))
    show decrypt (some k) ((t.sec + i) % 2 ^ 64) (sector_of b1 i) = (0, sector_of orig i)
    rw [e4 i h1 h2]
    exact this.2.2
  have hdec2 : ∀ i, 0 ≤ i → i < 0 + t.secs.toNat →
      (decrypt (some k) ((t.sec + i) % 2 ^ 64)
        (sector_of ((none : Option (List Nat)).getD b1) i)).1 = 0 ∧
      (decrypt (some k) ((t.sec + i) % 2 ^ 64)
        (sector_of ((none : Option (List Nat)).getD b1) i)).2.length = VHD_SECTOR_SIZE := by
    intro i h1 h2
    rw [hdec i h1 h2]
    exact ⟨rfl, hol i (by omega)⟩
  obtain ⟨b2, hb2⟩ := crypt_loop_returns decrypt (some k) t.sec none t.secs.toNat 0 b1
    (by rw [e1]; simpa using hb) hdec2
  obtain ⟨f1, -, f3, f4⟩ := crypt_loop_sectors decrypt (some k) t.sec none t.secs.toNat 0 b1 b2
    hb2 (by rw [e1]; simpa using hb) (fun i h1 h2 => (hdec2 i h1 h2).2)
  have htake : b2.take (t.secs.toNat * VHD_SECTOR_SIZE) = orig := by
    apply sectors_ext t.secs.toNat
    · rw [List.length_take, f1, e1]
      exact Nat.min_eq_left hb
    · exact ho
    · intro i hi
      rw [sector_of_congr_take (b2.take (t.secs.toNat * VHD_SECTOR_SIZE)) b2 t.secs.toNat i
        (by rw [List.take_take, Nat.min_self]) hi, f4 i (Nat.zero_le _) (by omega),
        hdec i (Nat.zero_le _) (by omega)]
  have hdrop : b2.drop (t.secs.toNat * VHD_SECTOR_SIZE) =
      t.buf.drop (t.secs.toNat * VHD_SECTOR_SIZE) := by
    have h1 := f3
    have h2 := e3
    simp only [Nat.zero_add] at h1 h2
    rw [h1, h2]
  have hbuf : b2 = orig ++ t.buf.drop (t.secs.toNat * VHD_SECTOR_SIZE) := by
    rw [← htake, ← hdrop]
    exact (List.take_append_drop _ _).symm
  refine ⟨{ t with buf := b1 }, { t with buf := b2 }, ?_, ?_, rfl, rfl, hbuf, ?_⟩
  · unfold vhd_crypto_encrypt
    rw [hk, hb1]
    rfl
  · unfold vhd_crypto_decrypt
    rw [hk]
    show Option.map _ (crypt_loop decrypt (some k) t.sec none t.secs.toNat 0 b1) = _
    rw [hb2]
    rfl
  · intro hl
    show b2 = orig
    rw [hbuf, List.drop_of_length_le (by omega), List.append_nil]

/-- C15 witness: the buffer of 512 zero bytes of the decryption test,
encrypted at sector 0 and decrypted again with the example cipher. -/
theorem encrypt_decrypt_round_trip_witness :
    ∃ t1 t2, vhd_crypto_encrypt toy_cipher image_open test_request
        (List.replicate 512 0) = some t1 ∧
      vhd_crypto_decrypt toy_cipher image_open t1 = some t2 ∧
      t2.sec = test_request.sec ∧ t2.secs = test_request.secs ∧
      t2.buf = List.replicate 512 0 ++
        test_request.buf.drop (test_request.secs.toNat * VHD_SECTOR_SIZE) ∧
      (test_request.buf.length = test_request.secs.toNat * VHD_SECTOR_SIZE →
        t2.buf = List.replicate 512 0) :=
  encrypt_decrypt_round_trip toy_cipher toy_cipher toy_cipher_inverse
    image_open key_A rfl test_request
    (List.replicate 512 0) (List.length_replicate _ _)
    (Nat.le_of_eq (List.length_replicate _ _).symm)

/-- C16: let the cipher write 512 bytes for a 512-byte sector and let
`t->buf` hold `t->secs` sectors.  When `vhd_crypto_decrypt` returns, the
`i`-th sector of `t->buf`, for every `i < t->secs`, holds what the cipher
wrote for the `i`-th sector of `t->buf` with the sector number
`t->sec + i`; when `vhd_crypto_encrypt` returns it holds what the cipher
wrote for the `i`-th sector of `orig_buf` with that sector number; in both
cases the length of the buffer and its bytes after the first `t->secs`
sectors are as before.  Both return when the cipher reports success.  The
sector number is computed in 64 bits and is the absolute index `t->sec + i`
when the request ends within the 64-bit sector range. -/
theorem crypt_sector_tweak
    (cipher : Option (List Nat) → Nat → List Nat → Int × List Nat)
    (vhd : vhd_context_t) (t : td_request_t)
    (hlen : ∀ s x, x.length = VHD_SECTOR_SIZE →
      (cipher vhd.xts_tfm s x).2.length = VHD_SECTOR_SIZE)
    (hb : t.secs.toNat * VHD_SECTOR_SIZE ≤ t.buf.length) :
    (∀ t', vhd_crypto_decrypt cipher vhd t = some t' →
      t'.buf.length = t.buf.length ∧
      t'.buf.drop (t.secs.toNat * VHD_SECTOR_SIZE) =
        t.buf.drop (t.secs.toNat * VHD_SECTOR_SIZE) ∧
      ∀ i, i < t.secs.toNat →
        sector_of t'.buf i =
          (cipher vhd.xts_tfm ((t.sec + i) % 2 ^ 64) (sector_of t.buf i)).2) ∧
    (∀ orig t', t.secs.toNat * VHD_SECTOR_SIZE ≤ orig.length →
      vhd_crypto_encrypt cipher vhd t orig = some t' →
      t'.buf.length = t.buf.length ∧
      t'.buf.drop (t.secs.toNat * VHD_SECTOR_SIZE) =
        t.buf.drop (t.secs.toNat * VHD_SECTOR_SIZE) ∧
      ∀ i, i < t.secs.toNat →
        sector_of t'.buf i =
          (cipher vhd.xts_tfm ((t.sec + i) % 2 ^ 64) (sector_of orig i)).2) ∧
    ((∀ s x, (cipher vhd.xts_tfm s x).1 = 0) →
      (∃ t', vhd_crypto_decrypt cipher vhd t = some t') ∧
      ∀ orig, t.secs.toNat * VHD_SECTOR_SIZE ≤ orig.length →
        ∃ t', vhd_crypto_encrypt cipher vhd t orig = some t') ∧
    (t.sec + t.secs.toNat ≤ 2 ^ 64 →
      ∀ i, i < t.secs.toNat → (t.sec + i) % 2 ^ 64 = t.sec + i) := by
  have hsl : ∀ (l : List Nat), t.secs.toNat * VHD_SECTOR_SIZE ≤ l.length →
      ∀ i, i < t.secs.toNat → (sector_of l i).length = VHD_SECTOR_SIZE := by
    intro l hl i hi
    apply sector_of_length
    exact Nat.le_trans (Nat.mul_le_mul_right _ hi) hl
  refine ⟨?_, ?_, ?_, ?_⟩
  · intro t' h
    unfold vhd_crypto_decrypt at h
    cases hr : crypt_loop cipher vhd.xts_tfm t.sec none t.secs.toNat 0 t.buf with
    | none =>
      rw [hr] at h
      cases h
    | some b =>
      rw [hr] at h
      simp only [Option.map_some', Option.some.injEq] at h
      subst h
      obtain ⟨e1, -, e3, e4⟩ := crypt_loop_sectors cipher vhd.xts_tfm t.sec none
        t.secs.toNat 0 t.buf b hr (by simpa using hb)
        (fun i _ h2 => hlen _ _ (hsl t.buf hb i (by omega)))
      simp only [Nat.zero_add] at e3
      exact ⟨e1, e3, fun i hi => e4 i (Nat.zero_le _) (by omega)⟩
  · intro orig t' ho h
    unfold vhd_crypto_encrypt at h
    cases hr : crypt_loop cipher vhd.xts_tfm t.sec (some orig) t.secs.toNat 0 t.buf with
    | none =>
      rw [hr] at h
      cases h
    | some b =>
      rw [hr] at h
      simp only [Option.map_some', Option.some.injEq] at h
      subst h
      obtain ⟨e1, -, e3, e4⟩ := crypt_loop_sectors cipher vhd.xts_tfm t.sec (some orig)
        t.secs.toNat 0 t.buf b hr (by simpa using hb)
        (fun i _ h2 => hlen _ _ (hsl orig ho i (by omega)))
      simp only [Nat.zero_add] at e3
      exact ⟨e1, e3, fun i hi => e4 i (Nat.zero_le _) (by omega)⟩
  · intro hst
    constructor
    · obtain ⟨b, hr⟩ := crypt_loop_returns cipher vhd.xts_tfm t.sec none t.secs.toNat 0 t.buf
        (by simpa using hb)
        (fun i _ h2 => ⟨hst _ _, hlen _ _ (hsl t.buf hb i (by omega))⟩)
      exact ⟨{ t with buf := b }, by unfold vhd_crypto_decrypt; rw [hr]; rfl⟩
    · intro orig ho
      obtain ⟨b, hr⟩ := crypt_loop_returns cipher vhd.xts_tfm t.sec (some orig) t.secs.toNat 0
        t.buf (by simpa using hb)
        (fun i _ h2 => ⟨hst _ _, hlen _ _ (hsl orig ho i (by omega))⟩)
      exact ⟨{ t with buf := b }, by unfold vhd_crypto_encrypt; rw [hr]; rfl⟩
  · intro h i hi
    exact Nat.mod_eq_of_lt (by omega)

/-- C16 witness: the example cipher on a request of two sectors that starts
at sector 7, with a buffer of three sectors: decryption returns and the two
sectors are transformed with the sector numbers 7 and 8. -/
theorem crypt_sector_tweak_witness :
    (∃ t', vhd_crypto_decrypt toy_cipher image_open two_sector_request = some t') ∧
    (∀ t', vhd_crypto_decrypt toy_cipher image_open two_sector_request = some t' →
      t'.buf.length = two_sector_request.buf.length ∧
      t'.buf.drop (two_sector_request.secs.toNat * VHD_SECTOR_SIZE) =
        two_sector_request.buf.drop (two_sector_request.secs.toNat * VHD_SECTOR_SIZE) ∧
      ∀ i, i < two_sector_request.secs.toNat →
        sector_of t'.buf i =
          (toy_cipher image_open.xts_tfm ((two_sector_request.sec + i) % 2 ^ 64)
            (sector_of two_sector_request.buf i)).2) ∧
    (∀ i, i < two_sector_request.secs.toNat →
      (two_sector_request.sec + i) % 2 ^ 64 = two_sector_request.sec + i) :=
  ⟨((crypt_sector_tweak toy_cipher image_open two_sector_request
      (fun s x hx => by rw [toy_cipher_length]; exact hx)
      (by
        show (2 : Int).toNat * VHD_SECTOR_SIZE ≤ (List.replicate 1536 9).length
        rw [List.length_replicate]
        decide)).2.2.1 (fun _ _ => rfl)).1,
   (crypt_sector_tweak toy_cipher image_open two_sector_request
      (fun s x hx => by rw [toy_cipher_length]; exact hx)
      (by
        show (2 : Int).toNat * VHD_SECTOR_SIZE ≤ (List.replicate 1536 9).length
        rw [List.length_replicate]
        decide)).1,
   (crypt_sector_tweak toy_cipher image_open two_sector_request
      (fun s x hx => by rw [toy_cipher_length]; exact hx)
      (by
        show (2 : Int).toNat * VHD_SECTOR_SIZE ≤ (List.replicate 1536 9).length
        rw [List.length_replicate]
        decide)).2.2.2 (by decide)⟩

end BlockCrypto
end Blktap

namespace Blktap
namespace Stream

/-! ### Single transfers -/

/-- The status of a failed transfer is not 0. -/
theorem transfer_error_ne_zero (f : FILE) : transfer_error f ≠ 0 := by
  unfold transfer_error
  by_cases h1 : f.error = true
  · by_cases h2 : f.errno ≠ 0
    · rw [if_pos h1, if_pos h2]
      intro h
      exact h2 (by omega)
    · rw [if_pos h1, if_neg h2]
      decide
  · rw [if_neg h1]
    decide

/-- A read leaves the kind of the stream. -/
theorem fread_seekable (f : FILE) (count : Nat) : (fread f count).2.2.seekable = f.seekable := by
  unfold fread
  dsimp only
  split_ifs <;> rfl

/-- A write leaves the kind of the stream. -/
theorem fwrite_seekable (f : FILE) (buf : List Nat) (count : Nat) :
    (fwrite f buf count).2.seekable = f.seekable := by
  unfold fwrite
  dsimp only
  split_ifs <;> rfl

/-- The routine `vhd_stream_read` keeps the kind of the stream and the
mode, and the position advances by `count` on success and stays on
failure. -/
theorem read_step (v : vhd_stream) (count : Nat) :
    kind (vhd_stream_read v count).2.2 = kind v ∧
    (vhd_stream_read v count).2.2.rw = v.rw ∧
    (((vhd_stream_read v count).1 = 0 ∧ (vhd_stream_read v count).2.2.pos = v.pos + count) ∨
     ((vhd_stream_read v count).1 ≠ 0 ∧ (vhd_stream_read v count).2.2.pos = v.pos)) := by
  unfold vhd_stream_read
  cases hs : v.stream with
  | none =>
    dsimp only
    exact ⟨by simp [kind, hs], rfl, Or.inr ⟨by decide, rfl⟩⟩
  | some f =>
    dsimp only
    by_cases h : (fread f count).1 = true
    · rw [if_pos h]
      exact ⟨by simp [kind, hs, fread_seekable], rfl, Or.inl ⟨rfl, rfl⟩⟩
    · rw [if_neg h]
      exact ⟨by simp [kind, hs, fread_seekable], rfl,
        Or.inr ⟨transfer_error_ne_zero _, rfl⟩⟩

/-- The routine `vhd_stream_write` keeps the kind of the stream and the
mode, and the position advances by `count` on success and stays on
failure. -/
theorem write_step (v : vhd_stream) (buf : List Nat) (count : Nat) :
    kind (vhd_stream_write v buf count).2 = kind v ∧
    (vhd_stream_write v buf count).2.rw = v.rw ∧
    (((vhd_stream_write v buf count).1 = 0 ∧
        (vhd_stream_write v buf count).2.pos = v.pos + count) ∨
     ((vhd_stream_write v buf count).1 ≠ 0 ∧ (vhd_stream_write v buf count).2.pos = v.pos)) := by
  unfold vhd_stream_write
  cases hs : v.stream with
  | none =>
    dsimp only
    exact ⟨by simp [kind, hs], rfl, Or.inr ⟨by decide, rfl⟩⟩
  | some f =>
    dsimp only
    by_cases h : (fwrite f buf count).1 = true
    · rw [if_pos h]
      exact ⟨by simp [kind, hs, fwrite_seekable], rfl, Or.inl ⟨rfl, rfl⟩⟩
    · rw [if_neg h]
      exact ⟨by simp [kind, hs, fwrite_seekable], rfl,
        Or.inr ⟨transfer_error_ne_zero _, rfl⟩⟩

/-- The position reported depends on the kind of the stream and the field
`pos` only. -/
theorem position_mono (v w : vhd_stream) (hk : kind w = kind v) (hp : v.pos ≤ w.pos) :
    vhd_stream_position v ≤ vhd_stream_position w := by
  unfold vhd_stream_position
  unfold kind at hk
  cases hv : v.stream with
  | none =>
    rw [hv] at hk
    cases hw : w.stream with
    | none => exact le_refl _
    | some g =>
      rw [hw] at hk
      cases hk
  | some f =>
    rw [hv] at hk
    cases hw : w.stream with
    | none =>
      rw [hw] at hk
      cases hk
    | some g => exact hp

end Stream
end Blktap

namespace Blktap
namespace Stream

/-! ### The seek loop -/

/-- The size of a round of the seek loop is between 1 and 4096 and at most
the distance to the target. -/
theorem chunk_size_bounds (pos vpos : Int) (h : vpos < pos) :
    0 < (if 4096 > pos - vpos then (pos - vpos).toNat else 4096) ∧
    (if 4096 > pos - vpos then (pos - vpos).toNat else 4096) ≤ 4096 ∧
    ((if 4096 > pos - vpos then (pos - vpos).toNat else 4096 : Nat) : Int) ≤ pos - vpos := by
  by_cases c : 4096 > pos - vpos
  · rw [if_pos c]
    omega
  · rw [if_neg c]
    omega

/-- One round of the seek loop keeps the kind of the stream and the mode;
the position advances by the size of the round on success and stays on
failure. -/
theorem seek_round (rw : Bool) (v : vhd_stream) (size : Nat) :
    kind (if rw then vhd_stream_write v (List.replicate 4096 0) size
      else ((vhd_stream_read v size).1, (vhd_stream_read v size).2.2)).2 = kind v ∧
    (if rw then vhd_stream_write v (List.replicate 4096 0) size
      else ((vhd_stream_read v size).1, (vhd_stream_read v size).2.2)).2.rw = v.rw ∧
    (((if rw then vhd_stream_write v (List.replicate 4096 0) size
        else ((vhd_stream_read v size).1, (vhd_stream_read v size).2.2)).1 = 0 ∧
      (if rw then vhd_stream_write v (List.replicate 4096 0) size
        else ((vhd_stream_read v size).1, (vhd_stream_read v size).2.2)).2.pos = v.pos + size) ∨
     ((if rw then vhd_stream_write v (List.replicate 4096 0) size
        else ((vhd_stream_read v size).1, (vhd_stream_read v size).2.2)).1 ≠ 0 ∧
      (if rw then vhd_stream_write v (List.replicate 4096 0) size
        else ((vhd_stream_read v size).1, (vhd_stream_read v size).2.2)).2.pos = v.pos)) := by
  cases rw with
  | true => exact write_step v _ size
  | false => exact read_step v size

/-- The seek loop ends within its budget, whether the transfers succeed or
fail; it keeps the kind of the stream and the mode and never lowers the
position, and when it returns 0 the position has reached the target. -/
theorem seek_loop_total (rw : Bool) (pos : Int) :
    ∀ (fuel : Nat) (v : vhd_stream), (pos - v.pos).toNat ≤ fuel →
      ∃ r, seek_loop rw pos fuel v = some r ∧ kind r.2 = kind v ∧
        r.2.rw = v.rw ∧ v.pos ≤ r.2.pos ∧ (r.1 = 0 → pos ≤ r.2.pos) := by
  intro fuel
  induction fuel with
  | zero =>
    intro v h
    have hn : ¬ v.pos < pos := by omega
    refine ⟨(0, v), ?_, rfl, rfl, le_refl _, fun _ => by show pos ≤ v.pos; omega⟩
    rw [seek_loop, if_neg hn]
  | succ n ih =>
    intro v h
    rw [seek_loop]
    by_cases c : v.pos < pos
    · rw [if_pos c]
      dsimp only
      obtain ⟨s1, s2, s3⟩ := chunk_size_bounds pos v.pos c
      obtain ⟨k1, k2, k3⟩ := seek_round rw v
        (if 4096 > pos - v.pos then (pos - v.pos).toNat else 4096)
      rcases k3 with ⟨e0, ep⟩ | ⟨e0, ep⟩
      · rw [if_neg (not_not.mpr e0)]
        obtain ⟨r, h1, h2, h3, h4, h5⟩ := ih _ (by rw [ep]; omega)
        exact ⟨r, h1, h2.trans k1, h3.trans k2, by rw [ep] at h4; omega, h5⟩
      · rw [if_pos e0]
        exact ⟨_, rfl, k1, k2, by rw [ep], fun h0 => absurd h0 e0⟩
    · rw [if_neg c]
      exact ⟨(0, v), rfl, rfl, rfl, le_refl _, fun _ => by show pos ≤ v.pos; omega⟩

/-- The emulation of a seek ends; it keeps the kind of the stream and never
lowers the position, and it fails for a target before the position. -/
theorem seek_emulate_total (v : vhd_stream) (pos : Int) :
    ∃ r, seek_emulate v pos = some r ∧ kind r.2 = kind v ∧ v.pos ≤ r.2.pos ∧
      (pos < v.pos → r.1 ≠ 0) := by
  unfold seek_emulate
  by_cases c1 : pos < 0
  · rw [if_pos c1]
    exact ⟨_, rfl, rfl, le_refl _, fun _ => by show - EINVAL ≠ 0; decide⟩
  · rw [if_neg c1]
    by_cases c2 : pos < v.pos
    · rw [if_pos c2]
      exact ⟨_, rfl, rfl, le_refl _, fun _ => by show - ESPIPE ≠ 0; decide⟩
    · rw [if_neg c2]
      obtain ⟨r, h1, h2, -, h4, -⟩ := seek_loop_total
        v.rw pos (pos - v.pos).toNat v (le_refl _)
      exact ⟨r, h1, h2, h4, fun h => absurd h c2⟩

/-- On a stream that cannot seek, or without a stream, `vhd_stream_seek`
ends; it keeps the kind of the stream and never lowers the position, and it
fails when the target is before the position. -/
theorem seek_total (v : vhd_stream) (hv : nonseekable v) (off whence : Int) :
    ∃ r, vhd_stream_seek v off whence = some r ∧ kind r.2 = kind v ∧ v.pos ≤ r.2.pos ∧
      ((whence = SEEK_SET ∧ off < v.pos) ∨ (whence = SEEK_CUR ∧ off < 0) → r.1 ≠ 0) := by
  unfold vhd_stream_seek
  cases hs : v.stream with
  | none =>
    dsimp only
    exact ⟨_, rfl, rfl, le_refl _, fun _ => by show - EBADF ≠ 0; decide⟩
  | some f =>
    dsimp only
    have hf := hv f hs
    have hfs : (fseeko f off whence).1 ≠ 0 := by
      unfold fseeko
      by_cases c : whence ≠ SEEK_SET ∧ whence ≠ SEEK_CUR ∧ whence ≠ SEEK_END
      · rw [if_pos c]
        show EINVAL ≠ 0
        decide
      · rw [if_neg c, if_pos (by simp [hf])]
        show ESPIPE ≠ 0
        decide
    rw [if_neg hfs]
    by_cases c1 : (fseeko f off whence).1 ≠ ESPIPE
    · rw [if_pos c1]
      refine ⟨_, rfl, rfl, le_refl _, fun _ => ?_⟩
      intro h
      exact hfs (by simpa using h)
    · rw [if_neg c1]
      by_cases c2 : whence = SEEK_SET
      · rw [if_pos c2]
        obtain ⟨r, h1, h2, h3, h4⟩ := seek_emulate_total v off
        refine ⟨r, h1, h2, h3, fun h => ?_⟩
        rcases h with ⟨-, h⟩ | ⟨hc, -⟩
        · exact h4 h
        · rw [c2] at hc
          exact absurd hc (by decide)
      · rw [if_neg c2]
        by_cases c3 : whence = SEEK_CUR
        · rw [if_pos c3]
          obtain ⟨r, h1, h2, h3, h4⟩ := seek_emulate_total v (v.pos + off)
          refine ⟨r, h1, h2, h3, fun h => ?_⟩
          rcases h with ⟨hc, -⟩ | ⟨-, h⟩
          · exact absurd hc c2
          · exact h4 (by omega)
        · rw [if_neg c3]
          by_cases c4 : whence = SEEK_END
          · rw [if_pos c4]
            exact ⟨_, rfl, rfl, le_refl _, fun _ => by show - ESPIPE ≠ 0; decide⟩
          · rw [if_neg c4]
            exact ⟨_, rfl, rfl, le_refl _, fun _ => by show - EINVAL ≠ 0; decide⟩

end Stream
end Blktap

namespace Blktap
namespace Stream

/-! ### Sequences of operations -/

/-- A record of the same kind over a channel that cannot seek is over such
a channel. -/
theorem nonseekable_of_kind (v w : vhd_stream) (hk : kind w = kind v) (hv : nonseekable v) :
    nonseekable w := by
  intro g hg
  unfold kind at hk
  rw [hg] at hk
  cases hs : v.stream with
  | none =>
    rw [hs] at hk
    cases hk
  | some f =>
    rw [hs] at hk
    simp only [Option.map_some', Option.some.injEq] at hk
    rw [hk]
    exact hv f hs

/-- On a stream that cannot seek every operation ends, keeps the kind of the
stream, does not lower the field `pos`, and fails when it asks for a
position before the current one. -/
theorem stream_step_total (v : vhd_stream) (hv : nonseekable v) (op : stream_op) :
    ∃ r, stream_step v op = some r ∧ kind r.2 = kind v ∧ v.pos ≤ r.2.pos ∧
      (moves_back v op → r.1 ≠ 0) := by
  cases op with
  | read count =>
    obtain ⟨k1, -, k3⟩ := read_step v count
    refine ⟨_, rfl, k1, ?_, fun h => absurd h id⟩
    rcases k3 with ⟨-, e⟩ | ⟨-, e⟩
    · show v.pos ≤ (vhd_stream_read v count).2.2.pos
      rw [e]
      omega
    · show v.pos ≤ (vhd_stream_read v count).2.2.pos
      rw [e]
  | write buf count =>
    obtain ⟨k1, -, k3⟩ := write_step v buf count
    refine ⟨_, rfl, k1, ?_, fun h => absurd h id⟩
    rcases k3 with ⟨-, e⟩ | ⟨-, e⟩
    · rw [e]
      omega
    · rw [e]
  | seek off whence =>
    obtain ⟨r, h1, h2, h3, h4⟩ := seek_total v hv off whence
    exact ⟨r, h1, h2, h3, h4⟩
  | pread size off =>
    show ∃ r, (vhd_stream_pread v size off).map (fun r => (r.1, r.2.2)) = some r ∧ _
    unfold vhd_stream_pread
    cases hs : v.stream with
    | none =>
      dsimp only
      exact ⟨_, rfl, rfl, le_refl _, fun _ => by show - EBADF ≠ 0; decide⟩
    | some f =>
      dsimp only
      obtain ⟨r, h1, h2, h3, h4⟩ := seek_total v hv off SEEK_SET
      rw [h1]
      dsimp only
      by_cases c : r.1 ≠ 0
      · rw [if_pos c]
        exact ⟨_, rfl, h2, h3, fun _ => c⟩
      · rw [if_neg c]
        obtain ⟨k1, -, k3⟩ := read_step r.2 size
        refine ⟨_, rfl, k1.trans h2, ?_, fun h => absurd (h4 (Or.inl ⟨rfl, h⟩)) c⟩
        show v.pos ≤ (vhd_stream_read r.2 size).2.2.pos
        rcases k3 with ⟨-, e⟩ | ⟨-, e⟩
        · rw [e]
          omega
        · rw [e]
          exact h3
  | pwrite buf size off =>
    show ∃ r, vhd_stream_pwrite v buf size off = some r ∧ _
    unfold vhd_stream_pwrite
    cases hs : v.stream with
    | none =>
      dsimp only
      exact ⟨_, rfl, rfl, le_refl _, fun _ => by show - EBADF ≠ 0; decide⟩
    | some f =>
      dsimp only
      obtain ⟨r, h1, h2, h3, h4⟩ := seek_total v hv off SEEK_SET
      rw [h1]
      dsimp only
      by_cases c : r.1 ≠ 0
      · rw [if_pos c]
        exact ⟨_, rfl, h2, h3, fun _ => c⟩
      · rw [if_neg c]
        obtain ⟨k1, -, k3⟩ := write_step r.2 buf size
        refine ⟨_, rfl, k1.trans h2, ?_, fun h => absurd (h4 (Or.inl ⟨rfl, h⟩)) c⟩
        rcases k3 with ⟨-, e⟩ | ⟨-, e⟩
        · rw [e]
          omega
        · rw [e]
          exact h3

/-- On a stream that cannot seek every sequence of operations ends, keeps
the kind of the stream and does not lower the field `pos`. -/
theorem stream_run_total : ∀ (ops : List stream_op) (v : vhd_stream), nonseekable v →
    ∃ w, stream_run v ops = some w ∧ kind w = kind v ∧ v.pos ≤ w.pos := by
  intro ops
  induction ops with
  | nil =>
    intro v _
    exact ⟨v, rfl, rfl, le_refl _⟩
  | cons op ops ih =>
    intro v hv
    obtain ⟨r, h1, h2, h3, -⟩ := stream_step_total v hv op
    obtain ⟨w, g1, g2, g3⟩ := ih r.2 (nonseekable_of_kind v r.2 h2 hv)
    refine ⟨w, ?_, g2.trans h2, le_trans h3 g3⟩
    rw [stream_run, h1]
    exact g1

end Stream
end Blktap

namespace Blktap
namespace Stream

/-! ### Forward seeks on a channel that cannot seek -/

/-- Two advances in a row are one advance. -/
theorem advanced_advanced (rw : Bool) (f : FILE) (s n : Nat) (c1 c2 : List Nat) :
    advanced rw (advanced rw f s c1) n c2 = advanced rw f (s + n) (c1 ++ c2) := by
  cases rw with
  | true =>
    simp only [advanced, if_true, List.append_assoc, List.append_replicate_replicate,
      Nat.add_assoc, Nat.sub_sub]
  | false =>
    simp only [advanced, Bool.false_eq_true, if_false, List.append_assoc, Nat.add_assoc,
      Nat.sub_sub]

/-- An advance by no bytes in no request changes nothing. -/
theorem advanced_zero (rw : Bool) (f : FILE) : advanced rw f 0 [] = f := by
  cases rw with
  | true => simp [advanced]
  | false => simp [advanced]

/-- A write of zero bytes at the end of the data that the device accepts. -/
theorem fwrite_zeros (f : FILE) (size : Nat) (h0 : 0 < size) (h1 : size ≤ 4096)
    (hr : size ≤ f.room) (he : f.off = f.data.length) :
    fwrite f (List.replicate 4096 0) size = (true, advanced true f size [size]) := by
  unfold fwrite
  dsimp only
  rw [if_neg (by omega), if_neg (by omega)]
  simp only [advanced, if_true, he, List.take_length, Nat.sub_self, List.replicate_zero,
    List.append_nil, List.take_replicate, Nat.min_eq_left h1,
    List.drop_of_length_le (Nat.le_add_right _ _)]

/-- A read of bytes that are there and that the device delivers. -/
theorem fread_some (f : FILE) (size : Nat) (h0 : 0 < size) (hr : size ≤ f.room)
    (hi : f.off + size ≤ f.data.length) :
    (fread f size).1 = true ∧ (fread f size).2.2 = advanced false f size [size] := by
  unfold fread
  dsimp only
  rw [if_neg (by omega), if_neg (by omega), if_neg (by omega)]
  exact ⟨rfl, rfl⟩

/-- A round of the seek loop that can transfer its bytes succeeds, advances
the stream and adds its size to the position. -/
theorem seek_round_ok (rw : Bool) (v : vhd_stream) (f : FILE) (size : Nat)
    (hs : v.stream = some f) (h0 : 0 < size) (h1 : size ≤ 4096) (hr : size ≤ f.room)
    (hin : rw = false → f.off + size ≤ f.data.length)
    (hend : rw = true → f.off = f.data.length) :
    (if rw then vhd_stream_write v (List.replicate 4096 0) size
      else ((vhd_stream_read v size).1, (vhd_stream_read v size).2.2)) =
      (0, { v with stream := some (advanced rw f size [size]), pos := v.pos + size }) := by
  cases rw with
  | true =>
    rw [if_pos rfl]
    unfold vhd_stream_write
    rw [hs]
    dsimp only
    rw [fwrite_zeros f size h0 h1 hr (hend rfl), if_pos rfl]
  | false =>
    rw [if_neg (by simp)]
    obtain ⟨a1, a2⟩ := fread_some f size h0 hr (hin rfl)
    unfold vhd_stream_read
    rw [hs]
    dsimp only
    rw [if_pos a1, a2]

/-- At the target the seek loop returns 0 at once. -/
theorem seek_loop_done (rw : Bool) (pos : Int) (fuel : Nat) (v : vhd_stream) (f : FILE)
    (hs : v.stream = some f) (he : v.pos = pos) :
    seek_loop rw pos fuel v =
      some (0, { v with stream := some (advanced rw f (pos - v.pos).toNat []), pos := pos }) := by
  have hv : v = { v with stream := some (advanced rw f (pos - v.pos).toNat []), pos := pos } := by
    rw [he, sub_self, Int.toNat_zero, advanced_zero, ← hs, ← he]
  cases fuel with
  | zero =>
    rw [seek_loop, if_neg (by omega)]
    exact congrArg (fun x => some ((0 : Int), x)) hv
  | succ n =>
    rw [seek_loop, if_neg (by omega)]
    exact congrArg (fun x => some ((0 : Int), x)) hv

/-- When all transfers can be made, the seek loop reaches the target: it
returns 0, the position is the target, and the stream has advanced by the
distance in requests of at most 4096 bytes. -/
theorem seek_loop_reaches (rw : Bool) (pos : Int) :
    ∀ (fuel : Nat) (v : vhd_stream) (f : FILE), v.stream = some f → v.pos ≤ pos →
      (pos - v.pos).toNat ≤ fuel → (pos - v.pos).toNat ≤ f.room →
      (rw = false → f.off + (pos - v.pos).toNat ≤ f.data.length) →
      (rw = true → f.off = f.data.length) →
      ∃ chunks, seek_loop rw pos fuel v =
          some (0, { v with stream := some (advanced rw f (pos - v.pos).toNat chunks),
                            pos := pos }) ∧
        (∀ c ∈ chunks, 0 < c ∧ c ≤ 4096) ∧ chunks.sum = (pos - v.pos).toNat := by
  intro fuel
  induction fuel with
  | zero =>
    intro v f hs hp hf _ _ _
    have he : v.pos = pos := by omega
    refine ⟨[], seek_loop_done rw pos 0 v f hs he, ?_, ?_⟩
    · intro c hc
      cases hc
    · rw [he]
      simp
  | succ n ih =>
    intro v f hs hp hf hr hin hend
    by_cases c : v.pos < pos
    · rw [seek_loop, if_pos c]
      dsimp only
      obtain ⟨s1, s2, s3⟩ := chunk_size_bounds pos v.pos c
      generalize hsz : (if 4096 > pos - v.pos then (pos - v.pos).toNat else 4096) = size
        at s1 s2 s3
      have hd : (pos - v.pos).toNat = size + (pos - (v.pos + size)).toNat := by omega
      rw [seek_round_ok rw v f size hs s1 s2 (by omega) (fun h => by have := hin h; omega) hend]
      rw [if_neg (by simp)]
      obtain ⟨chunks, g1, g2, g3⟩ := ih
        { v with stream := some (advanced rw f size [size]), pos := v.pos + size }
        (advanced rw f size [size]) rfl (by show v.pos + size ≤ pos; omega)
        (by show (pos - (v.pos + size)).toNat ≤ n; omega)
        (by show (pos - (v.pos + size)).toNat ≤ f.room - size; omega)
        (fun h => by
          subst h
          have := hin rfl
          show f.off + size + (pos - (v.pos + size)).toNat ≤ f.data.length
          omega)
        (fun h => by
          subst h
          have := hend rfl
          simp only [advanced, if_true, List.length_append, List.length_replicate]
          omega)
      refine ⟨size :: chunks, ?_, ?_, ?_⟩
      · rw [g1, advanced_advanced, hd]
        rfl
      · intro x hx
        rcases List.mem_cons.mp hx with rfl | hx
        · exact ⟨s1, s2⟩
        · exact g2 x hx
      · rw [List.sum_cons, g3, hd]
    · have he : v.pos = pos := by omega
      refine ⟨[], seek_loop_done rw pos (n + 1) v f hs he, ?_, ?_⟩
      · intro c hc
        cases hc
      · rw [he]
        simp

end Stream
end Blktap

namespace Blktap
namespace Stream

/-! ### Claims on the stream backend -/

/-- On a channel that cannot seek `fseeko` fails with ESPIPE for the three
values of `whence`. -/
theorem fseeko_pipe (f : FILE) (hn : f.seekable = false) (off whence : Int)
    (hw : whence = SEEK_SET ∨ whence = SEEK_CUR ∨ whence = SEEK_END) :
    fseeko f off whence = (ESPIPE, f) := by
  unfold fseeko
  rw [if_neg (by
    intro h
    rcases hw with h1 | h1 | h1
    · exact h.1 h1
    · exact h.2.1 h1
    · exact h.2.2 h1), if_pos (by simp [hn])]

/-- On a channel that cannot seek, `vhd_stream_seek` from the start or
relative to the position is the emulation with the target position. -/
theorem seek_pipe (v : vhd_stream) (f : FILE) (hs : v.stream = some f)
    (hn : f.seekable = false) (off : Int) :
    vhd_stream_seek v off SEEK_SET = seek_emulate v off ∧
    vhd_stream_seek v off SEEK_CUR = seek_emulate v (v.pos + off) ∧
    vhd_stream_seek v off SEEK_END = some (- ESPIPE, v) := by
  refine ⟨?_, ?_, ?_⟩
  · unfold vhd_stream_seek
    rw [hs]
    dsimp only
    rw [fseeko_pipe f hn off SEEK_SET (Or.inl rfl)]
    rfl
  · unfold vhd_stream_seek
    rw [hs]
    dsimp only
    rw [fseeko_pipe f hn off SEEK_CUR (Or.inr (Or.inl rfl))]
    rfl
  · unfold vhd_stream_seek
    rw [hs]
    dsimp only
    rw [fseeko_pipe f hn off SEEK_END (Or.inr (Or.inr rfl))]
    rfl

/-- C18: on a stream that cannot seek, at a position `p >= 0`, let
`vhd_stream_seek` target a position `q >= p`, by SEEK_SET with `off = q` or
by SEEK_CUR with `off = q - p`, and let every transfer succeed: the device
takes `q - p` more bytes, in read-only mode the input holds that many more
bytes, and in write mode the output is written at its end.  Then the call
ends and returns 0, the position is `q`, and exactly `q - p` bytes were
transferred in requests of 1 to 4096 bytes: in write mode `q - p` zero bytes
are appended to the output, in read-only mode the next `q - p` bytes of the
input are consumed and the data are as before. -/
theorem seek_forward_emulated (v : vhd_stream) (f : FILE) (q off whence : Int)
    (hs : v.stream = some f) (hn : f.seekable = false) (hp : 0 ≤ v.pos) (hq : v.pos ≤ q)
    (hw : (whence = SEEK_SET ∧ off = q) ∨ (whence = SEEK_CUR ∧ off = q - v.pos))
    (hroom : (q - v.pos).toNat ≤ f.room)
    (hin : v.rw = false →
      f.off + (q - v.pos).toNat ≤ f.data.length)
    (hend : v.rw = true → f.off = f.data.length) :
    ∃ f' chunks,
      vhd_stream_seek v off whence = some (0, { v with stream := some f', pos := q }) ∧
      f'.calls = f.calls ++ chunks ∧ (∀ c ∈ chunks, 0 < c ∧ c ≤ 4096) ∧
      chunks.sum = (q - v.pos).toNat ∧
      f'.off = f.off + (q - v.pos).toNat ∧
      (v.rw = true →
        f'.data = f.data ++ List.replicate (q - v.pos).toNat 0) ∧
      (v.rw = false → f'.data = f.data) := by
  obtain ⟨chunks, g1, g2, g3⟩ := seek_loop_reaches v.rw q
    (q - v.pos).toNat v f hs hq (le_refl _) hroom hin hend
  have hem : seek_emulate v q = some (0, { v with
      stream := some (advanced v.rw f (q - v.pos).toNat chunks),
      pos := q }) := by
    unfold seek_emulate
    rw [if_neg (by omega), if_neg (by omega)]
    exact g1
  refine ⟨advanced v.rw f (q - v.pos).toNat chunks, chunks,
    ?_, rfl, g2, g3, rfl, ?_, ?_⟩
  · obtain ⟨a1, a2, -⟩ := seek_pipe v f hs hn off
    rcases hw with ⟨w1, w2⟩ | ⟨w1, w2⟩
    · rw [w1, a1, w2]
      exact hem
    · rw [w1, a2, w2, show v.pos + (q - v.pos) = q by ring]
      exact hem
  · intro h
    simp only [advanced, h, if_true]
  · intro h
    simp only [advanced, h, Bool.false_eq_true, if_false]

/-- C18 witness: after a write of 4 bytes at position 0 of a pipe, a seek
to position 4096 returns 0 and appends 4092 zero bytes, which fill the
positions 4 to 4095; and a seek by 5000 bytes on a read pipe returns 0 and
consumes 5000 bytes in requests of at most 4096 bytes. -/
theorem seek_forward_emulated_witness :
    (∃ f' chunks,
      vhd_stream_seek stream_at_4 4096 SEEK_SET =
        some (0, { stream_at_4 with stream := some f', pos := 4096 }) ∧
      f'.calls = pipe_at_4.calls ++ chunks ∧ (∀ c ∈ chunks, 0 < c ∧ c ≤ 4096) ∧
      chunks.sum = (4096 - stream_at_4.pos).toNat ∧
      f'.off = pipe_at_4.off + (4096 - stream_at_4.pos).toNat ∧
      (stream_at_4.rw = true →
        f'.data = pipe_at_4.data ++ List.replicate (4096 - stream_at_4.pos).toNat 0) ∧
      (stream_at_4.rw = false → f'.data = pipe_at_4.data)) ∧
    (∃ f' chunks,
      vhd_stream_seek stream_in 5000 SEEK_CUR =
        some (0, { stream_in with stream := some f', pos := 5000 }) ∧
      f'.calls = (pipe_in (List.replicate 6000 7)).calls ++ chunks ∧
      (∀ c ∈ chunks, 0 < c ∧ c ≤ 4096) ∧
      chunks.sum = (5000 - stream_in.pos).toNat ∧
      f'.off = (pipe_in (List.replicate 6000 7)).off + (5000 - stream_in.pos).toNat ∧
      (stream_in.rw = true →
        f'.data = (pipe_in (List.replicate 6000 7)).data ++
          List.replicate (5000 - stream_in.pos).toNat 0) ∧
      (stream_in.rw = false →
        f'.data = (pipe_in (List.replicate 6000 7)).data)) :=
  ⟨seek_forward_emulated stream_at_4 pipe_at_4 4096 4096 SEEK_SET rfl rfl (by decide)
      (by decide) (Or.inl ⟨rfl, rfl⟩) (by decide) (fun h => absurd h (by decide))
      (fun _ => rfl),
   seek_forward_emulated stream_in (pipe_in (List.replicate 6000 7)) 5000 5000 SEEK_CUR rfl rfl
      (by decide) (by decide) (Or.inr ⟨rfl, rfl⟩)
      (by
        show (5000 - (0 : Int)).toNat ≤ (List.replicate 6000 7).length
        rw [List.length_replicate]
        decide)
      (fun _ => by
        show 0 + (5000 - (0 : Int)).toNat ≤ (List.replicate 6000 7).length
        rw [List.length_replicate]
        decide)
      (fun h => absurd h (by decide))⟩

/-- C19 (amended): on a stream that cannot seek, a SEEK_SET or SEEK_CUR
whose target position is lower than the current position fails with -ESPIPE
when the target is not negative and with -EINVAL when it is negative, and
every SEEK_END fails with -ESPIPE; after such a call the stream record is
what it was before: the position is unchanged and no byte has been read or
written. -/
theorem seek_backward_fails (v : vhd_stream) (f : FILE) (hs : v.stream = some f)
    (hn : f.seekable = false) (off : Int) :
    (off < v.pos →
      vhd_stream_seek v off SEEK_SET =
        some (if off < 0 then - EINVAL else - ESPIPE, v)) ∧
    (off < 0 →
      vhd_stream_seek v off SEEK_CUR =
        some (if v.pos + off < 0 then - EINVAL else - ESPIPE, v)) ∧
    vhd_stream_seek v off SEEK_END = some (- ESPIPE, v) := by
  obtain ⟨a1, a2, a3⟩ := seek_pipe v f hs hn off
  refine ⟨?_, ?_, a3⟩
  · intro h
    rw [a1]
    unfold seek_emulate
    by_cases c : off < 0
    · rw [if_pos c, if_pos c]
    · rw [if_neg c, if_pos h, if_neg c]
  · intro h
    rw [a2]
    unfold seek_emulate
    by_cases c : v.pos + off < 0
    · rw [if_pos c, if_pos c]
    · rw [if_neg c, if_pos (by omega), if_neg c]

/-- C19 witness: at position 4 of a written pipe, a seek to position 2, a
seek back by 3 bytes and a seek from the end fail with -ESPIPE and leave the
record. -/
theorem seek_backward_fails_witness :
    vhd_stream_seek stream_at_4 2 SEEK_SET = some (- ESPIPE, stream_at_4) ∧
    vhd_stream_seek stream_at_4 (-3) SEEK_CUR = some (- ESPIPE, stream_at_4) ∧
    vhd_stream_seek stream_at_4 0 SEEK_END = some (- ESPIPE, stream_at_4) :=
  ⟨(seek_backward_fails stream_at_4 pipe_at_4 rfl rfl 2).1 (by decide),
   (seek_backward_fails stream_at_4 pipe_at_4 rfl rfl (-3)).2.1 (by decide),
   (seek_backward_fails stream_at_4 pipe_at_4 rfl rfl 0).2.2⟩

/-- C19 counterexample: at position 4 of a written pipe a seek back by 10
bytes, whose target -6 is lower than the position, returns -EINVAL, not
-ESPIPE. -/
theorem seek_negative_target :
    stream_at_4.pos + (-10) < stream_at_4.pos ∧
    vhd_stream_seek stream_at_4 (-10) SEEK_CUR = some (- EINVAL, stream_at_4) ∧
    - EINVAL ≠ - ESPIPE := by
  decide

/-- C20 (amended): on a stream backend whose underlying channel cannot seek,
the position never decreases: every sequence of read, write, seek, pread and
pwrite operations ends, whether the operations succeed or fail, and after it
the value of `vhd_stream_position` is at least its value before; from the
state reached every further operation ends with a position at least as
high, and an operation that asks for a position before the current one
returns an error. -/
theorem stream_position_monotone (v : vhd_stream) (hv : nonseekable v)
    (ops : List stream_op) :
    ∃ w, stream_run v ops = some w ∧ nonseekable w ∧
      vhd_stream_position v ≤ vhd_stream_position w ∧
      ∀ op, ∃ r, stream_step w op = some r ∧
        vhd_stream_position w ≤ vhd_stream_position r.2 ∧
        (moves_back w op → r.1 ≠ 0) := by
  obtain ⟨w, h1, h2, h3⟩ := stream_run_total ops v hv
  have hw := nonseekable_of_kind v w h2 hv
  refine ⟨w, h1, hw, position_mono v w h2 h3, ?_⟩
  intro op
  obtain ⟨r, g1, g2, g3, g4⟩ := stream_step_total w hw op
  exact ⟨r, g1, position_mono w r.2 g2 g3, g4⟩

/-- C20 witness: a written pipe at position 4 after a read, a seek forward,
a failing seek back and a write. -/
theorem stream_position_monotone_witness :
    ∃ w, stream_run stream_at_4
        [stream_op.read 2, stream_op.seek 10 SEEK_SET, stream_op.seek 3 SEEK_SET,
          stream_op.pwrite [5, 6] 2 12] = some w ∧
      nonseekable w ∧
      vhd_stream_position stream_at_4 ≤ vhd_stream_position w ∧
      ∀ op, ∃ r, stream_step w op = some r ∧
        vhd_stream_position w ≤ vhd_stream_position r.2 ∧
        (moves_back w op → r.1 ≠ 0) :=
  stream_position_monotone stream_at_4
    (fun f hf => by
      cases hf
      rfl)
    [stream_op.read 2, stream_op.seek 10 SEEK_SET, stream_op.seek 3 SEEK_SET,
      stream_op.pwrite [5, 6] 2 12]

/-- C20 counterexample: on a stream over a regular file `fseeko` works; a
read of 8 bytes leaves the position 8 and a seek to the start then returns 0
and leaves the position 0. -/
theorem seekable_stream_moves_back :
    (stream_run stream_on_file [stream_op.read 8]).map vhd_stream_position = some 8 ∧
    (stream_run stream_on_file [stream_op.read 8, stream_op.seek 0 SEEK_SET]).map
      vhd_stream_position = some 0 ∧
    (stream_run stream_on_file [stream_op.read 8]).map
      (fun w => (stream_step w (stream_op.seek 0 SEEK_SET)).map (fun r => r.1)) =
      some (some 0) := by
  decide

end Stream
end Blktap

namespace Blktap
namespace Stream

/-! ### Positional transfers -/

/-- The seek loop started at or before the target ends, and when it returns
0 the position is the target. -/
theorem seek_loop_exact (rw : Bool) (pos : Int) :
    ∀ (fuel : Nat) (v : vhd_stream), v.pos ≤ pos → (pos - v.pos).toNat ≤ fuel →
      ∃ r, seek_loop rw pos fuel v = some r ∧ kind r.2 = kind v ∧
        (r.1 = 0 → r.2.pos = pos) := by
  intro fuel
  induction fuel with
  | zero =>
    intro v hle h
    have hn : ¬ v.pos < pos := by omega
    refine ⟨(0, v), ?_, rfl, fun _ => by show v.pos = pos; omega⟩
    rw [seek_loop, if_neg hn]
  | succ n ih =>
    intro v hle h
    rw [seek_loop]
    by_cases c : v.pos < pos
    · rw [if_pos c]
      dsimp only
      obtain ⟨s1, s2, s3⟩ := chunk_size_bounds pos v.pos c
      obtain ⟨k1, k2, k3⟩ := seek_round rw v
        (if 4096 > pos - v.pos then (pos - v.pos).toNat else 4096)
      rcases k3 with ⟨e0, ep⟩ | ⟨e0, ep⟩
      · rw [if_neg (not_not.mpr e0)]
        obtain ⟨r, h1, h2, h3⟩ := ih _ (by rw [ep]; omega) (by rw [ep]; omega)
        exact ⟨r, h1, h2.trans k1, h3⟩
      · rw [if_pos e0]
        exact ⟨_, rfl, k1, fun h0 => absurd h0 e0⟩
    · rw [if_neg c]
      exact ⟨(0, v), rfl, rfl, fun _ => by show v.pos = pos; omega⟩

/-- The emulation of a seek ends, and when it returns 0 the position is the
target. -/
theorem seek_emulate_exact (v : vhd_stream) (pos : Int) :
    ∃ r, seek_emulate v pos = some r ∧ kind r.2 = kind v ∧ (r.1 = 0 → r.2.pos = pos) := by
  unfold seek_emulate
  by_cases c1 : pos < 0
  · rw [if_pos c1]
    exact ⟨_, rfl, rfl, fun h => absurd h (by show - EINVAL ≠ 0; decide)⟩
  · rw [if_neg c1]
    by_cases c2 : pos < v.pos
    · rw [if_pos c2]
      exact ⟨_, rfl, rfl, fun h => absurd h (by show - ESPIPE ≠ 0; decide)⟩
    · rw [if_neg c2]
      exact seek_loop_exact v.rw pos (pos - v.pos).toNat v (by omega) (le_refl _)

/-- The call `fseeko` keeps the kind of the stream. -/
theorem fseeko_seekable (f : FILE) (off whence : Int) :
    (fseeko f off whence).2.seekable = f.seekable := by
  unfold fseeko
  by_cases c1 : whence ≠ SEEK_SET ∧ whence ≠ SEEK_CUR ∧ whence ≠ SEEK_END
  · rw [if_pos c1]
  · rw [if_neg c1]
    by_cases c2 : ¬ f.seekable
    · rw [if_pos c2]
    · rw [if_neg c2]
      dsimp only
      by_cases c3 : (if whence = SEEK_SET then off
          else if whence = SEEK_CUR then (f.off : Int) + off
          else (f.data.length : Int) + off) < 0
      · rw [if_pos c3]
      · rw [if_neg c3]

/-- A seek from the start ends on every stream, keeps the kind of the
stream, and when it returns 0 the position is the offset asked for. -/
theorem seek_set_exact (v : vhd_stream) (off : Int) :
    ∃ r, vhd_stream_seek v off SEEK_SET = some r ∧ kind r.2 = kind v ∧
      (r.1 = 0 → r.2.pos = off) := by
  unfold vhd_stream_seek
  cases hs : v.stream with
  | none =>
    dsimp only
    exact ⟨_, rfl, rfl, fun h => absurd h (by show - EBADF ≠ 0; decide)⟩
  | some f =>
    dsimp only
    by_cases c1 : (fseeko f off SEEK_SET).1 = 0
    · rw [if_pos c1]
      refine ⟨_, rfl, ?_, fun _ => rfl⟩
      show Option.map (fun f => f.seekable) (some (fseeko f off SEEK_SET).2) =
        Option.map (fun f => f.seekable) v.stream
      rw [hs]
      show some (fseeko f off SEEK_SET).2.seekable = some f.seekable
      rw [fseeko_seekable]
    · rw [if_neg c1]
      by_cases c2 : (fseeko f off SEEK_SET).1 ≠ ESPIPE
      · rw [if_pos c2]
        exact ⟨_, rfl, rfl, fun h => absurd (neg_eq_zero.mp h) c1⟩
      · rw [if_neg c2, if_pos rfl]
        exact seek_emulate_exact v off

/-- With a stream in the record, the position reported is the field `pos`. -/
theorem position_of_kind (v : vhd_stream) (b : Bool) (h : kind v = some b) :
    vhd_stream_position v = v.pos := by
  unfold vhd_stream_position
  unfold kind at h
  cases hs : v.stream with
  | none => rw [hs] at h; cases h
  | some f => rfl

/-- A positional read ends on every stream, and when it returns 0 the
position reported afterwards is the end of the range read. -/
theorem pread_position (v : vhd_stream) (size : Nat) (off : Int) :
    ∃ r, vhd_stream_pread v size off = some r ∧
      (r.1 = 0 → vhd_stream_position r.2.2 = off + size) := by
  unfold vhd_stream_pread
  cases hs : v.stream with
  | none =>
    dsimp only
    exact ⟨_, rfl, fun h => absurd h (by show - EBADF ≠ 0; decide)⟩
  | some f =>
    dsimp only
    obtain ⟨r, h1, h2, h3⟩ := seek_set_exact v off
    rw [h1]
    dsimp only
    by_cases c : r.1 ≠ 0
    · rw [if_pos c]
      exact ⟨_, rfl, fun h => absurd h c⟩
    · rw [if_neg c]
      refine ⟨_, rfl, fun h => ?_⟩
      obtain ⟨k1, -, k3⟩ := read_step r.2 size
      have hk : kind (vhd_stream_read r.2 size).2.2 = some f.seekable := by
        rw [k1, h2]
        unfold kind
        rw [hs]
        rfl
      rw [position_of_kind _ _ hk]
      rcases k3 with ⟨-, ep⟩ | ⟨e0, -⟩
      · rw [ep, h3 (not_not.mp c)]
      · exact absurd h e0

/-- A positional write ends on every stream, and when it returns 0 the
position reported afterwards is the end of the range written. -/
theorem pwrite_position (v : vhd_stream) (buf : List Nat) (size : Nat) (off : Int) :
    ∃ r, vhd_stream_pwrite v buf size off = some r ∧
      (r.1 = 0 → vhd_stream_position r.2 = off + size) := by
  unfold vhd_stream_pwrite
  cases hs : v.stream with
  | none =>
    dsimp only
    exact ⟨_, rfl, fun h => absurd h (by show - EBADF ≠ 0; decide)⟩
  | some f =>
    dsimp only
    obtain ⟨r, h1, h2, h3⟩ := seek_set_exact v off
    rw [h1]
    dsimp only
    by_cases c : r.1 ≠ 0
    · rw [if_pos c]
      exact ⟨_, rfl, fun h => absurd h c⟩
    · rw [if_neg c]
      refine ⟨_, rfl, fun h => ?_⟩
      obtain ⟨k1, -, k3⟩ := write_step r.2 buf size
      have hk : kind (vhd_stream_write r.2 buf size).2 = some f.seekable := by
        rw [k1, h2]
        unfold kind
        rw [hs]
        rfl
      rw [position_of_kind _ _ hk]
      rcases k3 with ⟨-, ep⟩ | ⟨e0, -⟩
      · rw [ep, h3 (not_not.mp c)]
      · exact absurd h e0

/-! ### The status of a failed transfer -/

/-- A read that moves fewer bytes than asked for without a device error
returns -EIO; a read that fails with the error indicator set returns
`-errno`, or -EIO when `errno` is 0. -/
theorem read_status (v : vhd_stream) (f : FILE) (count : Nat) (hs : v.stream = some f)
    (hf : (fread f count).1 = false) :
    ((fread f count).2.2.error = false → (vhd_stream_read v count).1 = - EIO) ∧
    ((fread f count).2.2.error = true →
      (vhd_stream_read v count).1 =
        (if (fread f count).2.2.errno ≠ 0 then - (fread f count).2.2.errno else - EIO)) := by
  unfold vhd_stream_read
  rw [hs]
  dsimp only
  rw [hf]
  constructor
  · intro he
    show transfer_error (fread f count).2.2 = - EIO
    unfold transfer_error
    rw [he]
    rfl
  · intro he
    show transfer_error (fread f count).2.2 = _
    unfold transfer_error
    rw [he]
    rfl

/-- A write that fails returns -EIO when the error indicator is clear and
`-errno`, or -EIO when `errno` is 0, when it is set. -/
theorem write_status (v : vhd_stream) (f : FILE) (buf : List Nat) (count : Nat)
    (hs : v.stream = some f) (hf : (fwrite f buf count).1 = false) :
    ((fwrite f buf count).2.error = false → (vhd_stream_write v buf count).1 = - EIO) ∧
    ((fwrite f buf count).2.error = true →
      (vhd_stream_write v buf count).1 =
        (if (fwrite f buf count).2.errno ≠ 0 then - (fwrite f buf count).2.errno
          else - EIO)) := by
  unfold vhd_stream_write
  rw [hs]
  dsimp only
  rw [hf]
  constructor
  · intro he
    show transfer_error (fwrite f buf count).2 = - EIO
    unfold transfer_error
    rw [he]
    rfl
  · intro he
    show transfer_error (fwrite f buf count).2 = _
    unfold transfer_error
    rw [he]
    rfl

end Stream

namespace Icbinn

/-- Every transfer of the remote backend whose library call returns anything
but the count asked for, a smaller count or a negative value alike, returns
-EIO. -/
theorem remote_status (icbinn_pread : Int → Nat → Int → Int)
    (icbinn_pwrite : Int → List Nat → Nat → Int → Int) (vhd : vhd_context_t)
    (buf : List Nat) (count : Nat) (off : Int) :
    (to_size_t (icbinn_pread vhd.fd count vhd.offset) ≠ count →
      (vhd_icbinn_devops_read icbinn_pread vhd count).1 = - EIO) ∧
    (to_size_t (icbinn_pread vhd.fd count off) ≠ count →
      (vhd_icbinn_devops_pread icbinn_pread vhd count off).1 = - EIO) ∧
    (to_size_t (icbinn_pwrite vhd.fd buf count vhd.offset) ≠ count →
      (vhd_icbinn_devops_write icbinn_pwrite vhd buf count).1 = - EIO) ∧
    (to_size_t (icbinn_pwrite vhd.fd buf count off) ≠ count →
      (vhd_icbinn_devops_pwrite icbinn_pwrite vhd buf count off).1 = - EIO) := by
  refine ⟨fun h => ?_, fun h => ?_, fun h => ?_, fun h => ?_⟩
  · unfold vhd_icbinn_devops_read
    dsimp only
    rw [if_neg h]
  · unfold vhd_icbinn_devops_pread
    dsimp only
    rw [if_neg h]
  · unfold vhd_icbinn_devops_write
    dsimp only
    rw [if_neg h]
  · unfold vhd_icbinn_devops_pwrite
    dsimp only
    rw [if_neg h]

end Icbinn
end Blktap

namespace Blktap

/-! ### Claims on the backends -/

/-- C21 counterexample: on a read pipe at position 0 a positional read of 2
bytes at offset 0 returns 0 and leaves the position at 2. -/
theorem stream_pread_moves_position :
    Stream.vhd_stream_position Stream.stream_small = 0 ∧
    (Stream.vhd_stream_pread Stream.stream_small 2 0).map
      (fun r => (r.1, Stream.vhd_stream_position r.2.2)) = some (0, 2) := by
  decide

/-- C21 (amended): for the remote backend (`vhd_icbinn_devops_pread`,
`vhd_icbinn_devops_pwrite`), for every buffer, size and offset, the value
returned by `position()` after the call equals the value before it; for the
stream backend (`vhd_stream_pread`, `vhd_stream_pwrite`) the call ends, and
when it returns 0 the value returned by `position()` after it is the
offset plus the size. -/
theorem positional_transfer_position (icbinn_pread : Int → Nat → Int → Int)
    (icbinn_pwrite : Int → List Nat → Nat → Int → Int) (vhd : Icbinn.vhd_context_t)
    (v : Stream.vhd_stream) (buf : List Nat) (size : Nat) (off : Int) :
    Icbinn.vhd_icbinn_devops_position (Icbinn.vhd_icbinn_devops_pread icbinn_pread vhd size off).2
      = Icbinn.vhd_icbinn_devops_position vhd ∧
    Icbinn.vhd_icbinn_devops_position
        (Icbinn.vhd_icbinn_devops_pwrite icbinn_pwrite vhd buf size off).2
      = Icbinn.vhd_icbinn_devops_position vhd ∧
    (∃ r, Stream.vhd_stream_pread v size off = some r ∧
      (r.1 = 0 → Stream.vhd_stream_position r.2.2 = off + size)) ∧
    (∃ r, Stream.vhd_stream_pwrite v buf size off = some r ∧
      (r.1 = 0 → Stream.vhd_stream_position r.2 = off + size)) :=
  ⟨rfl, rfl, Stream.pread_position v size off, Stream.pwrite_position v buf size off⟩

/-- C21 witness: a remote handle at offset 4096 after a positional read and a
positional write of 2 bytes at offset 0, and a written pipe at position 4
after a positional read and a positional write of 2 bytes at offset 6. -/
theorem positional_transfer_position_witness :
    Icbinn.vhd_icbinn_devops_position
        (Icbinn.vhd_icbinn_devops_pread Icbinn.pread_full Icbinn.remote_handle 2 0).2
      = Icbinn.vhd_icbinn_devops_position Icbinn.remote_handle ∧
    Icbinn.vhd_icbinn_devops_position
        (Icbinn.vhd_icbinn_devops_pwrite Icbinn.pwrite_full Icbinn.remote_handle [9, 9] 2 0).2
      = Icbinn.vhd_icbinn_devops_position Icbinn.remote_handle ∧
    (∃ r, Stream.vhd_stream_pread Stream.stream_at_4 2 6 = some r ∧
      (r.1 = 0 → Stream.vhd_stream_position r.2.2 = 6 + (2 : Nat))) ∧
    (∃ r, Stream.vhd_stream_pwrite Stream.stream_at_4 [9, 9] 2 6 = some r ∧
      (r.1 = 0 → Stream.vhd_stream_position r.2 = 6 + (2 : Nat))) :=
  positional_transfer_position Icbinn.pread_full Icbinn.pwrite_full Icbinn.remote_handle
    Stream.stream_at_4 [9, 9] 2 6

/-- C22 counterexample: a read of 4 bytes from a pipe that ends after 3
bytes, with the error indicator clear, returns -EIO, and so does a read
whose device fails with errno EIO; on the remote backend a read that
moves 2 of 4 bytes and a read whose library call fails both return -EIO,
and so do the writes. -/
theorem short_transfer_same_code :
    (Stream.vhd_stream_read Stream.stream_ending 4).1 = - EIO ∧
    ((Stream.vhd_stream_read Stream.stream_ending 4).2.2.stream.map (fun f => f.error))
      = some false ∧
    (Stream.vhd_stream_read Stream.stream_failing 4).1 = - EIO ∧
    ((Stream.vhd_stream_read Stream.stream_failing 4).2.2.stream.map (fun f => f.error))
      = some true ∧
    (Icbinn.vhd_icbinn_devops_pread Icbinn.pread_short Icbinn.remote_handle 4 0).1 = - EIO ∧
    (Icbinn.vhd_icbinn_devops_pread Icbinn.pread_failed Icbinn.remote_handle 4 0).1 = - EIO ∧
    (Icbinn.vhd_icbinn_devops_write Icbinn.pwrite_short Icbinn.remote_handle [1, 2, 3, 4] 4).1
      = - EIO ∧
    (Icbinn.vhd_icbinn_devops_write Icbinn.pwrite_failed Icbinn.remote_handle [1, 2, 3, 4] 4).1
      = - EIO := by
  decide

/-- C22 (amended): for the stream and remote backends, a partial transfer
(fewer bytes moved than requested, with no underlying error) is reported as
-EIO; an underlying I/O failure is reported by the stream backend as
`-errno`, or as -EIO when `errno` is 0, and by the remote backend as -EIO,
whatever the library call returned instead of the count. -/
theorem transfer_failure_codes (v : Stream.vhd_stream) (f : Stream.FILE) (buf : List Nat)
    (count : Nat) (icbinn_pread : Int → Nat → Int → Int)
    (icbinn_pwrite : Int → List Nat → Nat → Int → Int) (vhd : Icbinn.vhd_context_t)
    (off : Int) (hs : v.stream = some f) :
    ((Stream.fread f count).1 = false →
      ((Stream.fread f count).2.2.error = false →
        (Stream.vhd_stream_read v count).1 = - EIO) ∧
      ((Stream.fread f count).2.2.error = true →
        (Stream.vhd_stream_read v count).1 =
          (if (Stream.fread f count).2.2.errno ≠ 0 then - (Stream.fread f count).2.2.errno
            else - EIO))) ∧
    ((Stream.fwrite f buf count).1 = false →
      ((Stream.fwrite f buf count).2.error = false →
        (Stream.vhd_stream_write v buf count).1 = - EIO) ∧
      ((Stream.fwrite f buf count).2.error = true →
        (Stream.vhd_stream_write v buf count).1 =
          (if (Stream.fwrite f buf count).2.errno ≠ 0 then - (Stream.fwrite f buf count).2.errno
            else - EIO))) ∧
    (Icbinn.to_size_t (icbinn_pread vhd.fd count vhd.offset) ≠ count →
      (Icbinn.vhd_icbinn_devops_read icbinn_pread vhd count).1 = - EIO) ∧
    (Icbinn.to_size_t (icbinn_pread vhd.fd count off) ≠ count →
      (Icbinn.vhd_icbinn_devops_pread icbinn_pread vhd count off).1 = - EIO) ∧
    (Icbinn.to_size_t (icbinn_pwrite vhd.fd buf count vhd.offset) ≠ count →
      (Icbinn.vhd_icbinn_devops_write icbinn_pwrite vhd buf count).1 = - EIO) ∧
    (Icbinn.to_size_t (icbinn_pwrite vhd.fd buf count off) ≠ count →
      (Icbinn.vhd_icbinn_devops_pwrite icbinn_pwrite vhd buf count off).1 = - EIO) :=
  ⟨Stream.read_status v f count hs, Stream.write_status v f buf count hs,
    Icbinn.remote_status icbinn_pread icbinn_pwrite vhd buf count off⟩

/-- C22 witness: a read of 4 bytes whose device fails with errno ENOSPC
returns -ENOSPC, a read of 4 bytes from a pipe that ends after 3 bytes
returns -EIO, and a remote read and write that move 2 of 4 bytes return
-EIO. -/
theorem transfer_failure_codes_witness :
    (Stream.vhd_stream_read Stream.stream_failing_nospc 4).1 = - ENOSPC ∧
    (Stream.vhd_stream_read Stream.stream_ending 4).1 = - EIO ∧
    (Icbinn.vhd_icbinn_devops_pread Icbinn.pread_short Icbinn.remote_handle 4 0).1 = - EIO ∧
    (Icbinn.vhd_icbinn_devops_pwrite Icbinn.pwrite_short Icbinn.remote_handle [1, 2, 3, 4] 4
      0).1 = - EIO :=
  ⟨((transfer_failure_codes Stream.stream_failing_nospc _ [1, 2, 3, 4] 4 Icbinn.pread_short
      Icbinn.pwrite_short Icbinn.remote_handle 0 rfl).1 (by decide)).2 (by decide),
   ((transfer_failure_codes Stream.stream_ending _ [1, 2, 3, 4] 4 Icbinn.pread_short
      Icbinn.pwrite_short Icbinn.remote_handle 0 rfl).1 (by decide)).1 (by decide),
   (transfer_failure_codes Stream.stream_ending _ [1, 2, 3, 4] 4 Icbinn.pread_short
      Icbinn.pwrite_short Icbinn.remote_handle 0 rfl).2.2.2.1 (by decide),
   (transfer_failure_codes Stream.stream_ending _ [1, 2, 3, 4] 4 Icbinn.pread_short
      Icbinn.pwrite_short Icbinn.remote_handle 0 rfl).2.2.2.2.2 (by decide)⟩

/-- C29: on the regular file of 9 bytes, after a read of 8 bytes the
position is 8; a seek by 1 byte relative to the position returns 0 and moves
the file to offset 9, yet `vhd_stream_position` returns 1, the value of
`off`; on a pipe at position 4 the same seek leaves the position at 5. -/
theorem seek_cur_reports_offset :
    Stream.vhd_stream_position Stream.stream_on_file_at_8 = 8 ∧
    (Stream.vhd_stream_seek Stream.stream_on_file_at_8 1 SEEK_CUR).map
      (fun r => (r.1, Stream.vhd_stream_position r.2, r.2.stream.map (fun f => f.off)))
      = some (0, 1, some 9) ∧
    (Stream.vhd_stream_seek Stream.stream_at_4 1 SEEK_CUR).map
      (fun r => (r.1, Stream.vhd_stream_position r.2)) = some (0, 5) := by
  decide

/-- C23: with an input device and an input image that open, an invocation
whose output path names a file that exists returns -EEXIST and the file is
gone when it returns; and an invocation whose input device fails to open
with ENOENT, before the output is looked at, returns -ENOENT and the file
that existed at the output path is gone as well. -/
theorem decrypt_unlinks_existing_output :
    DmDecrypt.vhd_util_dm_decrypt
      { raw_open_errno := 0, vhd_open_err := 0, out_exists := true, fopen_errno := 0,
        init_ok := true, run_err := 0, err0 := 0 } "out.vhd".toList = (- EEXIST, false) ∧
    DmDecrypt.vhd_util_dm_decrypt
      { raw_open_errno := ENOENT, vhd_open_err := 0, out_exists := true, fopen_errno := 0,
        init_ok := true, run_err := 0, err0 := 0 } "out.vhd".toList = (- ENOENT, false) := by
  decide

/-- C24: for an image of 4097 blocks of 2 MiB the batmap copied has 512
bytes, that is 4096 bits, fewer than the blocks of the image. -/
theorem batmap_copy_too_small :
    Stream.batmap_copy_size Stream.vhd_bytes_padded (4097 * 2097152) 2097152 = some 512 ∧
    Stream.block_count (4097 * 2097152) 2097152 = 4097 ∧
    512 * 8 < Stream.block_count (4097 * 2097152) 2097152 := by
  decide

/-- C26: on a disk of 100 sectors, with pages of 4096 bytes, a read at
sector 92 with two segments of 8 sectors each is accepted (the return value
is 0) although it ends at sector 108; and a read at sector 2 with one
segment whose first sector 5 is after its last sector 2 is accepted as
well. -/
theorem ring_request_beyond_disk_accepted :
    TapdiskImage.tapdisk_image_check_ring_request 4096 11 ⟨some 100, false⟩
      ⟨TapdiskImage.BLKIF_OP_READ, 2, 92, [⟨0, 7⟩, ⟨0, 7⟩]⟩ = 0 ∧
    92 + (([⟨0, 7⟩, ⟨0, 7⟩] : List TapdiskImage.blkif_request_segment).map
      TapdiskImage.segment_sectors).sum = 108 ∧
    TapdiskImage.tapdisk_image_check_ring_request 4096 11 ⟨some 100, false⟩
      ⟨TapdiskImage.BLKIF_OP_READ, 1, 2, [⟨5, 2⟩]⟩ = 0 := by
  decide

/-- C30: for the image file `/vm/disk.vhd.old.vhd` the routine
`get_vhd_basename` returns `disk`, not `disk.vhd.old`, and for
`/vm/disk.vhdx`, whose last component does not end in `.vhd`, it returns
`disk`. -/
theorem basename_cut_at_first_vhd :
    BlockCrypto.get_vhd_basename (BlockCrypto.image_named "/vm/disk.vhd.old.vhd".toList)
      = "disk".toList ∧
    BlockCrypto.get_vhd_basename (BlockCrypto.image_named "/vm/disk.vhdx".toList)
      = "disk".toList := by
  decide

end Blktap

namespace Blktap
namespace StreamCoalesce

/-! ### The sort only exchanges elements -/

/-- The head found by the head search is -1 or an index the search has
visited. -/
theorem find_head_range (vhds : List vhd_context_t) (num : Nat) :
    ∀ (fuel i : Nat) (head h : Int), sort_find_head vhds num fuel i head = some h →
      (head = -1 ∨ (0 ≤ head ∧ head < i)) → h = -1 ∨ (0 ≤ h ∧ h < (i + fuel : Nat)) := by
  intro fuel
  induction fuel with
  | zero =>
    intro i head h hf hh
    rw [sort_find_head] at hf
    injection hf with hf
    subst hf
    rcases hh with hh | hh
    · exact Or.inl hh
    · exact Or.inr ⟨hh.1, by omega⟩
  | succ n ih =>
    intro i head h hf hh
    rw [sort_find_head] at hf
    by_cases c : sort_child_scan vhds (vhds.getD i default).footer.uuid num 0 = num
    · rw [if_pos c] at hf
      by_cases c2 : head ≠ -1
      · rw [if_pos c2] at hf
        cases hf
      · rw [if_neg c2] at hf
        rcases ih (i + 1) (i : Int) h hf (Or.inr ⟨by omega, by omega⟩) with g | g
        · exact Or.inl g
        · exact Or.inr ⟨g.1, by omega⟩
    · rw [if_neg c] at hf
      have hh1 : head = -1 ∨ (0 ≤ head ∧ head < ((i + 1 : Nat) : Int)) := by
        rcases hh with hh | hh
        · exact Or.inl hh
        · exact Or.inr ⟨hh.1, by omega⟩
      rcases ih (i + 1) head h hf hh1 with g | g
      · exact Or.inl g
      · exact Or.inr ⟨g.1, by omega⟩

/-- The linking pass leaves a permutation of the array it was given, whether
it succeeds or jumps out. -/
theorem sort_link_perm :
    ∀ (fuel i : Nat) (vhds : List vhd_context_t), i + fuel + 1 ≤ vhds.length ∨ fuel = 0 →
      (sort_link vhds.length fuel i vhds).2.Perm vhds := by
  intro fuel
  induction fuel with
  | zero =>
    intro i vhds _
    rw [sort_link]
  | succ n ih =>
    intro i vhds hb
    have hb1 : i + (n + 1) + 1 ≤ vhds.length := by
      rcases hb with hb | hb
      · exact hb
      · omega
    rw [sort_link]
    by_cases c : (vhds.getD i default).footer.type ≠ HD_TYPE_DIFF
    · rw [if_pos c]
    · rw [if_neg c]
      dsimp only
      by_cases c2 : sort_parent_scan vhds (vhds.getD i default).header.prt_uuid
          (vhds.length - (i + 1)) (i + 1) = vhds.length
      · rw [if_pos c2]
      · rw [if_neg c2]
        have hj := firstFrom_bounds (fun k => decide ((vhds.getD k default).footer.uuid =
          (vhds.getD i default).header.prt_uuid)) (vhds.length - (i + 1)) (i + 1)
        rw [← sort_parent_scan_eq] at hj
        have hp := swap_perm vhds (i + 1) (sort_parent_scan vhds
          (vhds.getD i default).header.prt_uuid (vhds.length - (i + 1)) (i + 1))
          (by omega) (by omega)
        have hl := swap_length vhds (i + 1) (sort_parent_scan vhds
          (vhds.getD i default).header.prt_uuid (vhds.length - (i + 1)) (i + 1))
        have := ih (i + 1) (vhd_util_stream_swap vhds (i + 1) (sort_parent_scan vhds
          (vhds.getD i default).header.prt_uuid (vhds.length - (i + 1)) (i + 1)))
          (Or.inl (by rw [hl]; omega))
        rw [hl] at this
        exact this.trans hp

/-- The array left by `vhd_util_stream_sort` is a permutation of the input,
whatever the status. -/
theorem sort_perm (vhds : List vhd_context_t) : (vhd_util_stream_sort vhds).2.Perm vhds := by
  unfold vhd_util_stream_sort
  dsimp only
  cases hf : sort_find_head vhds vhds.length vhds.length 0 (-1) with
  | none => exact List.Perm.refl _
  | some head =>
    dsimp only
    by_cases c : head = -1
    · rw [if_pos c]
    · rw [if_neg c]
      have hr := find_head_range vhds vhds.length vhds.length 0 (-1) head hf (Or.inl rfl)
      have hh : 0 ≤ head ∧ head < ((0 + vhds.length : Nat) : Int) := by
        rcases hr with hr | hr
        · exact absurd hr c
        · exact hr
      have hpos : 0 < vhds.length := by omega
      have hp := swap_perm vhds head.toNat 0 (by omega) hpos
      have hl := swap_length vhds head.toNat 0
      have hlink := sort_link_perm (vhds.length - 1) 0 (vhd_util_stream_swap vhds head.toNat 0)
        (Or.inl (by rw [hl]; omega))
      rw [hl] at hlink
      cases hk : sort_link vhds.length (vhds.length - 1) 0
          (vhd_util_stream_swap vhds head.toNat 0) with
      | mk ok out =>
        rw [hk] at hlink
        cases ok with
        | false => exact hlink.trans hp
        | true =>
          dsimp only
          by_cases cv : sort_verify out (vhds.length - 1) 0 = true
          · rw [if_pos cv]
            exact hlink.trans hp
          · rw [if_neg cv]
            exact hlink.trans hp

end StreamCoalesce
end Blktap

namespace Blktap

/-! ### The reads issued on the source go forward -/

/-- A read that starts at or after the bound of the reads so far extends
them. -/
theorem reads_upto_append (reads : List (Nat × Nat)) (bound o c : Nat)
    (h : reads_upto reads bound) (ho : bound ≤ o) (hc : 0 < c) :
    reads_upto (reads ++ [(o, c)]) (o + c) := by
  obtain ⟨h1, h2⟩ := h
  constructor
  · rw [List.pairwise_append]
    refine ⟨h1, List.pairwise_singleton _ _, ?_⟩
    intro a ha b hb
    rw [List.mem_singleton] at hb
    subst hb
    obtain ⟨g1, g2⟩ := h2 a ha
    exact ⟨by show a.1 + a.2 ≤ o; omega, by show a.1 < o; omega⟩
  · intro r hr
    rw [List.mem_append, List.mem_singleton] at hr
    rcases hr with hr | hr
    · obtain ⟨g1, g2⟩ := h2 r hr
      exact ⟨g1, by omega⟩
    · subst hr
      exact ⟨hc, le_refl _⟩

/-- The bound of the reads may be raised. -/
theorem reads_upto_mono (reads : List (Nat × Nat)) (b1 b2 : Nat)
    (h : reads_upto reads b1) (hb : b1 ≤ b2) : reads_upto reads b2 :=
  ⟨h.1, fun r hr => ⟨(h.2 r hr).1, le_trans (h.2 r hr).2 hb⟩⟩

namespace DmEncrypt

/-- Every call of `vhd_util_stream_transfer_sectors` issues one read, of
`cnt` sectors at `bat[blk] + bm_secs + sec` reduced to 32 bits. -/
theorem transfer_sectors_reads (src : vhd_context_t) (st : copy_state) (blk sec cnt : Nat) :
    (vhd_util_stream_transfer_sectors src st blk sec cnt).2.reads =
      st.reads ++ [((src.bat.getD blk DD_BLK_UNUSED + src.bm_secs + sec) % 2 ^ 32, cnt)] := by
  unfold vhd_util_stream_transfer_sectors
  dsimp only
  by_cases c1 : (vhd_pread src
      ((src.bat.getD blk DD_BLK_UNUSED + src.bm_secs + sec) % 2 ^ 32) cnt).1 ≠ 0
  · rw [if_pos c1]
  · rw [if_neg c1]
    by_cases c2 : (pwrite_sectors st.fd (vhd_pread src
        ((src.bat.getD blk DD_BLK_UNUSED + src.bm_secs + sec) % 2 ^ 32) cnt).2
        (blk * src.spb + sec) cnt).1 ≠ 0
    · rw [if_pos c2]
    · rw [if_neg c2]

/-- The scan of a block whose data region `base .. base + spb` lies within
the range of 32-bit offsets extends reads that end at or before
`base + i` to reads that end at or before `base + spb`. -/
theorem scan_loop_reads (src : vhd_context_t) (blk : Nat) (copy : Nat → Bool)
    (hfit : src.bat.getD blk DD_BLK_UNUSED + src.bm_secs + src.spb ≤ 2 ^ 32) :
    ∀ (fuel i : Nat) (err : Int) (st : copy_state) (runs : List scan_run)
      (res : scan_result copy_state),
      scan_loop src.spb copy
        (fun s i cnt => some (vhd_util_stream_transfer_sectors src s blk i cnt))
        fuel i err st runs = some res →
      i ≤ src.spb →
      reads_upto st.reads (src.bat.getD blk DD_BLK_UNUSED + src.bm_secs + i) →
      reads_upto res.st.reads (src.bat.getD blk DD_BLK_UNUSED + src.bm_secs + src.spb) := by
  intro fuel
  induction fuel with
  | zero =>
    intro i err st runs res h hi hr
    rw [scan_loop] at h
    by_cases c : i < src.spb
    · rw [if_pos c] at h
      cases h
    · rw [if_neg c] at h
      injection h with h
      subst h
      exact reads_upto_mono _ _ _ hr (by omega)
  | succ n ih =>
    intro i err st runs res h hi hr
    rw [scan_loop] at h
    by_cases c : i < src.spb
    · rw [if_pos c] at h
      dsimp only at h
      obtain ⟨r1, r2, -, -⟩ := run_length_spec src.spb copy i src.spb 1 (by omega) (by omega)
        (fun s h1 h2 => by
          have : s = i := by omega
          rw [this])
      by_cases cc : copy i = true
      · rw [if_pos cc] at h
        have hnew : reads_upto
            (vhd_util_stream_transfer_sectors src st blk i
              (run_length src.spb copy i src.spb 1)).2.reads
            (src.bat.getD blk DD_BLK_UNUSED + src.bm_secs + i +
              run_length src.spb copy i src.spb 1) := by
          rw [transfer_sectors_reads, Nat.mod_eq_of_lt (by omega)]
          exact reads_upto_append _ _ _ _ hr (le_refl _) (by omega)
        by_cases ce : (vhd_util_stream_transfer_sectors src st blk i
            (run_length src.spb copy i src.spb 1)).1 ≠ 0
        · rw [if_pos ce] at h
          injection h with h
          subst h
          exact reads_upto_mono _ _ _ hnew (by omega)
        · rw [if_neg ce] at h
          exact ih _ _ _ _ _ h r2 (by
            rw [show src.bat.getD blk DD_BLK_UNUSED + src.bm_secs +
                (i + run_length src.spb copy i src.spb 1) =
              src.bat.getD blk DD_BLK_UNUSED + src.bm_secs + i +
                run_length src.spb copy i src.spb 1 by omega]
            exact hnew)
      · rw [if_neg cc] at h
        exact ih _ _ _ _ _ h r2 (reads_upto_mono _ _ _ hr (by omega))
    · rw [if_neg c] at h
      injection h with h
      subst h
      exact reads_upto_mono _ _ _ hr (by omega)

/-- The copy of a block placed at or after the bound of the reads so far
extends them to reads that end at or before the end of the block. -/
theorem encrypt_copy_block_reads (src : vhd_context_t) (st : copy_state) (blk : Nat)
    (r : copy_result) (bound : Nat)
    (hfit : src.bat.getD blk DD_BLK_UNUSED + src.bm_secs + src.spb ≤ 2 ^ 32)
    (hb : 0 < src.bm_secs) (hr : reads_upto st.reads bound)
    (hle : bound ≤ src.bat.getD blk DD_BLK_UNUSED)
    (h : vhd_util_stream_copy_block src st blk = some r) :
    reads_upto r.st.reads (src.bat.getD blk DD_BLK_UNUSED + src.bm_secs + src.spb) := by
  unfold vhd_util_stream_copy_block at h
  by_cases c1 : src.bat.getD blk DD_BLK_UNUSED = DD_BLK_UNUSED
  · rw [if_pos c1] at h
    injection h with h
    subst h
    exact reads_upto_mono _ _ _ hr (by omega)
  · rw [if_neg c1] at h
    dsimp only at h
    have h0 : reads_upto (st.reads ++ [(src.bat.getD blk DD_BLK_UNUSED, src.bm_secs)])
        (src.bat.getD blk DD_BLK_UNUSED + src.bm_secs + 0) :=
      reads_upto_append _ _ _ _ hr hle hb
    by_cases c2 : (vhd_read_bitmap src blk).1 ≠ 0
    · rw [if_pos c2] at h
      injection h with h
      subst h
      exact reads_upto_mono _ _ _ h0 (by omega)
    · rw [if_neg c2] at h
      cases hs : scan_block src.spb (vhd_read_bitmap src blk).2
          (fun s i cnt => some (vhd_util_stream_transfer_sectors src s blk i cnt))
          (vhd_read_bitmap src blk).1
          ⟨st.fd, false, st.reads ++ [(src.bat.getD blk DD_BLK_UNUSED, src.bm_secs)]⟩ with
      | none =>
        rw [hs] at h
        cases h
      | some res =>
        rw [hs] at h
        dsimp only at h
        have hres := scan_loop_reads src blk (vhd_read_bitmap src blk).2 hfit src.spb 0 _ _ _
          res hs (Nat.zero_le _) h0
        by_cases c3 : res.err ≠ 0
        · rw [if_pos c3] at h
          injection h with h
          subst h
          exact hres
        · rw [if_neg c3] at h
          by_cases c4 : res.st.allocated = true
          · rw [if_pos c4] at h
            injection h with h
            subst h
            exact hres
          · rw [if_neg c4] at h
            injection h with h
            subst h
            exact hres

/-- The copy loop over a table in which every allocated entry is placed at
least `bm_secs + spb` sectors after the allocated entries before it, and at
or after the bound of the reads so far, leaves reads that go forward. -/
theorem encrypt_blocks_reads (src : vhd_context_t) (hr : blocks_in_range src)
    (hb : 0 < src.bm_secs) :
    ∀ (l : List Nat) (s : encrypt_state) (bound : Nat) (res : encrypt_state),
      (∀ e ∈ l, p2v_physical e ≠ DD_BLK_UNUSED →
        p2v_physical e = src.bat.getD (p2v_virtual e) DD_BLK_UNUSED ∧
        p2v_physical e ∈ src.bat) →
      l.Pairwise (fun a b => p2v_physical a ≠ DD_BLK_UNUSED → p2v_physical b ≠ DD_BLK_UNUSED →
        p2v_physical a + src.bm_secs + src.spb ≤ p2v_physical b) →
      (∀ e ∈ l, p2v_physical e ≠ DD_BLK_UNUSED → bound ≤ p2v_physical e) →
      reads_upto s.st.reads bound →
      encrypt_blocks src l s = some res →
      ∃ b, reads_upto res.st.reads b := by
  intro l
  induction l with
  | nil =>
    intro s bound res _ _ _ hu h
    rw [encrypt_blocks] at h
    injection h with h
    subst h
    exact ⟨bound, hu⟩
  | cons e rest ih =>
    intro s bound res hm hp hbd hu h
    rw [encrypt_blocks] at h
    rw [List.pairwise_cons] at hp
    have hm' : ∀ x ∈ rest, p2v_physical x ≠ DD_BLK_UNUSED →
        p2v_physical x = src.bat.getD (p2v_virtual x) DD_BLK_UNUSED ∧
        p2v_physical x ∈ src.bat :=
      fun x hx => hm x (List.mem_cons_of_mem _ hx)
    by_cases c : p2v_physical e ≠ DD_BLK_UNUSED
    · rw [if_pos c] at h
      obtain ⟨he1, he2⟩ := hm e (List.mem_cons_self _ _) c
      cases hc : vhd_util_stream_copy_block src s.st (p2v_virtual e) with
      | none =>
        rw [hc] at h
        cases h
      | some r =>
        rw [hc] at h
        dsimp only at h
        have hfit : src.bat.getD (p2v_virtual e) DD_BLK_UNUSED + src.bm_secs + src.spb
            ≤ 2 ^ 32 := by
          rw [← he1]
          exact hr.2 _ he2 c
        have hcopy := encrypt_copy_block_reads src s.st (p2v_virtual e) r bound hfit hb hu
          (by rw [← he1]; exact hbd e (List.mem_cons_self _ _) c) hc
        by_cases ce : r.err ≠ 0
        · rw [if_pos ce] at h
          injection h with h
          subst h
          exact ⟨_, hcopy⟩
        · rw [if_neg ce] at h
          exact ih _ _ res hm' hp.2
            (fun x hx hxa => by
              have := hp.1 x hx c hxa
              rw [he1] at this
              exact this)
            hcopy h
    · rw [if_neg c] at h
      exact ih s bound res hm' hp.2
        (fun x hx hxa => hbd x (List.mem_cons_of_mem _ hx) hxa) hu h

end DmEncrypt
end Blktap

namespace Blktap
namespace Stream

/-! ### Reads that go forward on a stream that cannot seek -/

/-- The status of a failed transfer is not -ESPIPE unless the device itself
fails with ESPIPE. -/
theorem transfer_error_not_espipe (f : FILE) (h : f.errno ≠ ESPIPE) :
    transfer_error f ≠ - ESPIPE := by
  unfold transfer_error
  by_cases c1 : f.error = true
  · rw [if_pos c1]
    by_cases c2 : f.errno ≠ 0
    · rw [if_pos c2]
      intro h2
      exact h (neg_injective h2)
    · rw [if_neg c2]
      decide
  · rw [if_neg c1]
    decide

/-- The call `fread` keeps the errno of the device. -/
theorem fread_errno (f : FILE) (count : Nat) : (fread f count).2.2.errno = f.errno := by
  unfold fread
  dsimp only
  by_cases c1 : count = 0
  · rw [if_pos c1]
  · rw [if_neg c1]
    by_cases c2 : f.room < count
    · rw [if_pos c2]
    · rw [if_neg c2]
      by_cases c3 : f.data.length < f.off + count
      · rw [if_pos c3]
      · rw [if_neg c3]

/-- The call `fwrite` keeps the errno of the device. -/
theorem fwrite_errno (f : FILE) (buf : List Nat) (count : Nat) :
    (fwrite f buf count).2.errno = f.errno := by
  unfold fwrite
  dsimp only
  by_cases c1 : count = 0
  · rw [if_pos c1]
  · rw [if_neg c1]
    by_cases c2 : f.room < count
    · rw [if_pos c2]
    · rw [if_neg c2]

/-- A read on a forward-only stream leaves a forward-only stream and does
not return -ESPIPE. -/
theorem read_forward (v : vhd_stream) (count : Nat) (hv : forward_only v) :
    forward_only (vhd_stream_read v count).2.2 ∧ (vhd_stream_read v count).1 ≠ - ESPIPE := by
  obtain ⟨f, hs, hn, he⟩ := hv
  unfold vhd_stream_read
  rw [hs]
  dsimp only
  have h1 : (fread f count).2.2.seekable = false := by rw [fread_seekable]; exact hn
  have h2 : (fread f count).2.2.errno ≠ ESPIPE := by rw [fread_errno]; exact he
  by_cases c : (fread f count).1 = true
  · rw [if_pos c]
    exact ⟨⟨_, rfl, h1, h2⟩, by show (0 : Int) ≠ - ESPIPE; decide⟩
  · rw [if_neg c]
    exact ⟨⟨_, rfl, h1, h2⟩, transfer_error_not_espipe _ h2⟩

/-- A write on a forward-only stream leaves a forward-only stream and does
not return -ESPIPE. -/
theorem write_forward (v : vhd_stream) (buf : List Nat) (count : Nat) (hv : forward_only v) :
    forward_only (vhd_stream_write v buf count).2 ∧
      (vhd_stream_write v buf count).1 ≠ - ESPIPE := by
  obtain ⟨f, hs, hn, he⟩ := hv
  unfold vhd_stream_write
  rw [hs]
  dsimp only
  have h1 : (fwrite f buf count).2.seekable = false := by rw [fwrite_seekable]; exact hn
  have h2 : (fwrite f buf count).2.errno ≠ ESPIPE := by rw [fwrite_errno]; exact he
  by_cases c : (fwrite f buf count).1 = true
  · rw [if_pos c]
    exact ⟨⟨_, rfl, h1, h2⟩, by show (0 : Int) ≠ - ESPIPE; decide⟩
  · rw [if_neg c]
    exact ⟨⟨_, rfl, h1, h2⟩, transfer_error_not_espipe _ h2⟩

/-- The seek loop on a forward-only stream leaves a forward-only stream and
does not return -ESPIPE. -/
theorem seek_loop_forward (rw : Bool) (pos : Int) :
    ∀ (fuel : Nat) (v : vhd_stream) (r : Int × vhd_stream), forward_only v →
      seek_loop rw pos fuel v = some r → forward_only r.2 ∧ r.1 ≠ - ESPIPE := by
  intro fuel
  induction fuel with
  | zero =>
    intro v r hv h
    rw [seek_loop] at h
    by_cases c : v.pos < pos
    · rw [if_pos c] at h
      cases h
    · rw [if_neg c] at h
      injection h with h
      subst h
      exact ⟨hv, by show (0 : Int) ≠ - ESPIPE; decide⟩
  | succ n ih =>
    intro v r hv h
    rw [seek_loop] at h
    by_cases c : v.pos < pos
    · rw [if_pos c] at h
      dsimp only at h
      have hround : forward_only
          (if rw then vhd_stream_write v (List.replicate 4096 0)
              (if 4096 > pos - v.pos then (pos - v.pos).toNat else 4096)
            else ((vhd_stream_read v
                (if 4096 > pos - v.pos then (pos - v.pos).toNat else 4096)).1,
              (vhd_stream_read v
                (if 4096 > pos - v.pos then (pos - v.pos).toNat else 4096)).2.2)).2 ∧
          (if rw then vhd_stream_write v (List.replicate 4096 0)
              (if 4096 > pos - v.pos then (pos - v.pos).toNat else 4096)
            else ((vhd_stream_read v
                (if 4096 > pos - v.pos then (pos - v.pos).toNat else 4096)).1,
              (vhd_stream_read v
                (if 4096 > pos - v.pos then (pos - v.pos).toNat else 4096)).2.2)).1
            ≠ - ESPIPE := by
        cases rw with
        | true => exact write_forward v _ _ hv
        | false => exact read_forward v _ hv
      by_cases ce : (if rw then vhd_stream_write v (List.replicate 4096 0)
              (if 4096 > pos - v.pos then (pos - v.pos).toNat else 4096)
            else ((vhd_stream_read v
                (if 4096 > pos - v.pos then (pos - v.pos).toNat else 4096)).1,
              (vhd_stream_read v
                (if 4096 > pos - v.pos then (pos - v.pos).toNat else 4096)).2.2)).1 ≠ 0
      · rw [if_pos ce] at h
        injection h with h
        subst h
        exact hround
      · rw [if_neg ce] at h
        exact ih _ r hround.1 h
    · rw [if_neg c] at h
      injection h with h
      subst h
      exact ⟨hv, by show (0 : Int) ≠ - ESPIPE; decide⟩

/-- A positional read at or after the position of a forward-only stream
ends, does not return -ESPIPE, and leaves a forward-only stream, positioned
at the end of the range read when it returns 0. -/
theorem pread_forward (v : vhd_stream) (size : Nat) (off : Int) (hv : forward_only v)
    (h0 : 0 ≤ off) (hp : v.pos ≤ off) :
    ∃ r, vhd_stream_pread v size off = some r ∧ r.1 ≠ - ESPIPE ∧ forward_only r.2.2 ∧
      (r.1 = 0 → r.2.2.pos = off + size) := by
  have hv0 := hv
  obtain ⟨f, hs, hn, he⟩ := hv
  obtain ⟨a1, -, -⟩ := seek_pipe v f hs hn off
  have hem : seek_emulate v off = seek_loop v.rw off (off - v.pos).toNat v := by
    unfold seek_emulate
    rw [if_neg (by omega), if_neg (by omega)]
  obtain ⟨r0, g1, -, g3⟩ := seek_loop_exact v.rw off (off - v.pos).toNat v hp (le_refl _)
  obtain ⟨g4, g5⟩ := seek_loop_forward v.rw off _ v r0 hv0 g1
  unfold vhd_stream_pread
  rw [hs]
  dsimp only
  rw [a1, hem, g1]
  dsimp only
  by_cases c : r0.1 ≠ 0
  · rw [if_pos c]
    exact ⟨_, rfl, g5, g4, fun h => absurd h c⟩
  · rw [if_neg c]
    obtain ⟨k1, k2⟩ := read_forward r0.2 size g4
    refine ⟨_, rfl, k2, k1, fun h => ?_⟩
    obtain ⟨-, -, k3⟩ := read_step r0.2 size
    rcases k3 with ⟨-, ep⟩ | ⟨e0, -⟩
    · rw [ep, g3 (not_not.mp c)]
    · exact absurd h e0

/-- Reads that go forward, replayed on a forward-only stream positioned at
or before each of them, end without the status -ESPIPE. -/
theorem replay_forward :
    ∀ (l : List (Nat × Nat)) (v : vhd_stream), forward_only v → l.Pairwise read_after →
      (∀ b ∈ l, v.pos ≤ ((b.1 * 512 : Nat) : Int)) →
      ∃ r, replay_reads v l = some r ∧ r.1 ≠ - ESPIPE := by
  intro l
  induction l with
  | nil =>
    intro v _ _ _
    exact ⟨_, rfl, by show (0 : Int) ≠ - ESPIPE; decide⟩
  | cons a rest ih =>
    intro v hv hp hb
    rw [List.pairwise_cons] at hp
    obtain ⟨r, h1, h2, h3, h4⟩ := pread_forward v (a.2 * 512) ((a.1 * 512 : Nat) : Int) hv
      (Int.natCast_nonneg _) (hb a (List.mem_cons_self _ _))
    rw [replay_reads, h1]
    dsimp only
    by_cases c : r.1 ≠ 0
    · rw [if_pos c]
      exact ⟨_, rfl, h2⟩
    · rw [if_neg c]
      refine ih r.2.2 h3 hp.2 ?_
      intro b hbm
      rw [h4 (not_not.mp c)]
      have := (hp.1 b hbm).1
      push_cast
      omega

end Stream
end Blktap

namespace Blktap

/-! ### The whole run of `__vhd_util_dm_encrypt` reads forward -/

/-- The entries of the table are pairwise distinct. -/
theorem p2v_table_nodup (bat : List Nat) (hr : bat_in_range bat) :
    (StreamCoalesce.p2v_table bat).Nodup := by
  unfold StreamCoalesce.p2v_table
  refine List.Nodup.map_on ?_ (List.nodup_range _)
  intro x hx y hy hxy
  rw [List.mem_range] at hx hy
  have h1 := p2v_virtual_entry (bat.getD x DD_BLK_UNUSED) x (by have := hr.1; omega)
  have h2 := p2v_virtual_entry (bat.getD y DD_BLK_UNUSED) y (by have := hr.1; omega)
  rw [← h1, ← h2, hxy]

/-- Two entries of the table with the same virtual part are equal. -/
theorem p2v_table_virtual_inj (bat : List Nat) (hr : bat_in_range bat) (a b : Nat)
    (ha : a ∈ StreamCoalesce.p2v_table bat) (hb : b ∈ StreamCoalesce.p2v_table bat)
    (h : StreamCoalesce.p2v_virtual a = StreamCoalesce.p2v_virtual b) : a = b := by
  unfold StreamCoalesce.p2v_table at ha hb
  rw [List.mem_map] at ha hb
  obtain ⟨i, hi, rfl⟩ := ha
  obtain ⟨j, hj, rfl⟩ := hb
  rw [List.mem_range] at hi hj
  rw [p2v_virtual_entry _ i (by have := hr.1; omega),
    p2v_virtual_entry _ j (by have := hr.1; omega)] at h
  rw [h]

/-- With the output open, the blocks of the source in the range of 32-bit
offsets, bitmaps of at least one sector and allocated blocks pairwise apart,
the run ends and the reads it issued on the source go forward. -/
theorem encrypt_reads_core (qsort : (Nat → Nat → Int) → List Nat → List Nat)
    (hq : qsort_contract qsort StreamCoalesce.p2v_compare) (err0 : Int)
    (src : vhd_context_t) (opened : Int × raw_dev) (ho : opened.1 = 0)
    (hr : blocks_in_range src) (hb : 0 < src.bm_secs) (ha : blocks_apart src) :
    ∃ s, DmEncrypt.__vhd_util_dm_encrypt qsort err0 src opened = some s ∧
      s.st.reads.Pairwise read_after := by
  unfold DmEncrypt.__vhd_util_dm_encrypt
  have c : ¬ opened.1 ≠ 0 := not_not.mpr ho
  rw [if_neg c]
  obtain ⟨hperm, hsorted⟩ := hq (StreamCoalesce.p2v_table src.bat)
  obtain ⟨res, h1, -, -⟩ := DmEncrypt.encrypt_blocks_order src
    (qsort DmEncrypt.p2v_compare (DmEncrypt.p2v_table src.bat))
    ⟨err0, ⟨opened.2, false, []⟩, []⟩
  refine ⟨res, h1, ?_⟩
  have hnd : (qsort StreamCoalesce.p2v_compare (StreamCoalesce.p2v_table src.bat)).Nodup :=
    hperm.nodup_iff.mpr (p2v_table_nodup src.bat hr.1)
  have hmem : ∀ e ∈ qsort StreamCoalesce.p2v_compare (StreamCoalesce.p2v_table src.bat),
      StreamCoalesce.p2v_virtual e < src.bat.length ∧
      StreamCoalesce.p2v_physical e =
        src.bat.getD (StreamCoalesce.p2v_virtual e) DD_BLK_UNUSED :=
    fun e he => mem_p2v_table src.bat hr.1 e (hperm.mem_iff.mp he)
  have hpw : (qsort StreamCoalesce.p2v_compare (StreamCoalesce.p2v_table src.bat)).Pairwise
      (fun a b => StreamCoalesce.p2v_physical a ≠ DD_BLK_UNUSED →
        StreamCoalesce.p2v_physical b ≠ DD_BLK_UNUSED →
        StreamCoalesce.p2v_physical a + src.bm_secs + src.spb ≤
          StreamCoalesce.p2v_physical b) := by
    refine List.Pairwise.imp_of_mem ?_ (hsorted.and hnd)
    intro a b hma hmb hab pa pb
    obtain ⟨hle, hne⟩ := hab
    rw [p2v_compare_le] at hle
    obtain ⟨va, ea⟩ := hmem a hma
    obtain ⟨vb, eb⟩ := hmem b hmb
    have hv : StreamCoalesce.p2v_virtual a ≠ StreamCoalesce.p2v_virtual b := fun h =>
      hne (p2v_table_virtual_inj src.bat hr.1 a b (hperm.mem_iff.mp hma)
        (hperm.mem_iff.mp hmb) h)
    rw [ea] at pa
    rw [eb] at pb
    rcases ha _ _ va vb hv pa pb with g | g
    · rw [ea, eb]
      exact g
    · rw [ea, eb] at hle
      omega
  obtain ⟨bnd, hres⟩ := DmEncrypt.encrypt_blocks_reads src hr hb
    (qsort DmEncrypt.p2v_compare (DmEncrypt.p2v_table src.bat))
    ⟨err0, ⟨opened.2, false, []⟩, []⟩ 0 res
    (fun e he _ => by
      obtain ⟨ve, ee⟩ := hmem e he
      refine ⟨ee, ?_⟩
      show StreamCoalesce.p2v_physical e ∈ src.bat
      rw [ee, List.getD_eq_getElem _ _ ve]
      exact List.getElem_mem ve)
    hpw (fun _ _ _ => Nat.zero_le _)
    ⟨List.Pairwise.nil, fun r hr => by cases hr⟩ h1
  exact hres.1

/-- In reads that go forward every read starts at or after the first. -/
theorem reads_after_head (l : List (Nat × Nat)) (hp : l.Pairwise read_after) (pos : Int)
    (hh : ∀ b, l.head? = some b → pos ≤ ((b.1 * 512 : Nat) : Int)) :
    ∀ b ∈ l, pos ≤ ((b.1 * 512 : Nat) : Int) := by
  cases l with
  | nil =>
    intro b hb
    cases hb
  | cons a rest =>
    intro b hb
    have h0 := hh a rfl
    rw [List.pairwise_cons] at hp
    rcases List.mem_cons.mp hb with e | m
    · rw [e]
      exact h0
    · have := (hp.1 b m).2
      push_cast at h0 ⊢
      omega

end Blktap

namespace Blktap

/-- The two blocks of the image placed at the end of the 32-bit range are
apart. -/
theorem disk_wrap_apart : blocks_apart disk_wrap := by
  intro i j hi hj hne _ _
  have hi2 : i < 2 := hi
  have hj2 : j < 2 := hj
  have hij : (i = 0 ∧ j = 1) ∨ (i = 1 ∧ j = 0) := by omega
  rcases hij with ⟨rfl, rfl⟩ | ⟨rfl, rfl⟩
  · exact Or.inl (by decide)
  · exact Or.inr (by decide)

/-- The two blocks of the image stored against index order are apart. -/
theorem disk_S_apart : blocks_apart disk_S := by
  intro i j hi hj hne _ _
  have hi2 : i < 2 := hi
  have hj2 : j < 2 := hj
  have hij : (i = 0 ∧ j = 1) ∨ (i = 1 ∧ j = 0) := by omega
  rcases hij with ⟨rfl, rfl⟩ | ⟨rfl, rfl⟩
  · exact Or.inr (by decide)
  · exact Or.inl (by decide)

/-- C27 counterexample: the source has two allocated blocks, at sectors 16
and 2^32 - 5, which are more than `bm_secs + spb` = 9 sectors apart; the run
returns 0, and after the read of one sector at 2^32 - 4 it reads one sector
at offset 3: the offset `bat[blk] + bm_secs + sec` is computed in 32 bits. -/
theorem encrypt_reads_wrap :
    blocks_apart disk_wrap ∧
    (DmEncrypt.__vhd_util_dm_encrypt insertion_sort 0 disk_wrap (0, dev_16)).map
      (fun s => (s.err, s.st.reads)) =
      some (0, [(16, 1), (17, 1), (24, 1), (2 ^ 32 - 5, 1), (2 ^ 32 - 4, 1), (3, 1)]) :=
  ⟨disk_wrap_apart, by decide⟩

/-- C27 (amended): in `__vhd_util_dm_encrypt`, once the output is open and
with any `qsort` that meets its contract, if the BAT of the source holds
32-bit values, every allocated block ends within the sector range that
32-bit offsets address (`bat[blk] + bm_secs + spb <= 2^32`), a bitmap takes
at least one sector, and the allocated BAT entries are pairwise at least
`bm_secs + spb` sectors apart, then the run ends and the reads issued on the
source (for each processed block its bitmap at `bat[blk]`, then its data
runs at `bat[blk] + bm_secs + sec`) go forward over the whole run: every
read starts at a strictly higher sector offset than each read before it, and
at or after its end.  Replayed on a source stream that cannot seek, that is
positioned at or before the first read, and whose device does not itself
fail with ESPIPE, the reads end without the status -ESPIPE. -/
theorem encrypt_reads_forward (qsort : (Nat → Nat → Int) → List Nat → List Nat)
    (hq : qsort_contract qsort StreamCoalesce.p2v_compare) (err0 : Int)
    (src : vhd_context_t) (opened : Int × raw_dev) (ho : opened.1 = 0)
    (hr : blocks_in_range src) (hb : 0 < src.bm_secs) (ha : blocks_apart src) :
    ∃ s, DmEncrypt.__vhd_util_dm_encrypt qsort err0 src opened = some s ∧
      s.st.reads.Pairwise (fun a b => a.1 + a.2 ≤ b.1 ∧ a.1 < b.1) ∧
      ∀ v : Stream.vhd_stream, Stream.forward_only v →
        (∀ b, s.st.reads.head? = some b → v.pos ≤ ((b.1 * 512 : Nat) : Int)) →
        ∃ r, Stream.replay_reads v s.st.reads = some r ∧ r.1 ≠ - ESPIPE := by
  obtain ⟨s, h1, h2⟩ := encrypt_reads_core qsort hq err0 src opened ho hr hb ha
  exact ⟨s, h1, h2, fun v hv hh =>
    Stream.replay_forward s.st.reads v hv h2 (reads_after_head s.st.reads h2 v.pos hh)⟩

/-- C27 witness: the image whose block 1 (at sector 16) lies before its
block 0 (at sector 40), copied to a device of 16 sectors that opens. -/
theorem encrypt_reads_forward_witness :
    (DmEncrypt.__vhd_util_dm_encrypt insertion_sort 0 disk_S (0, dev_16)).map
      (fun s => s.st.reads) = some [(16, 1), (17, 8), (40, 1), (41, 8)] ∧
    ∃ s, DmEncrypt.__vhd_util_dm_encrypt insertion_sort 0 disk_S (0, dev_16) = some s ∧
      s.st.reads.Pairwise (fun a b => a.1 + a.2 ≤ b.1 ∧ a.1 < b.1) ∧
      ∀ v : Stream.vhd_stream, Stream.forward_only v →
        (∀ b, s.st.reads.head? = some b → v.pos ≤ ((b.1 * 512 : Nat) : Int)) →
        ∃ r, Stream.replay_reads v s.st.reads = some r ∧ r.1 ≠ - ESPIPE :=
  ⟨by decide,
    encrypt_reads_forward insertion_sort insertion_sort_contract 0 disk_S (0, dev_16) rfl
      ⟨⟨by decide, by decide⟩, by decide⟩ (by decide) disk_S_apart⟩

end Blktap

namespace Blktap
namespace Icbinn

/-! ### The name built by `vhd_realpath` -/

/-- A list is empty or ends in a last element. -/
theorem nil_or_snoc {α : Type} (l : List α) : l = [] ∨ ∃ t a, l = t ++ [a] := by
  rcases List.eq_nil_or_concat l with e | ⟨t, a, e⟩
  · exact Or.inl e
  · exact Or.inr ⟨t, a, by rw [e, List.concat_eq_append]⟩

/-- Joining components one more. -/
theorem join_components_snoc (cs : List (List Char)) (c : List Char) :
    join_components (cs ++ [c]) = join_components cs ++ '/' :: c := by
  unfold join_components
  rw [List.flatMap_append]
  simp

/-- Backing up over the last part of the buffer, which holds no `/` but
possibly as its last character, leaves the buffer up to the `/` before
it. -/
theorem back_up_spec (xs w : List Char) (hw : w ≠ []) (hs : '/' ∉ w.dropLast) :
    back_up (xs ++ '/' :: w) = xs ++ ['/'] := by
  unfold back_up
  have hlen : 1 < (xs ++ '/' :: w).length := by
    rw [List.length_append, List.length_cons]
    have := List.length_pos.mpr hw
    omega
  rw [if_pos hlen]
  have hd : (xs ++ '/' :: w).dropLast = xs ++ '/' :: w.dropLast := by
    rw [List.dropLast_append_of_ne_nil _ (List.cons_ne_nil _ _)]
    cases w with
    | nil => exact absurd rfl hw
    | cons a t => rfl
  rw [hd, List.reverse_append, List.reverse_cons, List.append_assoc,
    List.dropWhile_append_of_pos (fun a ha => by
      rw [List.mem_reverse] at ha
      have : a ≠ '/' := fun h => hs (h ▸ ha)
      simpa using this)]
  simp

/-- A `..` component leaves a buffer that holds components: those before
the last one, or none at the root. -/
theorem holds_back_up (rpath : List Char) (comps : List (List Char))
    (h : holds_components rpath comps) : ∃ comps1, holds_components (back_up rpath) comps1 := by
  obtain ⟨hg, hr⟩ := h
  rcases nil_or_snoc comps with e | ⟨cs, c, e⟩
  · subst e
    rcases hr with hr | ⟨hne, -⟩
    · refine ⟨[], hg, Or.inl ?_⟩
      rw [hr]
      rfl
    · exact absurd rfl hne
  · subst e
    have hgc := hg c (List.mem_append_right _ (List.mem_singleton_self c))
    have hgs : ∀ x ∈ cs, good_component x := fun x hx => hg x (List.mem_append_left _ hx)
    refine ⟨cs, hgs, Or.inl ?_⟩
    rcases hr with hr | ⟨-, hr⟩
    · rw [hr, join_components_snoc, List.append_assoc, List.cons_append]
      exact back_up_spec _ (c ++ ['/']) (by simp) (by
        rw [List.dropLast_concat]
        exact hgc.2.1)
    · rw [hr, join_components_snoc]
      exact back_up_spec _ c hgc.1 (fun hm => hgc.2.1 (List.dropLast_subset c hm))

/-- The last character of a buffer that holds components and was not left
by a `..` is not `/`. -/
theorem getLast_join_components (comps : List (List Char)) (hne : comps ≠ [])
    (hg : ∀ c ∈ comps, good_component c) : (join_components comps).getLast? ≠ some '/' := by
  rcases nil_or_snoc comps with e | ⟨cs, c, e⟩
  · exact absurd e hne
  · subst e
    have hgc := hg c (List.mem_append_right _ (List.mem_singleton_self c))
    rw [join_components_snoc]
    obtain ⟨t, a, hc⟩ : ∃ t a, c = t ++ [a] := by
      rcases nil_or_snoc c with e | h
      · exact absurd e hgc.1
      · exact h
    have ha : a ≠ '/' := by
      intro h
      apply hgc.2.1
      rw [hc, h]
      simp
    rw [hc, ← List.cons_append, ← List.append_assoc, List.getLast?_append]
    simpa using ha

/-- A component other than `.` and `..` is appended to the buffer after a
`/`, which is added unless the buffer ends in one. -/
theorem holds_component (rpath : List Char) (comps : List (List Char)) (c : List Char)
    (h : holds_components rpath comps) (hc : good_component c) :
    holds_components ((if rpath.getLast? ≠ some '/' then rpath ++ ['/'] else rpath) ++ c)
      (comps ++ [c]) := by
  obtain ⟨hg, hr⟩ := h
  have hg1 : ∀ x ∈ comps ++ [c], good_component x := by
    intro x hx
    rw [List.mem_append, List.mem_singleton] at hx
    rcases hx with hx | hx
    · exact hg x hx
    · rw [hx]
      exact hc
  refine ⟨hg1, Or.inr ⟨by simp, ?_⟩⟩
  rw [join_components_snoc]
  rcases hr with hr | ⟨hne, hr⟩
  · have hl : rpath.getLast? = some '/' := by
      rw [hr]
      simp
    rw [if_neg (not_not.mpr hl), hr]
    simp
  · have hl : rpath.getLast? ≠ some '/' := by
      rw [hr]
      exact getLast_join_components comps hne hg
    rw [if_pos hl, hr]
    simp

/-- A component found by the loop that is neither empty nor `.` nor `..` is
a component of a canonical name. -/
theorem good_of_takeWhile (s : List Char)
    (h0 : s.takeWhile (fun c => c != '/') ≠ [])
    (h1 : s.takeWhile (fun c => c != '/') ≠ ['.'])
    (h2 : s.takeWhile (fun c => c != '/') ≠ ['.', '.']) :
    good_component (s.takeWhile (fun c => c != '/')) := by
  refine ⟨h0, ?_, h1, h2⟩
  intro hm
  have := List.mem_takeWhile_imp hm
  simp at this

/-- The part of the name left after a component is shorter than the part
before it. -/
theorem rest_shorter (rest : List Char)
    (h0 : (rest.dropWhile (fun c => c == '/')).takeWhile (fun c => c != '/') ≠ []) :
    ((rest.dropWhile (fun c => c == '/')).dropWhile (fun c => c != '/')).length
      < rest.length := by
  have h1 : (rest.dropWhile (fun c => c == '/')).length ≤ rest.length :=
    (List.dropWhile_sublist (fun c => c == '/')).length_le
  have h2 := congrArg List.length (List.takeWhile_append_dropWhile (fun c => c != '/')
    (rest.dropWhile (fun c => c == '/')))
  rw [List.length_append] at h2
  have h3 := List.length_pos.mpr h0
  omega

/-- The loop ends within one round per character of the name, and the
buffer it leaves holds components. -/
theorem realpath_loop_total (env : realpath_env) (resolved : Bool) :
    ∀ (fuel : Nat) (rest rpath : List Char) (limit : Nat), rest.length < fuel →
      (∃ comps, holds_components rpath comps) →
      ∃ r, realpath_loop env resolved fuel rest rpath limit = some r ∧
        ∀ p, r = some p → ∃ comps, holds_components p comps := by
  intro fuel
  induction fuel with
  | zero =>
    intro rest rpath limit h _
    exact absurd h (Nat.not_lt_zero _)
  | succ n ih =>
    intro rest rpath limit hlen hinv
    rw [realpath_loop]
    by_cases c0 : rest = []
    · rw [if_pos c0]
      exact ⟨_, rfl, fun p hp => by injection hp with hp; rw [← hp]; exact hinv⟩
    · rw [if_neg c0]
      dsimp only
      have hgood := good_of_takeWhile (rest.dropWhile (fun c => c == '/'))
      have hshort := rest_shorter rest
      generalize (rest.dropWhile (fun c => c == '/')).takeWhile (fun c => c != '/') = comp
        at hgood hshort ⊢
      generalize (rest.dropWhile (fun c => c == '/')).dropWhile (fun c => c != '/') = e
        at hshort ⊢
      by_cases c1 : comp = []
      · rw [if_pos c1]
        exact ⟨_, rfl, fun p hp => by injection hp with hp; rw [← hp]; exact hinv⟩
      · rw [if_neg c1]
        have hlt : e.length < n := by
          have := hshort c1
          omega
        by_cases c2 : comp = ['.']
        · rw [if_pos c2]
          exact ih e rpath limit hlt hinv
        · rw [if_neg c2]
          by_cases c3 : comp = ['.', '.']
          · rw [if_pos c3]
            obtain ⟨comps, hc⟩ := hinv
            exact ih e (back_up rpath) limit hlt (holds_back_up rpath comps hc)
          · rw [if_neg c3]
            by_cases c4 : (if rpath.getLast? ≠ some '/' then rpath ++ ['/'] else rpath).length
                + comp.length ≥ limit ∧ resolved = true
            · rw [if_pos c4]
              exact ⟨_, rfl, fun p hp => by cases hp⟩
            · rw [if_neg c4]
              by_cases c5 : (if rpath.getLast? ≠ some '/' then rpath ++ ['/'] else rpath).length
                  + comp.length ≥ limit ∧
                  ¬ env.alloc (limit + (if comp.length + 1 > env.path_max then comp.length + 1
                    else env.path_max)) = true
              · rw [if_pos c5]
                exact ⟨_, rfl, fun p hp => by cases hp⟩
              · rw [if_neg c5]
                cases hst : env.icbinn_stat
                    ((if rpath.getLast? ≠ some '/' then rpath ++ ['/'] else rpath) ++ comp) with
                | none => exact ⟨_, rfl, fun p hp => by cases hp⟩
                | some dir =>
                  dsimp only
                  by_cases c6 : ¬ dir = true ∧ e ≠ []
                  · rw [if_pos c6]
                    exact ⟨_, rfl, fun p hp => by cases hp⟩
                  · rw [if_neg c6]
                    obtain ⟨comps, hc⟩ := hinv
                    exact ih e _ _ hlt
                      ⟨comps ++ [comp], holds_component rpath comps comp hc (hgood c1 c2 c3)⟩

/-- Components joined with `/` between them. -/
theorem intercalate_join (c : List Char) (cs : List (List Char)) :
    ['/'].intercalate (c :: cs) = c ++ join_components cs := by
  induction cs generalizing c with
  | nil => simp [List.intercalate, join_components]
  | cons d ds ih =>
    have := ih d
    simp only [List.intercalate, List.intersperse, join_components, List.flatMap_cons] at this ⊢
    simp [this]

/-- The name made of good components has no two `/` in a row. -/
theorem join_components_chain (comps : List (List Char))
    (hg : ∀ c ∈ comps, good_component c) :
    (join_components comps).Chain' (fun a b => ¬ (a = '/' ∧ b = '/')) := by
  induction comps with
  | nil => exact List.chain'_nil
  | cons c cs ih =>
    have hc := hg c (List.mem_cons_self _ _)
    have hcs := ih (fun x hx => hg x (List.mem_cons_of_mem _ hx))
    have hjoin : join_components (c :: cs) = '/' :: (c ++ join_components cs) := by
      unfold join_components
      rw [List.flatMap_cons]
      rfl
    rw [hjoin, List.chain'_cons']
    constructor
    · intro y hy
      obtain ⟨a, t, hat⟩ := List.exists_cons_of_ne_nil hc.1
      rw [hat] at hy
      simp only [List.cons_append, List.head?_cons, Option.mem_def, Option.some.injEq] at hy
      intro h
      apply hc.2.1
      rw [hat, hy, h.2]
      exact List.mem_cons_self _ _
    · rw [List.chain'_append]
      refine ⟨?_, hcs, ?_⟩
      · apply List.Pairwise.chain'
        apply List.pairwise_of_forall_mem_list
        intro a ha b _ h
        exact hc.2.1 (h.1 ▸ ha)
      · intro x hx y _ h
        exact hc.2.1 (h.1 ▸ List.mem_of_mem_getLast? hx)

/-- The name made of good components, or `/` when there is none, is a
canonical absolute name. -/
theorem canonical_of_components (comps : List (List Char))
    (hg : ∀ c ∈ comps, good_component c) :
    canonical_name (if comps = [] then ['/'] else join_components comps) := by
  cases comps with
  | nil =>
    rw [if_pos rfl]
    unfold canonical_name
    decide
  | cons c cs =>
    rw [if_neg (List.cons_ne_nil _ _)]
    have hjoin : join_components (c :: cs) = '/' :: (c ++ join_components cs) := by
      unfold join_components
      rw [List.flatMap_cons]
      rfl
    refine ⟨by rw [hjoin]; rfl, ?_, ?_, ?_⟩
    · intro x hx
      unfold components at hx
      rw [hjoin, List.drop_one, List.tail_cons, ← intercalate_join,
        List.splitOn_intercalate (c :: cs) '/' (fun l hl => (hg l hl).2.1)
          (List.cons_ne_nil _ _)] at hx
      exact (hg x hx).2.2
    · intro hi
      have := List.Chain'.infix (join_components_chain (c :: cs) hg) hi
      rw [List.chain'_pair] at this
      exact this ⟨rfl, rfl⟩
    · intro hl
      exact absurd hl (getLast_join_components (c :: cs) (List.cons_ne_nil _ _) hg)

/-- In its remote branch `vhd_realpath` ends, and a name it returns is made
of good components, or is `/`. -/
theorem vhd_realpath_components (env : realpath_env) (name : List Char) (resolved : Bool)
    (hr : env.remote = true) (hn : name ≠ []) :
    ∃ r, vhd_realpath env (some name) resolved = some r ∧
      ∀ p, r = some p → ∃ comps, (∀ c ∈ comps, good_component c) ∧
        p = if comps = [] then ['/'] else join_components comps := by
  unfold vhd_realpath
  dsimp only
  rw [if_neg (by
    intro h
    rcases h with h | h
    · exact h hr
    · exact hn h)]
  by_cases c1 : ¬ resolved = true ∧ ¬ env.alloc env.path_max = true
  · rw [if_pos c1]
    exact ⟨_, rfl, fun p hp => by cases hp⟩
  · rw [if_neg c1]
    obtain ⟨r, h1, h2⟩ := realpath_loop_total env resolved (name.length + 1) name ['/']
      env.path_max (Nat.lt_succ_self _)
      ⟨[], ⟨fun c hc => absurd hc (List.not_mem_nil c), Or.inl rfl⟩⟩
    rw [h1]
    cases r with
    | none => exact ⟨_, rfl, fun p hp => by cases hp⟩
    | some rpath =>
      dsimp only
      obtain ⟨comps, hg, hform⟩ := h2 rpath rfl
      have hres : (if 1 < rpath.length ∧ rpath.getLast? = some '/' then rpath.dropLast
          else rpath) = if comps = [] then ['/'] else join_components comps := by
        rcases hform with hf | ⟨hne, hf⟩
        · by_cases hc : comps = []
          · subst hc
            rw [hf, if_pos rfl]
            rfl
          · have hlen : 1 < rpath.length := by
              rw [hf, List.length_append]
              obtain ⟨c, cs, hcs⟩ := List.exists_cons_of_ne_nil hc
              rw [hcs]
              unfold join_components
              rw [List.flatMap_cons, List.length_append, List.length_cons]
              simp
            have hl : rpath.getLast? = some '/' := by
              rw [hf]
              simp
            rw [if_pos ⟨hlen, hl⟩, if_neg hc, hf, List.dropLast_concat]
        · have hl : rpath.getLast? ≠ some '/' := by
            rw [hf]
            exact getLast_join_components comps hne hg
          rw [if_neg (fun h => hl h.2), if_neg hne, hf]
      by_cases c2 : 1 < rpath.length ∧ rpath.getLast? = some '/'
      · rw [if_pos c2]
        rw [if_pos c2] at hres
        exact ⟨_, rfl, fun p hp => by
          injection hp with hp
          exact ⟨comps, hg, by rw [← hp, hres]⟩⟩
      · rw [if_neg c2]
        rw [if_neg c2] at hres
        exact ⟨_, rfl, fun p hp => by
          injection hp with hp
          exact ⟨comps, hg, by rw [← hp, hres]⟩⟩

/-- When every `icbinn_stat` succeeds on a directory, every allocation
succeeds and no result buffer is passed, the loop does not jump to
`error`. -/
theorem realpath_loop_some (env : realpath_env)
    (hstat : ∀ p, env.icbinn_stat p = some true) (halloc : ∀ n, env.alloc n = true) :
    ∀ (fuel : Nat) (rest rpath : List Char) (limit : Nat),
      realpath_loop env false fuel rest rpath limit ≠ some none := by
  intro fuel
  induction fuel with
  | zero =>
    intro rest rpath limit h
    rw [realpath_loop] at h
    cases h
  | succ n ih =>
    intro rest rpath limit h
    rw [realpath_loop] at h
    by_cases c0 : rest = []
    · rw [if_pos c0] at h
      cases h
    · rw [if_neg c0] at h
      dsimp only at h
      generalize (rest.dropWhile (fun c => c == '/')).takeWhile (fun c => c != '/') = comp at h
      generalize (rest.dropWhile (fun c => c == '/')).dropWhile (fun c => c != '/') = e at h
      by_cases c1 : comp = []
      · rw [if_pos c1] at h
        cases h
      · rw [if_neg c1] at h
        by_cases c2 : comp = ['.']
        · rw [if_pos c2] at h
          exact ih _ _ _ h
        · rw [if_neg c2] at h
          by_cases c3 : comp = ['.', '.']
          · rw [if_pos c3] at h
            exact ih _ _ _ h
          · rw [if_neg c3, if_neg (fun hc => Bool.false_ne_true hc.2),
              if_neg (fun hc => hc.2 (halloc _)), hstat] at h
            dsimp only at h
            rw [if_neg (fun hc => hc.1 rfl)] at h
            exact ih _ _ _ h

/-- When every `icbinn_stat` succeeds on a directory, every allocation
succeeds and no result buffer is passed, the remote branch of `vhd_realpath`
does not return a null pointer. -/
theorem vhd_realpath_some (env : realpath_env) (name : List Char)
    (hr : env.remote = true) (hn : name ≠ [])
    (hstat : ∀ p, env.icbinn_stat p = some true) (halloc : ∀ n, env.alloc n = true) :
    vhd_realpath env (some name) false ≠ some none := by
  unfold vhd_realpath
  dsimp only
  rw [if_neg (by
    intro h
    rcases h with h | h
    · exact h hr
    · exact hn h), if_neg (fun hc => hc.2 (halloc _))]
  have hl := realpath_loop_some env hstat halloc (name.length + 1) name ['/'] env.path_max
  cases hloop : realpath_loop env false (name.length + 1) name ['/'] env.path_max with
  | none =>
    intro h
    cases h
  | some r =>
    cases r with
    | none => exact absurd hloop hl
    | some rpath =>
      dsimp only
      by_cases c2 : 1 < rpath.length ∧ rpath.getLast? = some '/'
      · rw [if_pos c2]
        intro h
        cases h
      · rw [if_neg c2]
        intro h
        cases h

end Icbinn
end Blktap

namespace Blktap

/-- C25: in the remote-backend branch of `vhd_realpath` (a connection to the
server exists and the name is not empty), whatever `icbinn_stat` reports,
the call ends, and every name it returns is a canonical absolute name: it
begins with `/`, has no `.` component, no `..` component and no repeated
`/`, and it does not end in `/` unless it is exactly `/`.  With every stat
succeeding on a directory, allocations that succeed and no result buffer, a
name is returned. -/
theorem vhd_realpath_canonical (env : Icbinn.realpath_env) (name : List Char)
    (resolved : Bool) (hr : env.remote = true) (hn : name ≠ []) :
    ∃ r, Icbinn.vhd_realpath env (some name) resolved = some r ∧
      (∀ p, r = some p →
        p.head? = some '/' ∧
        (∀ c ∈ Icbinn.components p, c ≠ ['.'] ∧ c ≠ ['.', '.']) ∧
        ¬ ['/', '/'] <:+: p ∧
        (p.getLast? = some '/' → p = ['/'])) ∧
      ((∀ p, env.icbinn_stat p = some true) → (∀ n, env.alloc n = true) →
        resolved = false → r ≠ none) := by
  obtain ⟨r, h1, h2⟩ := Icbinn.vhd_realpath_components env name resolved hr hn
  refine ⟨r, h1, ?_, ?_⟩
  · intro p hp
    obtain ⟨comps, hg, hform⟩ := h2 p hp
    rw [hform]
    exact Icbinn.canonical_of_components comps hg
  · intro hstat halloc hres hnone
    subst hres
    rw [hnone] at h1
    exact Icbinn.vhd_realpath_some env name hr hn hstat halloc h1

/-- C25 witness: on a remote backend where every stat succeeds on a
directory, the name `/a/./b//../c/` gives `/a/c`, and `/../x` gives `/x`: the
`..` at the root is ignored. -/
theorem vhd_realpath_canonical_witness :
    Icbinn.vhd_realpath Icbinn.remote_dirs (some "/a/./b//../c/".toList) false
      = some (some "/a/c".toList) ∧
    Icbinn.vhd_realpath Icbinn.remote_dirs (some "/../x".toList) false
      = some (some "/x".toList) ∧
    ∃ r, Icbinn.vhd_realpath Icbinn.remote_dirs (some "/a/./b//../c/".toList) false = some r ∧
      (∀ p, r = some p →
        p.head? = some '/' ∧
        (∀ c ∈ Icbinn.components p, c ≠ ['.'] ∧ c ≠ ['.', '.']) ∧
        ¬ ['/', '/'] <:+: p ∧
        (p.getLast? = some '/' → p = ['/'])) ∧
      ((∀ p, Icbinn.remote_dirs.icbinn_stat p = some true) →
        (∀ n, Icbinn.remote_dirs.alloc n = true) → false = false → r ≠ none) :=
  ⟨by decide, by decide,
    vhd_realpath_canonical Icbinn.remote_dirs "/a/./b//../c/".toList false rfl (by decide)⟩

/-- C28: for every input array and whatever value it returns,
`vhd_util_stream_sort` leaves the array a permutation of its input. -/
theorem sort_is_permutation (vhds : List vhd_context_t) :
    (StreamCoalesce.vhd_util_stream_sort vhds).2.Perm vhds :=
  StreamCoalesce.sort_perm vhds

end Blktap

